import Mathlib

/-!
Verification development for the `lexml` tokenizer (`lexer.go`), and for the
copy of it that the entry point carries (`main.go`, namespace `Main`).

The tokenizer reads a text file line by line, merges the physical lines that
belong to one tag into a logical "working line", and scans that line
character by character, sending tokens to a channel.

Embedding:

* A Go `string` is modelled as a `List Char`.  Every character the lexer
  compares against (`<`, `>`, `/`, `!`, `-`, `=`, space, double quote) is
  ASCII, so on ASCII text the list positions are exactly Go's byte indexes.
* The `bufio.Reader` is the list of the slices `ReadLine` has still to hand
  over, one for each call; `ReadLine` pops the head, and reports `io.EOF` on
  the empty list (`io.EOF` is the only read error in the model).  A physical
  line that fits the reader's buffer of 4096 bytes comes as one slice; a
  longer line comes in several, since `lexReadFileLine` drops the `isPrefix`
  result of `ReadLine` (`ReadLineSlices`, `LexFile`).
* The channel `tokenChan` is the list of tokens sent so far, with a flag
  telling whether the channel has been closed; a send on a closed channel
  panics.  In Go the channel is a package-level variable that every call of
  `LexStart` assigns anew; here it belongs to the lexer of the one run, and
  two runs in one process, whose goroutines share the variable, are outside
  the model.
* A state function `func() stateFunc` is a function `lexer → lexer × Next`:
  the new state together with the state function returned (`Next.fn`), `nil`
  (`Next.stop`), or a run-time panic (`Next.fault`), e.g. an index out of
  range.
* Go loops are recursive functions on a bound that counts the positions left
  in the line (a loop that runs off the end of the line panics, as in Go);
  `lexLineContent_loop` shows that the scanner satisfies the equation of the
  Go loop it stands for.
* The driver loop of `LexStart` is cut off after `fuel` calls; the fuel it is
  given, `lexFuel`, is shown to be enough for every input
  (`LexStart_terminates`).
-/

namespace Lexml

/-- A Go string. -/
abbrev Str := List Char

/-! ## The parts of package `strings` and `unicode` used by the lexer -/

/-- White space as `unicode.IsSpace` defines it. -/
def isSpace (c : Char) : Bool :=
  let n := c.toNat
  decide (n = 0x09 ∨ n = 0x0A ∨ n = 0x0B ∨ n = 0x0C ∨ n = 0x0D ∨ n = 0x20 ∨ n = 0x85 ∨ n = 0xA0 ∨
    n = 0x1680 ∨ (0x2000 ≤ n ∧ n ≤ 0x200A) ∨ n = 0x2028 ∨ n = 0x2029 ∨ n = 0x202F ∨
    n = 0x205F ∨ n = 0x3000)

/-- Go `strings.TrimSpace`: drop leading and trailing white space. -/
def TrimSpace (s : Str) : Str :=
  ((s.dropWhile isSpace).reverse.dropWhile isSpace).reverse

/-- Go `strings.Trim(s, cutset)`: drop leading and trailing characters of `cutset`. -/
def Trim (s : Str) (cutset : Str) : Str :=
  ((s.dropWhile (fun c => decide (c ∈ cutset))).reverse.dropWhile
    (fun c => decide (c ∈ cutset))).reverse

/-- Go `strings.HasPrefix`. -/
def HasPrefix (s : Str) (p : Str) : Bool := p.isPrefixOf s

/-- Go `strings.HasSuffix`. -/
def HasSuffix (s : Str) (p : Str) : Bool := p.isSuffixOf s

/-- Go `strings.Contains`: `sub` occurs in `s` as a contiguous substring. -/
def Contains : Str → Str → Bool
  | [], sub => sub.isEmpty
  | c :: cs, sub => sub.isPrefixOf (c :: cs) || Contains cs sub

/-! ## Tokens -/

/-- The token kinds of `lexer.go`. -/
inductive TokenType where
  | tokenStartTag
  | tokenEndTag
  | tokenArgumentName
  | tokenArgumentValue
  | tokenDescription
  | tokenEOF
  | tokenJustText
  deriving DecidableEq, Repr

/-- The token sent over the channel: its kind and its text. -/
structure Token where
  TokenType : TokenType
  TokenText : Str
  deriving DecidableEq, Repr

/-- Whether a start or a stop tag is being lexed. -/
inductive tagType where
  | startTag
  | stopTag
  deriving DecidableEq, Repr

/-- The state functions of the lexer (the methods of type `stateFunc`). -/
inductive StateFn where
  | lexReadFileLine
  | lexCheckLineType
  | lexLineContent
  | lexTagName
  | lexTagArguments
  | lexPrint
  deriving DecidableEq, Repr

/-- What a state function hands back to the driver loop. -/
inductive Next where
  | fn (f : StateFn)
  | stop
  | fault
  deriving DecidableEq, Repr

/-- The lexer state, together with the channel it sends to and the lines
    written by the "uncaught line" debug print. -/
structure lexer where
  fileReader : List Str
  currentLineNR : Int
  currentLine : Str
  nextLine : Str
  EOF : Bool
  workingLine : Str
  workingPosition : Nat
  firstLineFound : Bool
  foundEqual : Bool
  tagName : Str
  tagTypeIs : tagType
  tokenChan : List Token
  chanClosed : Bool
  debugLog : List (Int × Str)
  deriving DecidableEq, Repr

/-- Go `newLexer` followed by `tokenChan = make(chan Token)`. -/
def newLexer (fh : List Str) : lexer :=
  { fileReader := fh
    currentLineNR := -1
    currentLine := []
    nextLine := []
    EOF := false
    workingLine := []
    workingPosition := 0
    firstLineFound := false
    foundEqual := false
    tagName := []
    tagTypeIs := tagType.startTag
    tokenChan := []
    chanClosed := false
    debugLog := [] }

/-- Go `tokenSendChannel`: put the token, its text trimmed, on the channel.
    `none` is the panic of a send on a closed channel. -/
def tokenSendChannel (l : lexer) (tType : TokenType) (tText : Str) : Option lexer :=
  if l.chanClosed then none
  else some { l with tokenChan := l.tokenChan ++ [{ TokenType := tType, TokenText := TrimSpace tText }] }

/-! ## The line source -/

/-- Go `lexReadFileLine`.  `line, _, err := l.fileReader.ReadLine()` takes the
    next slice from the reader, whether it is a whole physical line or a
    piece of one (`isPrefix` is dropped); at the end of the slices `err` is
    `io.EOF`. -/
def lexReadFileLine (l : lexer) : lexer × Next :=
  let l1 := { l with
    workingPosition := 0
    currentLineNR := l.currentLineNR + 1
    currentLine := l.nextLine }
  match l1.fileReader with
  | line :: rest =>
    ({ l1 with fileReader := rest, nextLine := TrimSpace line }, Next.fn StateFn.lexCheckLineType)
  | [] =>
    if l1.EOF then
      match tokenSendChannel l1 TokenType.tokenEOF ['E', 'O', 'F'] with
      | none => (l1, Next.fault)
      | some l2 => ({ l2 with chanClosed := true }, Next.stop)
    else
      ({ l1 with EOF := true, nextLine := TrimSpace [] }, Next.fn StateFn.lexCheckLineType)

/-- Go `lexPrint`. -/
def lexPrint (l : lexer) : lexer × Next :=
  lexReadFileLine { l with workingLine := [] }

/-! ## The scanner helpers -/

/-- The walk of `lexTextBetweenTags` over the line: `pos` is the loop
    variable, the result is `(posTextStart, posTextStop)`. -/
def lexTextBetweenTagsLoop (s : Str) : Nat → Nat → Nat → Nat → Nat × Nat
  | 0, _, posTextStart, posTextStop => (posTextStart, posTextStop)
  | n + 1, pos, posTextStart, posTextStop =>
    match s[pos]? with
    | none => (posTextStart, posTextStop)
    | some c =>
      if c = '<' ∧ pos = 0 then
        lexTextBetweenTagsLoop s n (pos + 1) posTextStart posTextStop
      else if c = '>' ∧ pos + 1 = s.length then
        lexTextBetweenTagsLoop s n (pos + 1) posTextStart posTextStop
      else if c = '>' then
        lexTextBetweenTagsLoop s n (pos + 1) (pos + 1) posTextStop
      else if c = '<' then
        lexTextBetweenTagsLoop s n (pos + 1) posTextStart (pos - 1)
      else
        lexTextBetweenTagsLoop s n (pos + 1) posTextStart posTextStop

/-- Go `lexTextBetweenTags`. -/
def lexTextBetweenTags (l : lexer) : Str :=
  if !l.foundEqual then
    let b := lexTextBetweenTagsLoop l.workingLine l.workingLine.length 0 0 0
    if b.1 ≠ 0 ∨ b.2 ≠ 0 then
      (l.workingLine.drop b.1).take (b.2 + 1 - b.1)
    else []
  else []

/-- Go `findChrPositionBefore`; `none` is an index out of range. -/
def findChrPositionBefore (s : Str) (preChr : Char) : Nat → Option Nat
  | 0 => some 0
  | p + 1 =>
    match s[p]? with
    | none => none
    | some c => if c = preChr then some p else findChrPositionBefore s preChr p

/-- The loop of `findChrPositionAfter`, `p` being the position after `p++`. -/
def findChrPositionAfterLoop (s : Str) (preChr : Char) : Nat → Nat → Nat
  | 0, _ => 0
  | n + 1, p =>
    match s[p]? with
    | none => 0
    | some c => if c = preChr ∨ c = '>' then p else findChrPositionAfterLoop s preChr n (p + 1)

/-- Go `findChrPositionAfter`. -/
def findChrPositionAfter (s : Str) (preChr : Char) (origChrPosition : Nat) : Nat :=
  findChrPositionAfterLoop s preChr (s.length - origChrPosition) (origChrPosition + 1)

/-- Go `findLettersBetween`; `none` is an index out of range. -/
def findLettersBetween (s : Str) (firstPosition secondPosition : Nat) : Option Str :=
  if firstPosition < secondPosition ∧ s.length < secondPosition then none
  else some (Trim ((s.drop firstPosition).take (secondPosition - firstPosition)) ['"'])

/-- The name loop of `lexTagName`: from `pos`, collect characters up to the
    first space or `>`; `none` is an index out of range. -/
def lexTagNameLoop (s : Str) : Nat → Nat → Str → Option (Nat × Str)
  | 0, _, _ => none
  | n + 1, pos, tn =>
    match s[pos]? with
    | none => none
    | some c =>
      if c = ' ' then some (pos, tn)
      else if c = '>' then some (pos, tn)
      else lexTagNameLoop s n (pos + 1) (tn ++ [c])

/-! ## The scanner state functions -/

/-- Go `lexTagName`. -/
def lexTagName (l : lexer) : lexer × Next :=
  let l1 := { l with workingPosition := l.workingPosition + 1 }
  match l1.workingLine[l1.workingPosition]? with
  | none => (l1, Next.fault)
  | some c =>
    let l2 := if c = '/' then { l1 with workingPosition := l1.workingPosition + 1 } else l1
    match lexTagNameLoop l2.workingLine (l2.workingLine.length - l2.workingPosition)
        l2.workingPosition [] with
    | none => (l2, Next.fault)
    | some (pos, tn) =>
      let l3 := { l2 with workingPosition := pos, tagName := tn }
      let tType := match l3.tagTypeIs with
        | tagType.startTag => TokenType.tokenStartTag
        | tagType.stopTag => TokenType.tokenEndTag
      match tokenSendChannel l3 tType l3.tagName with
      | none => (l3, Next.fault)
      | some l4 => (l4, Next.fn StateFn.lexLineContent)

/-- Go `lexTagArguments`. -/
def lexTagArguments (l : lexer) : lexer × Next :=
  match findChrPositionBefore l.workingLine ' ' l.workingPosition with
  | none => (l, Next.fault)
  | some p1 =>
    match findLettersBetween l.workingLine p1 l.workingPosition with
    | none => (l, Next.fault)
    | some arg =>
      match tokenSendChannel l TokenType.tokenArgumentName arg with
      | none => (l, Next.fault)
      | some l1 =>
        let p2 := findChrPositionAfter l1.workingLine '"' (l1.workingPosition + 1)
        match findLettersBetween l1.workingLine (l1.workingPosition + 1) p2 with
        | none => (l1, Next.fault)
        | some value =>
          match tokenSendChannel l1 TokenType.tokenArgumentValue value with
          | none => (l1, Next.fault)
          | some l2 =>
            ({ l2 with workingPosition := l2.workingPosition + 1 }, Next.fn StateFn.lexLineContent)

/-- Send `EndTag tagName` when `b` holds (the two `strings.Contains` tests of
    the `>` case of `lexLineContent`). -/
def sendEndTagIf (b : Bool) (l : lexer) : Option lexer :=
  if b then tokenSendChannel l TokenType.tokenEndTag l.tagName else some l

/-- The statements after the loop of `lexLineContent`: reset the flags and
    return `lexPrint`. -/
def lexLineContentEnd (l : lexer) : lexer × Next :=
  ({ l with foundEqual := false, tagName := [] }, Next.fn StateFn.lexPrint)

/-- One round of the `for` loop of `lexLineContent`: the loop test, the
    `switch` on the character under the cursor and `l.workingPosition++`;
    `loop` stands for going round the loop again. -/
def lexLineContentBody (loop : lexer → lexer × Next) (l : lexer) : lexer × Next :=
  match l.workingLine[l.workingPosition]? with
  | none => lexLineContentEnd l
  | some c =>
    if c = '<' then
      match l.workingLine[l.workingPosition + 1]? with
      | none => (l, Next.fault)
      | some c1 =>
        if c1 = '/' then
          if !l.foundEqual then
            let t := lexTextBetweenTags l
            if t ≠ [] then
              match tokenSendChannel l TokenType.tokenJustText t with
              | none => (l, Next.fault)
              | some l1 => ({ l1 with tagTypeIs := tagType.stopTag }, Next.fn StateFn.lexTagName)
            else ({ l with tagTypeIs := tagType.stopTag }, Next.fn StateFn.lexTagName)
          else ({ l with tagTypeIs := tagType.stopTag }, Next.fn StateFn.lexTagName)
        else if c1 = '!' then
          match l.workingLine[l.workingPosition + 2]? with
          | none => (l, Next.fault)
          | some c2 =>
            if c2 = '-' then
              match l.workingLine[l.workingPosition + 3]? with
              | none => (l, Next.fault)
              | some c3 =>
                if c3 = '-' then lexReadFileLine l
                else ({ l with tagTypeIs := tagType.startTag }, Next.fn StateFn.lexTagName)
            else ({ l with tagTypeIs := tagType.startTag }, Next.fn StateFn.lexTagName)
        else ({ l with tagTypeIs := tagType.startTag }, Next.fn StateFn.lexTagName)
    else if c = '>' then
      match sendEndTagIf (Contains l.workingLine ['/', '>']) l with
      | none => (l, Next.fault)
      | some l1 =>
        match sendEndTagIf (Contains l1.workingLine ['?', '>']) l1 with
        | none => (l1, Next.fault)
        | some l2 => loop { l2 with workingPosition := l2.workingPosition + 1 }
    else if c = '=' then
      ({ l with foundEqual := true }, Next.fn StateFn.lexTagArguments)
    else loop { l with workingPosition := l.workingPosition + 1 }

/-- The `for` loop of `lexLineContent` with the statements after it; the
    first argument bounds the positions left in the working line. -/
def lexLineContentLoop : Nat → lexer → lexer × Next
  | 0, l => lexLineContentEnd l
  | n + 1, l => lexLineContentBody (lexLineContentLoop n) l

/-- Go `lexLineContent`. -/
def lexLineContent (l : lexer) : lexer × Next :=
  lexLineContentLoop (l.workingLine.length - l.workingPosition) l

/-! ## The line classifier -/

/-- Go `lexCheckLineType`. -/
def lexCheckLineType (l : lexer) : lexer × Next :=
  if l.currentLine.length = 0 then (l, Next.fn StateFn.lexReadFileLine)
  else
    let start := HasPrefix l.currentLine ['<']
    let ends := HasSuffix l.currentLine ['>']
    let nextLineStart := HasPrefix l.nextLine ['<']
    if start && ends then
      ({ l with firstLineFound := false, workingLine := l.currentLine },
        Next.fn StateFn.lexLineContent)
    else if start && !ends then
      ({ l with firstLineFound := true, workingLine := l.workingLine ++ [' '] ++ l.currentLine },
        Next.fn StateFn.lexReadFileLine)
    else if !start && !ends && l.firstLineFound then
      ({ l with workingLine := l.workingLine ++ [' '] ++ l.currentLine },
        Next.fn StateFn.lexReadFileLine)
    else if !start && ends && l.firstLineFound then
      ({ l with workingLine := l.workingLine ++ [' '] ++ l.currentLine, firstLineFound := false },
        Next.fn StateFn.lexLineContent)
    else if !start && !ends && !l.firstLineFound && !nextLineStart then
      ({ l with workingLine := l.workingLine ++ [' '] ++ l.currentLine },
        Next.fn StateFn.lexReadFileLine)
    else if !start && !ends && !l.firstLineFound && nextLineStart then
      let l1 := { l with workingLine := l.workingLine ++ [' '] ++ l.currentLine }
      match tokenSendChannel l1 TokenType.tokenDescription l1.workingLine with
      | none => (l1, Next.fault)
      | some l2 => (l2, Next.fn StateFn.lexLineContent)
    else
      ({ l with debugLog := l.debugLog ++ [(l.currentLineNR, l.workingLine)] },
        Next.fn StateFn.lexPrint)

/-! ## The driver loop -/

/-- Run one state function. -/
def StateFn.call : StateFn → lexer → lexer × Next
  | StateFn.lexReadFileLine => Lexml.lexReadFileLine
  | StateFn.lexCheckLineType => Lexml.lexCheckLineType
  | StateFn.lexLineContent => Lexml.lexLineContent
  | StateFn.lexTagName => Lexml.lexTagName
  | StateFn.lexTagArguments => Lexml.lexTagArguments
  | StateFn.lexPrint => Lexml.lexPrint

/-- How a run of the driver loop ended. -/
inductive Status where
  | finished
  | faulted
  | outOfFuel
  deriving DecidableEq, Repr

/-- A run of the driver loop: the state functions called, each with the state
    it was called on, the last state, and how the run ended. -/
structure Run where
  calls : List (StateFn × lexer)
  final : lexer
  status : Status
  deriving DecidableEq, Repr

/-- The loop `for { fn = fn(); if fn == nil { break } }` of `LexStart`, cut
    off after `fuel` calls. -/
def runLoop : Nat → StateFn → lexer → Run
  | 0, _, l => { calls := [], final := l, status := Status.outOfFuel }
  | fuel + 1, f, l =>
    match f.call l with
    | (l1, Next.stop) => { calls := [(f, l)], final := l1, status := Status.finished }
    | (l1, Next.fault) => { calls := [(f, l)], final := l1, status := Status.faulted }
    | (l1, Next.fn g) =>
      let r := runLoop fuel g l1
      { calls := (f, l) :: r.calls, final := r.final, status := r.status }

end Lexml

namespace Lexml

/-- Number of line reads still to come: the lines left in the reader, and one
    more for the read that meets the end of the input. -/
def readsLeft (l : lexer) : Nat :=
  l.fileReader.length + (if l.EOF then 0 else 1)

/-- Bound on the length any later working line can have. -/
def lineBudget (f : StateFn) (l : lexer) : Nat :=
  l.workingLine.length + (if f = StateFn.lexCheckLineType then l.currentLine.length + 1 else 0)
    + (l.nextLine.length + 1) + (l.fileReader.map (fun x => x.length + 1)).sum
    + (if l.EOF then 0 else 1)

/-- Calls the driver can make before the next line read. -/
def callsInLine : StateFn → lexer → Nat
  | StateFn.lexReadFileLine, _ => 0
  | StateFn.lexPrint, _ => 0
  | StateFn.lexCheckLineType, l => 2 * (l.workingLine.length + l.currentLine.length + 2) + 2
  | StateFn.lexLineContent, l => 2 * (l.workingLine.length + 1 - l.workingPosition) + 1
  | StateFn.lexTagName, l => 2 * (l.workingLine.length + 1 - l.workingPosition)
  | StateFn.lexTagArguments, l => 2 * (l.workingLine.length + 1 - l.workingPosition)

/-- Bound on the number of calls the driver loop makes from `f` on `l`. -/
def lexFuel (f : StateFn) (l : lexer) : Nat :=
  readsLeft l * (2 * lineBudget f l + 8) + callsInLine f l

/-- Go `LexStart`: create the lexer and the channel, call `lexReadFileLine`
    once, and run the driver loop on what it returns (calling the `nil` state
    function panics). -/
def LexStart (fh : List Str) : Run :=
  match lexReadFileLine (newLexer fh) with
  | (l, Next.fn g) => runLoop (lexFuel g l + 1) g l
  | (l, _) => { calls := [], final := l, status := Status.faulted }

/-- The tokens a run sent to the channel. -/
def Run.tokens (r : Run) : List Token := r.final.tokenChan

end Lexml

namespace Lexml

/-! ## Vocabulary of the specification -/

/-- An ASCII letter or digit. -/
def isAlnum (c : Char) : Bool :=
  let n := c.toNat
  decide ((48 ≤ n ∧ n ≤ 57) ∨ (65 ≤ n ∧ n ≤ 90) ∨ (97 ≤ n ∧ n ≤ 122))

/-- A non-empty word of ASCII letters and digits. -/
def Alnum (s : Str) : Prop := s ≠ [] ∧ ∀ c ∈ s, isAlnum c = true

instance Alnum.decidable (s : Str) : Decidable (Alnum s) :=
  inferInstanceAs (Decidable (s ≠ [] ∧ ∀ c ∈ s, isAlnum c = true))

/-- No token of the list is the end-of-file token. -/
def NoEOF (ts : List Token) : Prop := ∀ t ∈ ts, t.TokenType ≠ TokenType.tokenEOF

/-- The tokens `ts` can be what one call of the state function `f` sends
    before it returns: no EOF token, and no Description token unless `f` is
    the line classifier. -/
def Sent (f : StateFn) (ts : List Token) : Prop :=
  NoEOF ts ∧
    (f ≠ StateFn.lexCheckLineType → ∀ t ∈ ts, t.TokenType ≠ TokenType.tokenDescription)

/-- The end-of-file token. -/
def eofToken : Token := { TokenType := TokenType.tokenEOF, TokenText := ['E', 'O', 'F'] }

/-- The state after the scanner has passed `k` more characters of the working
    line and sent the tokens `ts`. -/
def advance (l : lexer) (k : Nat) (ts : List Token) : lexer :=
  { l with workingPosition := l.workingPosition + k, tokenChan := l.tokenChan ++ ts }

/-- The line source moved on by one line from `l` to `l1`: the lookahead
    line became the current line, and the lookahead was refilled from the
    reader, or with the empty line at the end of the input. -/
def ReadRel (l l1 : lexer) : Prop :=
  l1.currentLine = l.nextLine ∧
  ((∃ x rest, l.fileReader = x :: rest ∧ l1.fileReader = rest ∧ l1.nextLine = TrimSpace x ∧
      l1.EOF = l.EOF) ∨
    (l.fileReader = [] ∧ l.EOF = false ∧ l1.fileReader = [] ∧ l1.nextLine = [] ∧ l1.EOF = true))

/-- The line source is the same in `l1` as in `l`. -/
def SameSource (l l1 : lexer) : Prop :=
  l1.fileReader = l.fileReader ∧ l1.nextLine = l.nextLine ∧ l1.EOF = l.EOF ∧
    l1.currentLine = l.currentLine

/-- What one call of the state function `f` on `l` does to the line source,
    the channel and the fuel, `l1` being the state after the call and `nx`
    what the call returned: the summary every state function satisfies. -/
def StepSpec (f : StateFn) (l l1 : lexer) (nx : Next) : Prop :=
  match nx with
  | Next.fault => True
  | Next.stop =>
    l.fileReader = [] ∧ l.EOF = true ∧ l.chanClosed = false ∧ l1.chanClosed = true ∧
      ∃ ts, Sent f ts ∧ l1.tokenChan = l.tokenChan ++ ts ++ [eofToken]
  | Next.fn g =>
    l1.chanClosed = l.chanClosed ∧ (∃ ts, Sent f ts ∧ l1.tokenChan = l.tokenChan ++ ts) ∧
      if g = StateFn.lexCheckLineType then
        ReadRel l l1 ∧ l1.workingLine.length ≤ l.workingLine.length
      else
        SameSource l l1 ∧ lineBudget g l1 ≤ lineBudget f l ∧ callsInLine g l1 < callsInLine f l

/-- The ways the loop of `lexLineContent` is left with the cursor of `l` on
    the character that ends the round: a panic, the end of the line, a
    comment marker, a tag (after the text before a stop tag was sent, if
    any), or an attribute. -/
def ScanStop (l : lexer) (r : lexer × Next) : Prop :=
  r.2 = Next.fault ∨
  (l.workingLine.length ≤ l.workingPosition ∧ r = lexLineContentEnd l) ∨
  (l.workingPosition < l.workingLine.length ∧ r = lexReadFileLine l) ∨
  (l.workingPosition < l.workingLine.length ∧ ∃ tt js,
    (∀ t ∈ js, t.TokenType = TokenType.tokenJustText) ∧
    r = ({ advance l 0 js with tagTypeIs := tt }, Next.fn StateFn.lexTagName)) ∨
  (l.workingPosition < l.workingLine.length ∧
    r = ({ l with foundEqual := true }, Next.fn StateFn.lexTagArguments))

/-- The calls of the line classifier in a run, each as the pair of the
    current-line slot and the lookahead slot it was called on. -/
def classifierCalls (r : Run) : List (Str × Str) :=
  r.calls.filterMap (fun c =>
    if c.1 = StateFn.lexCheckLineType then some (c.2.currentLine, c.2.nextLine) else none)

/-- The classifier calls still to come when the lookahead slot holds `next`,
    the reader holds the lines `rd` and the end-of-input flag is `eof`. -/
def expectedCalls : Str → List Str → Bool → List (Str × Str)
  | next, x :: rest, eof => (next, TrimSpace x) :: expectedCalls (TrimSpace x) rest eof
  | next, [], false => [(next, [])]
  | _, [], true => []

/-- The tokens the `>` case of `lexLineContent` sends for one `>`: an end tag
    with the current tag name if the working line contains `/>`, and one more
    if it contains `?>`. -/
def selfClosing (l : lexer) : List Token :=
  (if Contains l.workingLine ['/', '>'] then
      [Token.mk TokenType.tokenEndTag (TrimSpace l.tagName)] else []) ++
  (if Contains l.workingLine ['?', '>'] then
      [Token.mk TokenType.tokenEndTag (TrimSpace l.tagName)] else [])

/-- The driver loop, started with `f` on `l`, comes to call `g` on `l1`. -/
inductive Steps : StateFn → lexer → StateFn → lexer → Prop where
  | refl (f : StateFn) (l : lexer) : Steps f l f l
  | step {f g h : StateFn} {l l1 l2 : lexer} :
      f.call l = (l1, Next.fn g) → Steps g l1 h l2 → Steps f l h l2

/-- The driver loop, started with `f` on `l`, finishes, and the tokens sent
    to the channel are then `ts`. -/
def Finishes (f : StateFn) (l : lexer) (ts : List Token) : Prop :=
  ∃ n, (runLoop n f l).status = Status.finished ∧ (runLoop n f l).final.tokenChan = ts

/-- The scanner, handed the working line of `l`, comes to the end of the
    line in the state `l1`, having sent the tokens `ts`; the line source, the
    continuation flag and the channel state are as before, and the attribute
    flag is reset. -/
def ScannedLine (l l1 : lexer) (ts : List Token) : Prop :=
  Steps StateFn.lexLineContent l StateFn.lexPrint l1 ∧ SameSource l l1 ∧
    l1.firstLineFound = l.firstLineFound ∧ l1.chanClosed = l.chanClosed ∧
    l1.foundEqual = false ∧ l1.tokenChan = l.tokenChan ++ ts

/-- The text of one attribute in a tag: a space, the name, `=`, and the
    value in double quotes. -/
def attrText (a : Str × Str) : Str :=
  [' '] ++ a.1 ++ ['=', '"'] ++ a.2 ++ ['"']

/-- The text of a list of attributes in a tag. -/
def attrsText (as : List (Str × Str)) : Str :=
  (as.map attrText).flatten

/-- The tokens of a list of attributes: for each one its ArgumentName and its
    ArgumentValue, in order. -/
def attrTokens (as : List (Str × Str)) : List Token :=
  (as.map (fun a => [Token.mk TokenType.tokenArgumentName a.1,
    Token.mk TokenType.tokenArgumentValue a.2])).flatten

/-- The working lines the line classifier hands to `lexLineContent` in a
    list of calls: the working line of every call of `lexLineContent` that
    comes right after a call of `lexCheckLineType`. -/
def handedOver : List (StateFn × lexer) → List Str
  | c :: d :: rest =>
    (if c.1 = StateFn.lexCheckLineType ∧ d.1 = StateFn.lexLineContent then [d.2.workingLine]
      else []) ++ handedOver (d :: rest)
  | _ => []

/-- The state functions that scan the working line. -/
def isScanner (f : StateFn) : Bool :=
  decide (f = StateFn.lexLineContent ∨ f = StateFn.lexTagName ∨ f = StateFn.lexTagArguments)

/-- The driver loop, started with `f` on `l`, comes to call `g` on `l1`, and
    every call made on the way is a call of a scanner function: the scan has
    not left the working line. -/
inductive ScanSteps : StateFn → lexer → StateFn → lexer → Prop where
  | refl (f : StateFn) (l : lexer) : ScanSteps f l f l
  | step {f g h : StateFn} {l l1 l2 : lexer} :
      isScanner f = true → f.call l = (l1, Next.fn g) → ScanSteps g l1 h l2 → ScanSteps f l h l2

/-- The kind of token `lexTagName` sends for a tag of direction `tt`. -/
def tagTokenType : tagType → TokenType
  | tagType.startTag => TokenType.tokenStartTag
  | tagType.stopTag => TokenType.tokenEndTag

/-! ## The copy of the lexer in the entry point (`main.go`)

`main.go` holds a copy of the lexer that sends its tokens through the
function chosen by `newTokenSender`: to the console or to the channel.  The
helpers on strings are the same as in `lexer.go` (the copy logs a message
where `findChrPositionBefore` and `findChrPositionAfter` give up), and so are
the types `tagType` and `stateFunc`.  The lines `lexPrint` prints and the log
messages are not tokens and are left out. -/

namespace Main

/-- The token kinds of `main.go`. -/
inductive tokenType where
  | tokenStartTag
  | tokenEndTag
  | tokenArgumentFound
  | tokenArgumentName
  | tokenArgumentValue
  | tokenDescription
  | tokenEOF
  | tokenJustText
  deriving DecidableEq, Repr

/-- The token of `main.go`: its kind and its text. -/
structure token where
  tokenType : tokenType
  tokenText : Str
  deriving DecidableEq, Repr

/-- Go `tokenOutputType`, an `int`. -/
abbrev tokenOutputType := Int

/-- Go constant `console`. -/
def console : tokenOutputType := 0

/-- Go constant `channel`. -/
def channel : tokenOutputType := 1

/-- The lexer state of `main.go`; `sendToken` is the output the sender was
    made for, `sent` the tokens printed on the console or put on the channel
    so far, `chanClosed` whether `tokenChan` has been closed. -/
structure lexer where
  fileReader : List Str
  currentLineNR : Int
  currentLine : Str
  nextLine : Str
  EOF : Bool
  workingLine : Str
  workingPosition : Nat
  firstLineFound : Bool
  foundEqual : Bool
  tagName : Str
  tagTypeIs : tagType
  sendToken : tokenOutputType
  sent : List token
  chanClosed : Bool
  debugLog : List (Int × Str)
  deriving DecidableEq, Repr

/-- Go `newLexer` of `main.go`, called after `tokenChan = make(chan token)`. -/
def newLexer (fh : List Str) (out : tokenOutputType) : lexer :=
  { fileReader := fh
    currentLineNR := -1
    currentLine := []
    nextLine := []
    EOF := false
    workingLine := []
    workingPosition := 0
    firstLineFound := false
    foundEqual := false
    tagName := []
    tagTypeIs := tagType.startTag
    sendToken := out
    sent := []
    chanClosed := false
    debugLog := [] }

/-- Go `tokenSendChannel` of `main.go`: put the token on the channel, its
    text as it is.  `none` is the panic of a send on a closed channel. -/
def tokenSendChannel (l : lexer) (tType : tokenType) (tText : Str) : Option lexer :=
  if l.chanClosed then none
  else some { l with sent := l.sent ++ [{ tokenType := tType, tokenText := tText }] }

/-- Go `tokenSendConsole`: print the token. -/
def tokenSendConsole (l : lexer) (tType : tokenType) (tText : Str) : Option lexer :=
  some { l with sent := l.sent ++ [{ tokenType := tType, tokenText := tText }] }

/-- Go `newTokenSender`; for an output other than `console` and `channel`
    the sender is `nil`, and calling it panics. -/
def newTokenSender (t : tokenOutputType) : lexer → tokenType → Str → Option lexer :=
  if t = console then tokenSendConsole
  else if t = channel then tokenSendChannel
  else fun _ _ _ => none

/-- Go `lexReadFileLine` of `main.go`. -/
def lexReadFileLine (l : lexer) : lexer × Next :=
  let l1 := { l with
    workingPosition := 0
    currentLineNR := l.currentLineNR + 1
    currentLine := l.nextLine }
  match l1.fileReader with
  | line :: rest =>
    ({ l1 with fileReader := rest, nextLine := TrimSpace line }, Next.fn StateFn.lexCheckLineType)
  | [] =>
    if l1.EOF then
      match newTokenSender l1.sendToken l1 tokenType.tokenEOF ['E', 'O', 'F'] with
      | none => (l1, Next.fault)
      | some l2 => ({ l2 with chanClosed := true }, Next.stop)
    else
      ({ l1 with EOF := true, nextLine := TrimSpace [] }, Next.fn StateFn.lexCheckLineType)

/-- Go `lexPrint` of `main.go`. -/
def lexPrint (l : lexer) : lexer × Next :=
  lexReadFileLine { l with workingLine := [] }

/-- Go `lexTextBetweenTags` of `main.go`. -/
def lexTextBetweenTags (l : lexer) : Str :=
  if !l.foundEqual then
    let b := lexTextBetweenTagsLoop l.workingLine l.workingLine.length 0 0 0
    if b.1 ≠ 0 ∨ b.2 ≠ 0 then
      (l.workingLine.drop b.1).take (b.2 + 1 - b.1)
    else []
  else []

/-- Go `lexTagName` of `main.go`. -/
def lexTagName (l : lexer) : lexer × Next :=
  let l1 := { l with workingPosition := l.workingPosition + 1 }
  match l1.workingLine[l1.workingPosition]? with
  | none => (l1, Next.fault)
  | some c =>
    let l2 := if c = '/' then { l1 with workingPosition := l1.workingPosition + 1 } else l1
    match lexTagNameLoop l2.workingLine (l2.workingLine.length - l2.workingPosition)
        l2.workingPosition [] with
    | none => (l2, Next.fault)
    | some (pos, tn) =>
      let l3 := { l2 with workingPosition := pos, tagName := tn }
      let tType := match l3.tagTypeIs with
        | tagType.startTag => tokenType.tokenStartTag
        | tagType.stopTag => tokenType.tokenEndTag
      match newTokenSender l3.sendToken l3 tType l3.tagName with
      | none => (l3, Next.fault)
      | some l4 => (l4, Next.fn StateFn.lexLineContent)

/-- Go `lexTagArguments` of `main.go`. -/
def lexTagArguments (l : lexer) : lexer × Next :=
  match findChrPositionBefore l.workingLine ' ' l.workingPosition with
  | none => (l, Next.fault)
  | some p1 =>
    match findLettersBetween l.workingLine p1 l.workingPosition with
    | none => (l, Next.fault)
    | some arg =>
      match newTokenSender l.sendToken l tokenType.tokenArgumentName arg with
      | none => (l, Next.fault)
      | some l1 =>
        let p2 := findChrPositionAfter l1.workingLine '"' (l1.workingPosition + 1)
        match findLettersBetween l1.workingLine (l1.workingPosition + 1) p2 with
        | none => (l1, Next.fault)
        | some value =>
          match newTokenSender l1.sendToken l1 tokenType.tokenArgumentValue value with
          | none => (l1, Next.fault)
          | some l2 =>
            ({ l2 with workingPosition := l2.workingPosition + 1 }, Next.fn StateFn.lexLineContent)

/-- Send `EndTag tagName` when `b` holds (the two `strings.Contains` tests of
    the `>` case of `lexLineContent`). -/
def sendEndTagIf (b : Bool) (l : lexer) : Option lexer :=
  if b then newTokenSender l.sendToken l tokenType.tokenEndTag l.tagName else some l

/-- The statements after the loop of `lexLineContent`. -/
def lexLineContentEnd (l : lexer) : lexer × Next :=
  ({ l with foundEqual := false, tagName := [] }, Next.fn StateFn.lexPrint)

/-- One round of the `for` loop of `lexLineContent` of `main.go`: there is no
    case for the comment marker, and the `=` case sends an ArgumentFound
    token; `loop` stands for going round the loop again. -/
def lexLineContentBody (loop : lexer → lexer × Next) (l : lexer) : lexer × Next :=
  match l.workingLine[l.workingPosition]? with
  | none => lexLineContentEnd l
  | some c =>
    if c = '<' then
      match l.workingLine[l.workingPosition + 1]? with
      | none => (l, Next.fault)
      | some c1 =>
        if c1 = '/' then
          if !l.foundEqual then
            let t := lexTextBetweenTags l
            if t ≠ [] then
              match newTokenSender l.sendToken l tokenType.tokenJustText t with
              | none => (l, Next.fault)
              | some l1 => ({ l1 with tagTypeIs := tagType.stopTag }, Next.fn StateFn.lexTagName)
            else ({ l with tagTypeIs := tagType.stopTag }, Next.fn StateFn.lexTagName)
          else ({ l with tagTypeIs := tagType.stopTag }, Next.fn StateFn.lexTagName)
        else ({ l with tagTypeIs := tagType.startTag }, Next.fn StateFn.lexTagName)
    else if c = '>' then
      match sendEndTagIf (Contains l.workingLine ['/', '>']) l with
      | none => (l, Next.fault)
      | some l1 =>
        match sendEndTagIf (Contains l1.workingLine ['?', '>']) l1 with
        | none => (l1, Next.fault)
        | some l2 => loop { l2 with workingPosition := l2.workingPosition + 1 }
    else if c = '=' then
      let l1 := { l with foundEqual := true }
      match newTokenSender l1.sendToken l1 tokenType.tokenArgumentFound
          ['f', 'o', 'u', 'n', 'd', ' ', 'a', 'r', 'g', 'u', 'm', 'e', 'n', 't'] with
      | none => (l1, Next.fault)
      | some l2 => (l2, Next.fn StateFn.lexTagArguments)
    else loop { l with workingPosition := l.workingPosition + 1 }

/-- The `for` loop of `lexLineContent` with the statements after it; the
    first argument bounds the positions left in the working line. -/
def lexLineContentLoop : Nat → lexer → lexer × Next
  | 0, l => lexLineContentEnd l
  | n + 1, l => lexLineContentBody (lexLineContentLoop n) l

/-- Go `lexLineContent` of `main.go`. -/
def lexLineContent (l : lexer) : lexer × Next :=
  lexLineContentLoop (l.workingLine.length - l.workingPosition) l

/-- Go `lexCheckLineType` of `main.go`. -/
def lexCheckLineType (l : lexer) : lexer × Next :=
  if l.currentLine.length = 0 then (l, Next.fn StateFn.lexReadFileLine)
  else
    let start := HasPrefix l.currentLine ['<']
    let ends := HasSuffix l.currentLine ['>']
    let nextLineStart := HasPrefix l.nextLine ['<']
    if start && ends then
      ({ l with firstLineFound := false, workingLine := l.currentLine },
        Next.fn StateFn.lexLineContent)
    else if start && !ends then
      ({ l with firstLineFound := true, workingLine := l.workingLine ++ [' '] ++ l.currentLine },
        Next.fn StateFn.lexReadFileLine)
    else if !start && !ends && l.firstLineFound then
      ({ l with workingLine := l.workingLine ++ [' '] ++ l.currentLine },
        Next.fn StateFn.lexReadFileLine)
    else if !start && ends && l.firstLineFound then
      ({ l with workingLine := l.workingLine ++ [' '] ++ l.currentLine, firstLineFound := false },
        Next.fn StateFn.lexLineContent)
    else if !start && !ends && !l.firstLineFound && !nextLineStart then
      ({ l with workingLine := l.workingLine ++ [' '] ++ l.currentLine },
        Next.fn StateFn.lexReadFileLine)
    else if !start && !ends && !l.firstLineFound && nextLineStart then
      let l1 := { l with workingLine := l.workingLine ++ [' '] ++ l.currentLine }
      match newTokenSender l1.sendToken l1 tokenType.tokenDescription l1.workingLine with
      | none => (l1, Next.fault)
      | some l2 => (l2, Next.fn StateFn.lexLineContent)
    else
      ({ l with debugLog := l.debugLog ++ [(l.currentLineNR, l.workingLine)] },
        Next.fn StateFn.lexPrint)

/-- Run one state function of `main.go`. -/
def call : StateFn → lexer → lexer × Next
  | StateFn.lexReadFileLine => lexReadFileLine
  | StateFn.lexCheckLineType => lexCheckLineType
  | StateFn.lexLineContent => lexLineContent
  | StateFn.lexTagName => lexTagName
  | StateFn.lexTagArguments => lexTagArguments
  | StateFn.lexPrint => lexPrint

/-- The loop `for { fn = fn(); if fn == nil { break } }` of `lexStart`, cut
    off after `fuel` calls: the last state and how the run ended. -/
def runLoop : Nat → StateFn → lexer → lexer × Status
  | 0, _, l => (l, Status.outOfFuel)
  | fuel + 1, f, l =>
    match call f l with
    | (l1, Next.stop) => (l1, Status.finished)
    | (l1, Next.fault) => (l1, Status.faulted)
    | (l1, Next.fn g) => runLoop fuel g l1

/-- The line source and the working line of a state of `main.go`, as a state
    of `lexer.go` with an empty channel. -/
def lexer.lib (l : lexer) : Lexml.lexer :=
  { fileReader := l.fileReader
    currentLineNR := l.currentLineNR
    currentLine := l.currentLine
    nextLine := l.nextLine
    EOF := l.EOF
    workingLine := l.workingLine
    workingPosition := l.workingPosition
    firstLineFound := l.firstLineFound
    foundEqual := l.foundEqual
    tagName := l.tagName
    tagTypeIs := l.tagTypeIs
    tokenChan := []
    chanClosed := l.chanClosed
    debugLog := l.debugLog }

/-- Go `lexStart`: call `lexReadFileLine` once and run the driver loop on
    what it returns, with the fuel of `LexStart` and one call more (where
    `lexer.go` panics in its look-ahead for a comment marker, `main.go` makes
    one more call, of `lexTagName`, before it panics). -/
def lexStart (l : lexer) : lexer × Status :=
  match lexReadFileLine l with
  | (l1, Next.fn g) => runLoop (lexFuel g l1.lib + 2) g l1
  | (l1, _) => (l1, Status.faulted)

end Main

/-- Attribute names and values arrive as adjacent pairs in `ts`: every
    ArgumentName token is immediately followed by an ArgumentValue token, and
    every ArgumentValue token is immediately preceded by an ArgumentName
    token. -/
def ArgsAdjacent (ts : List Token) : Prop :=
  (∀ (i : Nat) (t : Token), ts[i]? = some t → t.TokenType = TokenType.tokenArgumentName →
    ∃ u, ts[i + 1]? = some u ∧ u.TokenType = TokenType.tokenArgumentValue) ∧
  (∀ (i : Nat) (u : Token), ts[i]? = some u → u.TokenType = TokenType.tokenArgumentValue →
    ∃ j t, i = j + 1 ∧ ts[j]? = some t ∧ t.TokenType = TokenType.tokenArgumentName)

/-- What one call of the state function `f` can send, whether it returns or
    panics: one attribute name with its value, or tokens of other kinds; and
    a Description token only if `f` is the line classifier. -/
def Chunk (f : StateFn) (ts : List Token) : Prop :=
  ((∃ a v : Str, ts = [Token.mk TokenType.tokenArgumentName a,
      Token.mk TokenType.tokenArgumentValue v]) ∨
    ∀ t ∈ ts, t.TokenType ≠ TokenType.tokenArgumentName ∧
      t.TokenType ≠ TokenType.tokenArgumentValue) ∧
  (f ≠ StateFn.lexCheckLineType → ∀ t ∈ ts, t.TokenType ≠ TokenType.tokenDescription)

/-- The scan of a working line from `lexLineContent` on `l`: after `k`
    hand-offs to `lexTagName` or `lexTagArguments` and back, the call of
    `lexLineContent` that follows returns `r`. -/
inductive HandOffs : Nat → lexer → lexer × Next → Prop where
  | done (l : lexer) : HandOffs 0 l (lexLineContent l)
  | handOff {k : Nat} {g : StateFn} {l l1 l2 : lexer} {r : lexer × Next} :
      lexLineContent l = (l1, Next.fn g) →
      (g = StateFn.lexTagName ∨ g = StateFn.lexTagArguments) →
      g.call l1 = (l2, Next.fn StateFn.lexLineContent) →
      HandOffs k l2 r → HandOffs (k + 1) l r

/-- The token kind of `lexer.go` with the name of a token kind of `main.go`;
    ArgumentFound has no counterpart. -/
def Main.tokenType.lib : Main.tokenType → Option TokenType
  | Main.tokenType.tokenStartTag => some TokenType.tokenStartTag
  | Main.tokenType.tokenEndTag => some TokenType.tokenEndTag
  | Main.tokenType.tokenArgumentFound => none
  | Main.tokenType.tokenArgumentName => some TokenType.tokenArgumentName
  | Main.tokenType.tokenArgumentValue => some TokenType.tokenArgumentValue
  | Main.tokenType.tokenDescription => some TokenType.tokenDescription
  | Main.tokenType.tokenEOF => some TokenType.tokenEOF
  | Main.tokenType.tokenJustText => some TokenType.tokenJustText

/-- A token sequence of `main.go` with its ArgumentFound tokens deleted and
    the white space of every token text trimmed, as tokens of `lexer.go`. -/
def refineTokens (ts : List Main.token) : List Token :=
  ts.filterMap (fun t => (t.tokenType.lib).map (fun k => Token.mk k (TrimSpace t.tokenText)))

/-- The state of `lexer.go` that a state of `main.go` stands for: the same
    line source, working line and flags, and on the channel the tokens sent
    so far, refined. -/
def Main.lexer.abs (m : Main.lexer) : Lexml.lexer :=
  { m.lib with tokenChan := refineTokens m.sent }

/-- The line holds no comment marker `<!--`. -/
def NoComment (s : Str) : Prop :=
  ∀ p : Nat, ¬ (s[p]? = some '<' ∧ s[p + 1]? = some '!' ∧ s[p + 2]? = some '-' ∧
    s[p + 3]? = some '-')

/-- No line the lexer holds or has still to read holds a comment marker. -/
def NoCommentAll (l : lexer) : Prop :=
  NoComment l.workingLine ∧ NoComment l.currentLine ∧ NoComment l.nextLine ∧
    ∀ x ∈ l.fileReader, NoComment x

/-- The outcome `r` of a call in `lexer.go` matches the outcome `rm` of the
    same call in `main.go`: the same state, tokens refined, and the same
    state function returned; or `lexer.go` panics in the look-ahead for a
    comment marker where `main.go`, which has no such look-ahead, takes the
    `<` for a start tag and panics in `lexTagName` before any token is
    sent. -/
def Sim (r : lexer × Next) (rm : Main.lexer × Next) : Prop :=
  r = (rm.1.abs, rm.2) ∨
  (r.2 = Next.fault ∧ r.1.tokenChan = refineTokens rm.1.sent ∧
    rm.2 = Next.fn StateFn.lexTagName ∧ (Main.lexTagName rm.1).2 = Next.fault ∧
    (Main.lexTagName rm.1).1.sent = rm.1.sent)

/-! ## The reader's buffer -/

/-- The size of the buffer of the reader that `bufio.NewReader` makes. -/
def defaultBufSize : Nat := 4096

/-- The slices `bufio.Reader.ReadLine` hands over, call after call, for a
    physical line `s` of one-byte characters that ends with a line feed: a
    line that fits the buffer together with its line feed is handed over
    whole; of a longer line the first `defaultBufSize` bytes are handed over
    (with `isPrefix` set) and the rest of the line by the calls that follow.
    The first argument bounds the number of cuts. -/
def readLineSlices : Nat → Str → List Str
  | 0, s => [s]
  | n + 1, s =>
    if s.length < defaultBufSize then [s]
    else s.take defaultBufSize :: readLineSlices n (s.drop defaultBufSize)

/-- The slices `ReadLine` hands over for the physical line `s`. -/
def ReadLineSlices (s : Str) : List Str := readLineSlices s.length s

/-- Go `LexStart` on a file with the physical lines `lines`: the reader
    hands the lines over slice by slice. -/
def LexFile (lines : List Str) : Run := LexStart ((lines.map ReadLineSlices).flatten)

/-! ## Characters and strings -/

theorem isAlnum_ne {c d : Char} (h : isAlnum c = true) (hd : isAlnum d = false) : c ≠ d := by
  rintro rfl
  simp [h] at hd

theorem isSpace_of_isAlnum {c : Char} (h : isAlnum c = true) : isSpace c = false := by
  simp only [isAlnum, isSpace, decide_eq_true_eq, decide_eq_false_iff_not] at *
  omega

theorem getElem?_append_cons (A : Str) (c : Char) (R : Str) :
    (A ++ c :: R)[A.length]? = some c := by
  rw [List.getElem?_append_right (le_refl _)]
  simp

theorem getElem?_append_cons_add (A B : Str) (c : Char) (R : Str) :
    (A ++ (B ++ c :: R))[A.length + B.length]? = some c := by
  rw [← List.append_assoc, ← List.length_append]
  exact getElem?_append_cons (A ++ B) c R

theorem isAlnum_not_mem {t : Str} (h : ∀ c ∈ t, isAlnum c = true) {d : Char}
    (hd : isAlnum d = false) : d ∉ t := by
  intro hmem
  exact isAlnum_ne (h d hmem) hd rfl

theorem dropWhile_eq_self_of_head {p : Char → Bool} {s : Str}
    (h : ∀ c, s.head? = some c → p c = false) : s.dropWhile p = s := by
  cases s with
  | nil => rfl
  | cons c s =>
    rw [List.dropWhile_cons, if_neg]
    simp [h c rfl]

theorem trim_eq_self (p : Char → Bool) {s : Str} (h1 : ∀ c, s.head? = some c → p c = false)
    (h2 : ∀ c, s.getLast? = some c → p c = false) :
    ((s.dropWhile p).reverse.dropWhile p).reverse = s := by
  rw [dropWhile_eq_self_of_head h1, dropWhile_eq_self_of_head, List.reverse_reverse]
  intro c hc
  rw [List.head?_reverse] at hc
  exact h2 c hc

theorem TrimSpace_eq_self {s : Str} (h1 : ∀ c, s.head? = some c → isSpace c = false)
    (h2 : ∀ c, s.getLast? = some c → isSpace c = false) : TrimSpace s = s :=
  trim_eq_self isSpace h1 h2

theorem Trim_eq_self {s cutset : Str} (h1 : ∀ c, s.head? = some c → c ∉ cutset)
    (h2 : ∀ c, s.getLast? = some c → c ∉ cutset) : Trim s cutset = s :=
  trim_eq_self _ (fun c hc => by simpa using h1 c hc) (fun c hc => by simpa using h2 c hc)

theorem TrimSpace_cons_space {c : Char} (s : Str) (h : isSpace c = true) :
    TrimSpace (c :: s) = TrimSpace s := by
  unfold TrimSpace
  rw [List.dropWhile_cons, if_pos h]

theorem Trim_cons_cut {c : Char} {cutset : Str} (s : Str) (h : c ∈ cutset) :
    Trim (c :: s) cutset = Trim s cutset := by
  unfold Trim
  rw [List.dropWhile_cons, if_pos (by simpa using h)]

/-- A word of letters and digits has no white space to trim. -/
theorem TrimSpace_alnum {t : Str} (h : ∀ c ∈ t, isAlnum c = true) : TrimSpace t = t :=
  TrimSpace_eq_self (fun c hc => isSpace_of_isAlnum (h c (List.mem_of_mem_head? hc)))
    (fun c hc => isSpace_of_isAlnum (h c (List.mem_of_mem_getLast? hc)))

/-- A line that starts with `<` and ends with `>` has no white space to trim. -/
theorem TrimSpace_tag (mid : Str) : TrimSpace ('<' :: mid ++ ['>']) = '<' :: mid ++ ['>'] := by
  apply TrimSpace_eq_self
  · intro c hc
    simp only [List.cons_append, List.head?_cons, Option.some.injEq] at hc
    subst hc
    decide
  · intro c hc
    rw [List.getLast?_concat] at hc
    simp only [Option.some.injEq] at hc
    subst hc
    decide

theorem HasPrefix_cons (c d : Char) (s : Str) : HasPrefix (c :: s) [d] = (d == c) := by
  simp [HasPrefix, List.isPrefixOf]

theorem HasSuffix_concat (s : Str) (c d : Char) : HasSuffix (s ++ [c]) [d] = (d == c) := by
  simp [HasSuffix, List.isSuffixOf, List.isPrefixOf]

theorem Contains_nil (a b : Char) : Contains [] [a, b] = false := by
  simp [Contains]

theorem Contains_singleton (c a b : Char) : Contains [c] [a, b] = false := by
  simp [Contains, List.isPrefixOf]

theorem Contains_cons_of_ne {c a : Char} (b : Char) (s : Str) (h : a ≠ c) :
    Contains (c :: s) [a, b] = Contains s [a, b] := by
  rw [Contains]
  cases s <;> simp [List.isPrefixOf, h]

theorem Contains_cons_of_head_ne {b : Char} (c a : Char) {s : Str} (h : s.head? ≠ some b) :
    Contains (c :: s) [a, b] = Contains s [a, b] := by
  rw [Contains]
  cases s with
  | nil => simp [List.isPrefixOf, Contains]
  | cons d s =>
    have hd : b ≠ d := by
      intro hbd
      exact h (by simp [hbd])
    simp [List.isPrefixOf, hd]

theorem Contains_cons_cons_of_ne {d b : Char} (c a : Char) (s : Str) (h : d ≠ b) :
    Contains (c :: d :: s) [a, b] = Contains (d :: s) [a, b] :=
  Contains_cons_of_head_ne c a (by simpa using h)

/-- A word without `a` does not start an occurrence of the pair `a b`. -/
theorem Contains_append_of_not_mem_fst {w : Str} {a : Char} (b : Char) (s : Str)
    (h : a ∉ w) : Contains (w ++ s) [a, b] = Contains s [a, b] := by
  induction w with
  | nil => rfl
  | cons c w ih =>
    rw [List.cons_append, Contains_cons_of_ne b _ (by
      intro hac
      exact h (by simp [hac]))]
    exact ih (fun hm => h (List.mem_cons_of_mem _ hm))

/-- A word without `b` that is followed by another character than `b` holds
    no occurrence of the pair `a b`. -/
theorem Contains_append_of_not_mem_snd {w : Str} {b d : Char} (a : Char) (s : Str)
    (h : b ∉ w) (hd : d ≠ b) : Contains (w ++ d :: s) [a, b] = Contains (d :: s) [a, b] := by
  induction w with
  | nil => rfl
  | cons c w ih =>
    have hw : b ∉ w := fun hm => h (List.mem_cons_of_mem _ hm)
    have hhead : (w ++ d :: s).head? ≠ some b := by
      cases w with
      | nil => simpa using hd
      | cons e w =>
        simp only [List.cons_append, List.head?_cons, ne_eq, Option.some.injEq]
        intro he
        exact h (by simp [he])
    rw [List.cons_append, Contains_cons_of_head_ne c a hhead, ih hw]

theorem drop_take_middle (A B R : Str) : ((A ++ (B ++ R)).drop A.length).take B.length = B := by
  rw [List.drop_left, List.take_left]

/-! ## The slices of the reader -/

theorem readLineSlices_of_fits (n : Nat) (s : Str) (h : s.length < defaultBufSize) :
    readLineSlices n s = [s] := by
  cases n <;> simp [readLineSlices, h]

/-- A line that fits the buffer of the reader is handed over whole. -/
theorem ReadLineSlices_of_fits (s : Str) (h : s.length < defaultBufSize) :
    ReadLineSlices s = [s] :=
  readLineSlices_of_fits _ s h

/-- On a file whose lines all fit the buffer of the reader, the reader
    hands over the lines themselves. -/
theorem LexFile_of_fits (lines : List Str) (h : ∀ s ∈ lines, s.length < defaultBufSize) :
    LexFile lines = LexStart lines := by
  have e : (lines.map ReadLineSlices).flatten = lines := by
    induction lines with
    | nil => rfl
    | cons s rest ih =>
      simp [ReadLineSlices_of_fits s (h s (List.mem_cons_self _ _)),
        ih (fun x hx => h x (List.mem_cons_of_mem _ hx))]
  unfold LexFile
  rw [e]

/-- A line of at least the size of the buffer, and less than twice the
    size, is handed over in two slices: the first 4096 bytes, and the rest. -/
theorem ReadLineSlices_cut (a b : Str) (ha : a.length = defaultBufSize)
    (hb : b.length < defaultBufSize) : ReadLineSlices (a ++ b) = [a, b] := by
  have hpos : 0 < defaultBufSize := by decide
  have hl : (a ++ b).length = (a.length + b.length - 1) + 1 := by
    simp only [List.length_append]
    omega
  unfold ReadLineSlices
  rw [hl, readLineSlices, if_neg (by simp only [List.length_append]; omega),
    ← ha, List.take_left, List.drop_left, readLineSlices_of_fits _ b hb]

theorem Alnum_replicate (n : Nat) (c : Char) (hn : 0 < n) (hc : isAlnum c = true) :
    Alnum (List.replicate n c) := by
  refine ⟨?_, ?_⟩
  · intro h
    have := congrArg List.length h
    simp at this
    omega
  · intro d hd
    rw [List.eq_of_mem_replicate hd]
    exact hc

/-! ## The channel -/

theorem tokenSendChannel_open {l : lexer} (h : l.chanClosed = false) (t : TokenType) (x : Str) :
    tokenSendChannel l t x
      = some { l with tokenChan := l.tokenChan ++ [{ TokenType := t, TokenText := TrimSpace x }] } := by
  simp [tokenSendChannel, h]

theorem tokenSendChannel_eq_some {l l1 : lexer} {t : TokenType} {x : Str}
    (h : tokenSendChannel l t x = some l1) :
    l.chanClosed = false ∧
      l1 = { l with tokenChan := l.tokenChan ++ [{ TokenType := t, TokenText := TrimSpace x }] } := by
  unfold tokenSendChannel at h
  split at h
  · simp at h
  · simp only [Option.some.injEq] at h
    exact ⟨by simpa using ‹¬ l.chanClosed = true›, h.symm⟩

theorem sendEndTagIf_eq_some {b : Bool} {l l1 : lexer} (h : sendEndTagIf b l = some l1) :
    ∃ ts : List Token, l1 = { l with tokenChan := l.tokenChan ++ ts } ∧
      (∀ t ∈ ts, t.TokenType = TokenType.tokenEndTag) := by
  unfold sendEndTagIf at h
  split at h
  · obtain ⟨-, rfl⟩ := tokenSendChannel_eq_some h
    exact ⟨_, rfl, by simp⟩
  · simp only [Option.some.injEq] at h
    subst h
    exact ⟨[], by simp, by simp⟩

/-! ## The loop of `lexLineContent` -/

theorem lexLineContentBody_congr (k k' : lexer → lexer × Next) (l : lexer)
    (h : ∀ l1 : lexer, l1.workingLine = l.workingLine →
      l1.workingPosition = l.workingPosition + 1 → k l1 = k' l1) :
    lexLineContentBody k l = lexLineContentBody k' l := by
  unfold lexLineContentBody
  cases l.workingLine[l.workingPosition]? with
  | none => rfl
  | some c =>
    by_cases hlt : c = '<'
    · simp only [hlt, if_true]
    · by_cases hgt : c = '>'
      · simp only [if_neg hlt, if_pos hgt]
        cases h1 : sendEndTagIf (Contains l.workingLine ['/', '>']) l with
        | none => rfl
        | some l1 =>
          dsimp only
          cases h2 : sendEndTagIf (Contains l1.workingLine ['?', '>']) l1 with
          | none => rfl
          | some l2 =>
            obtain ⟨ts1, rfl, -⟩ := sendEndTagIf_eq_some h1
            obtain ⟨ts2, rfl, -⟩ := sendEndTagIf_eq_some h2
            simp only
            exact h _ rfl rfl
      · by_cases heq : c = '='
        · simp only [if_neg hlt, if_neg hgt, if_pos heq]
        · simp only [if_neg hlt, if_neg hgt, if_neg heq]
          exact h _ rfl rfl

/-- The loop equation: `lexLineContent` is one round of its loop, going round
    again by `lexLineContent` itself. -/
theorem lexLineContent_loop (l : lexer) :
    lexLineContent l = lexLineContentBody lexLineContent l := by
  unfold lexLineContent
  rcases Nat.lt_or_ge l.workingPosition l.workingLine.length with h | h
  · obtain ⟨n, hn⟩ : ∃ n, l.workingLine.length - l.workingPosition = n + 1 :=
      ⟨l.workingLine.length - l.workingPosition - 1, by omega⟩
    rw [hn, lexLineContentLoop]
    apply lexLineContentBody_congr
    intro l1 h1 h2
    have : l1.workingLine.length - l1.workingPosition = n := by rw [h1, h2]; omega
    rw [this]
  · have hnone : l.workingLine[l.workingPosition]? = none := by simp [h]
    have h0 : l.workingLine.length - l.workingPosition = 0 := by omega
    rw [h0, lexLineContentLoop]
    unfold lexLineContentBody
    rw [hnone]

/-! ## What each state function does to the line source and the channel -/

theorem NoEOF_nil : NoEOF [] := by
  intro t ht
  simp at ht

theorem NoEOF_append {a b : List Token} (ha : NoEOF a) (hb : NoEOF b) : NoEOF (a ++ b) := by
  intro t ht
  rcases List.mem_append.1 ht with h | h
  · exact ha t h
  · exact hb t h

theorem NoEOF_of_kind {ts : List Token} {k : TokenType} (hk : k ≠ TokenType.tokenEOF)
    (h : ∀ t ∈ ts, t.TokenType = k) : NoEOF ts := by
  intro t ht
  rw [h t ht]
  exact hk

theorem advance_zero (l : lexer) : advance l 0 [] = l := by
  cases l
  simp [advance]

theorem advance_advance (l : lexer) (j k : Nat) (ts us : List Token) :
    advance (advance l j ts) k us = advance l (j + k) (ts ++ us) := by
  simp [advance, Nat.add_assoc]

theorem lexReadFileLine_cons {l : lexer} {x : Str} {rest : List Str}
    (h : l.fileReader = x :: rest) :
    lexReadFileLine l = ({ l with
      workingPosition := 0, currentLineNR := l.currentLineNR + 1, currentLine := l.nextLine,
      fileReader := rest, nextLine := TrimSpace x }, Next.fn StateFn.lexCheckLineType) := by
  simp [lexReadFileLine, h]

theorem lexReadFileLine_last {l : lexer} (h : l.fileReader = []) (he : l.EOF = false) :
    lexReadFileLine l = ({ l with
      workingPosition := 0, currentLineNR := l.currentLineNR + 1, currentLine := l.nextLine,
      EOF := true, nextLine := [] }, Next.fn StateFn.lexCheckLineType) := by
  simp [lexReadFileLine, h, he, TrimSpace]

theorem lexReadFileLine_eof {l : lexer} (h : l.fileReader = []) (he : l.EOF = true)
    (hc : l.chanClosed = false) :
    lexReadFileLine l = ({ l with
      workingPosition := 0, currentLineNR := l.currentLineNR + 1, currentLine := l.nextLine,
      tokenChan := l.tokenChan ++ [eofToken], chanClosed := true }, Next.stop) := by
  simp [lexReadFileLine, h, he, tokenSendChannel, hc, eofToken, TrimSpace, isSpace]

theorem lexReadFileLine_closed {l : lexer} (h : l.fileReader = []) (he : l.EOF = true)
    (hc : l.chanClosed = true) : (lexReadFileLine l).2 = Next.fault := by
  simp [lexReadFileLine, h, he, tokenSendChannel, hc]

/-- What `lexReadFileLine` returns: a panic, the end of the run with the EOF
    token sent, or the next line in the current-line slot. -/
theorem lexReadFileLine_cases (l : lexer) :
    (lexReadFileLine l).2 = Next.fault ∨
    ((lexReadFileLine l).2 = Next.stop ∧ l.fileReader = [] ∧ l.EOF = true ∧ l.chanClosed = false ∧
      (lexReadFileLine l).1.chanClosed = true ∧
      (lexReadFileLine l).1.tokenChan = l.tokenChan ++ [eofToken]) ∨
    ((lexReadFileLine l).2 = Next.fn StateFn.lexCheckLineType ∧ ReadRel l (lexReadFileLine l).1 ∧
      (lexReadFileLine l).1.workingLine = l.workingLine ∧
      (lexReadFileLine l).1.tokenChan = l.tokenChan ∧
      (lexReadFileLine l).1.chanClosed = l.chanClosed) := by
  cases hr : l.fileReader with
  | cons x rest =>
    right; right
    rw [lexReadFileLine_cons hr]
    exact ⟨rfl, ⟨rfl, Or.inl ⟨x, rest, hr, rfl, rfl, rfl⟩⟩, rfl, rfl, rfl⟩
  | nil =>
    cases he : l.EOF with
    | false =>
      right; right
      rw [lexReadFileLine_last hr he]
      exact ⟨rfl, ⟨rfl, Or.inr ⟨hr, he, hr, rfl, rfl⟩⟩, rfl, rfl, rfl⟩
    | true =>
      cases hc : l.chanClosed with
      | true => exact Or.inl (lexReadFileLine_closed hr he hc)
      | false =>
        right; left
        rw [lexReadFileLine_eof hr he hc]
        exact ⟨rfl, rfl, rfl, rfl, rfl, rfl⟩

/-- One round of the scanner loop either leaves the loop, or passes one
    character, sending only self-closing end tags, and goes round again. -/
theorem lexLineContentBody_cases (k : lexer → lexer × Next) (l : lexer) :
    ScanStop l (lexLineContentBody k l) ∨
    ∃ ts : List Token, (∀ t ∈ ts, t.TokenType = TokenType.tokenEndTag) ∧
      l.workingPosition < l.workingLine.length ∧
      lexLineContentBody k l = k (advance l 1 ts) := by
  unfold lexLineContentBody
  cases hc : l.workingLine[l.workingPosition]? with
  | none =>
    left; right; left
    exact ⟨by simpa using hc, rfl⟩
  | some c =>
    have hlen : l.workingPosition < l.workingLine.length := by
      rcases List.getElem?_eq_some_iff.1 hc with ⟨h, -⟩
      exact h
    dsimp only
    by_cases hlt : c = '<'
    · left
      rw [if_pos hlt]
      cases h1 : l.workingLine[l.workingPosition + 1]? with
      | none => exact Or.inl rfl
      | some c1 =>
        dsimp only
        have hstart : ScanStop l
            ({ l with tagTypeIs := tagType.startTag }, Next.fn StateFn.lexTagName) := by
          right; right; right; left
          refine ⟨hlen, tagType.startTag, [], by simp, ?_⟩
          simp [advance]
        have hstop : ScanStop l
            ({ l with tagTypeIs := tagType.stopTag }, Next.fn StateFn.lexTagName) := by
          right; right; right; left
          refine ⟨hlen, tagType.stopTag, [], by simp, ?_⟩
          simp [advance]
        by_cases hs : c1 = '/'
        · rw [if_pos hs]
          by_cases hf : (!l.foundEqual) = true
          · rw [if_pos hf]
            by_cases ht : lexTextBetweenTags l ≠ []
            · rw [if_pos ht]
              cases hsend : tokenSendChannel l TokenType.tokenJustText (lexTextBetweenTags l) with
              | none => exact Or.inl rfl
              | some l1 =>
                obtain ⟨-, rfl⟩ := tokenSendChannel_eq_some hsend
                right; right; right; left
                refine ⟨hlen, tagType.stopTag, [Token.mk TokenType.tokenJustText
                  (TrimSpace (lexTextBetweenTags l))], by simp, ?_⟩
                simp [advance]
            · rw [if_neg ht]
              exact hstop
          · rw [if_neg hf]
            exact hstop
        · rw [if_neg hs]
          by_cases hb : c1 = '!'
          · rw [if_pos hb]
            cases h2 : l.workingLine[l.workingPosition + 2]? with
            | none => exact Or.inl rfl
            | some c2 =>
              dsimp only
              by_cases hd : c2 = '-'
              · rw [if_pos hd]
                cases h3 : l.workingLine[l.workingPosition + 3]? with
                | none => exact Or.inl rfl
                | some c3 =>
                  dsimp only
                  by_cases hd3 : c3 = '-'
                  · rw [if_pos hd3]
                    exact Or.inr (Or.inr (Or.inl ⟨hlen, rfl⟩))
                  · rw [if_neg hd3]
                    exact hstart
              · rw [if_neg hd]
                exact hstart
          · rw [if_neg hb]
            exact hstart
    · rw [if_neg hlt]
      by_cases hgt : c = '>'
      · rw [if_pos hgt]
        cases h1 : sendEndTagIf (Contains l.workingLine ['/', '>']) l with
        | none => exact Or.inl (Or.inl rfl)
        | some l1 =>
          dsimp only
          cases h2 : sendEndTagIf (Contains l1.workingLine ['?', '>']) l1 with
          | none => exact Or.inl (Or.inl rfl)
          | some l2 =>
            obtain ⟨ts1, rfl, hts1⟩ := sendEndTagIf_eq_some h1
            obtain ⟨ts2, rfl, hts2⟩ := sendEndTagIf_eq_some h2
            right
            refine ⟨ts1 ++ ts2, ?_, hlen, ?_⟩
            · intro t ht
              rcases List.mem_append.1 ht with h | h
              · exact hts1 t h
              · exact hts2 t h
            · simp [advance]
      · rw [if_neg hgt]
        by_cases heq : c = '='
        · rw [if_pos heq]
          exact Or.inl (Or.inr (Or.inr (Or.inr (Or.inr ⟨hlen, rfl⟩))))
        · rw [if_neg heq]
          right
          refine ⟨[], by simp, hlen, ?_⟩
          simp [advance]

/-- What `lexLineContent` does: it passes `k` characters, sending only
    self-closing end tags, and leaves its loop there. -/
theorem lexLineContent_cases (l : lexer) :
    ∃ (k : Nat) (ts : List Token), (∀ t ∈ ts, t.TokenType = TokenType.tokenEndTag) ∧
      ScanStop (advance l k ts) (lexLineContent l) := by
  generalize hn : l.workingLine.length - l.workingPosition = n
  induction n generalizing l with
  | zero =>
    rw [lexLineContent_loop]
    rcases lexLineContentBody_cases lexLineContent l with h | ⟨ts, -, hlen, -⟩
    · exact ⟨0, [], by simp, by rw [advance_zero]; exact h⟩
    · omega
  | succ n ih =>
    rw [lexLineContent_loop]
    rcases lexLineContentBody_cases lexLineContent l with h | ⟨ts, hts, hlen, heq⟩
    · exact ⟨0, [], by simp, by rw [advance_zero]; exact h⟩
    · have hn1 : (advance l 1 ts).workingLine.length - (advance l 1 ts).workingPosition = n := by
        simp only [advance]
        omega
      obtain ⟨k, us, hus, hstop⟩ := ih (advance l 1 ts) hn1
      refine ⟨1 + k, ts ++ us, ?_, ?_⟩
      · intro t ht
        rcases List.mem_append.1 ht with h | h
        · exact hts t h
        · exact hus t h
      · rw [heq, ← advance_advance]
        exact hstop

theorem lexTagNameLoop_bounds (s : Str) :
    ∀ (n pos : Nat) (tn : Str) (pos1 : Nat) (tn1 : Str),
      lexTagNameLoop s n pos tn = some (pos1, tn1) → pos ≤ pos1 ∧ pos1 < s.length := by
  intro n
  induction n with
  | zero =>
    intro pos tn pos1 tn1 h
    simp [lexTagNameLoop] at h
  | succ n ih =>
    intro pos tn pos1 tn1 h
    unfold lexTagNameLoop at h
    cases hc : s[pos]? with
    | none => simp [hc] at h
    | some c =>
      have hlen : pos < s.length := (List.getElem?_eq_some_iff.1 hc).1
      rw [hc] at h
      dsimp only at h
      by_cases h1 : c = ' '
      · rw [if_pos h1] at h
        simp only [Option.some.injEq, Prod.mk.injEq] at h
        omega
      · rw [if_neg h1] at h
        by_cases h2 : c = '>'
        · rw [if_pos h2] at h
          simp only [Option.some.injEq, Prod.mk.injEq] at h
          omega
        · rw [if_neg h2] at h
          have := ih _ _ _ _ h
          omega

/-- What `lexTagName` does: it panics, or it moves the cursor forward inside
    the line and sends one tag token with the name it collected. -/
theorem lexTagName_cases (l : lexer) :
    (lexTagName l).2 = Next.fault ∨
    ∃ (pos : Nat) (tn : Str) (tt : TokenType),
      l.workingPosition < pos ∧ pos < l.workingLine.length ∧
      (tt = TokenType.tokenStartTag ∨ tt = TokenType.tokenEndTag) ∧
      lexTagName l = ({ l with
        workingPosition := pos, tagName := tn,
        tokenChan := l.tokenChan ++ [Token.mk tt (TrimSpace tn)] }, Next.fn StateFn.lexLineContent) := by
  unfold lexTagName
  dsimp only
  cases hc : l.workingLine[l.workingPosition + 1]? with
  | none => exact Or.inl rfl
  | some c =>
    dsimp only
    by_cases hs : c = '/'
    · rw [if_pos hs]
      dsimp only
      cases hloop : lexTagNameLoop l.workingLine (l.workingLine.length - (l.workingPosition + 1 + 1))
          (l.workingPosition + 1 + 1) [] with
      | none => exact Or.inl rfl
      | some r =>
        obtain ⟨pos, tn⟩ := r
        have hb := lexTagNameLoop_bounds _ _ _ _ _ _ hloop
        dsimp only
        cases hc : l.chanClosed with
        | true =>
          left
          simp [tokenSendChannel, hc]
        | false =>
          right
          cases htt : l.tagTypeIs with
          | startTag =>
            exact ⟨pos, tn, TokenType.tokenStartTag, by omega, hb.2, Or.inl rfl,
              by simp [tokenSendChannel, hc, htt]⟩
          | stopTag =>
            exact ⟨pos, tn, TokenType.tokenEndTag, by omega, hb.2, Or.inr rfl,
              by simp [tokenSendChannel, hc, htt]⟩
    · rw [if_neg hs]
      dsimp only
      cases hloop : lexTagNameLoop l.workingLine (l.workingLine.length - (l.workingPosition + 1))
          (l.workingPosition + 1) [] with
      | none => exact Or.inl rfl
      | some r =>
        obtain ⟨pos, tn⟩ := r
        have hb := lexTagNameLoop_bounds _ _ _ _ _ _ hloop
        dsimp only
        cases hc : l.chanClosed with
        | true =>
          left
          simp [tokenSendChannel, hc]
        | false =>
          right
          cases htt : l.tagTypeIs with
          | startTag =>
            exact ⟨pos, tn, TokenType.tokenStartTag, by omega, hb.2, Or.inl rfl,
              by simp [tokenSendChannel, hc, htt]⟩
          | stopTag =>
            exact ⟨pos, tn, TokenType.tokenEndTag, by omega, hb.2, Or.inr rfl,
              by simp [tokenSendChannel, hc, htt]⟩

theorem findChrPositionBefore_bound (s : Str) (c : Char) :
    ∀ (p q : Nat), findChrPositionBefore s c p = some q → p ≤ s.length := by
  intro p
  induction p with
  | zero => intro q _; exact Nat.zero_le _
  | succ p _ =>
    intro q h
    unfold findChrPositionBefore at h
    cases hc : s[p]? with
    | none => simp [hc] at h
    | some d =>
      have hlen : p < s.length := (List.getElem?_eq_some_iff.1 hc).1
      omega

/-- What `lexTagArguments` does: it panics, or it sends an attribute name and
    an attribute value and moves the cursor one character on. -/
theorem lexTagArguments_cases (l : lexer) :
    (lexTagArguments l).2 = Next.fault ∨
    (l.workingPosition ≤ l.workingLine.length ∧ ∃ (a v : Str),
      lexTagArguments l = ({ l with
        workingPosition := l.workingPosition + 1,
        tokenChan := l.tokenChan ++ [Token.mk TokenType.tokenArgumentName a,
          Token.mk TokenType.tokenArgumentValue v] }, Next.fn StateFn.lexLineContent)) := by
  unfold lexTagArguments
  cases h1 : findChrPositionBefore l.workingLine ' ' l.workingPosition with
  | none => exact Or.inl rfl
  | some p1 =>
    have hb := findChrPositionBefore_bound _ _ _ _ h1
    dsimp only
    cases h2 : findLettersBetween l.workingLine p1 l.workingPosition with
    | none => exact Or.inl rfl
    | some arg =>
      dsimp only
      cases hc : l.chanClosed with
      | true =>
        left
        simp [tokenSendChannel, hc]
      | false =>
        rw [tokenSendChannel_open hc]
        dsimp only
        cases h3 : findLettersBetween l.workingLine (l.workingPosition + 1)
            (findChrPositionAfter l.workingLine '"' (l.workingPosition + 1)) with
        | none => exact Or.inl rfl
        | some value =>
          right
          refine ⟨hb, TrimSpace arg, TrimSpace value, ?_⟩
          simp [tokenSendChannel, hc]

/-- A line read made on a state `l` that differs from `l0` only in the
    scanner fields and in tokens sent since satisfies the summary for `l0`. -/
theorem StepSpec_read (f : StateFn) (l0 l : lexer) (ts : List Token)
    (hsrc : SameSource l0 l) (hts : Sent f ts) (htok : l.tokenChan = l0.tokenChan ++ ts)
    (hclosed : l.chanClosed = l0.chanClosed)
    (hwl : l.workingLine.length ≤ l0.workingLine.length) :
    StepSpec f l0 (lexReadFileLine l).1 (lexReadFileLine l).2 := by
  obtain ⟨hfr, hnl, heof, -⟩ := hsrc
  rcases lexReadFileLine_cases l with h | ⟨h, hr, he, hc, hcl, ht⟩ | ⟨h, hrel, hw, ht, hc⟩
  · rw [h]
    trivial
  · rw [h]
    refine ⟨by rw [← hfr]; exact hr, by rw [← heof]; exact he, by rw [← hclosed]; exact hc,
      hcl, ts, hts, ?_⟩
    rw [ht, htok]
  · rw [h]
    refine ⟨by rw [hc, hclosed], ⟨ts, hts, by rw [ht, htok]⟩, ?_⟩
    rw [if_pos rfl]
    refine ⟨?_, by rw [hw]; exact hwl⟩
    unfold ReadRel at hrel ⊢
    rw [← hfr, ← hnl, ← heof]
    exact hrel

theorem Sent_nil (f : StateFn) : Sent f [] :=
  ⟨NoEOF_nil, fun _ t ht => by simp at ht⟩

theorem Sent_append {f : StateFn} {a b : List Token} (ha : Sent f a) (hb : Sent f b) :
    Sent f (a ++ b) := by
  refine ⟨NoEOF_append ha.1 hb.1, fun hf t ht => ?_⟩
  rcases List.mem_append.1 ht with h | h
  · exact ha.2 hf t h
  · exact hb.2 hf t h

theorem Sent_of_kind (f : StateFn) {ts : List Token} {k : TokenType}
    (hk : k ≠ TokenType.tokenEOF) (hd : k ≠ TokenType.tokenDescription)
    (h : ∀ t ∈ ts, t.TokenType = k) : Sent f ts :=
  ⟨NoEOF_of_kind hk h, fun _ t ht => by rw [h t ht]; exact hd⟩

theorem Sent_endTags (f : StateFn) {ts : List Token}
    (h : ∀ t ∈ ts, t.TokenType = TokenType.tokenEndTag) : Sent f ts :=
  Sent_of_kind f (by decide) (by decide) h

theorem Sent_justText (f : StateFn) {ts : List Token}
    (h : ∀ t ∈ ts, t.TokenType = TokenType.tokenJustText) : Sent f ts :=
  Sent_of_kind f (by decide) (by decide) h

theorem StepSpec_lexLineContent (l : lexer) :
    StepSpec StateFn.lexLineContent l (lexLineContent l).1 (lexLineContent l).2 := by
  obtain ⟨k, ts, hts, h | ⟨-, h⟩ | ⟨-, h⟩ | ⟨-, tt, js, hjs, h⟩ | ⟨-, h⟩⟩ := lexLineContent_cases l
  · rw [h]
    trivial
  · rw [h]
    refine ⟨rfl, ⟨ts, Sent_endTags _ hts, rfl⟩, ?_⟩
    rw [if_neg (by decide)]
    refine ⟨⟨rfl, rfl, rfl, rfl⟩, ?_, ?_⟩
    · simp [lineBudget, lexLineContentEnd, advance]
    · simp [callsInLine, lexLineContentEnd]
  · rw [h]
    exact StepSpec_read _ l (advance l k ts) ts ⟨rfl, rfl, rfl, rfl⟩ (Sent_endTags _ hts) rfl rfl
      (le_refl _)
  · rw [h]
    refine ⟨rfl, ⟨ts ++ js, Sent_append (Sent_endTags _ hts) (Sent_justText _ hjs), ?_⟩, ?_⟩
    · simp [advance]
    · rw [if_neg (by decide)]
      refine ⟨⟨rfl, rfl, rfl, rfl⟩, ?_, ?_⟩
      · simp [lineBudget, advance]
      · simp only [callsInLine, advance]
        omega
  · rw [h]
    refine ⟨rfl, ⟨ts, Sent_endTags _ hts, rfl⟩, ?_⟩
    rw [if_neg (by decide)]
    refine ⟨⟨rfl, rfl, rfl, rfl⟩, ?_, ?_⟩
    · simp [lineBudget, advance]
    · simp only [callsInLine, advance]
      omega

theorem StepSpec_lexTagName (l : lexer) :
    StepSpec StateFn.lexTagName l (lexTagName l).1 (lexTagName l).2 := by
  rcases lexTagName_cases l with h | ⟨pos, tn, tt, h1, h2, htt, h⟩
  · rw [h]
    trivial
  · rw [h]
    refine ⟨rfl, ⟨[Token.mk tt (TrimSpace tn)], ?_, rfl⟩, ?_⟩
    · rcases htt with rfl | rfl
      · exact Sent_of_kind _ (k := TokenType.tokenStartTag) (by decide) (by decide) (by simp)
      · exact Sent_of_kind _ (k := TokenType.tokenEndTag) (by decide) (by decide) (by simp)
    · rw [if_neg (by decide)]
      refine ⟨⟨rfl, rfl, rfl, rfl⟩, ?_, ?_⟩
      · simp [lineBudget]
      · simp only [callsInLine]
        omega

theorem StepSpec_lexTagArguments (l : lexer) :
    StepSpec StateFn.lexTagArguments l (lexTagArguments l).1 (lexTagArguments l).2 := by
  rcases lexTagArguments_cases l with h | ⟨h1, a, v, h⟩
  · rw [h]
    trivial
  · rw [h]
    refine ⟨rfl, ⟨[Token.mk TokenType.tokenArgumentName a,
      Token.mk TokenType.tokenArgumentValue v], ?_, rfl⟩, ?_⟩
    · refine ⟨?_, fun _ => ?_⟩ <;>
      · intro t ht
        simp only [List.mem_cons, List.mem_singleton, List.not_mem_nil, or_false] at ht
        rcases ht with rfl | rfl <;> simp
    · rw [if_neg (by decide)]
      refine ⟨⟨rfl, rfl, rfl, rfl⟩, ?_, ?_⟩
      · simp [lineBudget]
      · simp only [callsInLine]
        omega

theorem StepSpec_check_aux (l : lexer) (wl : Str) (flf : Bool) (dl : List (Int × Str))
    (ts : List Token) (g : StateFn) (hts : NoEOF ts)
    (hg : g = StateFn.lexLineContent ∨ g = StateFn.lexReadFileLine ∨ g = StateFn.lexPrint)
    (hwl : wl.length ≤ l.workingLine.length + 1 + l.currentLine.length) :
    StepSpec StateFn.lexCheckLineType l
      { l with workingLine := wl, firstLineFound := flf, debugLog := dl,
               tokenChan := l.tokenChan ++ ts } (Next.fn g) := by
  refine ⟨rfl, ⟨ts, ⟨hts, fun h => absurd rfl h⟩, rfl⟩, ?_⟩
  have hne : g ≠ StateFn.lexCheckLineType := by
    rcases hg with rfl | rfl | rfl <;> decide
  rw [if_neg hne]
  refine ⟨⟨rfl, rfl, rfl, rfl⟩, ?_, ?_⟩
  · simp only [lineBudget, if_neg hne, if_true]
    omega
  · rcases hg with rfl | rfl | rfl
    · simp only [callsInLine]
      omega
    · simp only [callsInLine]
      omega
    · simp only [callsInLine]
      omega

theorem lexer_tokenChan_append_nil (l : lexer) :
    { l with tokenChan := l.tokenChan ++ [] } = l := by
  cases l
  simp

theorem StepSpec_lexCheckLineType (l : lexer) :
    StepSpec StateFn.lexCheckLineType l (lexCheckLineType l).1 (lexCheckLineType l).2 := by
  have key : ∀ (wl : Str) (flf : Bool) (dl : List (Int × Str)) (g : StateFn),
      (g = StateFn.lexLineContent ∨ g = StateFn.lexReadFileLine ∨ g = StateFn.lexPrint) →
      wl.length ≤ l.workingLine.length + 1 + l.currentLine.length →
      StepSpec StateFn.lexCheckLineType l
        { l with workingLine := wl, firstLineFound := flf, debugLog := dl } (Next.fn g) := by
    intro wl flf dl g hg hwl
    have := StepSpec_check_aux l wl flf dl [] g NoEOF_nil hg hwl
    simpa using this
  unfold lexCheckLineType
  dsimp only
  split_ifs
  · exact key l.workingLine l.firstLineFound l.debugLog _ (Or.inr (Or.inl rfl)) (by omega)
  · exact key _ _ l.debugLog _ (Or.inl rfl) (by omega)
  · exact key _ _ l.debugLog _ (Or.inr (Or.inl rfl)) (by simp; omega)
  · exact key _ l.firstLineFound l.debugLog _ (Or.inr (Or.inl rfl)) (by simp; omega)
  · exact key _ _ l.debugLog _ (Or.inl rfl) (by simp; omega)
  · exact key _ l.firstLineFound l.debugLog _ (Or.inr (Or.inl rfl)) (by simp; omega)
  · rcases Bool.eq_false_or_eq_true l.chanClosed with hc | hc
    · simp [tokenSendChannel, hc, StepSpec]
    · rw [tokenSendChannel_open (by exact hc)]
      exact StepSpec_check_aux l _ l.firstLineFound l.debugLog
        [Token.mk TokenType.tokenDescription _] _
        (by intro t ht; simp only [List.mem_singleton] at ht; subst ht; simp)
        (Or.inl rfl) (by simp; omega)
  · exact key l.workingLine l.firstLineFound _ _ (Or.inr (Or.inr rfl)) (by omega)

theorem StepSpec_lexPrint (l : lexer) :
    StepSpec StateFn.lexPrint l (lexPrint l).1 (lexPrint l).2 := by
  unfold lexPrint
  exact StepSpec_read _ l { l with workingLine := [] } [] ⟨rfl, rfl, rfl, rfl⟩ (Sent_nil _)
    (by simp) rfl (by simp)

/-- Every state function satisfies the step summary. -/
theorem StepSpec_call (f : StateFn) (l : lexer) : StepSpec f l (f.call l).1 (f.call l).2 := by
  cases f with
  | lexReadFileLine =>
    exact StepSpec_read _ l l [] ⟨rfl, rfl, rfl, rfl⟩ (Sent_nil _) (by simp) rfl (le_refl _)
  | lexCheckLineType => exact StepSpec_lexCheckLineType l
  | lexLineContent => exact StepSpec_lexLineContent l
  | lexTagName => exact StepSpec_lexTagName l
  | lexTagArguments => exact StepSpec_lexTagArguments l
  | lexPrint => exact StepSpec_lexPrint l

/-! ## The driver loop: termination -/

theorem dropWhile_length_le (p : Char → Bool) (s : Str) : (s.dropWhile p).length ≤ s.length := by
  induction s with
  | nil => simp
  | cons c s ih =>
    rw [List.dropWhile_cons]
    split
    · simp only [List.length_cons]
      omega
    · exact le_refl _

theorem TrimSpace_length_le (s : Str) : (TrimSpace s).length ≤ s.length := by
  unfold TrimSpace
  rw [List.length_reverse]
  refine le_trans (dropWhile_length_le _ _) ?_
  rw [List.length_reverse]
  exact dropWhile_length_le _ _

theorem callsInLine_lt (f : StateFn) (l : lexer) :
    callsInLine f l < 2 * lineBudget f l + 8 := by
  cases f <;> simp only [callsInLine, lineBudget] <;> simp <;> omega

/-- Every call that returns a state function lowers the fuel bound. -/
theorem lexFuel_decreases {f g : StateFn} {l l1 : lexer} (h : f.call l = (l1, Next.fn g)) :
    lexFuel g l1 < lexFuel f l := by
  have hs := StepSpec_call f l
  rw [h] at hs
  change StepSpec f l l1 (Next.fn g) at hs
  obtain ⟨-, -, hs⟩ := hs
  by_cases hg : g = StateFn.lexCheckLineType
  · rw [if_pos hg] at hs
    subst hg
    obtain ⟨⟨hcur, hrd⟩, hwl⟩ := hs
    have hreads : readsLeft l = readsLeft l1 + 1 ∧
        lineBudget StateFn.lexCheckLineType l1 ≤ lineBudget f l := by
      rcases hrd with ⟨x, rest, h1, h2, h3, h4⟩ | ⟨h1, h2, h3, h4, h5⟩
      · have := TrimSpace_length_le x
        refine ⟨by simp [readsLeft, h1, h2, h4]; omega, ?_⟩
        simp only [lineBudget, if_true, h1, h2, h3, h4, hcur, List.map_cons, List.sum_cons]
        omega
      · refine ⟨by simp [readsLeft, h1, h2, h3, h5], ?_⟩
        simp only [lineBudget, if_true, h1, h2, h3, h4, h5, hcur, List.map_nil, List.sum_nil,
          List.length_nil]
        simp
        omega
    obtain ⟨hr, hb⟩ := hreads
    have hc := callsInLine_lt StateFn.lexCheckLineType l1
    have hm : readsLeft l1 * (2 * lineBudget StateFn.lexCheckLineType l1 + 8)
        ≤ readsLeft l1 * (2 * lineBudget f l + 8) :=
      Nat.mul_le_mul_left _ (by omega)
    unfold lexFuel
    rw [hr, Nat.add_mul, Nat.one_mul]
    omega
  · rw [if_neg hg] at hs
    obtain ⟨⟨h1, -, h3, -⟩, hb, hc⟩ := hs
    have hr : readsLeft l1 = readsLeft l := by simp [readsLeft, h1, h3]
    have hm : readsLeft l * (2 * lineBudget g l1 + 8) ≤ readsLeft l * (2 * lineBudget f l + 8) :=
      Nat.mul_le_mul_left _ (by omega)
    unfold lexFuel
    rw [hr]
    omega

theorem runLoop_succ_fn {f g : StateFn} {l l1 : lexer} (n : Nat)
    (h : f.call l = (l1, Next.fn g)) :
    runLoop (n + 1) f l =
      { calls := (f, l) :: (runLoop n g l1).calls, final := (runLoop n g l1).final,
        status := (runLoop n g l1).status } := by
  simp [runLoop, h]

theorem runLoop_succ_stop {f : StateFn} {l l1 : lexer} (n : Nat) (h : f.call l = (l1, Next.stop)) :
    runLoop (n + 1) f l = { calls := [(f, l)], final := l1, status := Status.finished } := by
  simp [runLoop, h]

theorem runLoop_succ_fault {f : StateFn} {l l1 : lexer} (n : Nat)
    (h : f.call l = (l1, Next.fault)) :
    runLoop (n + 1) f l = { calls := [(f, l)], final := l1, status := Status.faulted } := by
  simp [runLoop, h]

/-- The driver loop never runs out of fuel when given more than `lexFuel`. -/
theorem runLoop_terminates :
    ∀ (n : Nat) (f : StateFn) (l : lexer), lexFuel f l < n →
      (runLoop n f l).status ≠ Status.outOfFuel := by
  intro n
  induction n with
  | zero => intro f l h; omega
  | succ n ih =>
    intro f l h
    rcases hc : f.call l with ⟨l1, nx⟩
    cases nx with
    | stop => rw [runLoop_succ_stop n hc]; simp
    | fault => rw [runLoop_succ_fault n hc]; simp
    | fn g =>
      rw [runLoop_succ_fn n hc]
      have := lexFuel_decreases hc
      exact ih g l1 (by omega)

/-- A run that did not run out of fuel is the same with any larger fuel. -/
theorem runLoop_mono :
    ∀ (n : Nat) (f : StateFn) (l : lexer), (runLoop n f l).status ≠ Status.outOfFuel →
      ∀ m, n ≤ m → runLoop m f l = runLoop n f l := by
  intro n
  induction n with
  | zero => intro f l h; simp [runLoop] at h
  | succ n ih =>
    intro f l h m hm
    obtain ⟨m, rfl⟩ : ∃ k, m = k + 1 := ⟨m - 1, by omega⟩
    rcases hc : f.call l with ⟨l1, nx⟩
    cases nx with
    | stop => rw [runLoop_succ_stop n hc, runLoop_succ_stop m hc]
    | fault => rw [runLoop_succ_fault n hc, runLoop_succ_fault m hc]
    | fn g =>
      rw [runLoop_succ_fn n hc] at h
      rw [runLoop_succ_fn n hc, runLoop_succ_fn m hc, ih g l1 h m (by omega)]

/-- The state `LexStart` starts the driver loop on: the first line read. -/
theorem LexStart_eq (fh : List Str) :
    LexStart fh = runLoop (lexFuel StateFn.lexCheckLineType (lexReadFileLine (newLexer fh)).1 + 1)
      StateFn.lexCheckLineType (lexReadFileLine (newLexer fh)).1 := by
  unfold LexStart
  cases fh with
  | nil => rw [lexReadFileLine_last rfl rfl]
  | cons x rest => rw [lexReadFileLine_cons rfl]

/-- `LexStart` never runs out of fuel. -/
theorem LexStart_terminates (fh : List Str) : (LexStart fh).status ≠ Status.outOfFuel := by
  rw [LexStart_eq]
  exact runLoop_terminates _ _ _ (Nat.lt_succ_self _)

/-- A run of the driver loop from the first line read that did not run out of
    fuel is the run of `LexStart`. -/
theorem LexStart_eq_runLoop (fh : List Str) (n : Nat)
    (h : (runLoop n StateFn.lexCheckLineType (lexReadFileLine (newLexer fh)).1).status
      ≠ Status.outOfFuel) :
    LexStart fh = runLoop n StateFn.lexCheckLineType (lexReadFileLine (newLexer fh)).1 := by
  have ht := LexStart_terminates fh
  rw [LexStart_eq] at ht ⊢
  rcases Nat.le_total n (lexFuel StateFn.lexCheckLineType (lexReadFileLine (newLexer fh)).1 + 1)
    with hle | hle
  · exact runLoop_mono _ _ _ h _ hle
  · exact (runLoop_mono _ _ _ ht _ hle).symm

/-! ## The token stream ends with the end-of-file token -/

/-- While the channel is open and no EOF token has been sent, a run that
    finishes has sent exactly one EOF token, the last one, and has closed
    the channel. -/
theorem runLoop_eof_last :
    ∀ (n : Nat) (f : StateFn) (l : lexer), l.chanClosed = false → NoEOF l.tokenChan →
      (runLoop n f l).status = Status.finished →
      (runLoop n f l).final.chanClosed = true ∧
        ∃ ts, NoEOF ts ∧ (runLoop n f l).final.tokenChan = ts ++ [eofToken] := by
  intro n
  induction n with
  | zero => intro f l _ _ h; simp [runLoop] at h
  | succ n ih =>
    intro f l hc hno h
    have hs := StepSpec_call f l
    rcases hcall : f.call l with ⟨l1, nx⟩
    rw [hcall] at hs
    cases nx with
    | fault => rw [runLoop_succ_fault n hcall] at h; simp at h
    | stop =>
      change StepSpec f l l1 Next.stop at hs
      obtain ⟨-, -, -, hcl, ts, hts, htok⟩ := hs
      rw [runLoop_succ_stop n hcall]
      exact ⟨hcl, l.tokenChan ++ ts, NoEOF_append hno hts.1, htok⟩
    | fn g =>
      change StepSpec f l l1 (Next.fn g) at hs
      obtain ⟨hcl, ⟨ts, hts, htok⟩, -⟩ := hs
      rw [runLoop_succ_fn n hcall] at h ⊢
      exact ih g l1 (by rw [hcl, hc]) (by rw [htok]; exact NoEOF_append hno hts.1) h

theorem firstRead_open (fh : List Str) :
    (lexReadFileLine (newLexer fh)).1.chanClosed = false ∧
      (lexReadFileLine (newLexer fh)).1.tokenChan = [] := by
  cases fh with
  | nil => rw [lexReadFileLine_last rfl rfl]; exact ⟨rfl, rfl⟩
  | cons x rest => rw [lexReadFileLine_cons rfl]; exact ⟨rfl, rfl⟩

/-- C1 (amended): for every input, the run of `LexStart` ends (it never runs
    out of fuel); it either panics, or it finishes, and then the tokens sent
    are a list without EOF token followed by exactly one EOF token, after
    which the channel is closed. -/
theorem LexStart_eof_last_unless_fault (fh : List Str) :
    (LexStart fh).status = Status.faulted ∨
    ((LexStart fh).status = Status.finished ∧ (LexStart fh).final.chanClosed = true ∧
      ∃ ts, NoEOF ts ∧ (LexStart fh).tokens = ts ++ [eofToken]) := by
  have ht := LexStart_terminates fh
  cases hst : (LexStart fh).status with
  | faulted => exact Or.inl rfl
  | outOfFuel => exact absurd hst ht
  | finished =>
    right
    refine ⟨rfl, ?_⟩
    rw [LexStart_eq] at hst ⊢
    obtain ⟨hc, htok⟩ := firstRead_open fh
    exact runLoop_eof_last _ _ _ hc (by rw [htok]; exact NoEOF_nil) hst

/-- C1 (counterexample): on the input lines `a<b`, `<c>` the run sends the
    Description token `a<b` and then panics (index out of range in
    `lexTagName`): the token stream holds no EOF token. -/
theorem LexStart_fault_without_eof :
    (LexStart ["a<b".data, "<c>".data]).status = Status.faulted ∧
    (LexStart ["a<b".data, "<c>".data]).tokens
      = [Token.mk TokenType.tokenDescription "a<b".data] ∧
    eofToken ∉ (LexStart ["a<b".data, "<c>".data]).tokens := by
  decide

/-! ## Blank lines -/

/-- On an empty current line the classifier does nothing but return
    `lexReadFileLine`. -/
theorem lexCheckLineType_of_empty (l : lexer) (h : l.currentLine = []) :
    lexCheckLineType l = (l, Next.fn StateFn.lexReadFileLine) := by
  unfold lexCheckLineType
  rw [if_pos (by rw [h]; rfl)]

/-- C8: on a state whose current-line slot holds the trimmed form of a
    physical line `p` that is empty after trimming, `lexCheckLineType` returns
    the state unchanged (no token sent; working line, `firstLineFound`,
    `foundEqual` and `tagName` as before) and returns `lexReadFileLine`, the
    request for the next physical line. -/
theorem lexCheckLineType_blank (l : lexer) (p : Str) (hp : TrimSpace p = [])
    (hcur : l.currentLine = TrimSpace p) :
    lexCheckLineType l = (l, Next.fn StateFn.lexReadFileLine) :=
  lexCheckLineType_of_empty l (hcur.trans hp)

/-- C8 (witness): the blank line made of a space and a tab, met while a
    multi-line tag is open. -/
theorem lexCheckLineType_blank_witness :
    TrimSpace " \t".data = [] ∧
    lexCheckLineType { newLexer ["<b>".data] with
        currentLine := TrimSpace " \t".data, workingLine := " <a".data, firstLineFound := true }
      = ({ newLexer ["<b>".data] with
        currentLine := TrimSpace " \t".data, workingLine := " <a".data, firstLineFound := true },
        Next.fn StateFn.lexReadFileLine) :=
  ⟨by decide, lexCheckLineType_blank _ " \t".data (by decide) rfl⟩

/-! ## The classifier sees every line once -/

theorem expectedCalls_eq_zip (a : Str) (rest : List Str) :
    expectedCalls a rest false
      = List.zip (a :: rest.map TrimSpace) (rest.map TrimSpace ++ [[]]) := by
  induction rest generalizing a with
  | nil => simp [expectedCalls]
  | cons x rest ih => simp [expectedCalls, ih]

theorem classifierCalls_cons (f : StateFn) (l : lexer) (r : Run) :
    classifierCalls { calls := (f, l) :: r.calls, final := r.final, status := r.status }
      = (if f = StateFn.lexCheckLineType then [(l.currentLine, l.nextLine)] else [])
        ++ classifierCalls r := by
  unfold classifierCalls
  by_cases h : f = StateFn.lexCheckLineType <;> simp [List.filterMap_cons, h]

theorem runLoop_classifierCalls :
    ∀ (n : Nat) (f : StateFn) (l : lexer), (runLoop n f l).status = Status.finished →
      classifierCalls (runLoop n f l)
        = (if f = StateFn.lexCheckLineType then [(l.currentLine, l.nextLine)] else [])
          ++ expectedCalls l.nextLine l.fileReader l.EOF := by
  intro n
  induction n with
  | zero => intro f l h; simp [runLoop] at h
  | succ n ih =>
    intro f l h
    have hs := StepSpec_call f l
    rcases hcall : f.call l with ⟨l1, nx⟩
    rw [hcall] at hs
    cases nx with
    | fault => rw [runLoop_succ_fault n hcall] at h; simp at h
    | stop =>
      change StepSpec f l l1 Next.stop at hs
      obtain ⟨hrd, heof, -⟩ := hs
      rw [runLoop_succ_stop n hcall, hrd, heof]
      by_cases hf : f = StateFn.lexCheckLineType <;> simp [classifierCalls, hf, expectedCalls]
    | fn g =>
      change StepSpec f l l1 (Next.fn g) at hs
      obtain ⟨-, -, hs⟩ := hs
      rw [runLoop_succ_fn n hcall] at h ⊢
      rw [classifierCalls_cons, ih g l1 h]
      congr 1
      by_cases hg : g = StateFn.lexCheckLineType
      · rw [if_pos hg] at hs ⊢
        obtain ⟨⟨hcur, hrd⟩, -⟩ := hs
        rcases hrd with ⟨x, rest, h1, h2, h3, h4⟩ | ⟨h1, h2, h3, h4, h5⟩
        · rw [hcur, h1, h2, h3, h4]
          simp [expectedCalls]
        · rw [hcur, h1, h2, h3, h4, h5]
          simp [expectedCalls]
      · rw [if_neg hg] at hs ⊢
        obtain ⟨⟨h1, h2, h3, -⟩, -, -⟩ := hs
        rw [h1, h2, h3]
        simp

/-- While the channel is open and no EOF token has been sent, every state
    function of the run is called on a state in which no EOF token has been
    sent. -/
theorem runLoop_calls_NoEOF :
    ∀ (n : Nat) (f : StateFn) (l : lexer), l.chanClosed = false → NoEOF l.tokenChan →
      ∀ c ∈ (runLoop n f l).calls, NoEOF c.2.tokenChan := by
  intro n
  induction n with
  | zero => intro f l _ _ c hc; simp [runLoop] at hc
  | succ n ih =>
    intro f l hcl hno c hc
    have hs := StepSpec_call f l
    rcases hcall : f.call l with ⟨l1, nx⟩
    rw [hcall] at hs
    cases nx with
    | fault =>
      rw [runLoop_succ_fault n hcall] at hc
      simp only [List.mem_singleton] at hc
      subst hc
      exact hno
    | stop =>
      rw [runLoop_succ_stop n hcall] at hc
      simp only [List.mem_singleton] at hc
      subst hc
      exact hno
    | fn g =>
      change StepSpec f l l1 (Next.fn g) at hs
      obtain ⟨hcl1, ⟨ts, hts, htok⟩, -⟩ := hs
      rw [runLoop_succ_fn n hcall] at hc
      rcases List.mem_cons.1 hc with rfl | hc
      · exact hno
      · exact ih g l1 (by rw [hcl1, hcl]) (by rw [htok]; exact NoEOF_append hno hts.1) c hc

/-- On a list `fh` of slices handed over by the reader, on which the run
    does not panic, the line classifier is called with the current-line
    values `""`, `trim L_1`, ..., `trim L_n`, in this order and each once,
    the lookahead slot holding the next trimmed slice, and `""` after the
    last; and no EOF token has been sent when a state function, the
    classifier on the last slice included, is called. -/
theorem LexStart_classifierCalls (fh : List Str) (h : (LexStart fh).status ≠ Status.faulted) :
    classifierCalls (LexStart fh)
        = List.zip ([] :: fh.map TrimSpace) (fh.map TrimSpace ++ [[]]) ∧
      ∀ c ∈ (LexStart fh).calls, NoEOF c.2.tokenChan := by
  have hfin : (LexStart fh).status = Status.finished := by
    have ht := LexStart_terminates fh
    cases hst : (LexStart fh).status with
    | faulted => exact absurd hst h
    | outOfFuel => exact absurd hst ht
    | finished => rfl
  rw [LexStart_eq] at hfin ⊢
  obtain ⟨hc, htok⟩ := firstRead_open fh
  refine ⟨?_, runLoop_calls_NoEOF _ _ _ hc (by rw [htok]; exact NoEOF_nil)⟩
  rw [runLoop_classifierCalls _ _ _ hfin, if_pos rfl]
  cases fh with
  | nil =>
    rw [lexReadFileLine_last rfl rfl]
    simp [newLexer, expectedCalls]
  | cons x rest =>
    rw [lexReadFileLine_cons rfl]
    simp [newLexer, expectedCalls_eq_zip]

/-- The three lines of a tag split over two lines and its end tag, with
    blanks around them, are classified in order. -/
theorem LexStart_classifierCalls_witness :
    (LexStart [" <a".data, "b=\"1\"> ".data, "</a>".data]).status ≠ Status.faulted ∧
    classifierCalls (LexStart [" <a".data, "b=\"1\"> ".data, "</a>".data])
      = [("".data, "<a".data), ("<a".data, "b=\"1\">".data), ("b=\"1\">".data, "</a>".data),
          ("</a>".data, "".data)] :=
  ⟨by decide, (LexStart_classifierCalls _ (by decide)).1.trans (by decide)⟩

/-! ## The scanner loop, character by character -/

theorem lexLineContent_end {l : lexer} (h : l.workingLine.length ≤ l.workingPosition) :
    lexLineContent l = lexLineContentEnd l := by
  rw [lexLineContent_loop]
  unfold lexLineContentBody
  rw [show l.workingLine[l.workingPosition]? = none from by simpa using h]

theorem lexLineContent_plain {l : lexer} {c : Char}
    (hc : l.workingLine[l.workingPosition]? = some c) (h1 : c ≠ '<') (h2 : c ≠ '>')
    (h3 : c ≠ '=') :
    lexLineContent l = lexLineContent { l with workingPosition := l.workingPosition + 1 } := by
  rw [lexLineContent_loop]
  unfold lexLineContentBody
  rw [hc]
  dsimp only
  rw [if_neg h1, if_neg h2, if_neg h3]

theorem lexLineContent_gt {l : lexer} (hc : l.workingLine[l.workingPosition]? = some '>')
    (hopen : l.chanClosed = false) :
    lexLineContent l = lexLineContent (advance l 1 (selfClosing l)) := by
  rw [lexLineContent_loop]
  unfold lexLineContentBody
  rw [hc]
  dsimp only
  rw [if_neg (by decide), if_pos rfl]
  unfold sendEndTagIf selfClosing advance
  by_cases h1 : Contains l.workingLine ['/', '>'] = true <;>
    by_cases h2 : Contains l.workingLine ['?', '>'] = true <;>
    simp [h1, h2, tokenSendChannel, hopen]

theorem lexLineContent_at_eq {l : lexer} (hc : l.workingLine[l.workingPosition]? = some '=') :
    lexLineContent l = ({ l with foundEqual := true }, Next.fn StateFn.lexTagArguments) := by
  rw [lexLineContent_loop]
  unfold lexLineContentBody
  rw [hc]
  dsimp only
  rw [if_neg (by decide), if_neg (by decide), if_pos rfl]

theorem lexLineContent_at_comment {l : lexer}
    (h0 : l.workingLine[l.workingPosition]? = some '<')
    (h1 : l.workingLine[l.workingPosition + 1]? = some '!')
    (h2 : l.workingLine[l.workingPosition + 2]? = some '-')
    (h3 : l.workingLine[l.workingPosition + 3]? = some '-') :
    lexLineContent l = lexReadFileLine l := by
  rw [lexLineContent_loop]
  unfold lexLineContentBody
  rw [h0]
  dsimp only
  rw [if_pos rfl, h1]
  dsimp only
  rw [if_neg (by decide), if_pos rfl, h2]
  dsimp only
  rw [if_pos rfl, h3]
  dsimp only
  rw [if_pos rfl]

theorem lexLineContent_at_start {l : lexer} {c : Char}
    (h0 : l.workingLine[l.workingPosition]? = some '<')
    (h1 : l.workingLine[l.workingPosition + 1]? = some c) (hs : c ≠ '/') (hb : c ≠ '!') :
    lexLineContent l
      = ({ l with tagTypeIs := tagType.startTag }, Next.fn StateFn.lexTagName) := by
  rw [lexLineContent_loop]
  unfold lexLineContentBody
  rw [h0]
  dsimp only
  rw [if_pos rfl, h1]
  dsimp only
  rw [if_neg hs, if_neg hb]

theorem lexLineContent_at_stop_text {l : lexer}
    (h0 : l.workingLine[l.workingPosition]? = some '<')
    (h1 : l.workingLine[l.workingPosition + 1]? = some '/') (hf : l.foundEqual = false)
    (ht : lexTextBetweenTags l ≠ []) (hopen : l.chanClosed = false) :
    lexLineContent l
      = ({ l with
          tokenChan := l.tokenChan ++
            [Token.mk TokenType.tokenJustText (TrimSpace (lexTextBetweenTags l))],
          tagTypeIs := tagType.stopTag }, Next.fn StateFn.lexTagName) := by
  rw [lexLineContent_loop]
  unfold lexLineContentBody
  rw [h0]
  dsimp only
  rw [if_pos rfl, h1]
  dsimp only
  rw [if_pos rfl, if_pos (by simp [hf]), if_pos ht, tokenSendChannel_open hopen]

theorem lexLineContent_at_stop_notext {l : lexer}
    (h0 : l.workingLine[l.workingPosition]? = some '<')
    (h1 : l.workingLine[l.workingPosition + 1]? = some '/')
    (h : l.foundEqual = true ∨ lexTextBetweenTags l = []) :
    lexLineContent l
      = ({ l with tagTypeIs := tagType.stopTag }, Next.fn StateFn.lexTagName) := by
  rw [lexLineContent_loop]
  unfold lexLineContentBody
  rw [h0]
  dsimp only
  rw [if_pos rfl, h1]
  dsimp only
  rw [if_pos rfl]
  rcases h with h | h
  · rw [if_neg (by simp [h])]
  · by_cases hf : (!l.foundEqual) = true
    · rw [if_pos hf, if_neg (by simp [h])]
    · rw [if_neg hf]

/-- The scanner loop passes a stretch of the working line that holds no `<`,
    `>` or `=` without any effect but moving the cursor. -/
theorem lexLineContent_skip (seg : Str) :
    ∀ (l : lexer) (A R : Str), l.workingLine = A ++ (seg ++ R) → l.workingPosition = A.length →
      (∀ c ∈ seg, c ≠ '<' ∧ c ≠ '>' ∧ c ≠ '=') →
      lexLineContent l
        = lexLineContent { l with workingPosition := A.length + seg.length } := by
  induction seg with
  | nil =>
    intro l A R _ hpos _
    have : ({ l with workingPosition := A.length + ([] : Str).length } : lexer) = l := by
      cases l
      simp only [List.length_nil, Nat.add_zero] at hpos ⊢
      simp [hpos]
    rw [this]
  | cons c seg ih =>
    intro l A R hwl hpos hplain
    obtain ⟨h1, h2, h3⟩ := hplain c (List.mem_cons_self _ _)
    have hc : l.workingLine[l.workingPosition]? = some c := by
      rw [hwl, hpos, List.cons_append]
      exact getElem?_append_cons A c _
    rw [lexLineContent_plain hc h1 h2 h3]
    rw [ih { l with workingPosition := l.workingPosition + 1 } (A ++ [c]) R
      (by simp [hwl]) (by simp [hpos]) (fun d hd => hplain d (List.mem_cons_of_mem _ hd))]
    simp [Nat.add_assoc, Nat.add_comm 1]

/-! ## Comments -/

theorem lexReadFileLine_workingPosition (l : lexer) (k : Nat) :
    lexReadFileLine { l with workingPosition := k } = lexReadFileLine l :=
  rfl

/-- C7 (amended): when the cursor stands at `A` in a working line and only
    characters other than `<`, `>` and `=` separate it from a comment marker
    `<!--` (in particular when the line begins with the marker), the scanner
    does exactly what `lexReadFileLine` does: it abandons the line without
    sending a token for it and reads the next physical line; if the input is
    not exhausted, it returns the line classifier and the channel holds the
    same tokens as before. -/
theorem lexLineContent_comment_skips (l : lexer) (A pre rest : Str)
    (hwl : l.workingLine = A ++ (pre ++ '<' :: '!' :: '-' :: '-' :: rest))
    (hpos : l.workingPosition = A.length)
    (hpre : ∀ c ∈ pre, c ≠ '<' ∧ c ≠ '>' ∧ c ≠ '=') :
    lexLineContent l = lexReadFileLine l ∧
      (l.fileReader ≠ [] ∨ l.EOF = false →
        (lexLineContent l).2 = Next.fn StateFn.lexCheckLineType ∧
          (lexLineContent l).1.tokenChan = l.tokenChan) := by
  have hskip := lexLineContent_skip pre l A _ hwl hpos hpre
  have hwl2 : l.workingLine = (A ++ pre) ++ '<' :: '!' :: '-' :: '-' :: rest := by
    rw [hwl, List.append_assoc]
  have key : lexLineContent l = lexReadFileLine l := by
    rw [hskip, ← List.length_append]
    rw [lexLineContent_at_comment (l := { l with workingPosition := (A ++ pre).length })
      (by rw [hwl2]; exact getElem?_append_cons _ _ _)
      (by
        show l.workingLine[(A ++ pre).length + 1]? = some '!'
        rw [hwl2, List.getElem?_append_right (by omega)]
        simp)
      (by
        show l.workingLine[(A ++ pre).length + 2]? = some '-'
        rw [hwl2, List.getElem?_append_right (by omega)]
        simp)
      (by
        show l.workingLine[(A ++ pre).length + 3]? = some '-'
        rw [hwl2, List.getElem?_append_right (by omega)]
        simp)]
    rfl
  refine ⟨key, ?_⟩
  intro hmore
  rw [key]
  cases hr : l.fileReader with
  | cons x tl =>
    rw [lexReadFileLine_cons hr]
    exact ⟨rfl, rfl⟩
  | nil =>
    have he : l.EOF = false := by
      rcases hmore with h | h
      · exact absurd hr h
      · exact h
    rw [lexReadFileLine_last hr he]
    exact ⟨rfl, rfl⟩

/-- C7 (witness): the comment line `<!-- c -->`, handed to the scanner with
    the line `<a>` in the lookahead slot. -/
theorem lexLineContent_comment_skips_witness :
    lexLineContent { newLexer ["<b>".data] with
        currentLine := "<!-- c -->".data, nextLine := "<a>".data,
        workingLine := "<!-- c -->".data }
      = lexReadFileLine { newLexer ["<b>".data] with
        currentLine := "<!-- c -->".data, nextLine := "<a>".data,
        workingLine := "<!-- c -->".data } ∧
    (lexLineContent { newLexer ["<b>".data] with
        currentLine := "<!-- c -->".data, nextLine := "<a>".data,
        workingLine := "<!-- c -->".data }).1.tokenChan = [] :=
  ⟨(lexLineContent_comment_skips _ [] [] " c -->".data rfl rfl (by decide)).1,
    ((lexLineContent_comment_skips _ [] [] " c -->".data rfl rfl (by decide)).2
      (Or.inl (by decide))).2⟩

/-- C7 (counterexample): the one-line input `<a><!-- x -->` is a logical line
    that contains the comment marker, and the token StartTag `a` is sent for
    it. -/
theorem LexStart_comment_after_tag :
    (LexStart ["<a><!-- x -->".data]).tokens
      = [Token.mk TokenType.tokenStartTag "a".data, eofToken] := by
  decide

/-! ## Self-closing tags -/

theorem selfClosing_advance (l : lexer) (k : Nat) (ts : List Token) :
    selfClosing (advance l k ts) = selfClosing l :=
  rfl

/-- C10 (amended): while the scanner loop passes a stretch `seg` of the
    working line that holds no `<` and no `=`, it sends, for each `>` of the
    stretch, the tokens of `selfClosing`: one EndTag carrying the current tag
    name if the line contains `/>`, and one more if the line contains `?>`. -/
theorem lexLineContent_pass (seg : Str) :
    ∀ (l : lexer) (A R : Str), l.chanClosed = false → l.workingLine = A ++ (seg ++ R) →
      l.workingPosition = A.length → (∀ c ∈ seg, c ≠ '<' ∧ c ≠ '=') →
      lexLineContent l = lexLineContent
        (advance l seg.length (List.replicate (seg.count '>') (selfClosing l)).flatten) := by
  induction seg with
  | nil =>
    intro l A R _ _ _ _
    simp [advance_zero]
  | cons c seg ih =>
    intro l A R hopen hwl hpos hseg
    obtain ⟨h1, h3⟩ := hseg c (List.mem_cons_self _ _)
    have hc : l.workingLine[l.workingPosition]? = some c := by
      rw [hwl, hpos, List.cons_append]
      exact getElem?_append_cons A c _
    have hrest : ∀ d ∈ seg, d ≠ '<' ∧ d ≠ '=' := fun d hd => hseg d (List.mem_cons_of_mem _ hd)
    by_cases h2 : c = '>'
    · subst h2
      rw [lexLineContent_gt hc hopen]
      rw [ih (advance l 1 (selfClosing l)) (A ++ ['>']) R hopen (by simp [advance, hwl])
        (by simp [advance, hpos]) hrest]
      rw [selfClosing_advance, advance_advance, List.count_cons_self, List.replicate_succ,
        List.flatten_cons, List.length_cons, Nat.add_comm 1]
    · have hadv : ({ l with workingPosition := l.workingPosition + 1 } : lexer)
          = advance l 1 [] := by
        simp [advance]
      rw [lexLineContent_plain hc h1 h2 h3, hadv]
      rw [ih (advance l 1 []) (A ++ [c]) R hopen (by simp [advance, hwl])
        (by simp [advance, hpos]) hrest]
      rw [selfClosing_advance, advance_advance, List.count_cons_of_ne (Ne.symm h2),
        List.nil_append, List.length_cons, Nat.add_comm 1]

/-- C10 (witness): at the `>` of the working line `<a />`, with the tag name
    `a` captured, one pass sends one EndTag `a`. -/
theorem lexLineContent_pass_witness :
    lexLineContent { newLexer [] with
        workingLine := "<a />".data, workingPosition := 4, tagName := "a".data }
      = lexLineContent (advance { newLexer [] with
          workingLine := "<a />".data, workingPosition := 4, tagName := "a".data } 1
        [Token.mk TokenType.tokenEndTag "a".data]) :=
  (lexLineContent_pass ">".data _ "<a /".data [] rfl rfl rfl (by decide)).trans (by decide)

/-- C10 (counterexample): the logical line `<?x ?><a />` holds no end tag
    `</...>`, it contains both `?>` and `/>` and two `>`, and four
    self-closing EndTag tokens are sent for it, two for each `>`. -/
theorem LexStart_self_closing_four_times :
    (LexStart ["<?x ?><a />".data]).tokens
      = [Token.mk TokenType.tokenStartTag "?x".data,
          Token.mk TokenType.tokenEndTag "?x".data, Token.mk TokenType.tokenEndTag "?x".data,
          Token.mk TokenType.tokenStartTag "a".data,
          Token.mk TokenType.tokenEndTag "a".data, Token.mk TokenType.tokenEndTag "a".data,
          eofToken] := by
  decide

/-- C3 (the code at the failing input): on the one-line input `<a/>` both tag
    tokens carry the name `a/`, the slash included, and not the name `a`. -/
theorem LexStart_self_closing_name :
    (LexStart ["<a/>".data]).tokens
      = [Token.mk TokenType.tokenStartTag "a/".data, Token.mk TokenType.tokenEndTag "a/".data,
          eofToken] := by
  decide

/-! ## Description blocks -/

theorem head?_dropWhile_false (p : Char → Bool) (s : Str) (c : Char)
    (h : (s.dropWhile p).head? = some c) : p c = false := by
  have := List.head?_dropWhile_not p s
  rw [h] at this
  simpa using this

theorem getLast?_of_suffix {D R : Str} (h : D <:+ R) (hD : D ≠ []) :
    D.getLast? = R.getLast? := by
  obtain ⟨t, rfl⟩ := h
  rw [List.getLast?_append]
  obtain ⟨c, hc⟩ : ∃ c, D.getLast? = some c := by
    rcases List.eq_nil_or_concat D with h | ⟨L, c, rfl⟩
    · exact absurd h hD
    · exact ⟨c, by simp⟩
  rw [hc]
  rfl

/-- A trimmed line does not end with white space. -/
theorem TrimSpace_getLast? (p : Str) (c : Char) (h : (TrimSpace p).getLast? = some c) :
    isSpace c = false := by
  unfold TrimSpace at h
  rw [List.getLast?_reverse] at h
  exact head?_dropWhile_false _ _ _ h

/-- A trimmed line does not start with white space. -/
theorem TrimSpace_head? (p : Str) (c : Char) (h : (TrimSpace p).head? = some c) :
    isSpace c = false := by
  unfold TrimSpace at h
  rw [List.head?_reverse] at h
  have hne : ((p.dropWhile isSpace).reverse.dropWhile isSpace) ≠ [] := by
    intro h0
    rw [h0] at h
    simp at h
  rw [getLast?_of_suffix (List.dropWhile_suffix _) hne, List.getLast?_reverse] at h
  exact head?_dropWhile_false _ _ _ h

/-- The text of the Description token of a block of two trimmed lines. -/
theorem TrimSpace_block (p1 p2 : Str) (h1 : TrimSpace p1 ≠ []) (h2 : TrimSpace p2 ≠ []) :
    TrimSpace ([] ++ [' '] ++ TrimSpace p1 ++ [' '] ++ TrimSpace p2)
      = TrimSpace p1 ++ ' ' :: TrimSpace p2 := by
  have e : ([] : Str) ++ [' '] ++ TrimSpace p1 ++ [' '] ++ TrimSpace p2
      = ' ' :: (TrimSpace p1 ++ ' ' :: TrimSpace p2) := by simp
  rw [e, TrimSpace_cons_space _ (by decide)]
  apply TrimSpace_eq_self
  · intro c hc
    rw [List.head?_append_of_ne_nil _ h1] at hc
    exact TrimSpace_head? p1 c hc
  · intro c hc
    have : (TrimSpace p1 ++ ' ' :: TrimSpace p2).getLast? = (TrimSpace p2).getLast? := by
      rw [show TrimSpace p1 ++ ' ' :: TrimSpace p2 = (TrimSpace p1 ++ [' ']) ++ TrimSpace p2 by simp]
      exact getLast?_of_suffix (List.suffix_append _ _) h2 |>.symm
    rw [this] at hc
    exact TrimSpace_getLast? p2 c hc

theorem lexCheckLineType_description_mid (l : lexer) (hne : l.currentLine ≠ [])
    (hs : HasPrefix l.currentLine ['<'] = false) (he : HasSuffix l.currentLine ['>'] = false)
    (hflf : l.firstLineFound = false) (hn : HasPrefix l.nextLine ['<'] = false) :
    lexCheckLineType l
      = ({ l with workingLine := l.workingLine ++ [' '] ++ l.currentLine },
          Next.fn StateFn.lexReadFileLine) := by
  have hlen : ¬ l.currentLine.length = 0 := fun h => hne (List.length_eq_zero.1 h)
  unfold lexCheckLineType
  simp [hflf, hlen, hs, he, hn]

theorem lexCheckLineType_description_end (l : lexer) (hne : l.currentLine ≠ [])
    (hs : HasPrefix l.currentLine ['<'] = false) (he : HasSuffix l.currentLine ['>'] = false)
    (hflf : l.firstLineFound = false) (hn : HasPrefix l.nextLine ['<'] = true)
    (hopen : l.chanClosed = false) :
    lexCheckLineType l
      = ({ l with
          workingLine := l.workingLine ++ [' '] ++ l.currentLine,
          tokenChan := l.tokenChan ++ [Token.mk TokenType.tokenDescription
            (TrimSpace (l.workingLine ++ [' '] ++ l.currentLine))] },
          Next.fn StateFn.lexLineContent) := by
  have hlen : ¬ l.currentLine.length = 0 := fun h => hne (List.length_eq_zero.1 h)
  unfold lexCheckLineType
  simp only [hflf, hlen, hs, he, hn, if_false, Bool.false_and, Bool.not_false, Bool.and_self,
    Bool.not_true, Bool.and_false, Bool.and_true, Bool.true_and, if_true, Bool.false_eq_true]
  rw [tokenSendChannel_open (by exact hopen)]

/-- A block of three free-text lines: in the input `w`, `x`, `y`, `<a>` the
    text of the Description token is `w x y`. -/
theorem LexStart_description_three_lines :
    (LexStart ["w".data, "x".data, "y".data, "<a>".data]).tokens
      = [Token.mk TokenType.tokenDescription "w x y".data,
          Token.mk TokenType.tokenStartTag "a".data, eofToken] := by
  decide

/-! ## Tag names -/

theorem lexTagNameLoop_name (s : Str) (name : Str) :
    ∀ (B R : Str) (d : Char) (n : Nat) (tn : Str), s = B ++ (name ++ d :: R) →
      (∀ c ∈ name, c ≠ ' ' ∧ c ≠ '>') → (d = ' ' ∨ d = '>') → name.length < n →
      lexTagNameLoop s n B.length tn = some (B.length + name.length, tn ++ name) := by
  induction name with
  | nil =>
    intro B R d n tn hs _ hd hn
    obtain ⟨n, rfl⟩ : ∃ k, n = k + 1 := ⟨n - 1, by simp at hn; omega⟩
    have hc : s[B.length]? = some d := by
      rw [hs]
      exact getElem?_append_cons B d R
    unfold lexTagNameLoop
    rw [hc]
    rcases hd with rfl | rfl <;> simp
  | cons c name ih =>
    intro B R d n tn hs hname hd hn
    obtain ⟨n, rfl⟩ : ∃ k, n = k + 1 := ⟨n - 1, by simp at hn; omega⟩
    have hc : s[B.length]? = some c := by
      rw [hs, List.cons_append]
      exact getElem?_append_cons B c _
    obtain ⟨h1, h2⟩ := hname c (List.mem_cons_self _ _)
    unfold lexTagNameLoop
    rw [hc]
    dsimp only
    rw [if_neg h1, if_neg h2]
    have := ih (B ++ [c]) R d n (tn ++ [c]) (by simp [hs])
      (fun x hx => hname x (List.mem_cons_of_mem _ hx)) hd (by simp at hn; omega)
    simp only [List.length_append, List.length_singleton] at this
    rw [this]
    simp [Nat.add_assoc, Nat.add_comm 1]

/-- `lexTagName` at the `<` of a start tag: the name runs up to the first
    space or `>`. -/
theorem lexTagName_start (l : lexer) (A name R : Str) (d : Char)
    (hwl : l.workingLine = A ++ '<' :: (name ++ d :: R)) (hpos : l.workingPosition = A.length)
    (hname : ∀ c ∈ name, c ≠ ' ' ∧ c ≠ '>' ∧ c ≠ '/') (hd : d = ' ' ∨ d = '>')
    (htt : l.tagTypeIs = tagType.startTag) (hopen : l.chanClosed = false) :
    lexTagName l = ({ l with
      workingPosition := A.length + 1 + name.length, tagName := name,
      tokenChan := l.tokenChan ++ [Token.mk TokenType.tokenStartTag (TrimSpace name)] },
      Next.fn StateFn.lexLineContent) := by
  obtain ⟨c0, hc0, hne⟩ : ∃ c0, l.workingLine[l.workingPosition + 1]? = some c0 ∧ c0 ≠ '/' := by
    rw [hwl, hpos, List.getElem?_append_right (by omega)]
    cases name with
    | nil =>
      refine ⟨d, by simp, ?_⟩
      rcases hd with rfl | rfl <;> decide
    | cons c name => exact ⟨c, by simp, (hname c (List.mem_cons_self _ _)).2.2⟩
  have hloop := lexTagNameLoop_name l.workingLine name (A ++ ['<']) R d
    (l.workingLine.length - (l.workingPosition + 1)) []
    (by simp [hwl]) (fun c hc => ⟨(hname c hc).1, (hname c hc).2.1⟩) hd
    (by simp [hwl, hpos]; omega)
  simp only [List.length_append, List.length_singleton, List.nil_append] at hloop
  unfold lexTagName
  dsimp only
  rw [hc0]
  dsimp only
  rw [if_neg hne]
  dsimp only
  rw [hpos] at hloop ⊢
  rw [hloop]
  dsimp only
  rw [htt]
  dsimp only
  rw [tokenSendChannel_open (by exact hopen)]

/-- `lexTagName` at the `<` of a stop tag: the `/` is skipped, and the name
    runs up to the first space or `>`. -/
theorem lexTagName_stop (l : lexer) (A name R : Str) (d : Char)
    (hwl : l.workingLine = A ++ '<' :: '/' :: (name ++ d :: R))
    (hpos : l.workingPosition = A.length)
    (hname : ∀ c ∈ name, c ≠ ' ' ∧ c ≠ '>') (hd : d = ' ' ∨ d = '>')
    (htt : l.tagTypeIs = tagType.stopTag) (hopen : l.chanClosed = false) :
    lexTagName l = ({ l with
      workingPosition := A.length + 2 + name.length, tagName := name,
      tokenChan := l.tokenChan ++ [Token.mk TokenType.tokenEndTag (TrimSpace name)] },
      Next.fn StateFn.lexLineContent) := by
  have hc0 : l.workingLine[l.workingPosition + 1]? = some '/' := by
    rw [hwl, hpos, List.getElem?_append_right (by omega)]
    simp
  have hloop := lexTagNameLoop_name l.workingLine name (A ++ ['<', '/']) R d
    (l.workingLine.length - (l.workingPosition + 1 + 1)) []
    (by simp [hwl]) hname hd
    (by simp [hwl, hpos]; omega)
  simp only [List.length_append, List.length_cons, List.length_singleton, List.length_nil,
    List.nil_append] at hloop
  unfold lexTagName
  dsimp only
  rw [hc0]
  dsimp only
  rw [if_pos rfl]
  dsimp only
  rw [hpos] at hloop ⊢
  rw [show A.length + 1 + 1 = A.length + (0 + 1 + 1) by omega, hloop]
  dsimp only
  rw [htt]
  dsimp only
  rw [tokenSendChannel_open (by exact hopen)]

/-! ## The text between two tags -/

theorem lexTextBetweenTagsLoop_done (s : Str) (n pos a b : Nat) (h : s.length ≤ pos) :
    lexTextBetweenTagsLoop s n pos a b = (a, b) := by
  cases n with
  | zero => rfl
  | succ n =>
    unfold lexTextBetweenTagsLoop
    rw [show s[pos]? = none from by simpa using h]

theorem lexTextBetweenTagsLoop_step (s : Str) (n pos a b : Nat) (c : Char)
    (hc : s[pos]? = some c) (hn : 0 < n) :
    lexTextBetweenTagsLoop s n pos a b =
      if c = '<' ∧ pos = 0 then lexTextBetweenTagsLoop s (n - 1) (pos + 1) a b
      else if c = '>' ∧ pos + 1 = s.length then lexTextBetweenTagsLoop s (n - 1) (pos + 1) a b
      else if c = '>' then lexTextBetweenTagsLoop s (n - 1) (pos + 1) (pos + 1) b
      else if c = '<' then lexTextBetweenTagsLoop s (n - 1) (pos + 1) a (pos - 1)
      else lexTextBetweenTagsLoop s (n - 1) (pos + 1) a b := by
  obtain ⟨n, rfl⟩ : ∃ k, n = k + 1 := ⟨n - 1, by omega⟩
  rw [lexTextBetweenTagsLoop, hc]
  rfl

theorem lexTextBetweenTagsLoop_plain (s : Str) (seg : Str) :
    ∀ (B R : Str) (n pos a b : Nat), s = B ++ (seg ++ R) → pos = B.length →
      (∀ c ∈ seg, c ≠ '<' ∧ c ≠ '>') → seg.length ≤ n →
      lexTextBetweenTagsLoop s n pos a b
        = lexTextBetweenTagsLoop s (n - seg.length) (pos + seg.length) a b := by
  induction seg with
  | nil => intro B R n pos a b _ _ _ _; rfl
  | cons c seg ih =>
    intro B R n pos a b hs hpos hseg hn
    obtain ⟨h1, h2⟩ := hseg c (List.mem_cons_self _ _)
    have hc : s[pos]? = some c := by
      rw [hs, hpos, List.cons_append]
      exact getElem?_append_cons B c _
    simp only [List.length_cons] at hn
    rw [lexTextBetweenTagsLoop_step s n pos a b c hc (by omega)]
    rw [if_neg (by simp [h1]), if_neg (by simp [h2]), if_neg h2, if_neg h1]
    rw [ih (B ++ [c]) R (n - 1) (pos + 1) a b (by simp [hs]) (by simp [hpos])
      (fun x hx => hseg x (List.mem_cons_of_mem _ hx)) (by omega)]
    simp only [List.length_cons]
    rw [show n - 1 - seg.length = n - (seg.length + 1) by omega,
      show pos + 1 + seg.length = pos + (seg.length + 1) by omega]

/-- In the line `<t>X</t>` the text between the tags is `X`. -/
theorem lexTextBetweenTags_pair (l : lexer) (t X : Str)
    (hwl : l.workingLine = '<' :: (t ++ '>' :: (X ++ '<' :: '/' :: (t ++ ['>']))))
    (ht : ∀ c ∈ t, c ≠ '<' ∧ c ≠ '>') (hX : ∀ c ∈ X, c ≠ '<' ∧ c ≠ '>')
    (hf : l.foundEqual = false) : lexTextBetweenTags l = X := by
  have hlen : l.workingLine.length = t.length + X.length + t.length + 5 := by
    simp [hwl]
    omega
  have hloop : lexTextBetweenTagsLoop l.workingLine l.workingLine.length 0 0 0
      = (t.length + 2, t.length + X.length + 1) := by
    rw [lexTextBetweenTagsLoop_step _ _ 0 0 0 '<' (by simp [hwl]) (by omega)]
    rw [if_pos ⟨rfl, rfl⟩]
    rw [lexTextBetweenTagsLoop_plain _ t ['<'] ('>' :: (X ++ '<' :: '/' :: (t ++ ['>']))) _
      (0 + 1) 0 0 (by simpa using hwl) rfl ht (by omega)]
    rw [lexTextBetweenTagsLoop_step _ _ _ 0 0 '>'
      (by
        rw [hwl, show 0 + 1 + t.length = ('<' :: t).length by simp; omega]
        exact getElem?_append_cons ('<' :: t) '>' _) (by omega)]
    rw [if_neg (by simp), if_neg (by rw [hlen]; simp; omega), if_pos rfl]
    rw [lexTextBetweenTagsLoop_plain _ X ('<' :: t ++ ['>']) ('<' :: '/' :: (t ++ ['>'])) _
      (0 + 1 + t.length + 1) _ 0 (by simp [hwl]) (by simp; omega) hX (by omega)]
    rw [lexTextBetweenTagsLoop_step _ _ _ _ 0 '<'
      (by
        rw [hwl, show 0 + 1 + t.length + 1 + X.length = ('<' :: t ++ '>' :: X).length by
          simp; omega]
        have e : '<' :: (t ++ '>' :: (X ++ '<' :: '/' :: (t ++ ['>'])))
            = ('<' :: t ++ '>' :: X) ++ '<' :: ('/' :: (t ++ ['>'])) := by simp
        rw [e]
        exact getElem?_append_cons _ '<' _) (by omega)]
    rw [if_neg (by simp), if_neg (by simp), if_neg (by decide), if_pos rfl]
    rw [lexTextBetweenTagsLoop_plain _ ('/' :: t) ('<' :: t ++ '>' :: X ++ ['<']) ['>'] _
      (0 + 1 + t.length + 1 + X.length + 1) _ _
      (by simp [hwl]) (by simp; omega)
      (by
        intro c hc
        rcases List.mem_cons.1 hc with rfl | hc
        · exact ⟨by decide, by decide⟩
        · exact ht c hc) (by simp; omega)]
    rw [lexTextBetweenTagsLoop_step _ _ _ _ _ '>'
      (by
        rw [hwl, show 0 + 1 + t.length + 1 + X.length + 1 + ('/' :: t).length
          = ('<' :: t ++ '>' :: X ++ '<' :: '/' :: t).length by simp; omega]
        have e : '<' :: (t ++ '>' :: (X ++ '<' :: '/' :: (t ++ ['>'])))
            = ('<' :: t ++ '>' :: X ++ '<' :: '/' :: t) ++ ['>'] := by simp
        rw [e]
        exact getElem?_append_cons _ '>' _) (by simp; omega)]
    rw [if_neg (by simp), if_pos ⟨rfl, by rw [hlen]; simp; omega⟩]
    rw [lexTextBetweenTagsLoop_done _ _ _ _ _ (by rw [hlen]; simp; omega)]
    simp only [Prod.mk.injEq]
    constructor <;> omega
  unfold lexTextBetweenTags
  rw [if_pos (by simp [hf])]
  dsimp only
  rw [hloop]
  dsimp only
  rw [if_pos (Or.inl (by omega))]
  rw [show t.length + X.length + 1 + 1 - (t.length + 2) = X.length by omega]
  have e : l.workingLine = ('<' :: t ++ ['>']) ++ (X ++ '<' :: '/' :: (t ++ ['>'])) := by
    simp [hwl]
  rw [e, show t.length + 2 = ('<' :: t ++ ['>']).length by simp]
  exact drop_take_middle _ _ _

/-- In a line that is a single tag, `<...>` with no other angle bracket,
    there is no text between tags. -/
theorem lexTextBetweenTags_single (l : lexer) (mid : Str)
    (hwl : l.workingLine = '<' :: (mid ++ ['>'])) (hmid : ∀ c ∈ mid, c ≠ '<' ∧ c ≠ '>') :
    lexTextBetweenTags l = [] := by
  have hlen : l.workingLine.length = mid.length + 2 := by simp [hwl]
  have hloop : lexTextBetweenTagsLoop l.workingLine l.workingLine.length 0 0 0 = (0, 0) := by
    rw [lexTextBetweenTagsLoop_step _ _ 0 0 0 '<' (by simp [hwl]) (by omega)]
    rw [if_pos ⟨rfl, rfl⟩]
    rw [lexTextBetweenTagsLoop_plain _ mid ['<'] ['>'] _ (0 + 1) 0 0 (by simpa using hwl) rfl
      hmid (by omega)]
    rw [lexTextBetweenTagsLoop_step _ _ _ 0 0 '>'
      (by
        rw [hwl, show 0 + 1 + mid.length = ('<' :: mid).length by simp; omega]
        exact getElem?_append_cons ('<' :: mid) '>' _) (by omega)]
    rw [if_neg (by simp), if_pos ⟨rfl, by rw [hlen]; omega⟩]
    rw [lexTextBetweenTagsLoop_done _ _ _ _ _ (by rw [hlen]; omega)]
  unfold lexTextBetweenTags
  split
  · dsimp only
    rw [hloop]
    simp
  · rfl

/-! ## Runs of the driver loop, step by step -/

theorem Steps.trans {f g h : StateFn} {l l1 l2 : lexer} (h1 : Steps f l g l1)
    (h2 : Steps g l1 h l2) : Steps f l h l2 := by
  induction h1 with
  | refl => exact h2
  | step hc _ ih => exact Steps.step hc (ih h2)

theorem Steps.lineContent {g h : StateFn} {l l1 l2 : lexer}
    (hc : lexLineContent l = (l1, Next.fn g)) (hs : Steps g l1 h l2) :
    Steps StateFn.lexLineContent l h l2 :=
  Steps.step hc hs

theorem Steps.tagName {g h : StateFn} {l l1 l2 : lexer}
    (hc : lexTagName l = (l1, Next.fn g)) (hs : Steps g l1 h l2) :
    Steps StateFn.lexTagName l h l2 :=
  Steps.step hc hs

theorem Steps.tagArguments {g h : StateFn} {l l1 l2 : lexer}
    (hc : lexTagArguments l = (l1, Next.fn g)) (hs : Steps g l1 h l2) :
    Steps StateFn.lexTagArguments l h l2 :=
  Steps.step hc hs

theorem Steps.checkLineType {g h : StateFn} {l l1 l2 : lexer}
    (hc : lexCheckLineType l = (l1, Next.fn g)) (hs : Steps g l1 h l2) :
    Steps StateFn.lexCheckLineType l h l2 :=
  Steps.step hc hs

theorem Steps.readFileLine {g h : StateFn} {l l1 l2 : lexer}
    (hc : lexReadFileLine l = (l1, Next.fn g)) (hs : Steps g l1 h l2) :
    Steps StateFn.lexReadFileLine l h l2 :=
  Steps.step hc hs

theorem Steps.print {g h : StateFn} {l l1 l2 : lexer}
    (hc : lexPrint l = (l1, Next.fn g)) (hs : Steps g l1 h l2) :
    Steps StateFn.lexPrint l h l2 :=
  Steps.step hc hs

theorem Finishes_of_stop {f : StateFn} {l l1 : lexer} (hc : f.call l = (l1, Next.stop)) :
    Finishes f l l1.tokenChan :=
  ⟨1, by rw [runLoop_succ_stop 0 hc], by rw [runLoop_succ_stop 0 hc]⟩

theorem Finishes_of_Steps {f g : StateFn} {l l1 : lexer} {ts : List Token}
    (hs : Steps f l g l1) (hf : Finishes g l1 ts) : Finishes f l ts := by
  induction hs with
  | refl => exact hf
  | step hc _ ih =>
    obtain ⟨n, h1, h2⟩ := ih hf
    exact ⟨n + 1, by rw [runLoop_succ_fn n hc]; exact h1, by rw [runLoop_succ_fn n hc]; exact h2⟩

/-- A finishing run of the driver loop from the first line read is the run
    of `LexStart`. -/
theorem LexStart_of_Finishes (fh : List Str) (ts : List Token)
    (h : Finishes StateFn.lexCheckLineType (lexReadFileLine (newLexer fh)).1 ts) :
    (LexStart fh).status = Status.finished ∧ (LexStart fh).tokens = ts := by
  obtain ⟨n, h1, h2⟩ := h
  rw [LexStart_eq_runLoop fh n (by rw [h1]; decide)]
  exact ⟨h1, h2⟩

/-- At the end of the input, `lexPrint` sends the EOF token and ends the run. -/
theorem Finishes_lexPrint_eof (l : lexer) (hrd : l.fileReader = []) (he : l.EOF = true)
    (hopen : l.chanClosed = false) :
    Finishes StateFn.lexPrint l (l.tokenChan ++ [eofToken]) := by
  have hc : StateFn.lexPrint.call l = _ :=
    lexReadFileLine_eof (l := { l with workingLine := [] }) hrd he hopen
  exact Finishes_of_stop hc

/-- The line classifier hands a line that starts with `<` and ends with `>`
    to the scanner as it is. -/
theorem lexCheckLineType_tag (l : lexer) (mid : Str)
    (hcur : l.currentLine = '<' :: (mid ++ ['>'])) :
    lexCheckLineType l = ({ l with firstLineFound := false, workingLine := l.currentLine },
      Next.fn StateFn.lexLineContent) := by
  have hcur2 : l.currentLine = ('<' :: mid) ++ ['>'] := by simpa using hcur
  have hp : HasPrefix l.currentLine ['<'] = true := by rw [hcur, HasPrefix_cons]; rfl
  have hs : HasSuffix l.currentLine ['>'] = true := by rw [hcur2, HasSuffix_concat]; rfl
  have hlen : ¬ l.currentLine.length = 0 := by simp [hcur]
  unfold lexCheckLineType
  simp [hlen, hp, hs]

/-- The run of `LexStart` on an input of one line that starts with `<` and
    ends with `>`: the tokens are those of the scan of the line, and the EOF
    token. -/
theorem LexStart_single_line (mid : Str) (ts : List Token)
    (hscan : ∀ l : lexer, l.workingLine = '<' :: (mid ++ ['>']) → l.workingPosition = 0 →
      l.foundEqual = false → l.chanClosed = false → ∃ l1, ScannedLine l l1 ts) :
    (LexStart ['<' :: (mid ++ ['>'])]).status = Status.finished ∧
      (LexStart ['<' :: (mid ++ ['>'])]).tokens = ts ++ [eofToken] := by
  have key : ∀ l : lexer, l.workingLine = '<' :: (mid ++ ['>']) → l.workingPosition = 0 →
      l.foundEqual = false → l.chanClosed = false → l.fileReader = [] → l.EOF = true →
      l.tokenChan = [] → Finishes StateFn.lexLineContent l (ts ++ [eofToken]) := by
    intro l hwl hpos hf hopen hrd he htok0
    obtain ⟨l1, hsteps, ⟨hfr, -, heof, -⟩, -, hcl, -, htok⟩ := hscan l hwl hpos hf hopen
    refine Finishes_of_Steps hsteps ?_
    have := Finishes_lexPrint_eof l1 (by rw [hfr, hrd]) (by rw [heof, he]) (by rw [hcl, hopen])
    rw [htok, htok0] at this
    exact this
  apply LexStart_of_Finishes
  rw [lexReadFileLine_cons rfl]
  have hline : TrimSpace ('<' :: (mid ++ ['>'])) = '<' :: (mid ++ ['>']) := by
    have := TrimSpace_tag mid
    simpa using this
  rw [hline]
  refine Finishes_of_Steps (Steps.checkLineType (lexCheckLineType_of_empty _ rfl)
    (Steps.readFileLine (lexReadFileLine_last rfl rfl)
      (Steps.checkLineType (lexCheckLineType_tag _ mid rfl) (Steps.refl _ _)))) ?_
  refine key _ ?_ ?_ ?_ ?_ ?_ ?_ ?_ <;> rfl

/-! ## The scanner loop, stretch by stretch -/

theorem lexLineContent_gt_plain {l : lexer} (hc : l.workingLine[l.workingPosition]? = some '>')
    (h1 : Contains l.workingLine ['/', '>'] = false)
    (h2 : Contains l.workingLine ['?', '>'] = false) :
    lexLineContent l = lexLineContent { l with workingPosition := l.workingPosition + 1 } := by
  rw [lexLineContent_loop]
  unfold lexLineContentBody
  rw [hc]
  dsimp only
  rw [if_neg (by decide), if_pos rfl]
  simp [sendEndTagIf, h1, h2]

/-- From a `>` that is no self-closing one, over text, to the stop tag that
    follows: the text between the tags is sent as JustText. -/
theorem lexLineContent_to_stop_text (l : lexer) (A X R : Str)
    (hwl : l.workingLine = A ++ '>' :: (X ++ '<' :: '/' :: R))
    (hpos : l.workingPosition = A.length)
    (h1 : Contains l.workingLine ['/', '>'] = false)
    (h2 : Contains l.workingLine ['?', '>'] = false)
    (hX : ∀ c ∈ X, c ≠ '<' ∧ c ≠ '>' ∧ c ≠ '=') (hf : l.foundEqual = false)
    (ht : lexTextBetweenTags l ≠ []) (hopen : l.chanClosed = false) :
    lexLineContent l = ({ l with
      workingPosition := A.length + 1 + X.length,
      tokenChan := l.tokenChan ++
        [Token.mk TokenType.tokenJustText (TrimSpace (lexTextBetweenTags l))],
      tagTypeIs := tagType.stopTag }, Next.fn StateFn.lexTagName) := by
  have hc : l.workingLine[l.workingPosition]? = some '>' := by
    rw [hwl, hpos]
    exact getElem?_append_cons A '>' _
  rw [lexLineContent_gt_plain hc h1 h2]
  rw [lexLineContent_skip X { l with workingPosition := l.workingPosition + 1 } (A ++ ['>'])
    ('<' :: '/' :: R) (by simp [hwl]) (by simp [hpos]) hX]
  have e : l.workingLine = (A ++ '>' :: X) ++ '<' :: '/' :: R := by simp [hwl]
  have hlen : A.length + 1 + X.length = (A ++ '>' :: X).length := by simp; omega
  rw [show (A ++ ['>']).length + X.length = A.length + 1 + X.length by simp]
  exact lexLineContent_at_stop_text (l := { l with workingPosition := A.length + 1 + X.length })
    (by
      show l.workingLine[A.length + 1 + X.length]? = some '<'
      rw [e, hlen]
      exact getElem?_append_cons _ _ _)
    (by
      show l.workingLine[A.length + 1 + X.length + 1]? = some '/'
      rw [e, hlen, List.getElem?_append_right (by omega)]
      simp)
    hf ht hopen

/-- From the last `>` of the line, no self-closing one, to the end of the
    line. -/
theorem lexLineContent_to_end (l : lexer) (A : Str) (hwl : l.workingLine = A ++ ['>'])
    (hpos : l.workingPosition = A.length)
    (h1 : Contains l.workingLine ['/', '>'] = false)
    (h2 : Contains l.workingLine ['?', '>'] = false) :
    lexLineContent l = ({ l with
      workingPosition := A.length + 1, foundEqual := false, tagName := [] },
      Next.fn StateFn.lexPrint) := by
  have hc : l.workingLine[l.workingPosition]? = some '>' := by
    rw [hwl, hpos]
    exact getElem?_append_cons A '>' _
  rw [lexLineContent_gt_plain hc h1 h2, hpos]
  exact lexLineContent_end (l := { l with workingPosition := A.length + 1 }) (by simp [hwl])

/-- Over characters other than `<`, `>`, `=` to the `<` of a start tag. -/
theorem lexLineContent_to_start (l : lexer) (A seg R : Str) (c : Char)
    (hwl : l.workingLine = A ++ (seg ++ '<' :: c :: R)) (hpos : l.workingPosition = A.length)
    (hseg : ∀ c ∈ seg, c ≠ '<' ∧ c ≠ '>' ∧ c ≠ '=') (hs : c ≠ '/') (hb : c ≠ '!') :
    lexLineContent l = ({ l with
      workingPosition := A.length + seg.length, tagTypeIs := tagType.startTag },
      Next.fn StateFn.lexTagName) := by
  rw [lexLineContent_skip seg l A _ hwl hpos hseg]
  have e : l.workingLine = (A ++ seg) ++ '<' :: c :: R := by simp [hwl]
  exact lexLineContent_at_start (l := { l with workingPosition := A.length + seg.length })
    (by
      show l.workingLine[A.length + seg.length]? = some '<'
      rw [e, ← List.length_append]
      exact getElem?_append_cons _ _ _)
    (by
      show l.workingLine[A.length + seg.length + 1]? = some c
      rw [e, ← List.length_append, List.getElem?_append_right (by omega)]
      simp)
    hs hb

/-- Over characters other than `<`, `>`, `=` to the `=` of an attribute. -/
theorem lexLineContent_to_eq (l : lexer) (A seg R : Str)
    (hwl : l.workingLine = A ++ (seg ++ '=' :: R)) (hpos : l.workingPosition = A.length)
    (hseg : ∀ c ∈ seg, c ≠ '<' ∧ c ≠ '>' ∧ c ≠ '=') :
    lexLineContent l = ({ l with
      workingPosition := A.length + seg.length, foundEqual := true },
      Next.fn StateFn.lexTagArguments) := by
  rw [lexLineContent_skip seg l A _ hwl hpos hseg]
  have e : l.workingLine = (A ++ seg) ++ '=' :: R := by simp [hwl]
  exact lexLineContent_at_eq (l := { l with workingPosition := A.length + seg.length })
    (by
      show l.workingLine[A.length + seg.length]? = some '='
      rw [e, ← List.length_append]
      exact getElem?_append_cons _ _ _)

/-! ## The line `<t>X</t>` -/

theorem Alnum.head?_ne {t : Str} (ht : Alnum t) (R : Str) {d : Char} (hd : isAlnum d = false) :
    (t ++ R).head? ≠ some d := by
  obtain ⟨hne, hall⟩ := ht
  cases t with
  | nil => exact absurd rfl hne
  | cons c t =>
    simp only [List.cons_append, List.head?_cons, ne_eq, Option.some.injEq]
    exact isAlnum_ne (hall c (List.mem_cons_self _ _)) hd

theorem Contains_stop_tag (t : Str) (a : Char) (ha : isAlnum a = false) (ha1 : a ≠ '<')
    (ht : Alnum t) : Contains ('<' :: '/' :: (t ++ ['>'])) [a, '>'] = false := by
  rw [Contains_cons_of_ne _ _ ha1, Contains_cons_of_head_ne '/' a (ht.head?_ne _ (by decide)),
    Contains_append_of_not_mem_fst _ _ (isAlnum_not_mem ht.2 ha), Contains_singleton]

theorem Contains_pair_line (t X : Str) (a : Char) (ha : isAlnum a = false) (ha1 : a ≠ '<')
    (ha2 : a ≠ '>') (ht : Alnum t) (hX : ∀ c ∈ X, c ≠ '<' ∧ c ≠ '>' ∧ c ≠ '=') :
    Contains ('<' :: (t ++ '>' :: (X ++ '<' :: '/' :: (t ++ ['>'])))) [a, '>'] = false := by
  rw [Contains_cons_of_ne _ _ ha1, Contains_append_of_not_mem_fst _ _ (isAlnum_not_mem ht.2 ha),
    Contains_cons_of_ne _ _ ha2,
    Contains_append_of_not_mem_snd a _ (fun h => (hX _ h).2.1 rfl) (by decide)]
  exact Contains_stop_tag t a ha ha1 ht

theorem Alnum.name {t : Str} (ht : Alnum t) : ∀ c ∈ t, c ≠ ' ' ∧ c ≠ '>' ∧ c ≠ '/' :=
  fun c hc => ⟨isAlnum_ne (ht.2 c hc) (by decide), isAlnum_ne (ht.2 c hc) (by decide),
    isAlnum_ne (ht.2 c hc) (by decide)⟩

theorem Alnum.angle {t : Str} (ht : Alnum t) : ∀ c ∈ t, c ≠ '<' ∧ c ≠ '>' :=
  fun c hc => ⟨isAlnum_ne (ht.2 c hc) (by decide), isAlnum_ne (ht.2 c hc) (by decide)⟩

/-- The scan of the working line `<t>X</t>`. -/
theorem ScannedLine_pair (l : lexer) (t X : Str) (ht : Alnum t) (hXne : X ≠ [])
    (hX : ∀ c ∈ X, c ≠ '<' ∧ c ≠ '>' ∧ c ≠ '=')
    (hwl : l.workingLine = '<' :: (t ++ '>' :: (X ++ '<' :: '/' :: (t ++ ['>']))))
    (hpos : l.workingPosition = 0) (hf : l.foundEqual = false) (hopen : l.chanClosed = false) :
    ∃ l1, ScannedLine l l1 [Token.mk TokenType.tokenStartTag t,
      Token.mk TokenType.tokenJustText (TrimSpace X), Token.mk TokenType.tokenEndTag t] := by
  have hc1 := Contains_pair_line t X '/' (by decide) (by decide) (by decide) ht hX
  have hc2 := Contains_pair_line t X '?' (by decide) (by decide) (by decide) ht hX
  rw [← hwl] at hc1 hc2
  have htext : ∀ l0 : lexer, l0.workingLine = l.workingLine → l0.foundEqual = false →
      lexTextBetweenTags l0 = X :=
    fun l0 h0 hf0 => lexTextBetweenTags_pair l0 t X (by rw [h0, hwl]) ht.angle
      (fun c hc => ⟨(hX c hc).1, (hX c hc).2.1⟩) hf0
  obtain ⟨c0, t0, ht0⟩ := List.exists_cons_of_ne_nil ht.1
  have hc0 : c0 ≠ '/' ∧ c0 ≠ '!' := by
    have hmem : c0 ∈ t := by rw [ht0]; exact List.mem_cons_self _ _
    exact ⟨isAlnum_ne (ht.2 c0 hmem) (by decide), isAlnum_ne (ht.2 c0 hmem) (by decide)⟩
  refine ⟨_, Steps.lineContent
    (lexLineContent_to_start l [] [] (t0 ++ '>' :: (X ++ '<' :: '/' :: (t ++ ['>']))) c0
      (by rw [hwl, ht0]; rfl) hpos (by simp) hc0.1 hc0.2)
    (Steps.tagName
      (lexTagName_start _ [] t (X ++ '<' :: '/' :: (t ++ ['>'])) '>' hwl rfl ht.name
        (Or.inr rfl) rfl hopen)
      (Steps.lineContent
        (lexLineContent_to_stop_text _ ('<' :: t) X (t ++ ['>']) (by simp [hwl])
          (by simp; omega) hc1 hc2 hX hf
          (by refine fun h => hXne (Eq.trans (Eq.symm (htext _ ?_ ?_)) h) <;> first | rfl | exact hf)
          hopen)
        (Steps.tagName
          (lexTagName_stop _ ('<' :: t ++ '>' :: X) t [] '>' (by simp [hwl])
            (by simp; omega) (fun c hc => ⟨(ht.name c hc).1, (ht.name c hc).2.1⟩)
            (Or.inr rfl) rfl hopen)
          (Steps.lineContent
            (lexLineContent_to_end _ ('<' :: t ++ '>' :: X ++ '<' :: '/' :: t)
              (by simp [hwl]) (by simp; omega) hc1 hc2)
            (Steps.refl _ _))))), ⟨rfl, rfl, rfl, rfl⟩, rfl, rfl, rfl, ?_⟩
  simp [htext, hf, TrimSpace_alnum ht.2]

/-- For a non-empty alphanumeric tag name `t` and a non-empty text `X`
    without `<`, `>`, `=`, the run on the line `<t>X</t>`, handed over by the
    reader in one slice, finishes and sends exactly StartTag `t`, JustText
    `trim X`, EndTag `t`, EOF. -/
theorem LexStart_tag_text_tag (t X : Str) (ht : Alnum t) (hXne : X ≠ [])
    (hX : ∀ c ∈ X, c ≠ '<' ∧ c ≠ '>' ∧ c ≠ '=') :
    (LexStart ["<".data ++ t ++ ">".data ++ X ++ "</".data ++ t ++ ">".data]).status
        = Status.finished ∧
      (LexStart ["<".data ++ t ++ ">".data ++ X ++ "</".data ++ t ++ ">".data]).tokens
        = [Token.mk TokenType.tokenStartTag t, Token.mk TokenType.tokenJustText (TrimSpace X),
            Token.mk TokenType.tokenEndTag t, eofToken] := by
  have e : "<".data ++ t ++ ">".data ++ X ++ "</".data ++ t ++ ">".data
      = '<' :: ((t ++ '>' :: (X ++ '<' :: '/' :: t)) ++ ['>']) := by
    show ['<'] ++ t ++ ['>'] ++ X ++ ['<', '/'] ++ t ++ ['>'] = _
    simp
  rw [e]
  exact LexStart_single_line _ _ (fun l hwl hpos hf hopen =>
    ScannedLine_pair l t X ht hXne hX (by simpa using hwl) hpos hf hopen)

/-- The run on the line `<a> some text </a>`. -/
theorem LexStart_tag_text_tag_witness :
    (LexStart ["<a> some text </a>".data]).status = Status.finished ∧
      (LexStart ["<a> some text </a>".data]).tokens
        = [Token.mk TokenType.tokenStartTag "a".data,
            Token.mk TokenType.tokenJustText (TrimSpace " some text ".data),
            Token.mk TokenType.tokenEndTag "a".data, eofToken] :=
  LexStart_tag_text_tag "a".data " some text ".data ⟨by decide, by decide⟩ (by decide)
    (by decide)

/-! ## Attributes -/

theorem findChrPositionBefore_word (s : Str) (c : Char) (A : Str) (w : Str) :
    ∀ R : Str, s = A ++ c :: (w ++ R) → c ∉ w →
      findChrPositionBefore s c (A.length + 1 + w.length) = some A.length := by
  induction w using List.reverseRecOn with
  | nil =>
    intro R hs _
    have hc : s[A.length]? = some c := by
      rw [hs]
      exact getElem?_append_cons A c _
    simp only [List.length_nil, Nat.add_zero]
    rw [findChrPositionBefore, hc]
    simp
  | append_singleton w x ih =>
    intro R hs hw
    have hx : x ≠ c := fun h => hw (by simp [h])
    have hc : s[A.length + 1 + w.length]? = some x := by
      have e : s = (A ++ c :: w) ++ x :: R := by simp [hs]
      rw [e, show A.length + 1 + w.length = (A ++ c :: w).length by simp; omega]
      exact getElem?_append_cons _ x R
    rw [show A.length + 1 + (w ++ [x]).length = (A.length + 1 + w.length) + 1 by simp; omega]
    rw [findChrPositionBefore, hc]
    dsimp only
    rw [if_neg hx]
    exact ih (x :: R) (by simp [hs]) (fun h => hw (by simp [h]))

theorem findChrPositionAfterLoop_word (s : Str) (c : Char) (v : Str) :
    ∀ (B R : Str) (q : Char) (n : Nat), s = B ++ (v ++ q :: R) →
      (∀ x ∈ v, x ≠ c ∧ x ≠ '>') → (q = c ∨ q = '>') → v.length < n →
      findChrPositionAfterLoop s c n B.length = B.length + v.length := by
  induction v with
  | nil =>
    intro B R q n hs _ hq hn
    obtain ⟨n, rfl⟩ : ∃ k, n = k + 1 := ⟨n - 1, by simp at hn; omega⟩
    have hc : s[B.length]? = some q := by
      rw [hs]
      exact getElem?_append_cons B q R
    rw [findChrPositionAfterLoop, hc]
    simp [hq]
  | cons x v ih =>
    intro B R q n hs hv hq hn
    obtain ⟨n, rfl⟩ : ∃ k, n = k + 1 := ⟨n - 1, by simp at hn; omega⟩
    have hc : s[B.length]? = some x := by
      rw [hs, List.cons_append]
      exact getElem?_append_cons B x _
    obtain ⟨h1, h2⟩ := hv x (List.mem_cons_self _ _)
    rw [findChrPositionAfterLoop, hc]
    dsimp only
    rw [if_neg (by simp [h1, h2])]
    have := ih (B ++ [x]) R q n (by simp [hs]) (fun y hy => hv y (List.mem_cons_of_mem _ hy)) hq
      (by simp at hn; omega)
    simp only [List.length_append, List.length_singleton] at this
    rw [this]
    simp only [List.length_cons]
    omega

theorem Trim_quote_value {v : Str} (hv : '"' ∉ v) : Trim ('"' :: v) ['"'] = v := by
  rw [Trim_cons_cut _ (by simp)]
  apply Trim_eq_self
  · intro c hc hmem
    simp only [List.mem_singleton] at hmem
    subst hmem
    exact hv (List.mem_of_mem_head? hc)
  · intro c hc hmem
    simp only [List.mem_singleton] at hmem
    subst hmem
    exact hv (List.mem_of_mem_getLast? hc)

theorem Trim_quote_name {n : Str} (hn : '"' ∉ n) : Trim (' ' :: n) ['"'] = ' ' :: n := by
  apply Trim_eq_self
  · intro c hc hmem
    simp only [List.head?_cons, Option.some.injEq] at hc
    simp only [List.mem_singleton] at hmem
    subst hc
    exact absurd hmem (by decide)
  · intro c hc hmem
    simp only [List.mem_singleton] at hmem
    subst hmem
    rcases List.mem_cons.1 (List.mem_of_mem_getLast? hc) with h | h
    · exact absurd h (by decide)
    · exact hn h

/-- `lexTagArguments` at the `=` of an attribute `n="v"` that follows a
    space: the name and the value are sent, and the cursor moves on by one. -/
theorem lexTagArguments_attr (l : lexer) (A n v R : Str)
    (hwl : l.workingLine = A ++ ' ' :: (n ++ '=' :: '"' :: (v ++ '"' :: R)))
    (hpos : l.workingPosition = A.length + 1 + n.length)
    (hn : ∀ c ∈ n, isAlnum c = true) (hv : ∀ c ∈ v, isAlnum c = true)
    (hopen : l.chanClosed = false) :
    lexTagArguments l = ({ l with
      workingPosition := A.length + 1 + n.length + 1,
      tokenChan := l.tokenChan ++ [Token.mk TokenType.tokenArgumentName n,
        Token.mk TokenType.tokenArgumentValue v] }, Next.fn StateFn.lexLineContent) := by
  have hlen : l.workingLine.length = A.length + n.length + v.length + R.length + 4 := by
    simp [hwl]
    omega
  have h1 : findChrPositionBefore l.workingLine ' ' l.workingPosition = some A.length := by
    rw [hpos]
    exact findChrPositionBefore_word _ ' ' A n _ hwl (isAlnum_not_mem hn (by decide))
  have h2 : findLettersBetween l.workingLine A.length l.workingPosition = some (' ' :: n) := by
    unfold findLettersBetween
    rw [if_neg (by rw [hlen, hpos]; omega), hpos,
      show A.length + 1 + n.length - A.length = (' ' :: n).length by simp; omega]
    have e : l.workingLine = A ++ ((' ' :: n) ++ '=' :: '"' :: (v ++ '"' :: R)) := by simp [hwl]
    rw [e, drop_take_middle, Trim_quote_name (isAlnum_not_mem hn (by decide))]
  have h3 : findChrPositionAfter l.workingLine '"' (l.workingPosition + 1)
      = A.length + 1 + n.length + 2 + v.length := by
    unfold findChrPositionAfter
    have e : l.workingLine = (A ++ ' ' :: n ++ ['=', '"']) ++ (v ++ '"' :: R) := by simp [hwl]
    have hB : l.workingPosition + 1 + 1 = (A ++ ' ' :: n ++ ['=', '"']).length := by
      simp [hpos]
      omega
    rw [hB, findChrPositionAfterLoop_word _ '"' v _ R '"' _ e
      (fun x hx => ⟨isAlnum_ne (hv x hx) (by decide), isAlnum_ne (hv x hx) (by decide)⟩)
      (Or.inl rfl) (by rw [hlen, hpos]; omega)]
    simp
    omega
  have h4 : findLettersBetween l.workingLine (l.workingPosition + 1)
      (A.length + 1 + n.length + 2 + v.length) = some v := by
    unfold findLettersBetween
    rw [if_neg (by rw [hlen]; omega), hpos,
      show A.length + 1 + n.length + 2 + v.length - (A.length + 1 + n.length + 1)
        = ('"' :: v).length by simp; omega]
    have e : l.workingLine = (A ++ ' ' :: n ++ ['=']) ++ (('"' :: v) ++ '"' :: R) := by
      simp [hwl]
    rw [e, show A.length + 1 + n.length + 1 = (A ++ ' ' :: n ++ ['=']).length by simp; omega,
      drop_take_middle, Trim_quote_value (isAlnum_not_mem hv (by decide))]
  unfold lexTagArguments
  rw [h1]
  dsimp only
  rw [h2]
  dsimp only
  rw [tokenSendChannel_open hopen]
  dsimp only
  rw [h3, h4]
  dsimp only
  rw [tokenSendChannel_open (by exact hopen)]
  simp only [hpos, TrimSpace_cons_space n (show isSpace ' ' = true by decide), TrimSpace_alnum hn,
    TrimSpace_alnum hv, List.append_assoc, List.singleton_append]

/-! ## A start tag with attributes -/

/-- Over characters other than `<`, `>`, `=` to the last `>` of the line, no
    self-closing one, and to the end of the line. -/
theorem lexLineContent_skip_to_end (l : lexer) (A seg : Str)
    (hwl : l.workingLine = A ++ (seg ++ ['>'])) (hpos : l.workingPosition = A.length)
    (hseg : ∀ c ∈ seg, c ≠ '<' ∧ c ≠ '>' ∧ c ≠ '=')
    (h1 : Contains l.workingLine ['/', '>'] = false)
    (h2 : Contains l.workingLine ['?', '>'] = false) :
    lexLineContent l = ({ l with
      workingPosition := (A ++ seg).length + 1, foundEqual := false, tagName := [] },
      Next.fn StateFn.lexPrint) := by
  rw [lexLineContent_skip seg l A _ hwl hpos hseg, ← List.length_append]
  exact lexLineContent_to_end { l with workingPosition := (A ++ seg).length } (A ++ seg)
    (by simp [hwl]) rfl h1 h2

theorem ScannedLine_of_end {l l1 : lexer}
    (hc : lexLineContent l = (l1, Next.fn StateFn.lexPrint)) (hsrc : SameSource l l1)
    (hflf : l1.firstLineFound = l.firstLineFound) (hcl : l1.chanClosed = l.chanClosed)
    (hfe : l1.foundEqual = false) (htok : l1.tokenChan = l.tokenChan) :
    ScannedLine l l1 [] :=
  ⟨Steps.lineContent hc (Steps.refl _ _), hsrc, hflf, hcl, hfe, by rw [htok]; simp⟩

/-- A scan goes on after a hand-off to `lexTagName` or `lexTagArguments` and
    back. -/
theorem ScannedLine_of_handoff {g : StateFn} {l l1 l2 l3 : lexer} (ts0 : List Token)
    {ts : List Token} (hc : lexLineContent l = (l1, Next.fn g))
    (hg : g.call l1 = (l2, Next.fn StateFn.lexLineContent))
    (hsrc : SameSource l l2) (hflf : l2.firstLineFound = l.firstLineFound)
    (hcl : l2.chanClosed = l.chanClosed) (htok : l2.tokenChan = l.tokenChan ++ ts0)
    (h : ScannedLine l2 l3 ts) : ScannedLine l l3 (ts0 ++ ts) := by
  obtain ⟨hsteps, ⟨s1, s2, s3, s4⟩, hf, hc3, hfe, ht⟩ := h
  obtain ⟨r1, r2, r3, r4⟩ := hsrc
  refine ⟨Steps.lineContent hc (Steps.step hg hsteps),
    ⟨by rw [s1, r1], by rw [s2, r2], by rw [s3, r3], by rw [s4, r4]⟩, by rw [hf, hflf],
    by rw [hc3, hcl], hfe, ?_⟩
  rw [ht, htok, List.append_assoc]

theorem attrsText_cons (a : Str × Str) (as : List (Str × Str)) :
    attrsText (a :: as) = ' ' :: (a.1 ++ '=' :: '"' :: (a.2 ++ '"' :: attrsText as)) := by
  simp [attrsText, attrText]

theorem attrTokens_cons (a : Str × Str) (as : List (Str × Str)) :
    attrTokens (a :: as) = Token.mk TokenType.tokenArgumentName a.1 ::
      Token.mk TokenType.tokenArgumentValue a.2 :: attrTokens as := by
  simp [attrTokens]

/-- The scan of the attributes of a start tag, up to the `>` that ends the
    line: `seg` is what is left of the attribute before. -/
theorem ScannedLine_attrs (as : List (Str × Str)) :
    ∀ (l : lexer) (A seg : Str), l.workingLine = A ++ (seg ++ (attrsText as ++ ['>'])) →
      l.workingPosition = A.length → (∀ c ∈ seg, c ≠ '<' ∧ c ≠ '>' ∧ c ≠ '=') →
      (∀ a ∈ as, Alnum a.1 ∧ Alnum a.2) → l.chanClosed = false →
      Contains l.workingLine ['/', '>'] = false → Contains l.workingLine ['?', '>'] = false →
      ∃ l1, ScannedLine l l1 (attrTokens as) := by
  induction as with
  | nil =>
    intro l A seg hwl hpos hseg _ _ h1 h2
    exact ⟨_, ScannedLine_of_end
      (lexLineContent_skip_to_end l A seg (by simpa [attrsText] using hwl) hpos hseg h1 h2)
      ⟨rfl, rfl, rfl, rfl⟩ rfl rfl rfl rfl⟩
  | cons a as ih =>
    intro l A seg hwl hpos hseg has hopen h1 h2
    obtain ⟨hn, hv⟩ := has a (List.mem_cons_self _ _)
    have hplain : ∀ {w : Str}, (∀ c ∈ w, isAlnum c = true) →
        ∀ c ∈ w, c ≠ '<' ∧ c ≠ '>' ∧ c ≠ '=' := fun hw c hc =>
      ⟨isAlnum_ne (hw c hc) (by decide), isAlnum_ne (hw c hc) (by decide),
        isAlnum_ne (hw c hc) (by decide)⟩
    have hc := lexLineContent_to_eq l A (seg ++ ' ' :: a.1)
      ('"' :: (a.2 ++ '"' :: (attrsText as ++ ['>'])))
      (by rw [hwl, attrsText_cons]; simp) hpos
      (by
        intro c hc
        rcases List.mem_append.1 hc with h | h
        · exact hseg c h
        · rcases List.mem_cons.1 h with rfl | h
          · exact ⟨by decide, by decide, by decide⟩
          · exact hplain hn.2 c h)
    have hg := lexTagArguments_attr
      { l with workingPosition := A.length + (seg ++ ' ' :: a.1).length, foundEqual := true }
      (A ++ seg) a.1 a.2 (attrsText as ++ ['>'])
      (by
        show l.workingLine = _
        rw [hwl, attrsText_cons]
        simp)
      (by simp; omega) hn.2 hv.2 hopen
    obtain ⟨l3, h3⟩ := ih
      { l with
        workingPosition := (A ++ seg).length + 1 + a.1.length + 1, foundEqual := true,
        tokenChan := l.tokenChan ++ [Token.mk TokenType.tokenArgumentName a.1,
          Token.mk TokenType.tokenArgumentValue a.2] }
      (A ++ seg ++ ' ' :: a.1 ++ ['=']) ('"' :: a.2 ++ ['"'])
      (by
        show l.workingLine = _
        rw [hwl, attrsText_cons]
        simp)
      (by simp; omega)
      (by
        intro c hc
        simp only [List.cons_append, List.mem_cons, List.mem_append, List.mem_singleton,
          List.not_mem_nil, or_false] at hc
        rcases hc with rfl | h | rfl
        · exact ⟨by decide, by decide, by decide⟩
        · exact hplain hv.2 c h
        · exact ⟨by decide, by decide, by decide⟩)
      (fun b hb => has b (List.mem_cons_of_mem _ hb)) hopen h1 h2
    refine ⟨l3, ?_⟩
    rw [attrTokens_cons]
    exact ScannedLine_of_handoff [Token.mk TokenType.tokenArgumentName a.1,
      Token.mk TokenType.tokenArgumentValue a.2] hc hg ⟨rfl, rfl, rfl, rfl⟩ rfl rfl rfl h3

theorem mem_attrsText (as : List (Str × Str)) (has : ∀ a ∈ as, Alnum a.1 ∧ Alnum a.2) :
    ∀ c ∈ attrsText as, c = ' ' ∨ c = '=' ∨ c = '"' ∨ isAlnum c = true := by
  induction as with
  | nil => intro c hc; simp [attrsText] at hc
  | cons a as ih =>
    intro c hc
    obtain ⟨hn, hv⟩ := has a (List.mem_cons_self _ _)
    rw [attrsText_cons] at hc
    simp only [List.mem_cons, List.mem_append] at hc
    rcases hc with rfl | h | rfl | rfl | h | rfl | h
    · exact Or.inl rfl
    · exact Or.inr (Or.inr (Or.inr (hn.2 c h)))
    · exact Or.inr (Or.inl rfl)
    · exact Or.inr (Or.inr (Or.inl rfl))
    · exact Or.inr (Or.inr (Or.inr (hv.2 c h)))
    · exact Or.inr (Or.inr (Or.inl rfl))
    · exact ih (fun b hb => has b (List.mem_cons_of_mem _ hb)) c h

theorem attrsText_head (as : List (Str × Str)) :
    ∃ (d : Char) (R : Str), attrsText as ++ ['>'] = d :: R ∧ (d = ' ' ∨ d = '>') := by
  cases as with
  | nil => exact ⟨'>', [], by simp [attrsText], Or.inr rfl⟩
  | cons a as => exact ⟨' ', _, by rw [attrsText_cons]; rfl, Or.inl rfl⟩

/-- A start tag with attributes, after blanks, contains neither `/>` nor
    `?>` (`a` is `/` or `?`). -/
theorem Contains_tag_attrs (pre t : Str) (as : List (Str × Str)) (a : Char)
    (ha : isAlnum a = false) (ha1 : a ≠ '<') (ha2 : a ≠ ' ') (ha3 : a ≠ '=') (ha4 : a ≠ '"')
    (hpre : ∀ c ∈ pre, c = ' ') (ht : Alnum t) (has : ∀ a ∈ as, Alnum a.1 ∧ Alnum a.2) :
    Contains (pre ++ '<' :: (t ++ (attrsText as ++ ['>']))) [a, '>'] = false := by
  have e : pre ++ '<' :: (t ++ (attrsText as ++ ['>']))
      = (pre ++ '<' :: (t ++ attrsText as)) ++ ['>'] := by simp
  rw [e, Contains_append_of_not_mem_fst, Contains_singleton]
  intro hmem
  simp only [List.mem_append, List.mem_cons] at hmem
  rcases hmem with h | h | h | h
  · exact ha2 (hpre a h)
  · exact ha1 h
  · exact isAlnum_not_mem ht.2 ha h
  · rcases mem_attrsText as has a h with h | h | h | h
    · exact ha2 h
    · exact ha3 h
    · exact ha4 h
    · rw [ha] at h
      exact absurd h (by decide)

/-- The scan of a working line that is a start tag with attributes,
    `<t n_1="v_1" ... n_k="v_k">`, after blanks. -/
theorem ScannedLine_tag_attrs (l : lexer) (pre t : Str) (as : List (Str × Str))
    (hwl : l.workingLine = pre ++ '<' :: (t ++ (attrsText as ++ ['>'])))
    (hpos : l.workingPosition = 0) (hpre : ∀ c ∈ pre, c = ' ') (ht : Alnum t)
    (has : ∀ a ∈ as, Alnum a.1 ∧ Alnum a.2) (hopen : l.chanClosed = false) :
    ∃ l1, ScannedLine l l1 (Token.mk TokenType.tokenStartTag t :: attrTokens as) := by
  have h1 : Contains l.workingLine ['/', '>'] = false := by
    rw [hwl]
    exact Contains_tag_attrs pre t as '/' (by decide) (by decide) (by decide) (by decide)
      (by decide) hpre ht has
  have h2 : Contains l.workingLine ['?', '>'] = false := by
    rw [hwl]
    exact Contains_tag_attrs pre t as '?' (by decide) (by decide) (by decide) (by decide)
      (by decide) hpre ht has
  obtain ⟨c0, t0, ht0⟩ := List.exists_cons_of_ne_nil ht.1
  have hc0 : c0 ≠ '/' ∧ c0 ≠ '!' := by
    have hmem : c0 ∈ t := by rw [ht0]; exact List.mem_cons_self _ _
    exact ⟨isAlnum_ne (ht.2 c0 hmem) (by decide), isAlnum_ne (ht.2 c0 hmem) (by decide)⟩
  obtain ⟨d, R, hR, hd⟩ := attrsText_head as
  have hc := lexLineContent_to_start l [] pre (t0 ++ (attrsText as ++ ['>'])) c0
    (by rw [hwl, ht0]; rfl) hpos
    (by
      intro c hc
      rw [hpre c hc]
      exact ⟨by decide, by decide, by decide⟩)
    hc0.1 hc0.2
  have hg := lexTagName_start
    { l with workingPosition := ([] : Str).length + pre.length, tagTypeIs := tagType.startTag }
    pre t R d (by rw [← hR]; exact hwl) (by simp) ht.name hd rfl hopen
  obtain ⟨l3, h3⟩ := ScannedLine_attrs as
    { l with
      workingPosition := pre.length + 1 + t.length, tagTypeIs := tagType.startTag, tagName := t,
      tokenChan := l.tokenChan ++ [Token.mk TokenType.tokenStartTag (TrimSpace t)] }
    (pre ++ '<' :: t) [] (by simp [hwl]) (by simp; omega) (by simp) has hopen h1 h2
  refine ⟨l3, ?_⟩
  have := ScannedLine_of_handoff [Token.mk TokenType.tokenStartTag (TrimSpace t)]
    hc hg ⟨rfl, rfl, rfl, rfl⟩ rfl rfl rfl h3
  rw [TrimSpace_alnum ht.2] at this
  exact this

/-- For a non-empty alphanumeric tag name `t` and attributes `(n_i, v_i)`
    with non-empty alphanumeric names and values, the run on the line
    `<t n_1="v_1" ... n_k="v_k">`, handed over by the reader in one slice,
    finishes and sends exactly StartTag `t`, then ArgumentName `n_i`,
    ArgumentValue `v_i` for each attribute in source order, then EOF (for
    `k ≥ 1`, and also for `k = 0`). -/
theorem LexStart_tag_attrs (t : Str) (as : List (Str × Str)) (ht : Alnum t)
    (has : ∀ a ∈ as, Alnum a.1 ∧ Alnum a.2) :
    (LexStart ["<".data ++ t ++ attrsText as ++ ">".data]).status = Status.finished ∧
      (LexStart ["<".data ++ t ++ attrsText as ++ ">".data]).tokens
        = Token.mk TokenType.tokenStartTag t :: attrTokens as ++ [eofToken] := by
  have e : "<".data ++ t ++ attrsText as ++ ">".data = '<' :: ((t ++ attrsText as) ++ ['>']) := by
    show ['<'] ++ t ++ attrsText as ++ ['>'] = _
    simp
  rw [e]
  exact LexStart_single_line _ _ (fun l hwl hpos _ hopen =>
    ScannedLine_tag_attrs l [] t as (by simpa using hwl) hpos (by simp) ht has hopen)

/-- The run on the line `<cmd name="go" id="7">`. -/
theorem LexStart_tag_attrs_witness :
    (LexStart ["<cmd name=\"go\" id=\"7\">".data]).status = Status.finished ∧
      (LexStart ["<cmd name=\"go\" id=\"7\">".data]).tokens
        = [Token.mk TokenType.tokenStartTag "cmd".data,
            Token.mk TokenType.tokenArgumentName "name".data,
            Token.mk TokenType.tokenArgumentValue "go".data,
            Token.mk TokenType.tokenArgumentName "id".data,
            Token.mk TokenType.tokenArgumentValue "7".data, eofToken] :=
  LexStart_tag_attrs "cmd".data [("name".data, "go".data), ("id".data, "7".data)]
    (by decide) (by decide)

/-! ## A start tag split over two lines, and its end tag -/

theorem lexCheckLineType_open (l : lexer) (m : Str) (hcur : l.currentLine = '<' :: m)
    (hs : HasSuffix l.currentLine ['>'] = false) :
    lexCheckLineType l = ({ l with
      firstLineFound := true, workingLine := l.workingLine ++ [' '] ++ l.currentLine },
      Next.fn StateFn.lexReadFileLine) := by
  have hp : HasPrefix l.currentLine ['<'] = true := by rw [hcur, HasPrefix_cons]; rfl
  have hlen : ¬ l.currentLine.length = 0 := by simp [hcur]
  unfold lexCheckLineType
  simp [hlen, hp, hs]

theorem lexCheckLineType_close (l : lexer) (hne : l.currentLine ≠ [])
    (hp : HasPrefix l.currentLine ['<'] = false) (hs : HasSuffix l.currentLine ['>'] = true)
    (hflf : l.firstLineFound = true) :
    lexCheckLineType l = ({ l with
      workingLine := l.workingLine ++ [' '] ++ l.currentLine, firstLineFound := false },
      Next.fn StateFn.lexLineContent) := by
  have hlen : ¬ l.currentLine.length = 0 := fun h => hne (List.length_eq_zero.1 h)
  unfold lexCheckLineType
  simp [hlen, hp, hs, hflf]

/-- A scan that ends the last line of the input is followed by the EOF token
    and the end of the run. -/
theorem Finishes_of_ScannedLine {l l1 : lexer} {ts : List Token} (h : ScannedLine l l1 ts)
    (hrd : l.fileReader = []) (he : l.EOF = true) (hopen : l.chanClosed = false) :
    Finishes StateFn.lexLineContent l (l.tokenChan ++ ts ++ [eofToken]) := by
  obtain ⟨hsteps, ⟨hfr, -, heof, -⟩, -, hcl, -, htok⟩ := h
  refine Finishes_of_Steps hsteps ?_
  have := Finishes_lexPrint_eof l1 (by rw [hfr, hrd]) (by rw [heof, he]) (by rw [hcl, hopen])
  rw [htok] at this
  exact this

/-- The scan of a working line that is an end tag `</t>`. -/
theorem ScannedLine_stop_tag (l : lexer) (t : Str) (ht : Alnum t)
    (hwl : l.workingLine = '<' :: '/' :: (t ++ ['>'])) (hpos : l.workingPosition = 0)
    (hopen : l.chanClosed = false) :
    ∃ l1, ScannedLine l l1 [Token.mk TokenType.tokenEndTag t] := by
  have h1 : Contains l.workingLine ['/', '>'] = false := by
    rw [hwl]
    exact Contains_stop_tag t '/' (by decide) (by decide) ht
  have h2 : Contains l.workingLine ['?', '>'] = false := by
    rw [hwl]
    exact Contains_stop_tag t '?' (by decide) (by decide) ht
  have htext : lexTextBetweenTags l = [] :=
    lexTextBetweenTags_single l ('/' :: t) (by simpa using hwl) (by
      intro c hc
      rcases List.mem_cons.1 hc with rfl | hc
      · exact ⟨by decide, by decide⟩
      · exact ht.angle c hc)
  have hc := lexLineContent_at_stop_notext (l := l) (by rw [hwl, hpos]; rfl)
    (by rw [hwl, hpos]; simp) (Or.inr htext)
  have hg := lexTagName_stop { l with tagTypeIs := tagType.stopTag } [] t [] '>' hwl hpos
    (fun c hc => ⟨(ht.name c hc).1, (ht.name c hc).2.1⟩) (Or.inr rfl) rfl hopen
  have hend := lexLineContent_to_end
    { l with
      tagTypeIs := tagType.stopTag, workingPosition := ([] : Str).length + 2 + t.length,
      tagName := t,
      tokenChan := l.tokenChan ++ [Token.mk TokenType.tokenEndTag (TrimSpace t)] }
    ('<' :: '/' :: t) (by simp [hwl]) (by simp; omega) h1 h2
  refine ⟨_, Steps.lineContent hc (Steps.tagName hg (Steps.lineContent hend (Steps.refl _ _))),
    ⟨rfl, rfl, rfl, rfl⟩, rfl, rfl, rfl, ?_⟩
  simp [TrimSpace_alnum ht.2]

theorem TrimSpace_open_tag {t : Str} (ht : Alnum t) : TrimSpace ('<' :: t) = '<' :: t := by
  apply TrimSpace_eq_self
  · intro c hc
    simp only [List.head?_cons, Option.some.injEq] at hc
    subst hc
    decide
  · intro c hc
    rcases List.mem_cons.1 (List.mem_of_mem_getLast? hc) with rfl | h
    · decide
    · exact isSpace_of_isAlnum (ht.2 c h)

theorem HasSuffix_open_tag {t : Str} (ht : Alnum t) : HasSuffix ('<' :: t) ['>'] = false := by
  rcases List.eq_nil_or_concat t with h | ⟨t0, c, h⟩
  · exact absurd h ht.1
  · have hc : c ≠ '>' := isAlnum_ne (ht.2 c (by simp [h])) (by decide)
    rw [h, List.concat_eq_append, ← List.cons_append, HasSuffix_concat]
    simp [Ne.symm hc]

theorem TrimSpace_attr_line {n : Str} (v : Str) (hn : Alnum n) :
    TrimSpace (n ++ '=' :: '"' :: (v ++ ['"', '>'])) = n ++ '=' :: '"' :: (v ++ ['"', '>']) := by
  apply TrimSpace_eq_self
  · intro c hc
    rw [List.head?_append_of_ne_nil _ hn.1] at hc
    exact isSpace_of_isAlnum (hn.2 c (List.mem_of_mem_head? hc))
  · intro c hc
    have e : n ++ '=' :: '"' :: (v ++ ['"', '>']) = (n ++ '=' :: '"' :: (v ++ ['"'])) ++ ['>'] := by
      simp
    rw [e, List.getLast?_concat] at hc
    simp only [Option.some.injEq] at hc
    subst hc
    decide

/-- For non-empty alphanumeric `t`, `n`, `v`, the run on the three lines
    `<t`, `n="v">`, `</t>`, each handed over by the reader in one slice,
    finishes and sends exactly StartTag `t`, ArgumentName `n`, ArgumentValue
    `v`, EndTag `t`, EOF. -/
theorem LexStart_split_tag (t n v : Str) (ht : Alnum t) (hn : Alnum n) (hv : Alnum v) :
    (LexStart ["<".data ++ t, n ++ "=\"".data ++ v ++ "\">".data,
        "</".data ++ t ++ ">".data]).status = Status.finished ∧
      (LexStart ["<".data ++ t, n ++ "=\"".data ++ v ++ "\">".data,
        "</".data ++ t ++ ">".data]).tokens
        = [Token.mk TokenType.tokenStartTag t, Token.mk TokenType.tokenArgumentName n,
            Token.mk TokenType.tokenArgumentValue v, Token.mk TokenType.tokenEndTag t,
            eofToken] := by
  have e1 : "<".data ++ t = '<' :: t := rfl
  have e2 : n ++ "=\"".data ++ v ++ "\">".data = n ++ '=' :: '"' :: (v ++ ['"', '>']) := by
    show n ++ ['=', '"'] ++ v ++ ['"', '>'] = _
    simp
  have e3 : "</".data ++ t ++ ">".data = '<' :: '/' :: (t ++ ['>']) := rfl
  have hl3 : TrimSpace ('<' :: '/' :: (t ++ ['>'])) = '<' :: '/' :: (t ++ ['>']) := by
    have := TrimSpace_tag ('/' :: t)
    simpa using this
  have key : ∀ l : lexer,
      l.workingLine = [' '] ++ '<' :: (t ++ (attrsText [(n, v)] ++ ['>'])) →
      l.workingPosition = 0 → l.chanClosed = false → l.fileReader = [] → l.EOF = false →
      l.nextLine = '<' :: '/' :: (t ++ ['>']) → l.tokenChan = [] →
      Finishes StateFn.lexLineContent l
        [Token.mk TokenType.tokenStartTag t, Token.mk TokenType.tokenArgumentName n,
          Token.mk TokenType.tokenArgumentValue v, Token.mk TokenType.tokenEndTag t,
          eofToken] := by
    intro l hwl hpos hopen hrd he hnext htok0
    obtain ⟨l5, hsteps, ⟨hfr, hnl, heof, -⟩, -, hcl, -, htok⟩ :=
      ScannedLine_tag_attrs l [' '] t [(n, v)] hwl hpos (by simp) ht
        (by
          intro a ha
          simp only [List.mem_singleton] at ha
          subst ha
          exact ⟨hn, hv⟩) hopen
    have hprint : lexPrint l5 = _ :=
      lexReadFileLine_last (l := { l5 with workingLine := [] }) (by rw [hfr, hrd])
        (by rw [heof, he])
    have hcheck := lexCheckLineType_tag
      { l5 with
        workingLine := [], workingPosition := 0, currentLineNR := l5.currentLineNR + 1,
        currentLine := l5.nextLine, EOF := true, nextLine := [] }
      ('/' :: t) (by simp [hnl, hnext])
    obtain ⟨l8, hscan⟩ := ScannedLine_stop_tag
      { l5 with
        workingLine := l5.nextLine, workingPosition := 0, currentLineNR := l5.currentLineNR + 1,
        currentLine := l5.nextLine, EOF := true, nextLine := [], firstLineFound := false }
      t ht (by simp [hnl, hnext]) rfl (by rw [hcl, hopen])
    have hfin := Finishes_of_ScannedLine hscan (show l5.fileReader = [] by rw [hfr, hrd]) rfl
      (show l5.chanClosed = false by rw [hcl, hopen])
    refine Finishes_of_Steps hsteps (Finishes_of_Steps
      (Steps.print hprint (Steps.checkLineType hcheck (Steps.refl _ _))) ?_)
    simpa [htok, htok0, attrTokens] using hfin
  rw [e1, e2, e3]
  apply LexStart_of_Finishes
  rw [lexReadFileLine_cons rfl, TrimSpace_open_tag ht]
  refine Finishes_of_Steps (Steps.checkLineType (lexCheckLineType_of_empty _ rfl)
    (Steps.readFileLine (lexReadFileLine_cons rfl) (Steps.refl _ _))) ?_
  rw [TrimSpace_attr_line v hn]
  refine Finishes_of_Steps (Steps.checkLineType
    (lexCheckLineType_open _ t rfl (HasSuffix_open_tag ht))
    (Steps.readFileLine (lexReadFileLine_cons rfl) (Steps.refl _ _))) ?_
  rw [hl3]
  have hp : HasPrefix (n ++ '=' :: '"' :: (v ++ ['"', '>'])) ['<'] = false := by
    obtain ⟨c0, n0, hn0⟩ := List.exists_cons_of_ne_nil hn.1
    have hc0 : c0 ≠ '<' := isAlnum_ne (hn.2 c0 (by simp [hn0])) (by decide)
    rw [hn0, List.cons_append, HasPrefix_cons]
    simp [Ne.symm hc0]
  have hs : HasSuffix (n ++ '=' :: '"' :: (v ++ ['"', '>'])) ['>'] = true := by
    have e : n ++ '=' :: '"' :: (v ++ ['"', '>']) = (n ++ '=' :: '"' :: (v ++ ['"'])) ++ ['>'] := by
      simp
    rw [e, HasSuffix_concat]
    rfl
  refine Finishes_of_Steps (Steps.checkLineType
    (lexCheckLineType_close _ (by simp) hp hs rfl) (Steps.refl _ _)) ?_
  refine key _ ?_ ?_ ?_ ?_ ?_ ?_ ?_
  · simp [newLexer, attrsText, attrText]
  all_goals rfl

/-- The run on the lines `<arg`, `name="x">`, `</arg>`. -/
theorem LexStart_split_tag_witness :
    (LexStart ["<arg".data, "name=\"x\">".data, "</arg>".data]).status = Status.finished ∧
      (LexStart ["<arg".data, "name=\"x\">".data, "</arg>".data]).tokens
        = [Token.mk TokenType.tokenStartTag "arg".data,
            Token.mk TokenType.tokenArgumentName "name".data,
            Token.mk TokenType.tokenArgumentValue "x".data,
            Token.mk TokenType.tokenEndTag "arg".data, eofToken] :=
  LexStart_split_tag "arg".data "name".data "x".data (by decide) (by decide) (by decide)

/-! ## The line the classifier does not catch -/

theorem lexCheckLineType_uncaught (l : lexer) (hne : l.currentLine ≠ [])
    (hs : HasPrefix l.currentLine ['<'] = false) (he : HasSuffix l.currentLine ['>'] = true)
    (hf : l.firstLineFound = false) :
    lexCheckLineType l
      = ({ l with debugLog := l.debugLog ++ [(l.currentLineNR, l.workingLine)] },
          Next.fn StateFn.lexPrint) := by
  have hlen : l.currentLine.length ≠ 0 := fun h => hne (List.length_eq_zero.mp h)
  simp [lexCheckLineType, hlen, hs, he, hf]

/-- C17: on the one-line input `a>` the line classifier reaches its
    "uncaught line" fallback: the debug print is made once, for line 1, and
    the line is dropped, so the run sends the end-of-file token only. -/
theorem LexStart_uncaught_line :
    (LexStart ["a>".data]).final.debugLog = [(1, [])] ∧
      (LexStart ["a>".data]).tokens = [eofToken] ∧
      (LexStart ["a>".data]).status = Status.finished := by
  decide

/-! ## The cursor after an attribute -/

/-- C18 (counterexample): on `<a b="c=d">` the `=` inside the quoted value
    is met by the scan after the attribute has been reported, and gives a
    second ArgumentName and a second ArgumentValue token. -/
theorem LexStart_equal_in_value :
    (LexStart ["<a b=\"c=d\">".data]).tokens
      = [Token.mk TokenType.tokenStartTag "a".data,
          Token.mk TokenType.tokenArgumentName "b".data,
          Token.mk TokenType.tokenArgumentValue "c=d".data,
          Token.mk TokenType.tokenArgumentName "b=\"c".data,
          Token.mk TokenType.tokenArgumentValue "d".data, eofToken] := by
  decide

/-- C18 (amended): when `lexTagArguments` does not panic, it sends one
    ArgumentName and one ArgumentValue token, moves the cursor by one
    position, from the `=` to the character after it, leaves the working line
    as it is, and returns `lexLineContent`: the scan resumes at the character
    after the `=`, in front of the value and not past it. -/
theorem lexTagArguments_cursor (l : lexer) (h : (lexTagArguments l).2 ≠ Next.fault) :
    (lexTagArguments l).2 = Next.fn StateFn.lexLineContent ∧
      (lexTagArguments l).1.workingPosition = l.workingPosition + 1 ∧
      (lexTagArguments l).1.workingLine = l.workingLine ∧
      ∃ a v : Str, (lexTagArguments l).1.tokenChan
        = l.tokenChan ++ [Token.mk TokenType.tokenArgumentName a,
            Token.mk TokenType.tokenArgumentValue v] := by
  rcases lexTagArguments_cases l with hf | ⟨_, a, v, hc⟩
  · exact absurd hf h
  · rw [hc]
    exact ⟨rfl, rfl, rfl, a, v, rfl⟩

/-- C18 (witness): the attribute of `<a b="c=d">`, with the cursor on its `=`. -/
theorem lexTagArguments_cursor_witness :
    (lexTagArguments { newLexer [] with
        workingLine := "<a b=\"c=d\">".data, workingPosition := 4 }).2
      = Next.fn StateFn.lexLineContent ∧
    (lexTagArguments { newLexer [] with
        workingLine := "<a b=\"c=d\">".data, workingPosition := 4 }).1.workingPosition = 4 + 1 :=
  have h := lexTagArguments_cursor
    { newLexer [] with workingLine := "<a b=\"c=d\">".data, workingPosition := 4 } (by decide)
  ⟨h.1, h.2.1⟩

/-! ## The text between the tags when a boundary is missing -/

/-- C19: on the line `<a b</a>` no `>` other than the last character of the
    line is found, yet `lexTextBetweenTags` returns a non-empty text, the
    line from its first character up to the `<` of the stop tag, and the run
    sends it as a JustText token. -/
theorem LexStart_text_without_boundary :
    lexTextBetweenTags { newLexer [] with workingLine := "<a b</a>".data } = "<a b".data ∧
      (LexStart ["<a b</a>".data]).tokens
        = [Token.mk TokenType.tokenStartTag "a".data,
            Token.mk TokenType.tokenJustText "<a b".data,
            Token.mk TokenType.tokenEndTag "a".data, eofToken] := by
  decide

/-! ## The working lines handed to the scanner -/

/-- The two physical lines `<a` and `b>` are merged into the working line
    ` <a b>`, which is handed to `lexLineContent`. -/
theorem LexStart_hands_over_merged_line :
    handedOver (LexStart ["<a".data, "b>".data]).calls = [" <a b>".data] := by
  decide

/-- C16 (amended): a working line that `lexCheckLineType` hands to
    `lexLineContent` is the current line itself, which then starts with `<`
    and ends with `>`; or it is the working line gathered so far, a space and
    the current line, where either a continuation is open and the current
    line ends with `>` without starting with `<`, or no continuation is open,
    the current line neither starts with `<` nor ends with `>` and the next
    line starts with `<` (the last line of a free-text block). -/
theorem lexCheckLineType_hands_over (l l1 : lexer)
    (h : lexCheckLineType l = (l1, Next.fn StateFn.lexLineContent)) :
    (l1.workingLine = l.currentLine ∧ HasPrefix l.currentLine ['<'] = true ∧
      HasSuffix l.currentLine ['>'] = true) ∨
    (l1.workingLine = l.workingLine ++ ' ' :: l.currentLine ∧ l.firstLineFound = true ∧
      HasPrefix l.currentLine ['<'] = false ∧ HasSuffix l.currentLine ['>'] = true) ∨
    (l1.workingLine = l.workingLine ++ ' ' :: l.currentLine ∧ l.firstLineFound = false ∧
      HasPrefix l.currentLine ['<'] = false ∧ HasSuffix l.currentLine ['>'] = false ∧
      HasPrefix l.nextLine ['<'] = true) := by
  unfold lexCheckLineType at h
  by_cases hlen : l.currentLine.length = 0
  · simp [hlen] at h
  · rcases Bool.eq_false_or_eq_true (HasPrefix l.currentLine ['<']) with hs | hs <;>
    rcases Bool.eq_false_or_eq_true (HasSuffix l.currentLine ['>']) with he | he <;>
    rcases Bool.eq_false_or_eq_true l.firstLineFound with hf | hf <;>
    rcases Bool.eq_false_or_eq_true (HasPrefix l.nextLine ['<']) with hn | hn <;>
    rcases Bool.eq_false_or_eq_true l.chanClosed with hc | hc <;>
    simp [hlen, hs, he, hf, hn, hc, tokenSendChannel] at h <;>
    simp [← h, hs, he, hf, hn]

/-- C16 (witness): the line `b>` that closes the tag begun by `<a`. -/
theorem lexCheckLineType_hands_over_witness :
    lexCheckLineType { newLexer [] with
        currentLine := "b>".data, workingLine := " <a".data, firstLineFound := true }
      = ({ newLexer [] with currentLine := "b>".data, workingLine := " <a b>".data },
          Next.fn StateFn.lexLineContent) ∧
    ((" <a b>".data = "b>".data ∧ HasPrefix "b>".data ['<'] = true ∧
        HasSuffix "b>".data ['>'] = true) ∨
      (" <a b>".data = " <a".data ++ ' ' :: "b>".data ∧ true = true ∧
        HasPrefix "b>".data ['<'] = false ∧ HasSuffix "b>".data ['>'] = true) ∨
      (" <a b>".data = " <a".data ++ ' ' :: "b>".data ∧ true = false ∧
        HasPrefix "b>".data ['<'] = false ∧ HasSuffix "b>".data ['>'] = false ∧
        HasPrefix ([] : Str) ['<'] = true)) :=
  ⟨by decide, lexCheckLineType_hands_over
    { newLexer [] with
      currentLine := "b>".data, workingLine := " <a".data, firstLineFound := true }
    { newLexer [] with currentLine := "b>".data, workingLine := " <a b>".data } (by decide)⟩

/-! ## The tag name, for any name and any tag direction -/

theorem tagType_cases (t : tagType) : t = tagType.startTag ∨ t = tagType.stopTag := by
  cases t <;> simp

/-- `lexTagName` at a `<`, or at a `</` (`sl` is the slash, if any): the
    name runs up to the first space or `>`, the token is a StartTag or an
    EndTag according to the tag direction, and its text is the name trimmed. -/
theorem lexTagName_at (l : lexer) (A sl name R : Str) (d : Char)
    (hwl : l.workingLine = A ++ '<' :: (sl ++ (name ++ d :: R)))
    (hpos : l.workingPosition = A.length)
    (hsl : (sl = [] ∧ name.head? ≠ some '/') ∨ sl = ['/'])
    (hname : ∀ c ∈ name, c ≠ ' ' ∧ c ≠ '>') (hd : d = ' ' ∨ d = '>')
    (hopen : l.chanClosed = false) :
    lexTagName l = ({ l with
      workingPosition := A.length + 1 + sl.length + name.length, tagName := name,
      tokenChan := l.tokenChan ++ [Token.mk (tagTokenType l.tagTypeIs) (TrimSpace name)] },
      Next.fn StateFn.lexLineContent) := by
  rcases hsl with ⟨rfl, hhead⟩ | rfl
  · obtain ⟨c0, hc0, hne⟩ : ∃ c0, l.workingLine[l.workingPosition + 1]? = some c0 ∧ c0 ≠ '/' := by
      rw [hwl, hpos, List.getElem?_append_right (by omega)]
      cases name with
      | nil =>
        refine ⟨d, by simp, ?_⟩
        rcases hd with rfl | rfl <;> decide
      | cons c name => exact ⟨c, by simp, fun h => hhead (by simp [h])⟩
    have hloop := lexTagNameLoop_name l.workingLine name (A ++ ['<']) R d
      (l.workingLine.length - (l.workingPosition + 1)) []
      (by simp [hwl]) hname hd (by simp [hwl, hpos]; omega)
    simp only [List.length_append, List.length_singleton, List.nil_append] at hloop
    unfold lexTagName
    dsimp only
    rw [hc0]
    dsimp only
    rw [if_neg hne]
    dsimp only
    rw [hpos] at hloop ⊢
    rw [hloop]
    dsimp only
    rcases tagType_cases l.tagTypeIs with htt | htt <;> rw [htt] <;> dsimp only [tagTokenType] <;>
      rw [tokenSendChannel_open (by exact hopen)] <;> simp
  · have hc0 : l.workingLine[l.workingPosition + 1]? = some '/' := by
      rw [hwl, hpos, List.getElem?_append_right (by omega)]
      simp
    have hloop := lexTagNameLoop_name l.workingLine name (A ++ ['<', '/']) R d
      (l.workingLine.length - (l.workingPosition + 1 + 1)) []
      (by simp [hwl]) hname hd (by simp [hwl, hpos]; omega)
    simp only [List.length_append, List.length_cons, List.length_singleton, List.length_nil,
      List.nil_append] at hloop
    unfold lexTagName
    dsimp only
    rw [hc0]
    dsimp only
    rw [if_pos rfl]
    dsimp only
    rw [hpos] at hloop ⊢
    rw [show A.length + 1 + 1 = A.length + (0 + 1 + 1) by omega, hloop]
    dsimp only
    rcases tagType_cases l.tagTypeIs with htt | htt <;> rw [htt] <;> dsimp only [tagTokenType] <;>
      rw [tokenSendChannel_open (by exact hopen)] <;> simp

/-- C20 (counterexample): on the line `<a`, tab, `>` the tag name is set to
    `a` followed by the tab, the characters between the `<` and the `>`, but
    the StartTag token carries `a`: the text of a token is trimmed when it is
    sent. -/
theorem lexTagName_name_trimmed :
    (lexTagName { newLexer [] with workingLine := "<a\t>".data }).1.tagName = "a\t".data ∧
      (lexTagName { newLexer [] with workingLine := "<a\t>".data }).1.tokenChan
        = [Token.mk TokenType.tokenStartTag "a".data] ∧
      (LexStart ["<a\t>".data]).tokens = [Token.mk TokenType.tokenStartTag "a".data, eofToken] := by
  decide

/-- C20 (amended): with the cursor on a `<` that is followed, after the
    optional `/`, by the characters `name` free of space and `>` and then by
    a space or a `>`, `lexTagName` (the channel being open) sets the tag name
    to `name`, sends one token, a StartTag or an EndTag according to the tag
    direction, whose text is `name` with its white space trimmed, leaves the
    cursor on that space or `>`, and returns `lexLineContent`. -/
theorem lexTagName_sets_name (l : lexer) (A sl name R : Str) (d : Char)
    (hwl : l.workingLine = A ++ '<' :: (sl ++ (name ++ d :: R)))
    (hpos : l.workingPosition = A.length)
    (hsl : (sl = [] ∧ name.head? ≠ some '/') ∨ sl = ['/'])
    (hname : ∀ c ∈ name, c ≠ ' ' ∧ c ≠ '>') (hd : d = ' ' ∨ d = '>')
    (hopen : l.chanClosed = false) :
    (lexTagName l).2 = Next.fn StateFn.lexLineContent ∧
      (lexTagName l).1.tagName = name ∧
      (lexTagName l).1.tokenChan
        = l.tokenChan ++ [Token.mk (tagTokenType l.tagTypeIs) (TrimSpace name)] ∧
      (lexTagName l).1.workingLine = l.workingLine ∧
      (lexTagName l).1.workingLine[(lexTagName l).1.workingPosition]? = some d := by
  rw [lexTagName_at l A sl name R d hwl hpos hsl hname hd hopen]
  refine ⟨rfl, rfl, rfl, rfl, ?_⟩
  show l.workingLine[A.length + 1 + sl.length + name.length]? = some d
  rw [hwl, show A ++ '<' :: (sl ++ (name ++ d :: R)) = (A ++ '<' :: (sl ++ name)) ++ d :: R by simp]
  have := getElem?_append_cons (A ++ '<' :: (sl ++ name)) d R
  simpa [Nat.add_assoc, Nat.add_comm, Nat.add_left_comm] using this

/-- C20 (witness): the stop tag of `<a></ab c>`. -/
theorem lexTagName_sets_name_witness :
    (lexTagName { newLexer [] with
        workingLine := "<a></ab c>".data, workingPosition := 3,
        tagTypeIs := tagType.stopTag }).1.tagName = "ab".data ∧
      (lexTagName { newLexer [] with
        workingLine := "<a></ab c>".data, workingPosition := 3,
        tagTypeIs := tagType.stopTag }).1.tokenChan
        = [Token.mk TokenType.tokenEndTag "ab".data] :=
  have h := lexTagName_sets_name
    { newLexer [] with
      workingLine := "<a></ab c>".data, workingPosition := 3, tagTypeIs := tagType.stopTag }
    "<a>".data ['/'] "ab".data "c>".data ' ' (by decide) (by decide) (Or.inr rfl)
    (by decide) (Or.inl rfl) (by decide)
  ⟨h.2.1, h.2.2.1⟩

/-! ## The value of an attribute -/

theorem findChrPositionBefore_some (s : Str) (c : Char) :
    ∀ p : Nat, p ≤ s.length → ∃ q, findChrPositionBefore s c p = some q := by
  intro p
  induction p with
  | zero => exact fun _ => ⟨0, rfl⟩
  | succ p ih =>
    intro hp
    obtain ⟨x, hx⟩ : ∃ x, s[p]? = some x := ⟨s[p], List.getElem?_eq_getElem (by omega)⟩
    rw [findChrPositionBefore, hx]
    dsimp only
    by_cases hxc : x = c
    · exact ⟨p, by rw [if_pos hxc]⟩
    · rw [if_neg hxc]
      exact ih (by omega)

/-- A value followed by its closing quote splits at the first `>` of the
    value, or at the quote when the value has no `>`. -/
theorem takeWhile_gt_split (v R : Str) (c : Char) :
    ∃ (q : Char) (R1 : Str),
      v ++ c :: R = v.takeWhile (fun x => decide (x ≠ '>')) ++ q :: R1 ∧ (q = c ∨ q = '>') := by
  induction v with
  | nil => exact ⟨c, R, rfl, Or.inl rfl⟩
  | cons x v ih =>
    by_cases hx : x = '>'
    · exact ⟨'>', v ++ c :: R, by simp [hx], Or.inr rfl⟩
    · obtain ⟨q, R1, e, hq⟩ := ih
      refine ⟨q, R1, ?_, hq⟩
      rw [List.takeWhile_cons_of_pos (by simpa using hx), List.cons_append, List.cons_append, e]

/-- `lexTagArguments` at the `=` of an attribute whose value is in double
    quotes: the value sent is the text after the opening quote up to the
    first `>` or the closing quote, whichever comes first. -/
theorem lexTagArguments_quoted (l : lexer) (A v R : Str)
    (hwl : l.workingLine = A ++ '=' :: '"' :: (v ++ '"' :: R))
    (hpos : l.workingPosition = A.length) (hv : '"' ∉ v) (hopen : l.chanClosed = false) :
    ∃ a : Str, lexTagArguments l = ({ l with
      workingPosition := A.length + 1,
      tokenChan := l.tokenChan ++ [Token.mk TokenType.tokenArgumentName a,
        Token.mk TokenType.tokenArgumentValue
          (TrimSpace (v.takeWhile (fun x => decide (x ≠ '>'))))] },
      Next.fn StateFn.lexLineContent) := by
  have hlen : l.workingLine.length = A.length + v.length + R.length + 3 := by
    simp [hwl]
    omega
  obtain ⟨q, R1, hsplit, hq⟩ := takeWhile_gt_split v R '"'
  have hcut : ∀ x ∈ v.takeWhile (fun x => decide (x ≠ '>')), x ≠ '"' ∧ x ≠ '>' := by
    intro x hx
    refine ⟨fun h => hv (h ▸ (List.takeWhile_sublist _).subset hx), ?_⟩
    simpa using List.mem_takeWhile_imp hx
  have hcutlen : (v.takeWhile (fun x => decide (x ≠ '>'))).length ≤ v.length :=
    (List.takeWhile_sublist _).length_le
  obtain ⟨p1, h1⟩ := findChrPositionBefore_some l.workingLine ' ' l.workingPosition
    (by rw [hlen, hpos]; omega)
  have h2 : ∃ arg, findLettersBetween l.workingLine p1 l.workingPosition = some arg := by
    unfold findLettersBetween
    rw [if_neg (by rw [hlen, hpos]; omega)]
    exact ⟨_, rfl⟩
  obtain ⟨arg, h2⟩ := h2
  have h3 : findChrPositionAfter l.workingLine '"' (l.workingPosition + 1)
      = A.length + 2 + (v.takeWhile (fun x => decide (x ≠ '>'))).length := by
    unfold findChrPositionAfter
    have e : l.workingLine
        = (A ++ ['=', '"']) ++ (v.takeWhile (fun x => decide (x ≠ '>')) ++ q :: R1) := by
      rw [← hsplit]
      simp [hwl]
    have hB : l.workingPosition + 1 + 1 = (A ++ ['=', '"']).length := by
      simp [hpos]
    rw [hB, findChrPositionAfterLoop_word _ '"' _ _ R1 q _ e hcut hq
      (by rw [hlen, hpos]; omega)]
    simp
  have h4 : findLettersBetween l.workingLine (l.workingPosition + 1)
      (A.length + 2 + (v.takeWhile (fun x => decide (x ≠ '>'))).length)
      = some (v.takeWhile (fun x => decide (x ≠ '>'))) := by
    unfold findLettersBetween
    rw [if_neg (by rw [hlen]; omega), hpos,
      show A.length + 2 + (v.takeWhile (fun x => decide (x ≠ '>'))).length - (A.length + 1)
        = ('"' :: v.takeWhile (fun x => decide (x ≠ '>'))).length by simp; omega]
    have e : l.workingLine
        = (A ++ ['=']) ++ (('"' :: v.takeWhile (fun x => decide (x ≠ '>'))) ++ q :: R1) := by
      rw [List.cons_append, ← hsplit]
      simp [hwl]
    rw [e, show A.length + 1 = (A ++ ['=']).length by simp,
      drop_take_middle, Trim_quote_value (fun h => (hcut _ h).1 rfl)]
  refine ⟨TrimSpace arg, ?_⟩
  unfold lexTagArguments
  rw [h1]
  dsimp only
  rw [h2]
  dsimp only
  rw [tokenSendChannel_open hopen]
  dsimp only
  rw [h3, h4]
  dsimp only
  rw [tokenSendChannel_open (by exact hopen)]
  simp only [hpos, List.append_assoc, List.singleton_append]

/-- C11 (counterexample): on `<a b="c>d">` the value between the quotes is
    `c>d`, and the ArgumentValue token carries `c`: the `>` inside the quotes
    cuts the value. -/
theorem LexStart_gt_in_value :
    (LexStart ["<a b=\"c>d\">".data]).tokens
      = [Token.mk TokenType.tokenStartTag "a".data,
          Token.mk TokenType.tokenArgumentName "b".data,
          Token.mk TokenType.tokenArgumentValue "c".data, eofToken] := by
  decide

/-- C11 (amended): with the cursor on an `=` that is followed by a value `v`
    in double quotes (`v` without a double quote, the channel open),
    `lexTagArguments` sends an ArgumentName token and then the ArgumentValue
    token whose text is `v` cut before its first `>`, with its white space
    trimmed: the value ends at the first `"` or `>` after the opening quote,
    whichever comes first.  For a value without `>` the text is `v`
    trimmed. -/
theorem lexTagArguments_value (l : lexer) (A v R : Str)
    (hwl : l.workingLine = A ++ '=' :: '"' :: (v ++ '"' :: R))
    (hpos : l.workingPosition = A.length) (hv : '"' ∉ v) (hopen : l.chanClosed = false) :
    (lexTagArguments l).2 = Next.fn StateFn.lexLineContent ∧
      (∃ a : Str, (lexTagArguments l).1.tokenChan
        = l.tokenChan ++ [Token.mk TokenType.tokenArgumentName a,
            Token.mk TokenType.tokenArgumentValue
              (TrimSpace (v.takeWhile (fun x => decide (x ≠ '>'))))]) ∧
      ('>' ∉ v → ∃ a : Str, (lexTagArguments l).1.tokenChan
        = l.tokenChan ++ [Token.mk TokenType.tokenArgumentName a,
            Token.mk TokenType.tokenArgumentValue (TrimSpace v)]) := by
  obtain ⟨a, h⟩ := lexTagArguments_quoted l A v R hwl hpos hv hopen
  rw [h]
  refine ⟨rfl, ⟨a, rfl⟩, fun hgt => ⟨a, ?_⟩⟩
  have e : v.takeWhile (fun x => decide (x ≠ '>')) = v :=
    List.takeWhile_eq_self_iff.2 (fun x hx => by
      have hne : x ≠ '>' := fun h => hgt (h ▸ hx)
      simpa using hne)
  rw [e]

/-- C11 (witness): the attribute of `<a b="c>d">`, with the cursor on its `=`. -/
theorem lexTagArguments_value_witness :
    ∃ a : Str, (lexTagArguments { newLexer [] with
        workingLine := "<a b=\"c>d\">".data, workingPosition := 4 }).1.tokenChan
      = [Token.mk TokenType.tokenArgumentName a,
          Token.mk TokenType.tokenArgumentValue "c".data] :=
  (lexTagArguments_value
    { newLexer [] with workingLine := "<a b=\"c>d\">".data, workingPosition := 4 }
    "<a b".data "c>d".data ">".data (by decide) (by decide) (by decide) (by decide)).2.1

/-! ## The text between the tags, in a line with several tags -/

/-- The walk of `lexTextBetweenTags` over any stretch of the line leaves the
    loop at the end of the stretch, with some pair of positions. -/
theorem lexTextBetweenTagsLoop_any (s : Str) (seg : Str) :
    ∀ (B R : Str) (n pos a b : Nat), s = B ++ (seg ++ R) → pos = B.length → seg.length ≤ n →
      ∃ a1 b1 : Nat, lexTextBetweenTagsLoop s n pos a b
        = lexTextBetweenTagsLoop s (n - seg.length) (pos + seg.length) a1 b1 := by
  induction seg with
  | nil => intro B R n pos a b _ _ _; exact ⟨a, b, rfl⟩
  | cons c seg ih =>
    intro B R n pos a b hs hpos hn
    have hc : s[pos]? = some c := by
      rw [hs, hpos, List.cons_append]
      exact getElem?_append_cons B c _
    simp only [List.length_cons] at hn
    rw [lexTextBetweenTagsLoop_step s n pos a b c hc (by omega)]
    have key : ∀ a2 b2 : Nat, ∃ a1 b1 : Nat, lexTextBetweenTagsLoop s (n - 1) (pos + 1) a2 b2
        = lexTextBetweenTagsLoop s (n - (seg.length + 1)) (pos + (seg.length + 1)) a1 b1 := by
      intro a2 b2
      obtain ⟨a1, b1, h⟩ := ih (B ++ [c]) R (n - 1) (pos + 1) a2 b2 (by simp [hs])
        (by simp [hpos]) (by omega)
      refine ⟨a1, b1, ?_⟩
      rw [h, show n - 1 - seg.length = n - (seg.length + 1) by omega,
        show pos + 1 + seg.length = pos + (seg.length + 1) by omega]
    simp only [List.length_cons]
    split_ifs <;> exact key _ _

/-- The text between the tags, at the last stop tag of a line that ends with
    `>`: it is the text between the `>` before the stop tag and the stop tag,
    whatever comes before that `>`. -/
theorem lexTextBetweenTags_last (l : lexer) (P X Q : Str)
    (hwl : l.workingLine = P ++ '>' :: (X ++ '<' :: '/' :: (Q ++ ['>'])))
    (hX : ∀ c ∈ X, c ≠ '<' ∧ c ≠ '>') (hQ : ∀ c ∈ Q, c ≠ '<' ∧ c ≠ '>')
    (hf : l.foundEqual = false) : lexTextBetweenTags l = X := by
  have hlen : l.workingLine.length = P.length + X.length + Q.length + 4 := by
    simp [hwl]
    omega
  have hloop : lexTextBetweenTagsLoop l.workingLine l.workingLine.length 0 0 0
      = (P.length + 1, P.length + X.length) := by
    obtain ⟨a1, b1, h0⟩ := lexTextBetweenTagsLoop_any l.workingLine P []
      ('>' :: (X ++ '<' :: '/' :: (Q ++ ['>']))) l.workingLine.length 0 0 0
      (by simpa using hwl) rfl (by omega)
    rw [h0]
    rw [lexTextBetweenTagsLoop_step _ _ _ a1 b1 '>'
      (by
        rw [hwl, Nat.zero_add]
        exact getElem?_append_cons P '>' _) (by omega)]
    rw [if_neg (by simp), if_neg (by rw [hlen]; simp; omega), if_pos rfl]
    rw [lexTextBetweenTagsLoop_plain _ X (P ++ ['>']) ('<' :: '/' :: (Q ++ ['>'])) _
      (0 + P.length + 1) _ b1 (by simp [hwl]) (by simp) hX (by omega)]
    rw [lexTextBetweenTagsLoop_step _ _ _ _ b1 '<'
      (by
        rw [hwl, show 0 + P.length + 1 + X.length = (P ++ '>' :: X).length by simp; omega]
        have e : P ++ '>' :: (X ++ '<' :: '/' :: (Q ++ ['>']))
            = (P ++ '>' :: X) ++ '<' :: ('/' :: (Q ++ ['>'])) := by simp
        rw [e]
        exact getElem?_append_cons _ '<' _) (by omega)]
    rw [if_neg (by simp), if_neg (by simp), if_neg (by decide), if_pos rfl]
    rw [lexTextBetweenTagsLoop_plain _ ('/' :: Q) (P ++ '>' :: X ++ ['<']) ['>'] _
      (0 + P.length + 1 + X.length + 1) _ _
      (by simp [hwl]) (by simp; omega)
      (by
        intro c hc
        rcases List.mem_cons.1 hc with rfl | hc
        · exact ⟨by decide, by decide⟩
        · exact hQ c hc) (by simp; omega)]
    rw [lexTextBetweenTagsLoop_step _ _ _ _ _ '>'
      (by
        rw [hwl, show 0 + P.length + 1 + X.length + 1 + ('/' :: Q).length
          = (P ++ '>' :: X ++ '<' :: '/' :: Q).length by simp; omega]
        have e : P ++ '>' :: (X ++ '<' :: '/' :: (Q ++ ['>']))
            = (P ++ '>' :: X ++ '<' :: '/' :: Q) ++ ['>'] := by simp
        rw [e]
        exact getElem?_append_cons _ '>' _) (by simp; omega)]
    rw [if_neg (by simp), if_pos ⟨rfl, by rw [hlen]; simp; omega⟩]
    rw [lexTextBetweenTagsLoop_done _ _ _ _ _ (by rw [hlen]; simp; omega)]
    simp only [Prod.mk.injEq]
    constructor <;> omega
  unfold lexTextBetweenTags
  rw [if_pos (by simp [hf])]
  dsimp only
  rw [hloop]
  dsimp only
  rw [if_pos (Or.inl (by omega))]
  rw [show P.length + X.length + 1 - (P.length + 1) = X.length by omega]
  have e : l.workingLine = (P ++ ['>']) ++ (X ++ '<' :: '/' :: (Q ++ ['>'])) := by
    simp [hwl]
  rw [e, show P.length + 1 = (P ++ ['>']).length by simp]
  exact drop_take_middle _ _ _

/-- C12: on `<a>x</a><b>y</b>` the JustText token sent at the first stop
    tag carries `y`, the text before the last stop tag of the line, not the
    text `x` between the nearest `>` before it and its `<`. -/
theorem LexStart_two_pairs :
    (LexStart ["<a>x</a><b>y</b>".data]).tokens
      = [Token.mk TokenType.tokenStartTag "a".data,
          Token.mk TokenType.tokenJustText "y".data,
          Token.mk TokenType.tokenEndTag "a".data,
          Token.mk TokenType.tokenStartTag "b".data,
          Token.mk TokenType.tokenJustText "y".data,
          Token.mk TokenType.tokenEndTag "b".data, eofToken] := by
  decide

/-- At the last stop-tag marker `</` of a working line that
    ends with `>` (after the marker the line holds no `<` and no `>` but its
    last character), reached while no attribute has been seen on the line and
    the channel is open, the text `lexTextBetweenTags` returns is the text
    `X` strictly between the nearest `>` before the marker and its `<`,
    whatever tags come before that `>`; `lexLineContent` sends it, trimmed,
    as one JustText token when `X` is not empty, sends nothing when it is,
    and returns `lexTagName` for the stop tag. -/
theorem lexLineContent_last_stop_text (l : lexer) (P X Q : Str)
    (hwl : l.workingLine = P ++ '>' :: (X ++ '<' :: '/' :: (Q ++ ['>'])))
    (hpos : l.workingPosition = P.length + 1 + X.length)
    (hX : ∀ c ∈ X, c ≠ '<' ∧ c ≠ '>') (hQ : ∀ c ∈ Q, c ≠ '<' ∧ c ≠ '>')
    (hf : l.foundEqual = false) (hopen : l.chanClosed = false) :
    lexTextBetweenTags l = X ∧
      lexLineContent l = ({ l with
        tokenChan := l.tokenChan ++
          (if X = [] then [] else [Token.mk TokenType.tokenJustText (TrimSpace X)]),
        tagTypeIs := tagType.stopTag }, Next.fn StateFn.lexTagName) := by
  have ht := lexTextBetweenTags_last l P X Q hwl hX hQ hf
  have e : l.workingLine = (P ++ '>' :: X) ++ '<' :: ('/' :: (Q ++ ['>'])) := by simp [hwl]
  have hp : l.workingPosition = (P ++ '>' :: X).length := by simp [hpos]; omega
  have h0 : l.workingLine[l.workingPosition]? = some '<' := by
    rw [e, hp]
    exact getElem?_append_cons _ '<' _
  have h1 : l.workingLine[l.workingPosition + 1]? = some '/' := by
    rw [e, hp, List.getElem?_append_right (by omega)]
    simp
  refine ⟨ht, ?_⟩
  by_cases hXe : X = []
  · rw [lexLineContent_at_stop_notext h0 h1 (Or.inr (by rw [ht]; exact hXe)), if_pos hXe]
    simp
  · rw [lexLineContent_at_stop_text h0 h1 hf (by rw [ht]; exact hXe) hopen, if_neg hXe, ht]

/-- The second stop tag of `<a>x</a><b>y</b>`. -/
theorem lexLineContent_last_stop_text_witness :
    lexTextBetweenTags { newLexer [] with
        workingLine := "<a>x</a><b>y</b>".data, workingPosition := 12 } = "y".data ∧
      (lexLineContent { newLexer [] with
        workingLine := "<a>x</a><b>y</b>".data, workingPosition := 12 }).1.tokenChan
        = [Token.mk TokenType.tokenJustText "y".data] :=
  have h := lexLineContent_last_stop_text
    { newLexer [] with workingLine := "<a>x</a><b>y</b>".data, workingPosition := 12 }
    "<a>x</a><b".data "y".data "b".data (by decide) (by decide) (by decide) (by decide)
    (by decide) (by decide)
  ⟨h.1, by rw [h.2]; decide⟩

/-! ## No text after an attribute -/

/-- One round of the scanner loop once an `=` has been seen on the line: it
    leaves the loop without sending anything, or passes one character,
    sending only self-closing end tags, and goes round again. -/
theorem lexLineContentBody_flag (k : lexer → lexer × Next) (l : lexer)
    (he : l.foundEqual = true) :
    ((lexLineContentBody k l).2 = Next.fault ∨
      lexLineContentBody k l = lexLineContentEnd l ∨
      lexLineContentBody k l = lexReadFileLine l ∨
      (∃ tt, lexLineContentBody k l = ({ l with tagTypeIs := tt }, Next.fn StateFn.lexTagName)) ∨
      lexLineContentBody k l = (l, Next.fn StateFn.lexTagArguments)) ∨
    ∃ ts : List Token, (∀ t ∈ ts, t.TokenType = TokenType.tokenEndTag) ∧
      l.workingPosition < l.workingLine.length ∧
      lexLineContentBody k l = k (advance l 1 ts) := by
  unfold lexLineContentBody
  cases hc : l.workingLine[l.workingPosition]? with
  | none => exact Or.inl (Or.inr (Or.inl rfl))
  | some c =>
    have hlen : l.workingPosition < l.workingLine.length := by
      rcases List.getElem?_eq_some_iff.1 hc with ⟨h, -⟩
      exact h
    dsimp only
    by_cases hlt : c = '<'
    · left
      rw [if_pos hlt]
      cases h1 : l.workingLine[l.workingPosition + 1]? with
      | none => exact Or.inl rfl
      | some c1 =>
        dsimp only
        by_cases hs : c1 = '/'
        · rw [if_pos hs, if_neg (by simp [he])]
          exact Or.inr (Or.inr (Or.inr (Or.inl ⟨_, rfl⟩)))
        · rw [if_neg hs]
          by_cases hb : c1 = '!'
          · rw [if_pos hb]
            cases h2 : l.workingLine[l.workingPosition + 2]? with
            | none => exact Or.inl rfl
            | some c2 =>
              dsimp only
              by_cases hd : c2 = '-'
              · rw [if_pos hd]
                cases h3 : l.workingLine[l.workingPosition + 3]? with
                | none => exact Or.inl rfl
                | some c3 =>
                  dsimp only
                  by_cases hd3 : c3 = '-'
                  · rw [if_pos hd3]
                    exact Or.inr (Or.inr (Or.inl rfl))
                  · rw [if_neg hd3]
                    exact Or.inr (Or.inr (Or.inr (Or.inl ⟨_, rfl⟩)))
              · rw [if_neg hd]
                exact Or.inr (Or.inr (Or.inr (Or.inl ⟨_, rfl⟩)))
          · rw [if_neg hb]
            exact Or.inr (Or.inr (Or.inr (Or.inl ⟨_, rfl⟩)))
    · rw [if_neg hlt]
      by_cases hgt : c = '>'
      · rw [if_pos hgt]
        cases h1 : sendEndTagIf (Contains l.workingLine ['/', '>']) l with
        | none => exact Or.inl (Or.inl rfl)
        | some l1 =>
          dsimp only
          cases h2 : sendEndTagIf (Contains l1.workingLine ['?', '>']) l1 with
          | none => exact Or.inl (Or.inl rfl)
          | some l2 =>
            obtain ⟨ts1, rfl, hts1⟩ := sendEndTagIf_eq_some h1
            obtain ⟨ts2, rfl, hts2⟩ := sendEndTagIf_eq_some h2
            right
            refine ⟨ts1 ++ ts2, ?_, hlen, ?_⟩
            · intro t ht
              rcases List.mem_append.1 ht with h | h
              · exact hts1 t h
              · exact hts2 t h
            · simp [advance]
      · rw [if_neg hgt]
        by_cases heq : c = '='
        · rw [if_pos heq]
          left; right; right; right; right
          have e : ({ l with foundEqual := true } : lexer) = l := by
            cases l
            simp only [lexer.mk.injEq, true_and, and_true] at he ⊢
            exact he.symm
          rw [e]
        · rw [if_neg heq]
          right
          refine ⟨[], by simp, hlen, ?_⟩
          simp [advance]

theorem lexLineContentBody_flag_stop {k : lexer → lexer × Next} {l l1 : lexer} {g : StateFn}
    (he : l.foundEqual = true)
    (h : (lexLineContentBody k l).2 = Next.fault ∨
      lexLineContentBody k l = lexLineContentEnd l ∨
      lexLineContentBody k l = lexReadFileLine l ∨
      (∃ tt, lexLineContentBody k l = ({ l with tagTypeIs := tt }, Next.fn StateFn.lexTagName)) ∨
      lexLineContentBody k l = (l, Next.fn StateFn.lexTagArguments))
    (hc : lexLineContentBody k l = (l1, Next.fn g)) :
    (isScanner g = true → l1.foundEqual = true) ∧ l1.tokenChan = l.tokenChan := by
  rcases h with h | h | h | ⟨tt, h⟩ | h
  · rw [hc] at h
    exact absurd h (by simp)
  · rw [hc, lexLineContentEnd] at h
    simp only [Prod.mk.injEq, Next.fn.injEq] at h
    obtain ⟨rfl, rfl⟩ := h
    exact ⟨fun hs => absurd hs (by decide), rfl⟩
  · rw [hc] at h
    rcases lexReadFileLine_cases l with hr | ⟨hr, -⟩ | ⟨hr, -, -, htok, -⟩
    · rw [← h] at hr
      exact absurd hr (by simp)
    · rw [← h] at hr
      exact absurd hr (by simp)
    · rw [← h] at hr htok
      simp only [Next.fn.injEq] at hr
      subst hr
      exact ⟨fun hs => absurd hs (by decide), htok⟩
  · rw [hc] at h
    simp only [Prod.mk.injEq, Next.fn.injEq] at h
    obtain ⟨rfl, rfl⟩ := h
    exact ⟨fun _ => he, rfl⟩
  · rw [hc] at h
    simp only [Prod.mk.injEq, Next.fn.injEq] at h
    obtain ⟨rfl, rfl⟩ := h
    exact ⟨fun _ => he, rfl⟩

/-- Once an `=` has been seen on the line, a call of `lexLineContent` sends
    only self-closing end tags, and the flag is still set when it hands over
    to `lexTagName` or `lexTagArguments`. -/
theorem lexLineContent_flag (l : lexer) (he : l.foundEqual = true) :
    ∀ (l1 : lexer) (g : StateFn), lexLineContent l = (l1, Next.fn g) →
      (isScanner g = true → l1.foundEqual = true) ∧
      ∃ ts : List Token, l1.tokenChan = l.tokenChan ++ ts ∧
        ∀ t ∈ ts, t.TokenType = TokenType.tokenEndTag := by
  generalize hn : l.workingLine.length - l.workingPosition = n
  induction n generalizing l with
  | zero =>
    intro l1 g hc
    rw [lexLineContent_loop] at hc
    rcases lexLineContentBody_flag lexLineContent l he with h | ⟨ts, -, hlen, -⟩
    · obtain ⟨h1, h2⟩ := lexLineContentBody_flag_stop he h hc
      exact ⟨h1, [], by simp [h2], by simp⟩
    · omega
  | succ n ih =>
    intro l1 g hc
    rw [lexLineContent_loop] at hc
    rcases lexLineContentBody_flag lexLineContent l he with h | ⟨ts, hts, hlen, heq⟩
    · obtain ⟨h1, h2⟩ := lexLineContentBody_flag_stop he h hc
      exact ⟨h1, [], by simp [h2], by simp⟩
    · have hn1 : (advance l 1 ts).workingLine.length - (advance l 1 ts).workingPosition = n := by
        simp only [advance]
        omega
      obtain ⟨hf, us, hus, husE⟩ := ih (advance l 1 ts) he hn1 l1 g (by rw [← heq]; exact hc)
      refine ⟨hf, ts ++ us, by simp [hus, advance], ?_⟩
      intro t ht
      rcases List.mem_append.1 ht with h | h
      · exact hts t h
      · exact husE t h

/-- Once an `=` has been seen on the line, a call of a scanner function that
    returns a state function sends no JustText token, and the flag is still
    set if the function returned is a scanner function. -/
theorem scanner_call_flag {f g : StateFn} {l l1 : lexer} (hf : isScanner f = true)
    (he : l.foundEqual = true) (hc : f.call l = (l1, Next.fn g)) :
    (isScanner g = true → l1.foundEqual = true) ∧
      ∃ ts : List Token, l1.tokenChan = l.tokenChan ++ ts ∧
        ∀ t ∈ ts, t.TokenType ≠ TokenType.tokenJustText := by
  cases f with
  | lexReadFileLine => exact absurd hf (by decide)
  | lexCheckLineType => exact absurd hf (by decide)
  | lexPrint => exact absurd hf (by decide)
  | lexLineContent =>
    obtain ⟨h1, ts, h2, h3⟩ := lexLineContent_flag l he l1 g hc
    exact ⟨h1, ts, h2, fun t ht => by rw [h3 t ht]; decide⟩
  | lexTagName =>
    change lexTagName l = (l1, Next.fn g) at hc
    rcases lexTagName_cases l with h | ⟨pos, tn, tt, -, -, htt, h⟩
    · rw [hc] at h
      exact absurd h (by simp)
    · rw [hc] at h
      simp only [Prod.mk.injEq, Next.fn.injEq] at h
      obtain ⟨rfl, rfl⟩ := h
      refine ⟨fun _ => he, _, rfl, ?_⟩
      intro t ht
      simp only [List.mem_singleton] at ht
      subst ht
      rcases htt with rfl | rfl <;> simp
  | lexTagArguments =>
    change lexTagArguments l = (l1, Next.fn g) at hc
    rcases lexTagArguments_cases l with h | ⟨-, a, v, h⟩
    · rw [hc] at h
      exact absurd h (by simp)
    · rw [hc] at h
      simp only [Prod.mk.injEq, Next.fn.injEq] at h
      obtain ⟨rfl, rfl⟩ := h
      refine ⟨fun _ => he, _, rfl, ?_⟩
      intro t ht
      simp only [List.mem_cons, List.mem_singleton, List.not_mem_nil, or_false] at ht
      rcases ht with rfl | rfl <;> simp

/-- Once an `=` has been seen on the line, no JustText token is sent as long
    as the scan stays on the line. -/
theorem ScanSteps_flag {f g : StateFn} {l l1 : lexer} (h : ScanSteps f l g l1) :
    (isScanner f = true → l.foundEqual = true) →
      ∃ ts : List Token, l1.tokenChan = l.tokenChan ++ ts ∧
        ∀ t ∈ ts, t.TokenType ≠ TokenType.tokenJustText := by
  induction h with
  | refl f l => exact fun _ => ⟨[], by simp, by simp⟩
  | step hf hc _ ih =>
    intro he
    obtain ⟨h1, ts, h2, h3⟩ := scanner_call_flag hf (he hf) hc
    obtain ⟨us, h4, h5⟩ := ih h1
    refine ⟨ts ++ us, by rw [h4, h2, List.append_assoc], ?_⟩
    intro t ht
    rcases List.mem_append.1 ht with h | h
    · exact h3 t h
    · exact h5 t h

/-! ## The line `<t n="v">X</t>` -/

/-- After an attribute: over the rest of the start tag, its `>` and the text
    to the stop tag that follows; no JustText token is sent. -/
theorem lexLineContent_to_stop_flag (l : lexer) (A seg X R : Str)
    (hwl : l.workingLine = A ++ (seg ++ '>' :: (X ++ '<' :: '/' :: R)))
    (hpos : l.workingPosition = A.length)
    (h1 : Contains l.workingLine ['/', '>'] = false)
    (h2 : Contains l.workingLine ['?', '>'] = false)
    (hseg : ∀ c ∈ seg, c ≠ '<' ∧ c ≠ '>' ∧ c ≠ '=')
    (hX : ∀ c ∈ X, c ≠ '<' ∧ c ≠ '>' ∧ c ≠ '=') (hf : l.foundEqual = true) :
    lexLineContent l = ({ l with
      workingPosition := A.length + seg.length + 1 + X.length,
      tagTypeIs := tagType.stopTag }, Next.fn StateFn.lexTagName) := by
  have e1 : l.workingLine = (A ++ seg) ++ '>' :: (X ++ '<' :: '/' :: R) := by simp [hwl]
  have e2 : l.workingLine = (A ++ seg ++ '>' :: X) ++ '<' :: '/' :: R := by simp [hwl]
  have hlen2 : A.length + seg.length + 1 + X.length = (A ++ seg ++ '>' :: X).length := by
    simp
    omega
  have s3 := lexLineContent_skip X { l with workingPosition := A.length + seg.length + 1 }
    (A ++ seg ++ ['>']) ('<' :: '/' :: R) (by simp [hwl]) (by simp; omega) hX
  rw [show (A ++ seg ++ ['>']).length = A.length + seg.length + 1 by simp; omega] at s3
  calc lexLineContent l
      = lexLineContent { l with workingPosition := A.length + seg.length } :=
        lexLineContent_skip seg l A _ hwl hpos hseg
    _ = lexLineContent { l with workingPosition := A.length + seg.length + 1 } :=
        lexLineContent_gt_plain (l := { l with workingPosition := A.length + seg.length })
          (by
            show l.workingLine[A.length + seg.length]? = some '>'
            rw [e1, ← List.length_append]
            exact getElem?_append_cons _ _ _) h1 h2
    _ = lexLineContent { l with workingPosition := A.length + seg.length + 1 + X.length } := s3
    _ = _ :=
        lexLineContent_at_stop_notext
          (l := { l with workingPosition := A.length + seg.length + 1 + X.length })
          (by
            show l.workingLine[A.length + seg.length + 1 + X.length]? = some '<'
            rw [e2, hlen2]
            exact getElem?_append_cons _ _ _)
          (by
            show l.workingLine[A.length + seg.length + 1 + X.length + 1]? = some '/'
            rw [e2, hlen2, List.getElem?_append_right (by omega)]
            simp)
          (Or.inl hf)

theorem Contains_attr_pair_line (t n v X : Str) (a : Char) (ha : isAlnum a = false)
    (ha1 : a ≠ '<') (ha2 : a ≠ '>') (ha3 : a ≠ ' ') (ha4 : a ≠ '=') (ha5 : a ≠ '"')
    (ht : Alnum t) (hn : Alnum n) (hv : Alnum v) (hX : ∀ c ∈ X, c ≠ '<' ∧ c ≠ '>' ∧ c ≠ '=') :
    Contains ('<' :: (t ++ ' ' :: (n ++ '=' :: '"' :: (v ++ '"' :: '>' ::
      (X ++ '<' :: '/' :: (t ++ ['>'])))))) [a, '>'] = false := by
  rw [Contains_cons_of_ne _ _ ha1, Contains_append_of_not_mem_fst _ _ (isAlnum_not_mem ht.2 ha),
    Contains_cons_of_ne _ _ ha3, Contains_append_of_not_mem_fst _ _ (isAlnum_not_mem hn.2 ha),
    Contains_cons_of_ne _ _ ha4, Contains_cons_of_ne _ _ ha5,
    Contains_append_of_not_mem_fst _ _ (isAlnum_not_mem hv.2 ha),
    Contains_cons_of_ne _ _ ha5, Contains_cons_of_ne _ _ ha2,
    Contains_append_of_not_mem_snd a _ (fun h => (hX _ h).2.1 rfl) (by decide)]
  exact Contains_stop_tag t a ha ha1 ht

/-- The scan of the working line `<t n="v">X</t>`: the text `X` is not
    sent. -/
theorem ScannedLine_attr_pair (l : lexer) (t n v X : Str) (ht : Alnum t) (hn : Alnum n)
    (hv : Alnum v) (hX : ∀ c ∈ X, c ≠ '<' ∧ c ≠ '>' ∧ c ≠ '=')
    (hwl : l.workingLine = '<' :: (t ++ ' ' :: (n ++ '=' :: '"' :: (v ++ '"' :: '>' ::
      (X ++ '<' :: '/' :: (t ++ ['>']))))))
    (hpos : l.workingPosition = 0) (hopen : l.chanClosed = false) :
    ∃ l1, ScannedLine l l1 [Token.mk TokenType.tokenStartTag t,
      Token.mk TokenType.tokenArgumentName n, Token.mk TokenType.tokenArgumentValue v,
      Token.mk TokenType.tokenEndTag t] := by
  have hc1 := Contains_attr_pair_line t n v X '/' (by decide) (by decide) (by decide)
    (by decide) (by decide) (by decide) ht hn hv hX
  have hc2 := Contains_attr_pair_line t n v X '?' (by decide) (by decide) (by decide)
    (by decide) (by decide) (by decide) ht hn hv hX
  rw [← hwl] at hc1 hc2
  obtain ⟨c0, t0, ht0⟩ := List.exists_cons_of_ne_nil ht.1
  have hc0 : c0 ≠ '/' ∧ c0 ≠ '!' := by
    have hmem : c0 ∈ t := by rw [ht0]; exact List.mem_cons_self _ _
    exact ⟨isAlnum_ne (ht.2 c0 hmem) (by decide), isAlnum_ne (ht.2 c0 hmem) (by decide)⟩
  have hplain : ∀ {w : Str}, (∀ c ∈ w, isAlnum c = true) → ∀ c ∈ w, c ≠ '<' ∧ c ≠ '>' ∧ c ≠ '=' :=
    fun hw c hc => ⟨isAlnum_ne (hw c hc) (by decide), isAlnum_ne (hw c hc) (by decide),
      isAlnum_ne (hw c hc) (by decide)⟩
  have hseg3 : ∀ c ∈ ' ' :: n, c ≠ '<' ∧ c ≠ '>' ∧ c ≠ '=' := by
    intro c hc
    rcases List.mem_cons.1 hc with rfl | hc
    · exact ⟨by decide, by decide, by decide⟩
    · exact hplain hn.2 c hc
  have hseg5 : ∀ c ∈ '"' :: (v ++ ['"']), c ≠ '<' ∧ c ≠ '>' ∧ c ≠ '=' := by
    intro c hc
    rcases List.mem_cons.1 hc with rfl | hc
    · exact ⟨by decide, by decide, by decide⟩
    · rcases List.mem_append.1 hc with hc | hc
      · exact hplain hv.2 c hc
      · rw [List.mem_singleton.1 hc]
        exact ⟨by decide, by decide, by decide⟩
  refine ⟨_, Steps.lineContent
    (lexLineContent_to_start l [] []
      (t0 ++ ' ' :: (n ++ '=' :: '"' :: (v ++ '"' :: '>' :: (X ++ '<' :: '/' :: (t ++ ['>'])))))
      c0 (by rw [hwl, ht0]; rfl) hpos (by simp) hc0.1 hc0.2)
    (Steps.tagName
      (lexTagName_start _ [] t
        (n ++ '=' :: '"' :: (v ++ '"' :: '>' :: (X ++ '<' :: '/' :: (t ++ ['>'])))) ' '
        hwl rfl ht.name (Or.inl rfl) rfl hopen)
      (Steps.lineContent
        (lexLineContent_to_eq _ ('<' :: t) (' ' :: n)
          ('"' :: (v ++ '"' :: '>' :: (X ++ '<' :: '/' :: (t ++ ['>']))))
          (by simp [hwl]) (by simp; omega) hseg3)
        (Steps.tagArguments
          (lexTagArguments_attr _ ('<' :: t) n v ('>' :: (X ++ '<' :: '/' :: (t ++ ['>'])))
            (by simp [hwl]) (by simp; omega) hn.2 hv.2 hopen)
          (Steps.lineContent
            (lexLineContent_to_stop_flag _ ('<' :: t ++ ' ' :: n ++ ['=']) ('"' :: (v ++ ['"']))
              X (t ++ ['>']) (by simp [hwl]) (by simp; omega) hc1 hc2 hseg5 hX rfl)
            (Steps.tagName
              (lexTagName_stop _ ('<' :: t ++ ' ' :: n ++ '=' :: '"' :: v ++ '"' :: '>' :: X) t []
                '>' (by simp [hwl]) (by simp; omega)
                (fun c hc => ⟨(ht.name c hc).1, (ht.name c hc).2.1⟩) (Or.inr rfl) rfl hopen)
              (Steps.lineContent
                (lexLineContent_to_end _
                  ('<' :: t ++ ' ' :: n ++ '=' :: '"' :: v ++ '"' :: '>' :: X ++ '<' :: '/' :: t)
                  (by simp [hwl]) (by simp; omega) hc1 hc2)
                (Steps.refl _ _))))))), ⟨rfl, rfl, rfl, rfl⟩, rfl, rfl, rfl, ?_⟩
  simp [TrimSpace_alnum ht.2]

/-- C13 (counterexample): on `<a>x</a><b c="d">y</b>` an `=` is seen before
    the stop-tag marker of `b`, and a JustText token has been sent for the
    line, at the stop-tag marker of `a`, before the `=` was met. -/
theorem LexStart_text_before_equal :
    (LexStart ["<a>x</a><b c=\"d\">y</b>".data]).tokens
      = [Token.mk TokenType.tokenStartTag "a".data,
          Token.mk TokenType.tokenJustText "y".data,
          Token.mk TokenType.tokenEndTag "a".data,
          Token.mk TokenType.tokenStartTag "b".data,
          Token.mk TokenType.tokenArgumentName "c".data,
          Token.mk TokenType.tokenArgumentValue "d".data,
          Token.mk TokenType.tokenEndTag "b".data, eofToken] := by
  decide

/-- C13 (amended): from the moment the scanner meets an `=` on a logical
    line, no JustText token is sent for the rest of that line: whatever
    scanner calls follow the call of `lexLineContent` that meets the `=`, and
    more generally whatever scanner calls follow a state in which the
    attribute flag is set, the tokens they send hold no JustText token.  In
    particular the run on a file of the one line `<t n="v">X</t>` (`t`, `n`,
    `v` non-empty words of letters and digits, `X` without `<`, `>`, `=`),
    when the line fits the buffer of the reader and so is handed over whole,
    finishes and sends exactly StartTag `t`, ArgumentName `n`, ArgumentValue
    `v`, EndTag `t`, EOF. -/
theorem no_JustText_after_equal :
    (∀ (g : StateFn) (l l1 : lexer), l.workingLine[l.workingPosition]? = some '=' →
      ScanSteps StateFn.lexLineContent l g l1 →
      ∃ ts : List Token, l1.tokenChan = l.tokenChan ++ ts ∧
        ∀ t ∈ ts, t.TokenType ≠ TokenType.tokenJustText) ∧
    (∀ (f g : StateFn) (l l1 : lexer), l.foundEqual = true → ScanSteps f l g l1 →
      ∃ ts : List Token, l1.tokenChan = l.tokenChan ++ ts ∧
        ∀ t ∈ ts, t.TokenType ≠ TokenType.tokenJustText) ∧
    (∀ t n v X : Str, Alnum t → Alnum n → Alnum v → (∀ c ∈ X, c ≠ '<' ∧ c ≠ '>' ∧ c ≠ '=') →
      ("<".data ++ t ++ " ".data ++ n ++ "=\"".data ++ v ++ "\">".data ++ X
          ++ "</".data ++ t ++ ">".data).length < defaultBufSize →
      (LexFile ["<".data ++ t ++ " ".data ++ n ++ "=\"".data ++ v ++ "\">".data ++ X
          ++ "</".data ++ t ++ ">".data]).status = Status.finished ∧
      (LexFile ["<".data ++ t ++ " ".data ++ n ++ "=\"".data ++ v ++ "\">".data ++ X
          ++ "</".data ++ t ++ ">".data]).tokens
        = [Token.mk TokenType.tokenStartTag t, Token.mk TokenType.tokenArgumentName n,
            Token.mk TokenType.tokenArgumentValue v, Token.mk TokenType.tokenEndTag t,
            eofToken]) := by
  refine ⟨?_, fun f g l l1 he hs => ScanSteps_flag hs (fun _ => he), ?_⟩
  · intro g l l1 hc hs
    cases hs with
    | refl => exact ⟨[], by simp, by simp⟩
    | step _ hcall hrest =>
      change lexLineContent l = _ at hcall
      rw [lexLineContent_at_eq hc] at hcall
      simp only [Prod.mk.injEq, Next.fn.injEq] at hcall
      obtain ⟨rfl, rfl⟩ := hcall
      have h := ScanSteps_flag hrest (fun _ => rfl)
      exact h
  · intro t n v X ht hn hv hX hfits
    rw [LexFile_of_fits _ (by
      intro s hs
      rw [List.mem_singleton.1 hs]
      exact hfits)]
    have e : "<".data ++ t ++ " ".data ++ n ++ "=\"".data ++ v ++ "\">".data ++ X
          ++ "</".data ++ t ++ ">".data
        = '<' :: ((t ++ ' ' :: (n ++ '=' :: '"' :: (v ++ '"' :: '>' ::
            (X ++ '<' :: '/' :: t)))) ++ ['>']) := by
      show ['<'] ++ t ++ [' '] ++ n ++ ['=', '"'] ++ v ++ ['"', '>'] ++ X ++ ['<', '/'] ++ t
        ++ ['>'] = _
      simp
    rw [e]
    exact LexStart_single_line _ _ (fun l hwl hpos _ hopen =>
      ScannedLine_attr_pair l t n v X ht hn hv hX (by simpa using hwl) hpos hopen)

/-- C13 (witness): a file of the one line `<t n="v">X</t>`. -/
theorem no_JustText_after_equal_witness :
    (LexFile ["<t n=\"v\">X</t>".data]).status = Status.finished ∧
      (LexFile ["<t n=\"v\">X</t>".data]).tokens
        = [Token.mk TokenType.tokenStartTag "t".data,
            Token.mk TokenType.tokenArgumentName "n".data,
            Token.mk TokenType.tokenArgumentValue "v".data,
            Token.mk TokenType.tokenEndTag "t".data, eofToken] :=
  no_JustText_after_equal.2.2 "t".data "n".data "v".data "X".data ⟨by decide, by decide⟩
    ⟨by decide, by decide⟩ ⟨by decide, by decide⟩ (by decide) (by decide)

/-! ## The token kinds of the two copies -/

/-- The scanner of `main.go` at an `=`: the attribute flag is set, and an
    ArgumentFound token with the text `found argument` is sent before
    `lexTagArguments` is returned. -/
theorem main_lexLineContent_at_eq {l : Main.lexer}
    (hc : l.workingLine[l.workingPosition]? = some '=')
    (hs : l.sendToken = Main.console ∨ (l.sendToken = Main.channel ∧ l.chanClosed = false)) :
    Main.lexLineContent l = ({ l with
      foundEqual := true,
      sent := l.sent ++ [Main.token.mk Main.tokenType.tokenArgumentFound
        ['f', 'o', 'u', 'n', 'd', ' ', 'a', 'r', 'g', 'u', 'm', 'e', 'n', 't']] },
      Next.fn StateFn.lexTagArguments) := by
  have hlen : l.workingPosition < l.workingLine.length := by
    rcases List.getElem?_eq_some_iff.1 hc with ⟨h, -⟩
    exact h
  obtain ⟨n, hn⟩ : ∃ n, l.workingLine.length - l.workingPosition = n + 1 :=
    ⟨l.workingLine.length - l.workingPosition - 1, by omega⟩
  unfold Main.lexLineContent
  rw [hn, Main.lexLineContentLoop]
  unfold Main.lexLineContentBody
  rw [hc]
  dsimp only
  rw [if_neg (by decide), if_neg (by decide), if_pos rfl]
  rcases hs with h | ⟨h, hopen⟩
  · simp [Main.newTokenSender, Main.tokenSendConsole, h]
  · simp [Main.newTokenSender, Main.tokenSendChannel, h, hopen, Main.console, Main.channel]

/-- C14 (counterexample): the copy of the lexer in `main.go`, run on the
    line `<a b="c">` with the channel as output, sends a token of kind
    ArgumentFound, which is none of the seven kinds. -/
theorem main_lexStart_argument_found :
    (Main.lexStart (Main.newLexer ["<a b=\"c\">".data] Main.channel)).1.sent
      = [Main.token.mk Main.tokenType.tokenStartTag "a".data,
          Main.token.mk Main.tokenType.tokenArgumentFound "found argument".data,
          Main.token.mk Main.tokenType.tokenArgumentName " b".data,
          Main.token.mk Main.tokenType.tokenArgumentValue "c".data,
          Main.token.mk Main.tokenType.tokenEOF "EOF".data] ∧
    (Main.lexStart (Main.newLexer ["<a b=\"c\">".data] Main.channel)).2 = Status.finished := by
  decide

/-- C14 (amended): every token sent by the library lexer (`lexer.go`) has
    one of the seven kinds StartTag, EndTag, ArgumentName, ArgumentValue,
    Description, JustText, EOF; the copy in `main.go` sends tokens of an
    eighth kind as well: at every `=` its scanner meets, it sends an
    ArgumentFound token with the text `found argument` (to the console, or
    to the open channel) before it hands over to `lexTagArguments`. -/
theorem token_kinds :
    (∀ (fh : List Str) (t : Token), t ∈ (LexStart fh).tokens →
      t.TokenType ∈ [TokenType.tokenStartTag, TokenType.tokenEndTag,
        TokenType.tokenArgumentName, TokenType.tokenArgumentValue, TokenType.tokenDescription,
        TokenType.tokenJustText, TokenType.tokenEOF]) ∧
    (∀ l : Main.lexer, l.workingLine[l.workingPosition]? = some '=' →
      (l.sendToken = Main.console ∨ (l.sendToken = Main.channel ∧ l.chanClosed = false)) →
      Main.lexLineContent l = ({ l with
        foundEqual := true,
        sent := l.sent ++ [Main.token.mk Main.tokenType.tokenArgumentFound
          ['f', 'o', 'u', 'n', 'd', ' ', 'a', 'r', 'g', 'u', 'm', 'e', 'n', 't']] },
        Next.fn StateFn.lexTagArguments)) := by
  refine ⟨fun fh t _ => ?_, fun l hc hs => main_lexLineContent_at_eq hc hs⟩
  generalize t.TokenType = k
  cases k <;> simp

/-- C14 (witness): the line `<a b="c">`, and the scanner of `main.go` on its `=`. -/
theorem token_kinds_witness :
    (Token.mk TokenType.tokenStartTag "a".data).TokenType
      ∈ [TokenType.tokenStartTag, TokenType.tokenEndTag,
        TokenType.tokenArgumentName, TokenType.tokenArgumentValue, TokenType.tokenDescription,
        TokenType.tokenJustText, TokenType.tokenEOF] ∧
    (Main.lexLineContent { Main.newLexer [] Main.channel with
        workingLine := "<a b=\"c\">".data, workingPosition := 4 }).1.sent
      = [Main.token.mk Main.tokenType.tokenArgumentFound "found argument".data] :=
  ⟨token_kinds.1 ["<a b=\"c\">".data] (Token.mk TokenType.tokenStartTag "a".data) (by decide),
    by
      rw [token_kinds.2 { Main.newLexer [] Main.channel with
        workingLine := "<a b=\"c\">".data, workingPosition := 4 } (by decide)
        (Or.inr ⟨rfl, rfl⟩)]
      decide⟩

/-! ## What a skipped comment leaves behind -/

/-- C23: the comment line `<!-- c -->` put between the logical line `<x>` and
    the tag that is split over the lines `<a`, `b="c">` changes the tokens:
    the comment stays in the working line, the tag is appended to it, and the
    scan of the merged line stops at the comment marker, so the tag is lost.
    Without the comment line the tag is reported. -/
theorem LexStart_comment_residue :
    (LexStart ["<x>".data, "<!-- c -->".data, "<a".data, "b=\"c\">".data]).tokens
      = [Token.mk TokenType.tokenStartTag "x".data, eofToken] ∧
    (LexStart ["<x>".data, "<a".data, "b=\"c\">".data]).tokens
      = [Token.mk TokenType.tokenStartTag "x".data,
          Token.mk TokenType.tokenStartTag "a".data,
          Token.mk TokenType.tokenArgumentName "b".data,
          Token.mk TokenType.tokenArgumentValue "c".data, eofToken] ∧
    (LexStart ["<x>".data, "<!-- c -->".data, "text".data, "<a>".data]).tokens
      = [Token.mk TokenType.tokenStartTag "x".data,
          Token.mk TokenType.tokenDescription "<!-- c --> text".data,
          Token.mk TokenType.tokenStartTag "a".data, eofToken] := by
  decide

/-! ## Text of white space between two tags -/

/-- C24: on the line `<a> </a>` the text between the tags is one space: it
    is not empty, so a JustText token is sent, and its text, trimmed when it
    is sent, is empty.  On `<a></a>` no JustText token is sent. -/
theorem LexStart_blank_text :
    (LexStart ["<a> </a>".data]).tokens
      = [Token.mk TokenType.tokenStartTag "a".data, Token.mk TokenType.tokenJustText [],
          Token.mk TokenType.tokenEndTag "a".data, eofToken] ∧
    (LexStart ["<a></a>".data]).tokens
      = [Token.mk TokenType.tokenStartTag "a".data,
          Token.mk TokenType.tokenEndTag "a".data, eofToken] := by
  decide

/-! ## The name of an attribute -/

/-- `findChrPositionBefore`, called with a position inside the string or at
    its end, returns the greatest index before that position that holds the
    character, or 0 when there is none. -/
theorem findChrPositionBefore_spec (s : Str) (c : Char) :
    ∀ i : Nat, i ≤ s.length → ∃ p, findChrPositionBefore s c i = some p ∧
      ((p < i ∧ s[p]? = some c ∧ ∀ q, p < q → q < i → s[q]? ≠ some c) ∨
        (p = 0 ∧ ∀ q, q < i → s[q]? ≠ some c)) := by
  intro i
  induction i with
  | zero => exact fun _ => ⟨0, rfl, Or.inr ⟨rfl, fun q hq => absurd hq (by omega)⟩⟩
  | succ i ih =>
    intro hi
    obtain ⟨x, hx⟩ : ∃ x, s[i]? = some x := ⟨s[i], List.getElem?_eq_getElem (by omega)⟩
    rw [findChrPositionBefore, hx]
    dsimp only
    by_cases hxc : x = c
    · rw [if_pos hxc]
      exact ⟨i, rfl, Or.inl ⟨by omega, by rw [hx, hxc], fun q h1 h2 => absurd h1 (by omega)⟩⟩
    · rw [if_neg hxc]
      have hne : s[i]? ≠ some c := by
        rw [hx]
        exact fun h => hxc (Option.some.inj h)
      obtain ⟨p, hp, h⟩ := ih (by omega)
      refine ⟨p, hp, ?_⟩
      rcases h with ⟨h1, h2, h3⟩ | ⟨h1, h3⟩
      · refine Or.inl ⟨by omega, h2, fun q hq1 hq2 => ?_⟩
        rcases Nat.lt_or_ge q i with hq | hq
        · exact h3 q hq1 hq
        · rw [show q = i by omega]
          exact hne
      · refine Or.inr ⟨h1, fun q hq => ?_⟩
        rcases Nat.lt_or_ge q i with hq1 | hq1
        · exact h3 q hq1
        · rw [show q = i by omega]
          exact hne

theorem findChrPositionAfterLoop_le (s : Str) (c : Char) :
    ∀ n p : Nat, findChrPositionAfterLoop s c n p ≤ s.length := by
  intro n
  induction n with
  | zero => intro p; simp [findChrPositionAfterLoop]
  | succ n ih =>
    intro p
    rw [findChrPositionAfterLoop]
    cases hx : s[p]? with
    | none => simp
    | some x =>
      dsimp only
      split
      · rcases List.getElem?_eq_some_iff.1 hx with ⟨h, -⟩
        omega
      · exact ih (p + 1)

/-- `lexTagArguments` with the cursor inside the working line and the
    channel open does not panic: it sends the text between the nearest space
    before the cursor (or the start of the line) and the cursor, then the
    text between the cursor and the end of the value, each with its double
    quotes and its white space stripped, and moves the cursor by one. -/
theorem lexTagArguments_inside (l : lexer) (hpos : l.workingPosition ≤ l.workingLine.length)
    (hopen : l.chanClosed = false) :
    ∃ p1, findChrPositionBefore l.workingLine ' ' l.workingPosition = some p1 ∧
      lexTagArguments l = ({ l with
        workingPosition := l.workingPosition + 1,
        tokenChan := l.tokenChan ++ [Token.mk TokenType.tokenArgumentName
            (TrimSpace (Trim ((l.workingLine.drop p1).take (l.workingPosition - p1)) ['"'])),
          Token.mk TokenType.tokenArgumentValue
            (TrimSpace (Trim ((l.workingLine.drop (l.workingPosition + 1)).take
              (findChrPositionAfter l.workingLine '"' (l.workingPosition + 1)
                - (l.workingPosition + 1))) ['"']))] },
        Next.fn StateFn.lexLineContent) := by
  obtain ⟨p1, h1⟩ := findChrPositionBefore_some l.workingLine ' ' l.workingPosition hpos
  have h2 : findLettersBetween l.workingLine p1 l.workingPosition
      = some (Trim ((l.workingLine.drop p1).take (l.workingPosition - p1)) ['"']) := by
    unfold findLettersBetween
    rw [if_neg (by omega)]
  have hle : findChrPositionAfter l.workingLine '"' (l.workingPosition + 1)
      ≤ l.workingLine.length := findChrPositionAfterLoop_le _ _ _ _
  have h4 : findLettersBetween l.workingLine (l.workingPosition + 1)
      (findChrPositionAfter l.workingLine '"' (l.workingPosition + 1))
      = some (Trim ((l.workingLine.drop (l.workingPosition + 1)).take
          (findChrPositionAfter l.workingLine '"' (l.workingPosition + 1)
            - (l.workingPosition + 1))) ['"']) := by
    unfold findLettersBetween
    rw [if_neg (by omega)]
  refine ⟨p1, h1, ?_⟩
  unfold lexTagArguments
  rw [h1]
  dsimp only
  rw [h2]
  dsimp only
  rw [tokenSendChannel_open hopen]
  dsimp only
  rw [h4]
  dsimp only
  rw [tokenSendChannel_open (by exact hopen)]
  simp only [List.append_assoc, List.singleton_append]

/-- C21 (counterexample): on `<a "b"="c">` the word after the nearest space
    before the `=` is `"b"`, with its two quotes, and the ArgumentName token
    carries `"b`: the text from the space on has its double quotes stripped
    at both ends, which removes the closing quote only, and its white space
    trimmed.  (And `findChrPositionBefore`, called with a position beyond the
    end of the string, panics instead of returning.) -/
theorem LexStart_quoted_name :
    (LexStart ["<a \"b\"=\"c\">".data]).tokens
      = [Token.mk TokenType.tokenStartTag "a".data,
          Token.mk TokenType.tokenArgumentName "\"b".data,
          Token.mk TokenType.tokenArgumentValue "c".data, eofToken] ∧
    findChrPositionBefore "ab".data 'x' 5 = none := by
  decide

/-- C21 (amended): `findChrPositionBefore s c i`, for a position `i` inside
    the string or at its end, returns the greatest index `p < i` with
    `s[p] = c` when there is one, and 0 when there is none; and
    `lexTagArguments`, with the cursor inside the working line and the
    channel open, sends as ArgumentName the text of the working line from
    that position up to the cursor, not included, with the double quotes at
    its two ends stripped and then its white space trimmed. -/
theorem lexTagArguments_name :
    (∀ (s : Str) (c : Char) (i : Nat), i ≤ s.length →
      ∃ p, findChrPositionBefore s c i = some p ∧
        ((p < i ∧ s[p]? = some c ∧ ∀ q, p < q → q < i → s[q]? ≠ some c) ∨
          (p = 0 ∧ ∀ q, q < i → s[q]? ≠ some c))) ∧
    (∀ l : lexer, l.workingPosition ≤ l.workingLine.length → l.chanClosed = false →
      ∃ (p : Nat) (v : Str), findChrPositionBefore l.workingLine ' ' l.workingPosition = some p ∧
        (lexTagArguments l).1.tokenChan = l.tokenChan ++ [Token.mk TokenType.tokenArgumentName
            (TrimSpace (Trim ((l.workingLine.drop p).take (l.workingPosition - p)) ['"'])),
          Token.mk TokenType.tokenArgumentValue v]) := by
  refine ⟨fun s c i hi => findChrPositionBefore_spec s c i hi, fun l hpos hopen => ?_⟩
  obtain ⟨p1, h1, h⟩ := lexTagArguments_inside l hpos hopen
  rw [h]
  exact ⟨p1, _, h1, rfl⟩

/-- C21 (witness): the space of `a b c` before position 4, and the attribute
    of `<a "b"="c">`. -/
theorem lexTagArguments_name_witness :
    (∃ p, findChrPositionBefore "a b c".data ' ' 4 = some p ∧
      ((p < 4 ∧ "a b c".data[p]? = some ' ' ∧
          ∀ q, p < q → q < 4 → "a b c".data[q]? ≠ some ' ') ∨
        (p = 0 ∧ ∀ q, q < 4 → "a b c".data[q]? ≠ some ' '))) ∧
    (∃ (p : Nat) (v : Str), findChrPositionBefore "<a \"b\"=\"c\">".data ' ' 6 = some p ∧
      (lexTagArguments { newLexer [] with
          workingLine := "<a \"b\"=\"c\">".data, workingPosition := 6 }).1.tokenChan
        = [] ++ [Token.mk TokenType.tokenArgumentName
            (TrimSpace (Trim (("<a \"b\"=\"c\">".data.drop p).take (6 - p)) ['"'])),
          Token.mk TokenType.tokenArgumentValue v]) :=
  ⟨lexTagArguments_name.1 "a b c".data ' ' 4 (by decide),
    lexTagArguments_name.2 { newLexer [] with
      workingLine := "<a \"b\"=\"c\">".data, workingPosition := 6 } (by decide) (by decide)⟩

/-! ## The tokens of one call, whether it returns or panics -/

theorem lexReadFileLine_tokens (l : lexer) :
    (lexReadFileLine l).1.tokenChan = l.tokenChan ∨
      (lexReadFileLine l).1.tokenChan = l.tokenChan ++ [eofToken] := by
  cases hr : l.fileReader with
  | cons x rest =>
    rw [lexReadFileLine_cons hr]
    exact Or.inl rfl
  | nil =>
    rcases Bool.eq_false_or_eq_true l.EOF with he | he
    · rcases Bool.eq_false_or_eq_true l.chanClosed with hc | hc
      · left
        simp [lexReadFileLine, hr, he, tokenSendChannel, hc]
      · rw [lexReadFileLine_eof hr he hc]
        exact Or.inr rfl
    · rw [lexReadFileLine_last hr he]
      exact Or.inl rfl

theorem lexTagName_tokens (l : lexer) :
    (lexTagName l).1.tokenChan = l.tokenChan ∨
      ∃ (tt : TokenType) (x : Str), (tt = TokenType.tokenStartTag ∨ tt = TokenType.tokenEndTag) ∧
        (lexTagName l).1.tokenChan = l.tokenChan ++ [Token.mk tt x] := by
  have hsend : ∀ (pos : Nat) (tn : Str) (p0 : Nat),
      (match tokenSendChannel { l with workingPosition := pos, tagName := tn }
          (match l.tagTypeIs with
            | tagType.startTag => TokenType.tokenStartTag
            | tagType.stopTag => TokenType.tokenEndTag) tn with
        | none => (({ l with workingPosition := pos, tagName := tn } : lexer), Next.fault)
        | some l4 => (l4, Next.fn StateFn.lexLineContent)).1.tokenChan = l.tokenChan ∨
      ∃ (tt : TokenType) (x : Str), (tt = TokenType.tokenStartTag ∨ tt = TokenType.tokenEndTag) ∧
        (match tokenSendChannel { l with workingPosition := pos, tagName := tn }
          (match l.tagTypeIs with
            | tagType.startTag => TokenType.tokenStartTag
            | tagType.stopTag => TokenType.tokenEndTag) tn with
        | none => (({ l with workingPosition := pos, tagName := tn } : lexer), Next.fault)
        | some l4 => (l4, Next.fn StateFn.lexLineContent)).1.tokenChan
          = l.tokenChan ++ [Token.mk tt x] := by
    intro pos tn _
    rcases Bool.eq_false_or_eq_true l.chanClosed with hcl | hcl
    · left
      simp [tokenSendChannel, hcl]
    · right
      rcases tagType_cases l.tagTypeIs with htt | htt
      · exact ⟨TokenType.tokenStartTag, TrimSpace tn, Or.inl rfl,
          by simp [tokenSendChannel, hcl, htt]⟩
      · exact ⟨TokenType.tokenEndTag, TrimSpace tn, Or.inr rfl,
          by simp [tokenSendChannel, hcl, htt]⟩
  unfold lexTagName
  dsimp only
  cases hc : l.workingLine[l.workingPosition + 1]? with
  | none => exact Or.inl rfl
  | some c =>
    dsimp only
    by_cases hs : c = '/'
    · rw [if_pos hs]
      dsimp only
      cases hloop : lexTagNameLoop l.workingLine (l.workingLine.length - (l.workingPosition + 1 + 1))
          (l.workingPosition + 1 + 1) [] with
      | none => exact Or.inl rfl
      | some r =>
        obtain ⟨pos, tn⟩ := r
        exact hsend pos tn 0
    · rw [if_neg hs]
      dsimp only
      cases hloop : lexTagNameLoop l.workingLine (l.workingLine.length - (l.workingPosition + 1))
          (l.workingPosition + 1) [] with
      | none => exact Or.inl rfl
      | some r =>
        obtain ⟨pos, tn⟩ := r
        exact hsend pos tn 0

theorem lexTagArguments_tokens (l : lexer) :
    (lexTagArguments l).1.tokenChan = l.tokenChan ∨
      ∃ a v : Str, (lexTagArguments l).1.tokenChan
        = l.tokenChan ++ [Token.mk TokenType.tokenArgumentName a,
            Token.mk TokenType.tokenArgumentValue v] := by
  by_cases hpos : l.workingPosition ≤ l.workingLine.length
  · rcases Bool.eq_false_or_eq_true l.chanClosed with hc | hc
    · left
      unfold lexTagArguments
      cases h1 : findChrPositionBefore l.workingLine ' ' l.workingPosition with
      | none => rfl
      | some p1 =>
        dsimp only
        cases h2 : findLettersBetween l.workingLine p1 l.workingPosition with
        | none => rfl
        | some arg => simp [tokenSendChannel, hc]
    · obtain ⟨p1, -, h⟩ := lexTagArguments_inside l hpos hc
      rw [h]
      exact Or.inr ⟨_, _, rfl⟩
  · left
    unfold lexTagArguments
    cases h1 : findChrPositionBefore l.workingLine ' ' l.workingPosition with
    | none => rfl
    | some p1 => exact absurd (findChrPositionBefore_bound _ _ _ _ h1) hpos

/-- The line classifier sends nothing, or it sends one Description token;
    this it does only when the current line is not empty, neither starts
    with `<` nor ends with `>`, no continuation is open, and the next line
    starts with `<`. -/
theorem lexCheckLineType_tokens (l : lexer) :
    (lexCheckLineType l).1.tokenChan = l.tokenChan ∨
      (l.currentLine ≠ [] ∧ HasPrefix l.currentLine ['<'] = false ∧
        HasSuffix l.currentLine ['>'] = false ∧ l.firstLineFound = false ∧
        HasPrefix l.nextLine ['<'] = true ∧
        (lexCheckLineType l).1.tokenChan = l.tokenChan ++ [Token.mk TokenType.tokenDescription
          (TrimSpace (l.workingLine ++ ' ' :: l.currentLine))]) := by
  unfold lexCheckLineType
  by_cases hlen : l.currentLine.length = 0
  · simp [hlen]
  · have hne : l.currentLine ≠ [] := fun h => hlen (by rw [h]; rfl)
    rcases Bool.eq_false_or_eq_true (HasPrefix l.currentLine ['<']) with hs | hs <;>
    rcases Bool.eq_false_or_eq_true (HasSuffix l.currentLine ['>']) with he | he <;>
    rcases Bool.eq_false_or_eq_true l.firstLineFound with hf | hf <;>
    rcases Bool.eq_false_or_eq_true (HasPrefix l.nextLine ['<']) with hn | hn <;>
    rcases Bool.eq_false_or_eq_true l.chanClosed with hc | hc <;>
    simp [hlen, hne, hs, he, hf, hn, hc, tokenSendChannel]

/-- One round of the scanner loop sends end tags, a JustText token or the
    end-of-file token only, whether it returns or panics, provided going
    round the loop again does. -/
theorem lexLineContentBody_tokens (k : lexer → lexer × Next) (l : lexer)
    (hk : ∀ m : lexer, ∃ ts : List Token, (k m).1.tokenChan = m.tokenChan ++ ts ∧
      ∀ t ∈ ts, t.TokenType = TokenType.tokenEndTag ∨ t.TokenType = TokenType.tokenJustText ∨
        t.TokenType = TokenType.tokenEOF) :
    ∃ ts : List Token, (lexLineContentBody k l).1.tokenChan = l.tokenChan ++ ts ∧
      ∀ t ∈ ts, t.TokenType = TokenType.tokenEndTag ∨ t.TokenType = TokenType.tokenJustText ∨
        t.TokenType = TokenType.tokenEOF := by
  have hsame : ∀ (l1 : lexer) (nx : Next), l1.tokenChan = l.tokenChan →
      ∃ ts : List Token, ((l1, nx) : lexer × Next).1.tokenChan = l.tokenChan ++ ts ∧
        ∀ t ∈ ts, t.TokenType = TokenType.tokenEndTag ∨
          t.TokenType = TokenType.tokenJustText ∨ t.TokenType = TokenType.tokenEOF :=
    fun l1 nx h => ⟨[], by simp [h], by simp⟩
  unfold lexLineContentBody
  cases hc : l.workingLine[l.workingPosition]? with
  | none => exact hsame _ _ rfl
  | some c =>
    dsimp only
    by_cases hlt : c = '<'
    · rw [if_pos hlt]
      cases h1 : l.workingLine[l.workingPosition + 1]? with
      | none => exact hsame _ _ rfl
      | some c1 =>
        dsimp only
        by_cases hs : c1 = '/'
        · rw [if_pos hs]
          by_cases hf : (!l.foundEqual) = true
          · rw [if_pos hf]
            by_cases ht : lexTextBetweenTags l ≠ []
            · rw [if_pos ht]
              cases hsend : tokenSendChannel l TokenType.tokenJustText (lexTextBetweenTags l) with
              | none => exact hsame _ _ rfl
              | some l1 =>
                obtain ⟨-, rfl⟩ := tokenSendChannel_eq_some hsend
                exact ⟨[Token.mk TokenType.tokenJustText (TrimSpace (lexTextBetweenTags l))],
                  rfl, by simp⟩
            · rw [if_neg ht]
              exact hsame _ _ rfl
          · rw [if_neg hf]
            exact hsame _ _ rfl
        · rw [if_neg hs]
          by_cases hb : c1 = '!'
          · rw [if_pos hb]
            cases h2 : l.workingLine[l.workingPosition + 2]? with
            | none => exact hsame _ _ rfl
            | some c2 =>
              dsimp only
              by_cases hd : c2 = '-'
              · rw [if_pos hd]
                cases h3 : l.workingLine[l.workingPosition + 3]? with
                | none => exact hsame _ _ rfl
                | some c3 =>
                  dsimp only
                  by_cases hd3 : c3 = '-'
                  · rw [if_pos hd3]
                    rcases lexReadFileLine_tokens l with h | h
                    · exact ⟨[], by simp [h], by simp⟩
                    · exact ⟨[eofToken], h, by simp [eofToken]⟩
                  · rw [if_neg hd3]
                    exact hsame _ _ rfl
              · rw [if_neg hd]
                exact hsame _ _ rfl
          · rw [if_neg hb]
            exact hsame _ _ rfl
    · rw [if_neg hlt]
      by_cases hgt : c = '>'
      · rw [if_pos hgt]
        cases h1 : sendEndTagIf (Contains l.workingLine ['/', '>']) l with
        | none => exact hsame _ _ rfl
        | some l1 =>
          dsimp only
          obtain ⟨ts1, rfl, hts1⟩ := sendEndTagIf_eq_some h1
          cases h2 : sendEndTagIf (Contains l.workingLine ['?', '>'])
              { l with tokenChan := l.tokenChan ++ ts1 } with
          | none => exact ⟨ts1, rfl, fun t ht => Or.inl (hts1 t ht)⟩
          | some l2 =>
            obtain ⟨ts2, rfl, hts2⟩ := sendEndTagIf_eq_some h2
            dsimp only
            obtain ⟨ts, htok, hts⟩ := hk { l with
              tokenChan := l.tokenChan ++ ts1 ++ ts2, workingPosition := l.workingPosition + 1 }
            refine ⟨ts1 ++ ts2 ++ ts, by rw [htok]; simp, ?_⟩
            intro t ht
            rcases List.mem_append.1 ht with h | h
            · rcases List.mem_append.1 h with h | h
              · exact Or.inl (hts1 t h)
              · exact Or.inl (hts2 t h)
            · exact hts t h
      · rw [if_neg hgt]
        by_cases heq : c = '='
        · rw [if_pos heq]
          exact hsame _ _ rfl
        · rw [if_neg heq]
          obtain ⟨ts, htok, hts⟩ := hk { l with workingPosition := l.workingPosition + 1 }
          exact ⟨ts, htok, hts⟩

theorem lexLineContent_tokens (l : lexer) :
    ∃ ts : List Token, (lexLineContent l).1.tokenChan = l.tokenChan ++ ts ∧
      ∀ t ∈ ts, t.TokenType = TokenType.tokenEndTag ∨ t.TokenType = TokenType.tokenJustText ∨
        t.TokenType = TokenType.tokenEOF := by
  unfold lexLineContent
  generalize l.workingLine.length - l.workingPosition = n
  induction n generalizing l with
  | zero => exact ⟨[], by simp [lexLineContentLoop, lexLineContentEnd], by simp⟩
  | succ n ih =>
    rw [lexLineContentLoop]
    exact lexLineContentBody_tokens _ l ih

/-- What one call of a state function sends, whether it returns or panics. -/
theorem call_Chunk (f : StateFn) (l : lexer) :
    ∃ ts : List Token, (f.call l).1.tokenChan = l.tokenChan ++ ts ∧ Chunk f ts := by
  have hread : ∀ m : lexer, ∀ g : StateFn, g ≠ StateFn.lexCheckLineType →
      ∃ ts : List Token, (lexReadFileLine m).1.tokenChan = m.tokenChan ++ ts ∧ Chunk g ts := by
    intro m g _
    rcases lexReadFileLine_tokens m with h | h
    · exact ⟨[], by simp [h], Or.inr (by simp), fun _ => by simp⟩
    · exact ⟨[eofToken], h, Or.inr (by simp [eofToken]), fun _ => by simp [eofToken]⟩
  cases f with
  | lexReadFileLine => exact hread l _ (by decide)
  | lexPrint => exact hread { l with workingLine := [] } _ (by decide)
  | lexCheckLineType =>
    rcases lexCheckLineType_tokens l with h | ⟨-, -, -, -, -, h⟩
    · exact ⟨[], by simp [StateFn.call, h], Or.inr (by simp), fun h => absurd rfl h⟩
    · exact ⟨_, h, Or.inr (by simp), fun h => absurd rfl h⟩
  | lexLineContent =>
    obtain ⟨ts, h, hts⟩ := lexLineContent_tokens l
    refine ⟨ts, h, Or.inr (fun t ht => ?_), fun _ t ht => ?_⟩
    · rcases hts t ht with h | h | h <;> rw [h] <;> exact ⟨by decide, by decide⟩
    · rcases hts t ht with h | h | h <;> rw [h] <;> decide
  | lexTagName =>
    rcases lexTagName_tokens l with h | ⟨tt, x, htt, h⟩
    · exact ⟨[], by simp [StateFn.call, h], Or.inr (by simp), fun _ => by simp⟩
    · refine ⟨_, h, Or.inr (fun t ht => ?_), fun _ t ht => ?_⟩
      · rw [List.mem_singleton.1 ht]
        rcases htt with rfl | rfl <;> simp
      · rw [List.mem_singleton.1 ht]
        rcases htt with rfl | rfl <;> simp
  | lexTagArguments =>
    rcases lexTagArguments_tokens l with h | ⟨a, v, h⟩
    · exact ⟨[], by simp [StateFn.call, h], Or.inr (by simp), fun _ => by simp⟩
    · exact ⟨_, h, Or.inl ⟨a, v, rfl⟩, fun _ => by simp⟩

theorem ArgsAdjacent_nil : ArgsAdjacent [] :=
  ⟨fun i t h => by simp at h, fun i u h => by simp at h⟩

theorem ArgsAdjacent_append {a b : List Token} (ha : ArgsAdjacent a) (hb : ArgsAdjacent b) :
    ArgsAdjacent (a ++ b) := by
  constructor
  · intro i t hi ht
    rcases Nat.lt_or_ge i a.length with h | h
    · rw [List.getElem?_append_left h] at hi
      obtain ⟨u, hu, hk⟩ := ha.1 i t hi ht
      have hlt : i + 1 < a.length := (List.getElem?_eq_some_iff.1 hu).1
      exact ⟨u, by rw [List.getElem?_append_left hlt]; exact hu, hk⟩
    · rw [List.getElem?_append_right h] at hi
      obtain ⟨u, hu, hk⟩ := hb.1 _ t hi ht
      refine ⟨u, ?_, hk⟩
      rw [List.getElem?_append_right (by omega), show i + 1 - a.length = i - a.length + 1 by omega]
      exact hu
  · intro i u hi hu
    rcases Nat.lt_or_ge i a.length with h | h
    · rw [List.getElem?_append_left h] at hi
      obtain ⟨j, t, hj, ht, hk⟩ := ha.2 i u hi hu
      exact ⟨j, t, hj, by rw [List.getElem?_append_left (by omega)]; exact ht, hk⟩
    · rw [List.getElem?_append_right h] at hi
      obtain ⟨j, t, hj, ht, hk⟩ := hb.2 _ u hi hu
      refine ⟨a.length + j, t, by omega, ?_, hk⟩
      rw [List.getElem?_append_right (by omega), show a.length + j - a.length = j by omega]
      exact ht

theorem ArgsAdjacent_of_Chunk {f : StateFn} {ts : List Token} (h : Chunk f ts) :
    ArgsAdjacent ts := by
  rcases h.1 with ⟨a, v, rfl⟩ | h
  · constructor
    · intro i t hi ht
      match i, hi with
      | 0, _ => exact ⟨_, rfl, rfl⟩
      | 1, hi =>
        simp only [List.getElem?_cons_succ, List.getElem?_cons_zero, Option.some.injEq] at hi
        rw [← hi] at ht
        exact absurd ht (by simp)
      | i + 2, hi => simp at hi
    · intro i u hi hu
      match i, hi with
      | 0, hi =>
        simp only [List.getElem?_cons_zero, Option.some.injEq] at hi
        rw [← hi] at hu
        exact absurd hu (by simp)
      | 1, _ => exact ⟨0, _, rfl, rfl, rfl⟩
      | i + 2, hi => simp at hi
  · exact ⟨fun i t hi ht => absurd ht (h t (List.getElem?_mem hi)).1,
      fun i u hi hu => absurd hu (h u (List.getElem?_mem hi)).2⟩

/-- A property of the channel that every call keeps holds at the end of every
    run of the driver loop. -/
theorem runLoop_final (P : List Token → Prop)
    (hstep : ∀ (f : StateFn) (l : lexer), P l.tokenChan → P (f.call l).1.tokenChan) :
    ∀ (n : Nat) (f : StateFn) (l : lexer), P l.tokenChan → P (runLoop n f l).final.tokenChan := by
  intro n
  induction n with
  | zero => intro f l h; exact h
  | succ n ih =>
    intro f l h
    have h1 := hstep f l h
    unfold runLoop
    cases hc : f.call l with
    | mk l1 nx =>
      rw [hc] at h1
      cases nx with
      | stop => exact h1
      | fault => exact h1
      | fn g => exact ih g l1 h1

/-- A property of the token lists that holds of the empty list and that one
    more call keeps holds of the tokens of every run of `LexStart`, however
    the run ends. -/
theorem LexStart_tokens_invariant (P : List Token → Prop) (h0 : P [])
    (hstep : ∀ (f : StateFn) (l : lexer), P l.tokenChan → P (f.call l).1.tokenChan)
    (fh : List Str) : P (LexStart fh).tokens := by
  rw [LexStart_eq]
  exact runLoop_final P hstep _ _ _ (by rw [(firstRead_open fh).2]; exact h0)

/-! ## Attribute names and values arrive in pairs -/

/-- C28: in the token sequence of every run of the library lexer, however
    the run ends, each ArgumentName token is immediately followed by an
    ArgumentValue token, and each ArgumentValue token is immediately preceded
    by an ArgumentName token. -/
theorem LexStart_ArgsAdjacent (fh : List Str) : ArgsAdjacent (LexStart fh).tokens := by
  refine LexStart_tokens_invariant ArgsAdjacent ArgsAdjacent_nil (fun f l h => ?_) fh
  obtain ⟨ts, htok, hts⟩ := call_Chunk f l
  rw [htok]
  exact ArgsAdjacent_append h (ArgsAdjacent_of_Chunk hts)

/-! ## When a Description token is sent -/

/-- C27 (amended): a Description token is sent only by the line classifier, and only
    when the current line is not blank, neither starts with `<` nor ends with
    `>`, no continuation is open, and the next line starts with `<` (the
    lines being the physical lines with their white space trimmed, as the
    line reader hands them on).  Consequently the classifier sends nothing
    for a line whose next line is blank or missing, such as the last line of
    a free-text block that ends the input or is followed by a blank line;
    the lines `hello`, blank, `<a>` yield StartTag `a`, EOF, and so do the
    lines `<a>`, `hello`. -/
theorem Description_only_at_block_end :
    (∀ (f : StateFn) (l : lexer) (ts : List Token),
      (f.call l).1.tokenChan = l.tokenChan ++ ts →
      (∃ t ∈ ts, t.TokenType = TokenType.tokenDescription) →
      f = StateFn.lexCheckLineType ∧ l.currentLine ≠ [] ∧
        HasPrefix l.currentLine ['<'] = false ∧ HasSuffix l.currentLine ['>'] = false ∧
        l.firstLineFound = false ∧ HasPrefix l.nextLine ['<'] = true) ∧
    (∀ l : lexer, l.nextLine = [] → (lexCheckLineType l).1.tokenChan = l.tokenChan) ∧
    (LexStart ["hello".data, [], "<a>".data]).tokens
      = [Token.mk TokenType.tokenStartTag "a".data, eofToken] ∧
    (LexStart ["<a>".data, "hello".data]).tokens
      = [Token.mk TokenType.tokenStartTag "a".data, eofToken] := by
  refine ⟨?_, ?_, by decide, by decide⟩
  · intro f l ts htok ⟨t, ht, hk⟩
    obtain ⟨ts1, htok1, hch⟩ := call_Chunk f l
    have e : ts = ts1 := List.append_cancel_left (htok.symm.trans htok1)
    subst e
    have hf : f = StateFn.lexCheckLineType := by
      by_contra hne
      exact hch.2 hne t ht hk
    subst hf
    rcases lexCheckLineType_tokens l with h | ⟨h1, h2, h3, h4, h5, -⟩
    · have : ts = [] := by
        have h' : l.tokenChan ++ ts = l.tokenChan ++ [] := by
          rw [List.append_nil]
          exact htok.symm.trans h
        exact List.append_cancel_left h'
      rw [this] at ht
      simp at ht
    · exact ⟨rfl, h1, h2, h3, h4, h5⟩
  · intro l hn
    rcases lexCheckLineType_tokens l with h | ⟨-, -, -, -, h5, -⟩
    · exact h
    · rw [hn] at h5
      exact absurd h5 (by decide)

/-- C27 (witness): the classifier on the free-text line `hello` before the
    line `<a>`, where the Description token is sent, and before a blank
    line, where nothing is sent. -/
theorem Description_only_at_block_end_witness :
    (StateFn.lexCheckLineType = StateFn.lexCheckLineType ∧ "hello".data ≠ [] ∧
      HasPrefix "hello".data ['<'] = false ∧ HasSuffix "hello".data ['>'] = false ∧
      false = false ∧ HasPrefix "<a>".data ['<'] = true) ∧
    (lexCheckLineType { newLexer [] with currentLine := "hello".data }).1.tokenChan = [] :=
  ⟨Description_only_at_block_end.1 StateFn.lexCheckLineType
      { newLexer [] with currentLine := "hello".data, nextLine := "<a>".data }
      [Token.mk TokenType.tokenDescription "hello".data] (by decide)
      ⟨_, List.mem_singleton.2 rfl, rfl⟩,
    Description_only_at_block_end.2.1 { newLexer [] with currentLine := "hello".data } rfl⟩

/-! ## Lines that end with `>`: no index out of range -/

/-- In a line that ends with `>`, a character other than `>` has a
    character after it. -/
theorem ends_gt_next {s : Str} (h : HasSuffix s ['>'] = true) {p : Nat} {c : Char}
    (hc : s[p]? = some c) (hne : c ≠ '>') : p + 1 < s.length := by
  obtain ⟨A, rfl⟩ : ∃ A, s = A ++ ['>'] := by
    unfold HasSuffix at h
    obtain ⟨A, hA⟩ := List.isSuffixOf_iff_suffix.1 h
    exact ⟨A, hA.symm⟩
  have hp : p < (A ++ ['>']).length := (List.getElem?_eq_some_iff.1 hc).1
  simp only [List.length_append, List.length_singleton] at hp ⊢
  rcases Nat.lt_or_ge p A.length with h1 | h1
  · omega
  · have hpA : p = A.length := by omega
    rw [hpA, getElem?_append_cons A '>' []] at hc
    exact absurd (Option.some.inj hc).symm hne

/-- In a line that ends with `>`, the name loop of `lexTagName`, started
    inside the line, finds the end of the name. -/
theorem lexTagNameLoop_some {s : Str} (h : HasSuffix s ['>'] = true) :
    ∀ (n p : Nat) (tn : Str), p < s.length → s.length - p ≤ n →
      ∃ r, lexTagNameLoop s n p tn = some r := by
  intro n
  induction n with
  | zero => intro p tn hp hn; omega
  | succ n ih =>
    intro p tn hp hn
    obtain ⟨c, hc⟩ : ∃ c, s[p]? = some c := ⟨s[p], List.getElem?_eq_getElem hp⟩
    rw [lexTagNameLoop, hc]
    dsimp only
    by_cases h1 : c = ' '
    · exact ⟨_, by rw [if_pos h1]⟩
    · rw [if_neg h1]
      by_cases h2 : c = '>'
      · exact ⟨_, by rw [if_pos h2]⟩
      · rw [if_neg h2]
        exact ih (p + 1) _ (ends_gt_next h hc h2) (by omega)

/-- In a line that ends with `>`, `lexTagName` called with the cursor before
    the last character, the channel being open, does not panic. -/
theorem lexTagName_safe (l : lexer) (h : HasSuffix l.workingLine ['>'] = true)
    (hpos : l.workingPosition + 1 < l.workingLine.length) (hopen : l.chanClosed = false) :
    (lexTagName l).2 ≠ Next.fault := by
  obtain ⟨c, hc⟩ : ∃ c, l.workingLine[l.workingPosition + 1]? = some c :=
    ⟨_, List.getElem?_eq_getElem hpos⟩
  unfold lexTagName
  dsimp only
  rw [hc]
  dsimp only
  by_cases hs : c = '/'
  · rw [if_pos hs]
    dsimp only
    have hp2 : l.workingPosition + 1 + 1 < l.workingLine.length :=
      ends_gt_next h hc (by rw [hs]; decide)
    obtain ⟨r, hr⟩ := lexTagNameLoop_some h
      (l.workingLine.length - (l.workingPosition + 1 + 1)) (l.workingPosition + 1 + 1) []
      hp2 (Nat.le_refl _)
    rw [hr]
    simp [tokenSendChannel, hopen]
  · rw [if_neg hs]
    dsimp only
    obtain ⟨r, hr⟩ := lexTagNameLoop_some h
      (l.workingLine.length - (l.workingPosition + 1)) (l.workingPosition + 1) []
      hpos (Nat.le_refl _)
    rw [hr]
    simp [tokenSendChannel, hopen]

theorem lexReadFileLine_open (l : lexer) (hopen : l.chanClosed = false) :
    (lexReadFileLine l).2 = Next.fn StateFn.lexCheckLineType ∨
      (lexReadFileLine l).2 = Next.stop := by
  cases hr : l.fileReader with
  | cons x rest =>
    rw [lexReadFileLine_cons hr]
    exact Or.inl rfl
  | nil =>
    rcases Bool.eq_false_or_eq_true l.EOF with he | he
    · rw [lexReadFileLine_eof hr he hopen]
      exact Or.inr rfl
    · rw [lexReadFileLine_last hr he]
      exact Or.inl rfl

/-- At a `<!` that does not begin a comment marker the scanner takes the `<`
    for a start tag. -/
theorem lexLineContent_at_bang {l : lexer} {c2 c3 : Char}
    (h0 : l.workingLine[l.workingPosition]? = some '<')
    (h1 : l.workingLine[l.workingPosition + 1]? = some '!')
    (h2 : l.workingLine[l.workingPosition + 2]? = some c2)
    (h3 : c2 = '-' → l.workingLine[l.workingPosition + 3]? = some c3 ∧ c3 ≠ '-') :
    lexLineContent l
      = ({ l with tagTypeIs := tagType.startTag }, Next.fn StateFn.lexTagName) := by
  rw [lexLineContent_loop]
  unfold lexLineContentBody
  rw [h0]
  dsimp only
  rw [if_pos rfl, h1]
  dsimp only
  rw [if_neg (by decide), if_pos rfl, h2]
  dsimp only
  by_cases hd : c2 = '-'
  · rw [if_pos hd, (h3 hd).1]
    dsimp only
    rw [if_neg (h3 hd).2]
  · rw [if_neg hd]

theorem selfClosing_endTags (l : lexer) :
    ∀ t ∈ selfClosing l, t.TokenType = TokenType.tokenEndTag := by
  intro t ht
  unfold selfClosing at ht
  rcases List.mem_append.1 ht with h | h
  · split at h
    · rw [List.mem_singleton.1 h]
    · simp at h
  · split at h
    · rw [List.mem_singleton.1 h]
    · simp at h

/-- One round of the scanner on a line that ends with `>`, the channel being
    open: the end of the line; a `<` with a character after it, where the
    line is abandoned (comment marker) or `lexTagName` is returned; an `=`,
    where `lexTagArguments` is returned; or one character passed. -/
theorem lexLineContent_step_gt (l : lexer) (h : HasSuffix l.workingLine ['>'] = true)
    (hopen : l.chanClosed = false) :
    (l.workingLine.length ≤ l.workingPosition ∧ lexLineContent l = lexLineContentEnd l) ∨
    (l.workingPosition + 1 < l.workingLine.length ∧
      (lexLineContent l = lexReadFileLine l ∨
        ∃ tt js, (∀ t ∈ js, t.TokenType = TokenType.tokenJustText) ∧
          lexLineContent l
            = ({ advance l 0 js with tagTypeIs := tt }, Next.fn StateFn.lexTagName))) ∨
    (l.workingPosition < l.workingLine.length ∧
      lexLineContent l = ({ l with foundEqual := true }, Next.fn StateFn.lexTagArguments)) ∨
    (l.workingPosition < l.workingLine.length ∧
      ∃ ts : List Token, (∀ t ∈ ts, t.TokenType = TokenType.tokenEndTag) ∧
        lexLineContent l = lexLineContent (advance l 1 ts)) := by
  cases hc : l.workingLine[l.workingPosition]? with
  | none => exact Or.inl ⟨by simpa using hc, lexLineContent_end (by simpa using hc)⟩
  | some c =>
    have hlen : l.workingPosition < l.workingLine.length := (List.getElem?_eq_some_iff.1 hc).1
    by_cases hlt : c = '<'
    · subst hlt
      have hp1 := ends_gt_next h hc (by decide)
      obtain ⟨c1, hc1⟩ : ∃ c1, l.workingLine[l.workingPosition + 1]? = some c1 :=
        ⟨_, List.getElem?_eq_getElem hp1⟩
      refine Or.inr (Or.inl ⟨hp1, ?_⟩)
      by_cases hs : c1 = '/'
      · subst hs
        right
        by_cases ht : l.foundEqual = false ∧ lexTextBetweenTags l ≠ []
        · refine ⟨tagType.stopTag, [Token.mk TokenType.tokenJustText
            (TrimSpace (lexTextBetweenTags l))], by simp, ?_⟩
          rw [lexLineContent_at_stop_text hc hc1 ht.1 ht.2 hopen]
          simp [advance]
        · refine ⟨tagType.stopTag, [], by simp, ?_⟩
          rw [lexLineContent_at_stop_notext hc hc1 (by
            by_cases hf : l.foundEqual = true
            · exact Or.inl hf
            · right
              by_contra hne
              exact ht ⟨by simpa using hf, hne⟩)]
          simp [advance]
      · by_cases hb : c1 = '!'
        · subst hb
          have hp2 := ends_gt_next h hc1 (by decide)
          obtain ⟨c2, hc2⟩ : ∃ c2, l.workingLine[l.workingPosition + 2]? = some c2 :=
            ⟨_, List.getElem?_eq_getElem hp2⟩
          by_cases hd : c2 = '-'
          · subst hd
            have hp3 := ends_gt_next h hc2 (by decide)
            obtain ⟨c3, hc3⟩ : ∃ c3, l.workingLine[l.workingPosition + 3]? = some c3 :=
              ⟨_, List.getElem?_eq_getElem hp3⟩
            by_cases hd3 : c3 = '-'
            · subst hd3
              exact Or.inl (lexLineContent_at_comment hc hc1 hc2 hc3)
            · right
              refine ⟨tagType.startTag, [], by simp, ?_⟩
              rw [lexLineContent_at_bang hc hc1 hc2 (fun _ => ⟨hc3, hd3⟩)]
              simp [advance]
          · right
            refine ⟨tagType.startTag, [], by simp, ?_⟩
            rw [@lexLineContent_at_bang l c2 'x' hc hc1 hc2 (fun h => absurd h hd)]
            simp [advance]
        · right
          refine ⟨tagType.startTag, [], by simp, ?_⟩
          rw [lexLineContent_at_start hc hc1 hs hb]
          simp [advance]
    · by_cases hgt : c = '>'
      · subst hgt
        exact Or.inr (Or.inr (Or.inr ⟨hlen, selfClosing l, selfClosing_endTags l,
          lexLineContent_gt hc hopen⟩))
      · by_cases heq : c = '='
        · subst heq
          exact Or.inr (Or.inr (Or.inl ⟨hlen, lexLineContent_at_eq hc⟩))
        · refine Or.inr (Or.inr (Or.inr ⟨hlen, [], by simp, ?_⟩))
          rw [lexLineContent_plain hc hlt hgt heq]
          simp [advance]

/-- A call of `lexLineContent` on a line that ends with `>`, the channel
    being open, does not panic: it passes `k` characters, sending only
    self-closing end tags, and then reaches the end of the line, abandons the
    line at a comment marker, or hands over to `lexTagName` (the cursor on a
    `<` that has a character after it) or to `lexTagArguments`. -/
theorem lexLineContent_outcome_gt (l : lexer) (h : HasSuffix l.workingLine ['>'] = true)
    (hopen : l.chanClosed = false) :
    ∃ (k : Nat) (ts : List Token), (∀ t ∈ ts, t.TokenType = TokenType.tokenEndTag) ∧
      (lexLineContent l = lexLineContentEnd (advance l k ts) ∨
      ((advance l k ts).workingPosition + 1 < l.workingLine.length ∧
        (lexLineContent l = lexReadFileLine (advance l k ts) ∨
          ∃ tt js, (∀ t ∈ js, t.TokenType = TokenType.tokenJustText) ∧
            lexLineContent l = ({ advance (advance l k ts) 0 js with tagTypeIs := tt },
              Next.fn StateFn.lexTagName))) ∨
      ((advance l k ts).workingPosition < l.workingLine.length ∧
        lexLineContent l
          = ({ advance l k ts with foundEqual := true }, Next.fn StateFn.lexTagArguments))) := by
  generalize hn : l.workingLine.length - l.workingPosition = n
  induction n generalizing l with
  | zero =>
    rcases lexLineContent_step_gt l h hopen with h1 | ⟨h1, -⟩ | ⟨h1, -⟩ | ⟨h1, -⟩
    · exact ⟨0, [], by simp, Or.inl (by rw [advance_zero]; exact h1.2)⟩
    · omega
    · omega
    · omega
  | succ n ih =>
    rcases lexLineContent_step_gt l h hopen with h1 | ⟨h1, h2⟩ | ⟨h1, h2⟩ | ⟨h1, ts, hts, h2⟩
    · exact ⟨0, [], by simp, Or.inl (by rw [advance_zero]; exact h1.2)⟩
    · exact ⟨0, [], by simp, Or.inr (Or.inl (by rw [advance_zero]; exact ⟨h1, h2⟩))⟩
    · exact ⟨0, [], by simp, Or.inr (Or.inr (by rw [advance_zero]; exact ⟨h1, h2⟩))⟩
    · have hn1 : (advance l 1 ts).workingLine.length - (advance l 1 ts).workingPosition = n := by
        simp only [advance]
        omega
      obtain ⟨k, us, hus, hout⟩ := ih (advance l 1 ts) h hopen hn1
      refine ⟨1 + k, ts ++ us, ?_, ?_⟩
      · intro t ht
        rcases List.mem_append.1 ht with h | h
        · exact hts t h
        · exact hus t h
      · rw [h2, ← advance_advance]
        exact hout

/-- The scan of a line that ends with `>`, the channel being open, comes to
    an end without a panic, at the end of the line or at a comment marker,
    after hand-offs whose number is at most the number of characters left. -/
theorem scan_finishes :
    ∀ (n : Nat) (l : lexer), l.workingLine.length - l.workingPosition = n →
      HasSuffix l.workingLine ['>'] = true → l.chanClosed = false →
      ∃ (k : Nat) (r : lexer × Next), HandOffs k l r ∧
        k ≤ l.workingLine.length - l.workingPosition ∧
        (r.2 = Next.fn StateFn.lexPrint ∨ r.2 = Next.fn StateFn.lexCheckLineType ∨
          r.2 = Next.stop) := by
  intro n
  induction n using Nat.strong_induction_on with
  | _ n ih =>
    intro l hn h hopen
    obtain ⟨k, ts, -, hout⟩ := lexLineContent_outcome_gt l h hopen
    rcases hout with he | ⟨hp, hc | ⟨tt, js, -, ht⟩⟩ | ⟨hp, ha⟩
    · refine ⟨0, _, HandOffs.done l, Nat.zero_le _, Or.inl ?_⟩
      rw [he]
      rfl
    · refine ⟨0, _, HandOffs.done l, Nat.zero_le _, Or.inr ?_⟩
      rw [hc]
      exact lexReadFileLine_open _ hopen
    · have hsafe := lexTagName_safe { advance (advance l k ts) 0 js with tagTypeIs := tt } h
        hp hopen
      obtain ⟨l2, hcall, hwl, hpos, hop⟩ : ∃ l2 : lexer,
          lexTagName { advance (advance l k ts) 0 js with tagTypeIs := tt }
            = (l2, Next.fn StateFn.lexLineContent) ∧ l2.workingLine = l.workingLine ∧
          (l.workingPosition + k < l2.workingPosition ∧
            l2.workingPosition < l.workingLine.length) ∧ l2.chanClosed = false := by
        rcases lexTagName_cases { advance (advance l k ts) 0 js with tagTypeIs := tt } with
          hf | ⟨pos, tn, tk, hlt, hlen, -, hcall⟩
        · exact absurd hf hsafe
        · exact ⟨_, hcall, rfl, ⟨hlt, hlen⟩, hopen⟩
      obtain ⟨k1, r, hh, hk1, hr⟩ := ih (l2.workingLine.length - l2.workingPosition)
        (by rw [hwl]; omega) l2 rfl (by rw [hwl]; exact h) hop
      rw [hwl] at hk1
      exact ⟨k1 + 1, r, HandOffs.handOff ht (Or.inl rfl) hcall hh, by omega, hr⟩
    · have hp0 : l.workingPosition + k < l.workingLine.length := hp
      obtain ⟨l2, hcall, hwl, hpos, hop⟩ : ∃ l2 : lexer,
          lexTagArguments { advance l k ts with foundEqual := true }
            = (l2, Next.fn StateFn.lexLineContent) ∧ l2.workingLine = l.workingLine ∧
          l2.workingPosition = l.workingPosition + k + 1 ∧ l2.chanClosed = false := by
        obtain ⟨p1, -, hcall⟩ := lexTagArguments_inside
          { advance l k ts with foundEqual := true } (Nat.le_of_lt hp) hopen
        exact ⟨_, hcall, rfl, rfl, hopen⟩
      obtain ⟨k1, r, hh, hk1, hr⟩ := ih (l2.workingLine.length - l2.workingPosition)
        (by rw [hwl, hpos]; omega) l2 rfl (by rw [hwl]; exact h) hop
      rw [hwl, hpos] at hk1
      exact ⟨k1 + 1, r, HandOffs.handOff ha (Or.inr rfl) hcall hh, by omega, hr⟩

/-- While the scan stays on the line, the working line is not changed and the
    cursor does not go back; `lexTagName` and `lexTagArguments` move it
    forward. -/
theorem scanner_call_cursor {f g : StateFn} {l l1 : lexer} (hf : isScanner f = true)
    (hc : f.call l = (l1, Next.fn g)) (hg : isScanner g = true) :
    l1.workingLine = l.workingLine ∧ l.workingPosition ≤ l1.workingPosition ∧
      (f ≠ StateFn.lexLineContent → l.workingPosition < l1.workingPosition) := by
  cases f with
  | lexReadFileLine => exact absurd hf (by decide)
  | lexCheckLineType => exact absurd hf (by decide)
  | lexPrint => exact absurd hf (by decide)
  | lexLineContent =>
    change lexLineContent l = (l1, Next.fn g) at hc
    obtain ⟨k, ts, -, hstop⟩ := lexLineContent_cases l
    rw [hc] at hstop
    rcases hstop with h | ⟨-, h⟩ | ⟨-, h⟩ | ⟨-, tt, js, -, h⟩ | ⟨-, h⟩
    · exact absurd h (by simp)
    · rw [lexLineContentEnd] at h
      simp only [Prod.mk.injEq, Next.fn.injEq] at h
      rw [h.2] at hg
      exact absurd hg (by decide)
    · rcases lexReadFileLine_cases (advance l k ts) with hr | ⟨hr, -⟩ | ⟨hr, -⟩
      · rw [← h] at hr
        exact absurd hr (by simp)
      · rw [← h] at hr
        exact absurd hr (by simp)
      · rw [← h] at hr
        simp only [Next.fn.injEq] at hr
        rw [hr] at hg
        exact absurd hg (by decide)
    · simp only [Prod.mk.injEq, Next.fn.injEq] at h
      rw [h.1]
      exact ⟨rfl, by simp [advance], fun hne => absurd rfl hne⟩
    · simp only [Prod.mk.injEq, Next.fn.injEq] at h
      rw [h.1]
      exact ⟨rfl, by simp [advance], fun hne => absurd rfl hne⟩
  | lexTagName =>
    change lexTagName l = (l1, Next.fn g) at hc
    rcases lexTagName_cases l with h | ⟨pos, tn, tt, hlt, -, -, h⟩
    · rw [hc] at h
      exact absurd h (by simp)
    · rw [hc] at h
      simp only [Prod.mk.injEq, Next.fn.injEq] at h
      rw [h.1]
      exact ⟨rfl, Nat.le_of_lt hlt, fun _ => hlt⟩
  | lexTagArguments =>
    change lexTagArguments l = (l1, Next.fn g) at hc
    rcases lexTagArguments_cases l with h | ⟨-, a, v, h⟩
    · rw [hc] at h
      exact absurd h (by simp)
    · rw [hc] at h
      simp only [Prod.mk.injEq, Next.fn.injEq] at h
      rw [h.1]
      exact ⟨rfl, Nat.le_succ _, fun _ => Nat.lt_succ_self _⟩

/-! ## The cursor while a line is scanned -/

/-- C22: the line `<!-- x -->` ends with `>`, and its scan does not reach
    the end-of-line reset: `lexLineContent` reads the next
    line at the comment marker, and `lexPrint` is not called in the run.
    After `<a b="c"><!-- x -->` the attribute flag is therefore still set,
    and the text of the next line `<d>text</d>` is not reported. -/
theorem LexStart_scan_abandoned :
    (lexLineContent { newLexer [] with workingLine := "<!-- x -->".data }).2
      = Next.fn StateFn.lexCheckLineType ∧
    (LexStart ["<!-- x -->".data]).calls.map Prod.fst
      = [StateFn.lexCheckLineType, StateFn.lexReadFileLine, StateFn.lexCheckLineType,
          StateFn.lexLineContent] ∧
    (LexStart ["<a b=\"c\"><!-- x -->".data, "<d>text</d>".data]).tokens
      = [Token.mk TokenType.tokenStartTag "a".data,
          Token.mk TokenType.tokenArgumentName "b".data,
          Token.mk TokenType.tokenArgumentValue "c".data,
          Token.mk TokenType.tokenStartTag "d".data,
          Token.mk TokenType.tokenEndTag "d".data, eofToken] := by
  decide

/-- While one logical line is scanned the working line is not
    changed and the cursor never decreases; every hand-off from
    `lexLineContent` to `lexTagName` or `lexTagArguments` and back strictly
    increases it; hence the scan of a working line that ends with `>` (the
    channel being open) comes to an end after at most as many hand-offs as
    there are characters from the cursor on: `lexLineContent` returns
    `lexPrint` after the end-of-line reset, or it meets a comment marker and
    reads the next line (it returns `lexCheckLineType`, or ends the run at
    the end of the input), without the reset. -/
theorem scan_cursor_increases :
    (∀ (f g : StateFn) (l l1 : lexer), isScanner f = true → f.call l = (l1, Next.fn g) →
      isScanner g = true →
      l1.workingLine = l.workingLine ∧ l.workingPosition ≤ l1.workingPosition) ∧
    (∀ (g : StateFn) (l l1 l2 : lexer), lexLineContent l = (l1, Next.fn g) →
      (g = StateFn.lexTagName ∨ g = StateFn.lexTagArguments) →
      g.call l1 = (l2, Next.fn StateFn.lexLineContent) →
      l.workingPosition < l2.workingPosition) ∧
    (∀ l : lexer, HasSuffix l.workingLine ['>'] = true → l.chanClosed = false →
      ∃ (k : Nat) (r : lexer × Next), HandOffs k l r ∧
        k ≤ l.workingLine.length - l.workingPosition ∧
        (r.2 = Next.fn StateFn.lexPrint ∨ r.2 = Next.fn StateFn.lexCheckLineType ∨
          r.2 = Next.stop)) := by
  refine ⟨fun f g l l1 hf hc hg => ?_, fun g l l1 l2 hc hg hc2 => ?_,
    fun l h hopen => scan_finishes _ l rfl h hopen⟩
  · obtain ⟨h1, h2, -⟩ := scanner_call_cursor hf hc hg
    exact ⟨h1, h2⟩
  · have hgs : isScanner g = true := by
      rcases hg with rfl | rfl <;> decide
    have hgne : g ≠ StateFn.lexLineContent := by
      rcases hg with rfl | rfl <;> decide
    obtain ⟨-, h2, -⟩ := scanner_call_cursor (f := StateFn.lexLineContent) (by decide) hc hgs
    obtain ⟨-, -, h3⟩ := scanner_call_cursor hgs hc2 (by decide)
    exact Nat.lt_of_le_of_lt h2 (h3 hgne)

/-- The hand-off to `lexTagName` and back on `<a b="c">`, and the scan of
    that line. -/
theorem scan_cursor_increases_witness :
    (0 : Nat) < 2 ∧
    ∃ (k : Nat) (r : lexer × Next),
      HandOffs k { newLexer [] with workingLine := "<a b=\"c\">".data } r ∧ k ≤ 9 - 0 ∧
      (r.2 = Next.fn StateFn.lexPrint ∨ r.2 = Next.fn StateFn.lexCheckLineType ∨
        r.2 = Next.stop) :=
  ⟨scan_cursor_increases.2.1 StateFn.lexTagName
      { newLexer [] with workingLine := "<a b=\"c\">".data }
      { newLexer [] with workingLine := "<a b=\"c\">".data }
      { newLexer [] with
        workingLine := "<a b=\"c\">".data, workingPosition := 2,
        tagName := "a".data, tokenChan := [Token.mk TokenType.tokenStartTag "a".data] }
      (by decide) (Or.inl rfl) (by decide),
    scan_cursor_increases.2.2 { newLexer [] with workingLine := "<a b=\"c\">".data }
      (by decide) (by decide)⟩

/-! ## No index out of range on a line that ends with `>` -/

/-- The stop position that the walk of `lexTextBetweenTags` returns is 0 or
    lies before the last character of the line. -/
theorem lexTextBetweenTagsLoop_stop (s : Str) :
    ∀ (n pos a b : Nat), (b = 0 ∨ b + 1 < s.length) →
      (lexTextBetweenTagsLoop s n pos a b).2 = 0 ∨
        (lexTextBetweenTagsLoop s n pos a b).2 + 1 < s.length := by
  intro n
  induction n with
  | zero => intro pos a b hb; exact hb
  | succ n ih =>
    intro pos a b hb
    rw [lexTextBetweenTagsLoop]
    cases hc : s[pos]? with
    | none => exact hb
    | some c =>
      have hlen : pos < s.length := (List.getElem?_eq_some_iff.1 hc).1
      dsimp only
      split
      · exact ih _ _ _ hb
      · split
        · exact ih _ _ _ hb
        · split
          · exact ih _ _ _ hb
          · split
            · rename_i h1 _ _ h4
              have hp : pos ≠ 0 := fun h0 => h1 ⟨h4, h0⟩
              exact ih _ _ _ (Or.inr (by omega))
            · exact ih _ _ _ hb

/-- C25 (counterexample): in the line `a>` with the cursor on its last
    character, the `>`, `lexTagName` moves the cursor past the end of the
    line and indexes the line out of range. -/
theorem lexTagName_last_cursor :
    (lexTagName { newLexer [] with workingLine := "a>".data, workingPosition := 1 }).2
      = Next.fault := by
  decide

/-- C25 (amended): on a working line whose last character is `>`, the
    channel being open, `lexLineContent` called with any cursor position,
    `lexTagName` called with the cursor on any position of the line but the
    last (so on every `<`, where the scanner calls it), and
    `lexTagArguments` called with any cursor position of the line do not
    index the line out of range; the positions the copy loop of
    `lexTextBetweenTags` reads lie inside the line; and the whole scan of the
    line comes to an end without a panic: after hand-offs to `lexTagName` or
    `lexTagArguments` and back, none of which panics and whose number is at
    most the number of characters from the cursor on, `lexLineContent`
    leaves the line (it returns `lexPrint`, or at a comment marker reads the
    next line). -/
theorem scan_in_range :
    (∀ l : lexer, HasSuffix l.workingLine ['>'] = true → l.chanClosed = false →
      (lexLineContent l).2 ≠ Next.fault) ∧
    (∀ l : lexer, HasSuffix l.workingLine ['>'] = true →
      l.workingPosition + 1 < l.workingLine.length → l.chanClosed = false →
      (lexTagName l).2 ≠ Next.fault) ∧
    (∀ l : lexer, l.workingPosition ≤ l.workingLine.length → l.chanClosed = false →
      (lexTagArguments l).2 ≠ Next.fault) ∧
    (∀ (s : Str) (i : Nat),
      ((lexTextBetweenTagsLoop s s.length 0 0 0).1 ≠ 0 ∨
        (lexTextBetweenTagsLoop s s.length 0 0 0).2 ≠ 0) →
      (lexTextBetweenTagsLoop s s.length 0 0 0).1 ≤ i →
      i ≤ (lexTextBetweenTagsLoop s s.length 0 0 0).2 → i < s.length) ∧
    (∀ l : lexer, HasSuffix l.workingLine ['>'] = true → l.chanClosed = false →
      ∃ (k : Nat) (r : lexer × Next), HandOffs k l r ∧
        k ≤ l.workingLine.length - l.workingPosition ∧
        (r.2 = Next.fn StateFn.lexPrint ∨ r.2 = Next.fn StateFn.lexCheckLineType ∨
          r.2 = Next.stop)) := by
  refine ⟨fun l h hopen => ?_, fun l h hpos hopen => lexTagName_safe l h hpos hopen,
    fun l hpos hopen => ?_, fun s i hne h1 h2 => ?_,
    fun l h hopen => scan_finishes _ l rfl h hopen⟩
  · obtain ⟨k, ts, -, hout⟩ := lexLineContent_outcome_gt l h hopen
    rcases hout with he | ⟨-, hc | ⟨tt, js, -, ht⟩⟩ | ⟨-, ha⟩
    · rw [he]
      exact fun hf => absurd hf (by simp [lexLineContentEnd])
    · rw [hc]
      rcases lexReadFileLine_open (advance l k ts) hopen with hr | hr <;> rw [hr] <;> simp
    · rw [ht]
      simp
    · rw [ha]
      simp
  · obtain ⟨p1, -, hcall⟩ := lexTagArguments_inside l hpos hopen
    rw [hcall]
    simp
  · rcases lexTextBetweenTagsLoop_stop s s.length 0 0 0 (Or.inl rfl) with h0 | h0
    · rcases hne with hne | hne
      · omega
      · exact absurd h0 hne
    · omega

/-- C25 (witness): the functions on the line `<a b="c">`. -/
theorem scan_in_range_witness :
    (lexLineContent { newLexer [] with workingLine := "<a b=\"c\">".data }).2 ≠ Next.fault ∧
    (lexTagName { newLexer [] with workingLine := "<a b=\"c\">".data }).2 ≠ Next.fault ∧
    (lexTagArguments { newLexer [] with
      workingLine := "<a b=\"c\">".data, workingPosition := 4 }).2 ≠ Next.fault :=
  ⟨scan_in_range.1 { newLexer [] with workingLine := "<a b=\"c\">".data } (by decide)
      (by decide),
    scan_in_range.2.1 { newLexer [] with workingLine := "<a b=\"c\">".data } (by decide)
      (by decide) (by decide),
    scan_in_range.2.2.1 { newLexer [] with
      workingLine := "<a b=\"c\">".data, workingPosition := 4 } (by decide) (by decide)⟩

/-! ## The lexer of `main.go` against the lexer of `lexer.go` -/

theorem refineTokens_append (a b : List Main.token) :
    refineTokens (a ++ b) = refineTokens a ++ refineTokens b := by
  simp [refineTokens, List.filterMap_append]

theorem main_send {out : Main.tokenOutputType} {m : Main.lexer}
    (hv : out = Main.console ∨ out = Main.channel)
    (ho : m.chanClosed = false) (k : Main.tokenType) (x : Str) :
    Main.newTokenSender out m k x
      = some { m with sent := m.sent ++ [Main.token.mk k x] } := by
  rcases hv with h | h
  · simp [Main.newTokenSender, Main.tokenSendConsole, h]
  · simp [Main.newTokenSender, Main.tokenSendChannel, h, ho, Main.console, Main.channel]

/-- The name loop runs off the end of the line when no space and no `>`
    follows. -/
theorem lexTagNameLoop_none (s : Str) :
    ∀ (n p : Nat) (tn : Str), (∀ q c, p ≤ q → s[q]? = some c → c ≠ ' ' ∧ c ≠ '>') →
      lexTagNameLoop s n p tn = none := by
  intro n
  induction n with
  | zero => intro p tn _; rfl
  | succ n ih =>
    intro p tn h
    rw [lexTagNameLoop]
    cases hc : s[p]? with
    | none => rfl
    | some c =>
      dsimp only
      obtain ⟨h1, h2⟩ := h p c (Nat.le_refl _) hc
      rw [if_neg h1, if_neg h2]
      exact ih _ _ (fun q d hq hd => h q d (by omega) hd)

/-- Where the line ends inside `<!-`, `lexTagName` of `main.go`, called on
    the `<`, panics before it sends a token. -/
theorem main_lexTagName_bang (m : Main.lexer)
    (h1 : m.workingLine[m.workingPosition + 1]? = some '!')
    (h2 : m.workingLine[m.workingPosition + 2]? = none ∨
      (m.workingLine[m.workingPosition + 2]? = some '-' ∧
        m.workingLine[m.workingPosition + 3]? = none)) :
    (Main.lexTagName m).2 = Next.fault ∧ (Main.lexTagName m).1.sent = m.sent := by
  have hloop : ∀ n, lexTagNameLoop m.workingLine n (m.workingPosition + 1) [] = none := by
    intro n
    apply lexTagNameLoop_none
    intro q c hq hc
    rcases Nat.lt_or_ge q (m.workingPosition + 2) with hq1 | hq1
    · have e : q = m.workingPosition + 1 := by omega
      rw [e, h1] at hc
      rw [← Option.some.inj hc]
      exact ⟨by decide, by decide⟩
    · rcases h2 with h2 | ⟨h2, h3⟩
      · have hlen : m.workingLine.length ≤ m.workingPosition + 2 := by simpa using h2
        have := (List.getElem?_eq_some_iff.1 hc).1
        omega
      · rcases Nat.lt_or_ge q (m.workingPosition + 3) with hq2 | hq2
        · have e : q = m.workingPosition + 2 := by omega
          rw [e, h2] at hc
          rw [← Option.some.inj hc]
          exact ⟨by decide, by decide⟩
        · have hlen : m.workingLine.length ≤ m.workingPosition + 3 := by simpa using h3
          have := (List.getElem?_eq_some_iff.1 hc).1
          omega
  unfold Main.lexTagName
  dsimp only
  rw [h1]
  dsimp only
  rw [if_neg (by decide)]
  dsimp only
  rw [hloop]
  exact ⟨rfl, rfl⟩

theorem main_lexTextBetweenTags_eq (m : Main.lexer) :
    lexTextBetweenTags m.abs = Main.lexTextBetweenTags m := rfl

theorem main_sendEndTagIf_sim (b : Bool) (m : Main.lexer)
    (hv : m.sendToken = Main.console ∨ m.sendToken = Main.channel)
    (ho : m.chanClosed = false) :
    ∃ m1 : Main.lexer, Main.sendEndTagIf b m = some m1 ∧ sendEndTagIf b m.abs = some m1.abs ∧
      m1.sendToken = m.sendToken ∧ m1.chanClosed = false ∧ m1.workingLine = m.workingLine ∧
      m1.workingPosition = m.workingPosition := by
  cases b with
  | false => exact ⟨m, rfl, rfl, rfl, ho, rfl, rfl⟩
  | true =>
    refine ⟨{ m with sent := m.sent ++ [Main.token.mk Main.tokenType.tokenEndTag m.tagName] },
      ?_, ?_, rfl, ho, rfl, rfl⟩
    · simp [Main.sendEndTagIf, main_send hv ho]
    · simp [sendEndTagIf, tokenSendChannel, Main.lexer.abs, Main.lexer.lib, ho,
        refineTokens_append, refineTokens, Main.tokenType.lib]

theorem main_lexReadFileLine_sim (m : Main.lexer)
    (hv : m.sendToken = Main.console ∨ m.sendToken = Main.channel)
    (ho : m.chanClosed = false) :
    lexReadFileLine m.abs = ((Main.lexReadFileLine m).1.abs, (Main.lexReadFileLine m).2) ∧
      (Main.lexReadFileLine m).1.sendToken = m.sendToken := by
  unfold lexReadFileLine Main.lexReadFileLine
  simp only [Main.lexer.abs, Main.lexer.lib]
  cases hr : m.fileReader with
  | cons x rest => exact ⟨rfl, rfl⟩
  | nil =>
    dsimp only
    rcases Bool.eq_false_or_eq_true m.EOF with he | he
    · rw [if_pos he, if_pos he]
      rw [main_send hv (by exact ho)]
      rw [tokenSendChannel_open (by exact ho)]
      simp [refineTokens_append, refineTokens, Main.tokenType.lib]
    · rw [if_neg (by simp [he]), if_neg (by simp [he])]
      exact ⟨rfl, rfl⟩

theorem main_lexPrint_sim (m : Main.lexer)
    (hv : m.sendToken = Main.console ∨ m.sendToken = Main.channel)
    (ho : m.chanClosed = false) :
    lexPrint m.abs = ((Main.lexPrint m).1.abs, (Main.lexPrint m).2) ∧
      (Main.lexPrint m).1.sendToken = m.sendToken :=
  main_lexReadFileLine_sim { m with workingLine := [] } hv ho

theorem main_lexCheckLineType_sim (m : Main.lexer)
    (hv : m.sendToken = Main.console ∨ m.sendToken = Main.channel)
    (ho : m.chanClosed = false) :
    lexCheckLineType m.abs = ((Main.lexCheckLineType m).1.abs, (Main.lexCheckLineType m).2) ∧
      (Main.lexCheckLineType m).1.sendToken = m.sendToken := by
  unfold lexCheckLineType Main.lexCheckLineType
  simp only [Main.lexer.abs, Main.lexer.lib]
  by_cases hlen : m.currentLine.length = 0
  · rw [if_pos hlen, if_pos hlen]
    exact ⟨rfl, rfl⟩
  · rw [if_neg hlen, if_neg hlen]
    rcases Bool.eq_false_or_eq_true (HasPrefix m.currentLine ['<']) with hs | hs <;>
    rcases Bool.eq_false_or_eq_true (HasSuffix m.currentLine ['>']) with he | he <;>
    rcases Bool.eq_false_or_eq_true m.firstLineFound with hf | hf <;>
    rcases Bool.eq_false_or_eq_true (HasPrefix m.nextLine ['<']) with hn | hn <;>
    simp [hs, he, hf, hn, main_send hv, tokenSendChannel, ho, refineTokens_append, refineTokens,
      Main.tokenType.lib]

theorem main_lexTagArguments_sim (m : Main.lexer)
    (hv : m.sendToken = Main.console ∨ m.sendToken = Main.channel)
    (ho : m.chanClosed = false) :
    lexTagArguments m.abs = ((Main.lexTagArguments m).1.abs, (Main.lexTagArguments m).2) ∧
      (Main.lexTagArguments m).1.sendToken = m.sendToken := by
  unfold lexTagArguments Main.lexTagArguments
  simp only [Main.lexer.abs, Main.lexer.lib]
  cases h1 : findChrPositionBefore m.workingLine ' ' m.workingPosition with
  | none => exact ⟨rfl, rfl⟩
  | some p1 =>
    dsimp only
    cases h2 : findLettersBetween m.workingLine p1 m.workingPosition with
    | none => exact ⟨rfl, rfl⟩
    | some arg =>
      dsimp only
      rw [main_send hv (by exact ho), tokenSendChannel_open (by exact ho)]
      dsimp only
      cases h3 : findLettersBetween m.workingLine (m.workingPosition + 1)
          (findChrPositionAfter m.workingLine '"' (m.workingPosition + 1)) with
      | none =>
        simp [refineTokens_append, refineTokens, Main.tokenType.lib]
      | some value =>
        dsimp only
        rw [main_send hv (by exact ho), tokenSendChannel_open (by exact ho)]
        simp [refineTokens_append, refineTokens, Main.tokenType.lib]


theorem main_lexTagName_sim (m : Main.lexer)
    (hv : m.sendToken = Main.console ∨ m.sendToken = Main.channel)
    (ho : m.chanClosed = false) :
    lexTagName m.abs = ((Main.lexTagName m).1.abs, (Main.lexTagName m).2) ∧
      (Main.lexTagName m).1.sendToken = m.sendToken := by
  unfold lexTagName Main.lexTagName
  simp only [Main.lexer.abs, Main.lexer.lib]
  cases hc : m.workingLine[m.workingPosition + 1]? with
  | none => exact ⟨rfl, rfl⟩
  | some c =>
    dsimp only
    by_cases hs : c = '/'
    · rw [if_pos hs, if_pos hs]
      dsimp only
      cases hloop : lexTagNameLoop m.workingLine (m.workingLine.length - (m.workingPosition + 1 + 1))
          (m.workingPosition + 1 + 1) [] with
      | none => exact ⟨rfl, rfl⟩
      | some r =>
        obtain ⟨pos, tn⟩ := r
        dsimp only
        rw [main_send hv (by exact ho)]
        rw [tokenSendChannel_open (by exact ho)]
        rcases tagType_cases m.tagTypeIs with htt | htt <;> rw [htt] <;>
          simp [refineTokens_append, refineTokens, Main.tokenType.lib]
    · rw [if_neg hs, if_neg hs]
      dsimp only
      cases hloop : lexTagNameLoop m.workingLine (m.workingLine.length - (m.workingPosition + 1))
          (m.workingPosition + 1) [] with
      | none => exact ⟨rfl, rfl⟩
      | some r =>
        obtain ⟨pos, tn⟩ := r
        dsimp only
        rw [main_send hv (by exact ho)]
        rw [tokenSendChannel_open (by exact ho)]
        rcases tagType_cases m.tagTypeIs with htt | htt <;> rw [htt] <;>
          simp [refineTokens_append, refineTokens, Main.tokenType.lib]


/-- A send of `lexer.go` on the state a state of `main.go` stands for. -/
theorem main_send_abs (m : Main.lexer) (ho : m.chanClosed = false) (km : Main.tokenType)
    (k : TokenType) (hk : km.lib = some k) (x : Str) :
    tokenSendChannel m.abs k x
      = some (Main.lexer.abs { m with sent := m.sent ++ [Main.token.mk km x] }) := by
  simp [tokenSendChannel, Main.lexer.abs, Main.lexer.lib, ho, refineTokens_append, refineTokens, hk]

/-- One round of the scanning loop of `main.go` against one round of the
    loop of `lexer.go`, on a working line without a comment marker. -/
theorem main_lexLineContentBody_sim (k : lexer → lexer × Next)
    (km : Main.lexer → Main.lexer × Next) (m : Main.lexer)
    (hv : m.sendToken = Main.console ∨ m.sendToken = Main.channel)
    (ho : m.chanClosed = false) (hnc : NoComment m.workingLine)
    (hk : ∀ m1 : Main.lexer, m1.sendToken = m.sendToken → m1.chanClosed = false →
      m1.workingLine = m.workingLine →
      Sim (k m1.abs) (km m1) ∧ (km m1).1.sendToken = m.sendToken) :
    Sim (lexLineContentBody k m.abs) (Main.lexLineContentBody km m) ∧
      (Main.lexLineContentBody km m).1.sendToken = m.sendToken := by
  have ewl : m.abs.workingLine = m.workingLine := rfl
  have ewp : m.abs.workingPosition = m.workingPosition := rfl
  have efe : m.abs.foundEqual = m.foundEqual := rfl
  unfold lexLineContentBody Main.lexLineContentBody
  rw [ewl, ewp]
  cases hc : m.workingLine[m.workingPosition]? with
  | none => exact ⟨Or.inl rfl, rfl⟩
  | some c =>
    dsimp only
    by_cases h1 : c = '<'
    · rw [if_pos h1, if_pos h1]
      cases hc1 : m.workingLine[m.workingPosition + 1]? with
      | none => exact ⟨Or.inl rfl, rfl⟩
      | some c1 =>
        dsimp only
        by_cases h2 : c1 = '/'
        · rw [if_pos h2, if_pos h2, efe, main_lexTextBetweenTags_eq]
          rcases Bool.eq_false_or_eq_true m.foundEqual with hf | hf
          · rw [hf]
            exact ⟨Or.inl rfl, rfl⟩
          · rw [hf]
            simp only [Bool.not_false, if_true]
            by_cases ht : Main.lexTextBetweenTags m = []
            · rw [if_neg (by simp [ht]), if_neg (by simp [ht])]
              exact ⟨Or.inl rfl, rfl⟩
            · rw [if_pos ht, if_pos ht]
              rw [main_send hv ho, main_send_abs m ho Main.tokenType.tokenJustText _ rfl]
              exact ⟨Or.inl rfl, rfl⟩
        · rw [if_neg h2, if_neg h2]
          by_cases h3 : c1 = '!'
          · rw [if_pos h3]
            rw [h3] at hc1
            cases hc2 : m.workingLine[m.workingPosition + 2]? with
            | none =>
              dsimp only
              have hb := main_lexTagName_bang { m with tagTypeIs := tagType.startTag } hc1
                (Or.inl hc2)
              exact ⟨Or.inr ⟨rfl, rfl, rfl, hb.1, hb.2⟩, rfl⟩
            | some c2 =>
              dsimp only
              by_cases h4 : c2 = '-'
              · rw [if_pos h4]
                rw [h4] at hc2
                cases hc3 : m.workingLine[m.workingPosition + 3]? with
                | none =>
                  dsimp only
                  have hb := main_lexTagName_bang { m with tagTypeIs := tagType.startTag } hc1
                    (Or.inr ⟨hc2, hc3⟩)
                  exact ⟨Or.inr ⟨rfl, rfl, rfl, hb.1, hb.2⟩, rfl⟩
                | some c3 =>
                  dsimp only
                  by_cases h5 : c3 = '-'
                  · rw [h1] at hc
                    rw [h5] at hc3
                    exact absurd ⟨hc, hc1, hc2, hc3⟩ (hnc m.workingPosition)
                  · rw [if_neg h5]
                    exact ⟨Or.inl rfl, rfl⟩
              · rw [if_neg h4]
                exact ⟨Or.inl rfl, rfl⟩
          · rw [if_neg h3]
            exact ⟨Or.inl rfl, rfl⟩
    · rw [if_neg h1, if_neg h1]
      by_cases h2 : c = '>'
      · rw [if_pos h2, if_pos h2]
        obtain ⟨m1, hm1, hl1, hs1, ho1, hw1, hp1⟩ :=
          main_sendEndTagIf_sim (Contains m.workingLine ['/', '>']) m hv ho
        rw [hm1, hl1]
        dsimp only
        rw [show m1.abs.workingLine = m1.workingLine from rfl]
        obtain ⟨m2, hm2, hl2, hs2, ho2, hw2, hp2⟩ :=
          main_sendEndTagIf_sim (Contains m1.workingLine ['?', '>']) m1 (hs1 ▸ hv) ho1
        rw [hm2, hl2]
        dsimp only
        exact hk { m2 with workingPosition := m2.workingPosition + 1 } (hs2.trans hs1) ho2
          (hw2.trans hw1)
      · rw [if_neg h2, if_neg h2]
        by_cases h3 : c = '='
        · rw [if_pos h3, if_pos h3]
          rw [main_send hv (by exact ho)]
          refine ⟨Or.inl ?_, rfl⟩
          simp [Main.lexer.abs, Main.lexer.lib, refineTokens_append, refineTokens,
            Main.tokenType.lib]
        · rw [if_neg h3, if_neg h3]
          exact hk { m with workingPosition := m.workingPosition + 1 } rfl ho rfl


theorem NoComment_nil : NoComment [] := by
  intro p h
  simp at h

/-- A line in which `strings.Contains` finds no `<!--` has no comment
    marker at any position. -/
theorem NoComment_of_Contains :
    ∀ s : Str, Contains s ['<', '!', '-', '-'] = false → NoComment s := by
  intro s
  induction s with
  | nil => intro _; exact NoComment_nil
  | cons c cs ih =>
    intro h
    rw [Contains, Bool.or_eq_false_iff] at h
    intro p hp
    cases p with
    | zero =>
      rcases cs with _ | ⟨c1, _ | ⟨c2, _ | ⟨c3, rest⟩⟩⟩ <;> simp_all [List.isPrefixOf]
    | succ p =>
      apply ih h.2 p
      simpa using hp

theorem getElem?_inner (a s b : Str) (p : Nat) (c : Char) (h : s[p]? = some c) :
    (a ++ (s ++ b))[a.length + p]? = some c := by
  have hp := (List.getElem?_eq_some_iff.1 h).1
  rw [List.getElem?_append_right (by omega), Nat.add_sub_cancel_left,
    List.getElem?_append_left hp]
  exact h

/-- A part of a line without comment marker has none. -/
theorem NoComment_of_inner {s t : Str} (hst : s <:+: t) (h : NoComment t) : NoComment s := by
  obtain ⟨a, b, rfl⟩ := hst
  intro p ⟨h0, h1, h2, h3⟩
  apply h (a.length + p)
  rw [List.append_assoc]
  exact ⟨getElem?_inner a s b p _ h0, getElem?_inner a s b (p + 1) _ h1,
    getElem?_inner a s b (p + 2) _ h2, getElem?_inner a s b (p + 3) _ h3⟩

theorem TrimSpace_inner (s : Str) : TrimSpace s <:+: s := by
  unfold TrimSpace
  have h1 : ((s.dropWhile isSpace).reverse.dropWhile isSpace).reverse <+: s.dropWhile isSpace := by
    have := List.dropWhile_suffix isSpace (l := (s.dropWhile isSpace).reverse)
    have h := List.reverse_prefix.2 this
    rwa [List.reverse_reverse] at h
  exact List.IsInfix.trans (List.IsPrefix.isInfix h1)
    (List.IsSuffix.isInfix (List.dropWhile_suffix isSpace))

theorem NoComment_TrimSpace {s : Str} (h : NoComment s) : NoComment (TrimSpace s) :=
  NoComment_of_inner (TrimSpace_inner s) h

/-- Two lines without comment marker, joined by a space, have none. -/
theorem NoComment_join {a b : Str} (ha : NoComment a) (hb : NoComment b) :
    NoComment (a ++ [' '] ++ b) := by
  intro p ⟨h0, h1, h2, h3⟩
  have key : ∀ q c, (a ++ [' '] ++ b)[q]? = some c → c ≠ ' ' →
      (q < a.length ∧ a[q]? = some c) ∨ (a.length < q ∧ b[q - (a.length + 1)]? = some c) := by
    intro q c hq hc
    rcases Nat.lt_trichotomy q a.length with hlt | heq | hgt
    · left
      rw [List.append_assoc, List.getElem?_append_left hlt] at hq
      exact ⟨hlt, hq⟩
    · exfalso
      rw [List.append_assoc, List.getElem?_append_right (by omega), heq] at hq
      simp at hq
      exact hc hq.symm
    · right
      rw [List.getElem?_append_right (by simp; omega)] at hq
      refine ⟨hgt, ?_⟩
      simpa using hq
  rcases key p _ h0 (by decide) with ⟨l0, e0⟩ | ⟨l0, e0⟩ <;>
  rcases key (p + 1) _ h1 (by decide) with ⟨l1, e1⟩ | ⟨l1, e1⟩ <;>
  rcases key (p + 2) _ h2 (by decide) with ⟨l2, e2⟩ | ⟨l2, e2⟩ <;>
  rcases key (p + 3) _ h3 (by decide) with ⟨l3, e3⟩ | ⟨l3, e3⟩ <;>
  first
  | exact ha p ⟨e0, e1, e2, e3⟩
  | (apply hb (p - (a.length + 1))
     have i1 : p + 1 - (a.length + 1) = p - (a.length + 1) + 1 := by omega
     have i2 : p + 2 - (a.length + 1) = p - (a.length + 1) + 2 := by omega
     have i3 : p + 3 - (a.length + 1) = p - (a.length + 1) + 3 := by omega
     rw [i1] at e1
     rw [i2] at e2
     rw [i3] at e3
     exact ⟨e0, e1, e2, e3⟩)
  | omega

/-- The scanning loop of `main.go` against the loop of `lexer.go`. -/
theorem main_lexLineContentLoop_sim :
    ∀ (n : Nat) (m : Main.lexer), (m.sendToken = Main.console ∨ m.sendToken = Main.channel) →
      m.chanClosed = false → NoComment m.workingLine →
      Sim (lexLineContentLoop n m.abs) (Main.lexLineContentLoop n m) ∧
        (Main.lexLineContentLoop n m).1.sendToken = m.sendToken := by
  intro n
  induction n with
  | zero => intro m _ _ _; exact ⟨Or.inl rfl, rfl⟩
  | succ n ih =>
    intro m hv ho hnc
    exact main_lexLineContentBody_sim _ _ m hv ho hnc (fun m1 hs ho1 hw => by
      have h := ih m1 (by rw [hs]; exact hv) ho1 (by rw [hw]; exact hnc)
      exact ⟨h.1, h.2.trans hs⟩)

/-- Every state function of `main.go` against the one of `lexer.go` with the
    same name, on a working line without a comment marker. -/
theorem main_call_sim (f : StateFn) (m : Main.lexer)
    (hv : m.sendToken = Main.console ∨ m.sendToken = Main.channel)
    (ho : m.chanClosed = false) (hnc : NoComment m.workingLine) :
    Sim (f.call m.abs) (Main.call f m) ∧ (Main.call f m).1.sendToken = m.sendToken := by
  cases f with
  | lexReadFileLine =>
    exact ⟨Or.inl (main_lexReadFileLine_sim m hv ho).1, (main_lexReadFileLine_sim m hv ho).2⟩
  | lexCheckLineType =>
    exact ⟨Or.inl (main_lexCheckLineType_sim m hv ho).1, (main_lexCheckLineType_sim m hv ho).2⟩
  | lexLineContent =>
    exact main_lexLineContentLoop_sim (m.workingLine.length - m.workingPosition) m hv ho hnc
  | lexTagName =>
    exact ⟨Or.inl (main_lexTagName_sim m hv ho).1, (main_lexTagName_sim m hv ho).2⟩
  | lexTagArguments =>
    exact ⟨Or.inl (main_lexTagArguments_sim m hv ho).1, (main_lexTagArguments_sim m hv ho).2⟩
  | lexPrint =>
    exact ⟨Or.inl (main_lexPrint_sim m hv ho).1, (main_lexPrint_sim m hv ho).2⟩

/-- A line read leaves the lexer without comment marker in any line it
    holds. -/
theorem lexReadFileLine_NoCommentAll (l : lexer) (h : NoCommentAll l) :
    NoCommentAll (lexReadFileLine l).1 := by
  obtain ⟨hw, hc, hn, hr⟩ := h
  cases hf : l.fileReader with
  | cons x rest =>
    rw [lexReadFileLine_cons hf]
    rw [hf] at hr
    exact ⟨hw, hn, NoComment_TrimSpace (hr x (List.mem_cons_self _ _)),
      fun y hy => hr y (List.mem_cons_of_mem _ hy)⟩
  | nil =>
    rw [hf] at hr
    rcases Bool.eq_false_or_eq_true l.EOF with he | he
    · rcases Bool.eq_false_or_eq_true l.chanClosed with hcl | hcl
      · have e : lexReadFileLine l = ({ l with
            workingPosition := 0, currentLineNR := l.currentLineNR + 1,
            currentLine := l.nextLine }, Next.fault) := by
          simp [lexReadFileLine, hf, he, tokenSendChannel, hcl]
        rw [e]
        exact ⟨hw, hn, hn, by rw [hf]; exact hr⟩
      · rw [lexReadFileLine_eof hf he hcl]
        exact ⟨hw, hn, hn, by rw [hf]; exact hr⟩
    · rw [lexReadFileLine_last hf he]
      exact ⟨hw, hn, NoComment_nil, by rw [hf]; exact hr⟩

/-- The line classifier leaves the line source as it is, and the working
    line is the old one, the current line, or the two joined by a space. -/
theorem lexCheckLineType_lines (l : lexer) :
    (lexCheckLineType l).1.fileReader = l.fileReader ∧
    (lexCheckLineType l).1.currentLine = l.currentLine ∧
    (lexCheckLineType l).1.nextLine = l.nextLine ∧
    ((lexCheckLineType l).1.workingLine = l.workingLine ∨
      (lexCheckLineType l).1.workingLine = l.currentLine ∨
      (lexCheckLineType l).1.workingLine = l.workingLine ++ [' '] ++ l.currentLine) := by
  unfold lexCheckLineType
  by_cases hlen : l.currentLine.length = 0
  · rw [if_pos hlen]
    exact ⟨rfl, rfl, rfl, Or.inl rfl⟩
  · rw [if_neg hlen]
    rcases Bool.eq_false_or_eq_true (HasPrefix l.currentLine ['<']) with hs | hs <;>
    rcases Bool.eq_false_or_eq_true (HasSuffix l.currentLine ['>']) with he | he <;>
    rcases Bool.eq_false_or_eq_true l.firstLineFound with hf | hf <;>
    rcases Bool.eq_false_or_eq_true (HasPrefix l.nextLine ['<']) with hn | hn <;>
    rcases Bool.eq_false_or_eq_true l.chanClosed with hc | hc <;>
    simp [hs, he, hf, hn, hc, tokenSendChannel]

theorem lexCheckLineType_NoCommentAll (l : lexer) (h : NoCommentAll l) :
    NoCommentAll (lexCheckLineType l).1 := by
  obtain ⟨hw, hc, hn, hr⟩ := h
  obtain ⟨e1, e2, e3, e4⟩ := lexCheckLineType_lines l
  refine ⟨?_, by rw [e2]; exact hc, by rw [e3]; exact hn, by rw [e1]; exact hr⟩
  rcases e4 with e | e | e
  · rw [e]; exact hw
  · rw [e]; exact hc
  · rw [e]; exact NoComment_join hw hc

/-- A call that returns a state function leaves the lexer without comment
    marker in any line it holds. -/
theorem call_NoCommentAll (f g : StateFn) (l l1 : lexer) (h : f.call l = (l1, Next.fn g))
    (hn : NoCommentAll l) : NoCommentAll l1 := by
  have e1 : l1 = (f.call l).1 := by rw [h]
  have e2 : (f.call l).2 = Next.fn g := by rw [h]
  rw [e1]
  cases f with
  | lexReadFileLine => exact lexReadFileLine_NoCommentAll l hn
  | lexCheckLineType => exact lexCheckLineType_NoCommentAll l hn
  | lexPrint =>
    exact lexReadFileLine_NoCommentAll { l with workingLine := [] }
      ⟨NoComment_nil, hn.2.1, hn.2.2.1, hn.2.2.2⟩
  | lexTagName =>
    rcases lexTagName_cases l with hf | ⟨pos, tn, tt, -, -, -, he⟩
    · change (lexTagName l).2 = Next.fn g at e2
      rw [hf] at e2
      cases e2
    · change NoCommentAll (lexTagName l).1
      rw [he]
      exact hn
  | lexTagArguments =>
    rcases lexTagArguments_cases l with hf | ⟨-, a, v, he⟩
    · change (lexTagArguments l).2 = Next.fn g at e2
      rw [hf] at e2
      cases e2
    · change NoCommentAll (lexTagArguments l).1
      rw [he]
      exact hn
  | lexLineContent =>
    obtain ⟨k, ts, -, hs⟩ := lexLineContent_cases l
    have hna : NoCommentAll (advance l k ts) := hn
    change (lexLineContent l).2 = Next.fn g at e2
    change NoCommentAll (lexLineContent l).1
    rcases hs with hf | ⟨-, he⟩ | ⟨-, he⟩ | ⟨-, tt, js, -, he⟩ | ⟨-, he⟩
    · rw [hf] at e2
      cases e2
    · rw [he]; exact hna
    · rw [he]; exact lexReadFileLine_NoCommentAll _ hna
    · rw [he]; exact hna
    · rw [he]; exact hna

theorem main_runLoop_succ (n : Nat) (f : StateFn) (m : Main.lexer) :
    Main.runLoop (n + 1) f m =
      match Main.call f m with
      | (l1, Next.stop) => (l1, Status.finished)
      | (l1, Next.fault) => (l1, Status.faulted)
      | (l1, Next.fn g) => Main.runLoop n g l1 := rfl

/-- A run of the driver loop of `main.go`, given one call more than a run of
    the driver loop of `lexer.go` that does not run out of fuel, ends the
    same way and has sent the same tokens, refined. -/
theorem main_runLoop_sim :
    ∀ (n : Nat) (f : StateFn) (m : Main.lexer),
      (m.sendToken = Main.console ∨ m.sendToken = Main.channel) → m.chanClosed = false →
      NoCommentAll m.abs → (runLoop n f m.abs).status ≠ Status.outOfFuel →
      (Main.runLoop (n + 1) f m).2 = (runLoop n f m.abs).status ∧
        refineTokens (Main.runLoop (n + 1) f m).1.sent = (runLoop n f m.abs).final.tokenChan := by
  intro n
  induction n with
  | zero => intro f m _ _ _ h; simp [runLoop] at h
  | succ n ih =>
    intro f m hv ho hnc h
    obtain ⟨hsim, hst⟩ := main_call_sim f m hv ho hnc.1
    have hspec := StepSpec_call f m.abs
    rcases hc : f.call m.abs with ⟨l1, nx⟩
    rcases hm : Main.call f m with ⟨m1, nxm⟩
    rw [hc, hm] at hsim
    rw [hm] at hst
    rw [hc] at hspec
    rw [main_runLoop_succ (n + 1), hm]
    rcases hsim with he | ⟨h1, h2, h3, h4, h5⟩
    · obtain ⟨rfl, rfl⟩ := Prod.mk.inj he
      dsimp only at hc hspec hst ⊢
      cases nx with
      | stop =>
        rw [runLoop_succ_stop n hc]
        exact ⟨rfl, rfl⟩
      | fault =>
        rw [runLoop_succ_fault n hc]
        exact ⟨rfl, rfl⟩
      | fn g =>
        rw [runLoop_succ_fn n hc] at h ⊢
        change StepSpec f m.abs m1.abs (Next.fn g) at hspec
        have ho1 : m1.chanClosed = false := hspec.1.trans ho
        exact ih g m1 (by rw [hst]; exact hv) ho1 (call_NoCommentAll f g _ _ hc hnc) h
    · dsimp only at h1 h2 h3 h4 h5
      subst h1
      subst h3
      rw [runLoop_succ_fault n hc]
      dsimp only
      rw [main_runLoop_succ n]
      change (match Main.lexTagName m1 with
        | (l1, Next.stop) => (l1, Status.finished)
        | (l1, Next.fault) => (l1, Status.faulted)
        | (l1, Next.fn g) => Main.runLoop n g l1).2 = Status.faulted ∧
        refineTokens (match Main.lexTagName m1 with
        | (l1, Next.stop) => (l1, Status.finished)
        | (l1, Next.fault) => (l1, Status.faulted)
        | (l1, Next.fn g) => Main.runLoop n g l1).1.sent = l1.tokenChan
      rcases ht : Main.lexTagName m1 with ⟨m2, nx2⟩
      rw [ht] at h4 h5
      dsimp only at h4 h5
      subst h4
      dsimp only
      rw [h5, h2]
      exact ⟨rfl, rfl⟩

/-- The first line read by `main.go` and by `lexer.go`. -/
theorem main_firstRead (fh : List Str) (out : Main.tokenOutputType) :
    Main.lexReadFileLine (Main.newLexer fh out)
      = ((Main.lexReadFileLine (Main.newLexer fh out)).1, Next.fn StateFn.lexCheckLineType) ∧
    (Main.lexReadFileLine (Main.newLexer fh out)).1.abs = (lexReadFileLine (newLexer fh)).1 ∧
    (Main.lexReadFileLine (Main.newLexer fh out)).1.sendToken = out ∧
    (Main.lexReadFileLine (Main.newLexer fh out)).1.chanClosed = false := by
  cases fh with
  | nil => exact ⟨rfl, rfl, rfl, rfl⟩
  | cons x rest => exact ⟨rfl, rfl, rfl, rfl⟩

/-- C26: for every input none of whose physical lines contains `<!--`, and
    the console or the channel as the output of the tokens, the token
    sequence produced by the lexer of `main.go`, after deleting its
    ArgumentFound tokens and trimming the white space of every token text,
    equals the token sequence produced by the lexer of `lexer.go` on the same
    input; and the two runs end the same way. -/
theorem main_refines_LexStart (fh : List Str) (out : Main.tokenOutputType)
    (hout : out = Main.console ∨ out = Main.channel)
    (hfh : ∀ x ∈ fh, Contains x ['<', '!', '-', '-'] = false) :
    refineTokens (Main.lexStart (Main.newLexer fh out)).1.sent = (LexStart fh).tokens ∧
      (Main.lexStart (Main.newLexer fh out)).2 = (LexStart fh).status := by
  obtain ⟨h1, h2, h3, h4⟩ := main_firstRead fh out
  have hnc0 : NoCommentAll (newLexer fh) :=
    ⟨NoComment_nil, NoComment_nil, NoComment_nil, fun x hx => NoComment_of_Contains x (hfh x hx)⟩
  have hnc : NoCommentAll (Main.lexReadFileLine (Main.newLexer fh out)).1.abs := by
    rw [h2]
    exact lexReadFileLine_NoCommentAll _ hnc0
  have ht := LexStart_terminates fh
  rw [LexStart_eq, ← h2] at ht
  have hs := main_runLoop_sim _ StateFn.lexCheckLineType _ (by rw [h3]; exact hout) h4 hnc ht
  unfold Main.lexStart
  rw [h1]
  dsimp only
  rw [Run.tokens, LexStart_eq, ← h2]
  exact ⟨hs.2, hs.1⟩

theorem main_refines_LexStart_witness :
    (∀ x ∈ [['<', 'a', ' ', 'b', '=', '"', 'c', '"', '>']],
        Contains x ['<', '!', '-', '-'] = false) ∧
      refineTokens (Main.lexStart (Main.newLexer [['<', 'a', ' ', 'b', '=', '"', 'c', '"', '>']]
        Main.channel)).1.sent
        = (LexStart [['<', 'a', ' ', 'b', '=', '"', 'c', '"', '>']]).tokens ∧
      (LexStart [['<', 'a', ' ', 'b', '=', '"', 'c', '"', '>']]).tokens
        = [Token.mk TokenType.tokenStartTag ['a'], Token.mk TokenType.tokenArgumentName ['b'],
            Token.mk TokenType.tokenArgumentValue ['c'], eofToken] :=
  ⟨by decide,
    (main_refines_LexStart [['<', 'a', ' ', 'b', '=', '"', 'c', '"', '>']] Main.channel
      (Or.inr rfl) (by decide)).1, by decide⟩

/-! ## The Description token of a block of two lines -/

/-- C6 (amended): the classifier is called on the free-text line `L1 = trim
    p1` with the free-text line `L2 = trim p2` in the lookahead slot, both
    non-blank, no continuation is open, the working line is empty, and the
    next physical line `p3` starts with `<`.  Then the classifier sends no
    token at `L1` and asks for the next line, and called on `L2` it sends one
    Description token whose text is `L1`, a space, `L2`, and hands the block
    to the scanner; and no call of a state function other than the
    classifier sends a Description token, whether it returns or panics. -/
theorem lexCheckLineType_description_block (l : lexer) (p1 p2 p3 : Str) (rest : List Str)
    (hcur : l.currentLine = TrimSpace p1) (hnext : l.nextLine = TrimSpace p2)
    (hrd : l.fileReader = p3 :: rest) (hwl : l.workingLine = [])
    (hflf : l.firstLineFound = false) (hopen : l.chanClosed = false)
    (h1 : TrimSpace p1 ≠ []) (h1s : HasPrefix (TrimSpace p1) ['<'] = false)
    (h1e : HasSuffix (TrimSpace p1) ['>'] = false)
    (h2 : TrimSpace p2 ≠ []) (h2s : HasPrefix (TrimSpace p2) ['<'] = false)
    (h2e : HasSuffix (TrimSpace p2) ['>'] = false)
    (h3 : HasPrefix (TrimSpace p3) ['<'] = true) :
    (∃ l1 l2 l3 : lexer,
      lexCheckLineType l = (l1, Next.fn StateFn.lexReadFileLine) ∧ l1.tokenChan = l.tokenChan ∧
      lexReadFileLine l1 = (l2, Next.fn StateFn.lexCheckLineType) ∧
      lexCheckLineType l2 = (l3, Next.fn StateFn.lexLineContent) ∧
      l3.tokenChan = l.tokenChan ++
        [Token.mk TokenType.tokenDescription (TrimSpace p1 ++ ' ' :: TrimSpace p2)] ∧
      l3.workingLine = ' ' :: (TrimSpace p1 ++ ' ' :: TrimSpace p2)) ∧
    (∀ (f : StateFn) (l0 : lexer), f ≠ StateFn.lexCheckLineType →
      ∃ ts, (∀ t ∈ ts, t.TokenType ≠ TokenType.tokenDescription) ∧
        (f.call l0).1.tokenChan = l0.tokenChan ++ ts) := by
  constructor
  · refine ⟨_, _, _,
      lexCheckLineType_description_mid l (by rw [hcur]; exact h1) (by rw [hcur]; exact h1s)
        (by rw [hcur]; exact h1e) hflf (by rw [hnext]; exact h2s),
      rfl, lexReadFileLine_cons hrd,
      lexCheckLineType_description_end _ (by simpa [hnext] using h2)
        (by simpa [hnext] using h2s) (by simpa [hnext] using h2e) hflf h3 hopen, ?_, ?_⟩
    · simp only [hcur, hnext, hwl]
      rw [TrimSpace_block p1 p2 h1 h2]
    · simp [hcur, hnext, hwl]
  · intro f l0 hf
    obtain ⟨ts, htok, hch⟩ := call_Chunk f l0
    exact ⟨ts, hch.2 hf, htok⟩

/-- C6 (witness): the block of the lines `x`, `y` (with blanks around them)
    before the line `<a>`. -/
theorem lexCheckLineType_description_block_witness :
    ∃ l1 l2 l3 : lexer,
      lexCheckLineType { newLexer ["<a>".data] with
          currentLine := TrimSpace "x ".data, nextLine := TrimSpace " y".data }
        = (l1, Next.fn StateFn.lexReadFileLine) ∧ l1.tokenChan = [] ∧
      lexReadFileLine l1 = (l2, Next.fn StateFn.lexCheckLineType) ∧
      lexCheckLineType l2 = (l3, Next.fn StateFn.lexLineContent) ∧
      l3.tokenChan = [] ++
        [Token.mk TokenType.tokenDescription (TrimSpace "x ".data ++ ' ' :: TrimSpace " y".data)] ∧
      l3.workingLine = ' ' :: (TrimSpace "x ".data ++ ' ' :: TrimSpace " y".data) :=
  (lexCheckLineType_description_block
    { newLexer ["<a>".data] with
      currentLine := TrimSpace "x ".data, nextLine := TrimSpace " y".data }
    "x ".data " y".data "<a>".data [] rfl rfl rfl rfl rfl rfl
    (by decide) (by decide) (by decide) (by decide) (by decide) (by decide) (by decide)).1

/-! ## Free text kept across a blank line -/

/-- C6 (counterexample): in the input `w`, blank, `x`, `y`, `<a>` the lines
    `x`, `y` are two consecutive non-blank free-text lines, the line before
    them is blank and the line after them starts with `<`; the one
    Description token carries `w x y`, not `x y`. -/
theorem LexStart_description_after_blank :
    (LexStart ["w".data, [], "x".data, "y".data, "<a>".data]).tokens
        = [Token.mk TokenType.tokenDescription "w x y".data,
            Token.mk TokenType.tokenStartTag "a".data, eofToken] ∧
      Token.mk TokenType.tokenDescription "x y".data ∉
        (LexStart ["w".data, [], "x".data, "y".data, "<a>".data]).tokens := by
  decide

/-- C16 (counterexample): the free-text line `a<b c` before the line `<x>`
    is handed to `lexLineContent` in a working line that does not end with
    `>` and contains a `<`. -/
theorem LexStart_hands_over_text_with_tag :
    handedOver (LexStart ["a<b c".data, "<x>".data]).calls = [" a<b c".data, "<x>".data] ∧
      HasSuffix " a<b c".data ['>'] = false ∧ Contains " a<b c".data ['<'] = true := by
  decide

/-- C27 (counterexample): in the input `hello`, blank, `world`, `<a>` the
    free-text line `hello` is followed by a blank line, and its text is
    reported in a Description token all the same. -/
theorem LexStart_description_across_blank :
    (LexStart ["hello".data, [], "world".data, "<a>".data]).tokens
      = [Token.mk TokenType.tokenDescription "hello world".data,
          Token.mk TokenType.tokenStartTag "a".data, eofToken] := by
  decide

/-! ## Lines that fit the buffer of the reader -/

/-- A file of the one line `<t>X</t>` that fits the buffer of the reader
    (`t` a non-empty word of letters and digits, `X` a non-empty text without
    `<`, `>`, `=`): the run finishes and sends exactly StartTag `t`, JustText
    `trim X`, EndTag `t`, EOF. -/
theorem LexFile_tag_text_tag (t X : Str) (ht : Alnum t) (hXne : X ≠ [])
    (hX : ∀ c ∈ X, c ≠ '<' ∧ c ≠ '>' ∧ c ≠ '=')
    (hfits : ("<".data ++ t ++ ">".data ++ X ++ "</".data ++ t ++ ">".data).length
      < defaultBufSize) :
    (LexFile ["<".data ++ t ++ ">".data ++ X ++ "</".data ++ t ++ ">".data]).status
        = Status.finished ∧
      (LexFile ["<".data ++ t ++ ">".data ++ X ++ "</".data ++ t ++ ">".data]).tokens
        = [Token.mk TokenType.tokenStartTag t, Token.mk TokenType.tokenJustText (TrimSpace X),
            Token.mk TokenType.tokenEndTag t, eofToken] := by
  rw [LexFile_of_fits _ (by
    intro s hs
    rw [List.mem_singleton.1 hs]
    exact hfits)]
  exact LexStart_tag_text_tag t X ht hXne hX

/-- A file of the three lines `<t`, `n="v">`, `</t>`, each of which fits
    the buffer of the reader (`t`, `n`, `v` non-empty words of letters and
    digits): the run finishes and sends exactly StartTag `t`, ArgumentName
    `n`, ArgumentValue `v`, EndTag `t`, EOF. -/
theorem LexFile_split_tag (t n v : Str) (ht : Alnum t) (hn : Alnum n) (hv : Alnum v)
    (hfits : ∀ s ∈ ["<".data ++ t, n ++ "=\"".data ++ v ++ "\">".data,
      "</".data ++ t ++ ">".data], s.length < defaultBufSize) :
    (LexFile ["<".data ++ t, n ++ "=\"".data ++ v ++ "\">".data,
        "</".data ++ t ++ ">".data]).status = Status.finished ∧
      (LexFile ["<".data ++ t, n ++ "=\"".data ++ v ++ "\">".data,
        "</".data ++ t ++ ">".data]).tokens
        = [Token.mk TokenType.tokenStartTag t, Token.mk TokenType.tokenArgumentName n,
            Token.mk TokenType.tokenArgumentValue v, Token.mk TokenType.tokenEndTag t,
            eofToken] := by
  rw [LexFile_of_fits _ hfits]
  exact LexStart_split_tag t n v ht hn hv

/-- A file of the one line `<t n_1="v_1" ... n_k="v_k">` that fits the
    buffer of the reader (`t`, `n_i`, `v_i` non-empty words of letters and
    digits): the run finishes and sends exactly StartTag `t`, then
    ArgumentName `n_i`, ArgumentValue `v_i` for each attribute in source
    order, then EOF. -/
theorem LexFile_tag_attrs (t : Str) (as : List (Str × Str)) (ht : Alnum t)
    (has : ∀ a ∈ as, Alnum a.1 ∧ Alnum a.2)
    (hfits : ("<".data ++ t ++ attrsText as ++ ">".data).length < defaultBufSize) :
    (LexFile ["<".data ++ t ++ attrsText as ++ ">".data]).status = Status.finished ∧
      (LexFile ["<".data ++ t ++ attrsText as ++ ">".data]).tokens
        = Token.mk TokenType.tokenStartTag t :: attrTokens as ++ [eofToken] := by
  rw [LexFile_of_fits _ (by
    intro s hs
    rw [List.mem_singleton.1 hs]
    exact hfits)]
  exact LexStart_tag_attrs t as ht has

/-- A file whose physical lines all fit the buffer of the reader, on which
    the run does not panic: the line classifier is called with the
    current-line values `""`, `trim L_1`, ..., `trim L_n`, in this order and
    each once, the lookahead slot holding the next trimmed line, and `""`
    after the last. -/
theorem LexFile_classifierCalls (lines : List Str)
    (hfits : ∀ s ∈ lines, s.length < defaultBufSize)
    (h : (LexFile lines).status ≠ Status.faulted) :
    classifierCalls (LexFile lines)
      = List.zip ([] :: lines.map TrimSpace) (lines.map TrimSpace ++ [[]]) := by
  rw [LexFile_of_fits _ hfits] at h ⊢
  exact (LexStart_classifierCalls lines h).1

/-! ## A line longer than the buffer of the reader: a long tag name -/

/-- A start tag with attributes whose name is followed by a further word,
    after blanks, contains neither `/>` nor `?>` (`a` is `/` or `?`). -/
theorem Contains_tag_word_attrs (pre t w : Str) (as : List (Str × Str)) (a : Char)
    (ha : isAlnum a = false) (ha1 : a ≠ '<') (ha2 : a ≠ ' ') (ha3 : a ≠ '=') (ha4 : a ≠ '"')
    (hpre : ∀ c ∈ pre, c = ' ') (ht : Alnum t) (hw : ∀ c ∈ w, isAlnum c = true)
    (has : ∀ a ∈ as, Alnum a.1 ∧ Alnum a.2) :
    Contains (pre ++ '<' :: (t ++ ' ' :: (w ++ (attrsText as ++ ['>'])))) [a, '>'] = false := by
  have e : pre ++ '<' :: (t ++ ' ' :: (w ++ (attrsText as ++ ['>'])))
      = (pre ++ '<' :: (t ++ ' ' :: (w ++ attrsText as))) ++ ['>'] := by simp
  rw [e, Contains_append_of_not_mem_fst, Contains_singleton]
  intro hmem
  simp only [List.mem_append, List.mem_cons] at hmem
  rcases hmem with h | h | h | h | h | h
  · exact ha2 (hpre a h)
  · exact ha1 h
  · exact isAlnum_not_mem ht.2 ha h
  · exact ha2 h
  · exact isAlnum_not_mem hw ha h
  · rcases mem_attrsText as has a h with h | h | h | h
    · exact ha2 h
    · exact ha3 h
    · exact ha4 h
    · rw [ha] at h
      exact absurd h (by decide)

/-- The scan of a working line `<t w n_1="v_1" ... n_k="v_k">`, after
    blanks, in which the tag name is followed by a further word `w`: the
    word is passed over. -/
theorem ScannedLine_tag_word_attrs (l : lexer) (pre t w : Str) (as : List (Str × Str))
    (hwl : l.workingLine = pre ++ '<' :: (t ++ ' ' :: (w ++ (attrsText as ++ ['>']))))
    (hpos : l.workingPosition = 0) (hpre : ∀ c ∈ pre, c = ' ') (ht : Alnum t)
    (hw : ∀ c ∈ w, isAlnum c = true)
    (has : ∀ a ∈ as, Alnum a.1 ∧ Alnum a.2) (hopen : l.chanClosed = false) :
    ∃ l1, ScannedLine l l1 (Token.mk TokenType.tokenStartTag t :: attrTokens as) := by
  have h1 : Contains l.workingLine ['/', '>'] = false := by
    rw [hwl]
    exact Contains_tag_word_attrs pre t w as '/' (by decide) (by decide) (by decide) (by decide)
      (by decide) hpre ht hw has
  have h2 : Contains l.workingLine ['?', '>'] = false := by
    rw [hwl]
    exact Contains_tag_word_attrs pre t w as '?' (by decide) (by decide) (by decide) (by decide)
      (by decide) hpre ht hw has
  obtain ⟨c0, t0, ht0⟩ := List.exists_cons_of_ne_nil ht.1
  have hc0 : c0 ≠ '/' ∧ c0 ≠ '!' := by
    have hmem : c0 ∈ t := by rw [ht0]; exact List.mem_cons_self _ _
    exact ⟨isAlnum_ne (ht.2 c0 hmem) (by decide), isAlnum_ne (ht.2 c0 hmem) (by decide)⟩
  have hc := lexLineContent_to_start l [] pre
    (t0 ++ ' ' :: (w ++ (attrsText as ++ ['>']))) c0
    (by rw [hwl, ht0]; rfl) hpos
    (by
      intro c hc
      rw [hpre c hc]
      exact ⟨by decide, by decide, by decide⟩)
    hc0.1 hc0.2
  have hg := lexTagName_start
    { l with workingPosition := ([] : Str).length + pre.length, tagTypeIs := tagType.startTag }
    pre t (w ++ (attrsText as ++ ['>'])) ' ' hwl (by simp) ht.name (Or.inl rfl) rfl hopen
  obtain ⟨l3, h3⟩ := ScannedLine_attrs as
    { l with
      workingPosition := pre.length + 1 + t.length, tagTypeIs := tagType.startTag, tagName := t,
      tokenChan := l.tokenChan ++ [Token.mk TokenType.tokenStartTag (TrimSpace t)] }
    (pre ++ '<' :: t) (' ' :: w) (by simp [hwl]) (by simp; omega)
    (by
      intro c hc
      rcases List.mem_cons.1 hc with rfl | hc
      · exact ⟨by decide, by decide, by decide⟩
      · exact ⟨isAlnum_ne (hw c hc) (by decide), isAlnum_ne (hw c hc) (by decide),
          isAlnum_ne (hw c hc) (by decide)⟩)
    has hopen h1 h2
  refine ⟨l3, ?_⟩
  have := ScannedLine_of_handoff [Token.mk TokenType.tokenStartTag (TrimSpace t)]
    hc hg ⟨rfl, rfl, rfl, rfl⟩ rfl rfl rfl h3
  rw [TrimSpace_alnum ht.2] at this
  exact this

theorem TrimSpace_word_line {w : Str} (R : Str) (hw : Alnum w) :
    TrimSpace (w ++ (R ++ ['>'])) = w ++ (R ++ ['>']) := by
  apply TrimSpace_eq_self
  · intro c hc
    rw [List.head?_append_of_ne_nil _ hw.1] at hc
    exact isSpace_of_isAlnum (hw.2 c (List.mem_of_mem_head? hc))
  · intro c hc
    rw [← List.append_assoc, List.getLast?_concat] at hc
    simp only [Option.some.injEq] at hc
    subst hc
    decide

theorem HasPrefix_word_line {w : Str} (R : Str) (hw : Alnum w) :
    HasPrefix (w ++ R) ['<'] = false := by
  obtain ⟨c0, w0, hw0⟩ := List.exists_cons_of_ne_nil hw.1
  have hc0 : c0 ≠ '<' := isAlnum_ne (hw.2 c0 (by simp [hw0])) (by decide)
  rw [hw0, List.cons_append, HasPrefix_cons]
  simp [Ne.symm hc0]

/-- The run on the two slices `<t` and `w n_1="v_1" ... n_k="v_k">`, the
    second of which begins with a word `w`: the slices are joined by a space
    into the working line `<t w n_1="v_1" ... n_k="v_k">`, and the word is
    passed over: the tokens are StartTag `t`, the attributes, EOF. -/
theorem LexStart_open_word_attrs (t w : Str) (as : List (Str × Str)) (ht : Alnum t)
    (hw : Alnum w) (has : ∀ a ∈ as, Alnum a.1 ∧ Alnum a.2) :
    (LexStart ['<' :: t, w ++ (attrsText as ++ ['>'])]).status = Status.finished ∧
      (LexStart ['<' :: t, w ++ (attrsText as ++ ['>'])]).tokens
        = Token.mk TokenType.tokenStartTag t :: attrTokens as ++ [eofToken] := by
  have key : ∀ l : lexer,
      l.workingLine = [' '] ++ '<' :: (t ++ ' ' :: (w ++ (attrsText as ++ ['>']))) →
      l.workingPosition = 0 → l.chanClosed = false → l.fileReader = [] → l.EOF = true →
      l.tokenChan = [] →
      Finishes StateFn.lexLineContent l
        (Token.mk TokenType.tokenStartTag t :: attrTokens as ++ [eofToken]) := by
    intro l hwl hpos hopen hrd he htok0
    obtain ⟨l5, hscan⟩ :=
      ScannedLine_tag_word_attrs l [' '] t w as hwl hpos (by simp) ht hw.2 has hopen
    have hfin := Finishes_of_ScannedLine hscan hrd he hopen
    simpa [htok0] using hfin
  apply LexStart_of_Finishes
  rw [lexReadFileLine_cons rfl, TrimSpace_open_tag ht]
  refine Finishes_of_Steps (Steps.checkLineType (lexCheckLineType_of_empty _ rfl)
    (Steps.readFileLine (lexReadFileLine_cons rfl) (Steps.refl _ _))) ?_
  rw [TrimSpace_word_line _ hw]
  refine Finishes_of_Steps (Steps.checkLineType
    (lexCheckLineType_open _ t rfl (HasSuffix_open_tag ht))
    (Steps.readFileLine (lexReadFileLine_last rfl rfl) (Steps.refl _ _))) ?_
  have hs : HasSuffix (w ++ (attrsText as ++ ['>'])) ['>'] = true := by
    rw [← List.append_assoc, HasSuffix_concat]
    rfl
  refine Finishes_of_Steps (Steps.checkLineType
    (lexCheckLineType_close _ (by simp) (HasPrefix_word_line _ hw) hs rfl) (Steps.refl _ _)) ?_
  refine key _ ?_ ?_ ?_ ?_ ?_ ?_
  · simp [newLexer]
  all_goals rfl


/-- A file of one physical line of at least 4096 bytes, and less than
    twice as many: the run is the run on its two slices. -/
theorem LexFile_cut (a b : Str) (ha : a.length = defaultBufSize)
    (hb : b.length < defaultBufSize) : LexFile [a ++ b] = LexStart [a, b] := by
  unfold LexFile
  rw [List.map_singleton, ReadLineSlices_cut _ _ ha hb]
  rfl

theorem replicate_ne_replicate (m n : Nat) (c : Char) (h : m ≠ n) :
    List.replicate m c ≠ List.replicate n c := by
  intro he
  have := congrArg List.length he
  rw [List.length_replicate, List.length_replicate] at this
  exact h this

/-- The line `<t b="c">` whose tag name `t` is the letter `a` 4096 times is
    handed over in two slices: its first 4096 bytes `<aa...a`, and the rest
    `a b="c">`. -/
theorem LexFile_long_tag_name_slices :
    LexFile ["<".data ++ List.replicate 4096 'a' ++ " b=\"c\">".data]
      = LexStart ['<' :: List.replicate 4095 'a',
          ['a'] ++ (attrsText [("b".data, "c".data)] ++ ['>'])] := by
  have hr : List.replicate 4096 'a' = List.replicate 4095 'a' ++ ['a'] :=
    @List.replicate_succ' _ 4095 'a'
  have e : "<".data ++ List.replicate 4096 'a' ++ " b=\"c\">".data
      = ('<' :: List.replicate 4095 'a')
        ++ (['a'] ++ (attrsText [("b".data, "c".data)] ++ ['>'])) := by
    rw [hr]
    show ['<'] ++ (List.replicate 4095 'a' ++ ['a']) ++ [' ', 'b', '=', '"', 'c', '"', '>'] = _
    simp only [attrsText, attrText, List.map_cons, List.map_nil, List.flatten_cons,
      List.flatten_nil, List.append_assoc, List.cons_append, List.nil_append, List.append_nil]
  rw [e, LexFile_cut _ _ (by rw [List.length_cons, List.length_replicate]; rfl) (by decide)]

/-- The run on the two slices of the line `<t b="c">` whose tag name `t` is
    the letter `a` 4096 times. -/
theorem LexStart_long_tag_name_slices :
    (LexStart ['<' :: List.replicate 4095 'a',
        ['a'] ++ (attrsText [("b".data, "c".data)] ++ ['>'])]).status = Status.finished ∧
      (LexStart ['<' :: List.replicate 4095 'a',
        ['a'] ++ (attrsText [("b".data, "c".data)] ++ ['>'])]).tokens
        = [Token.mk TokenType.tokenStartTag (List.replicate 4095 'a'),
            Token.mk TokenType.tokenArgumentName "b".data,
            Token.mk TokenType.tokenArgumentValue "c".data, eofToken] :=
  LexStart_open_word_attrs (List.replicate 4095 'a') ['a'] [("b".data, "c".data)]
    (Alnum_replicate 4095 'a' (by decide) (by decide)) (by decide) (by decide)

/-- C5: the one-line input `<t b="c">` whose tag name `t` is the letter `a`
    4096 times.  The reader hands the line over in two slices, the first
    4096 bytes `<aa...a` and the rest `a b="c">`, and the classifier joins
    them with a space: the run finishes with the tokens StartTag (the letter
    `a` 4095 times), ArgumentName `b`, ArgumentValue `c`, EOF, and not with
    StartTag `t`, ArgumentName `b`, ArgumentValue `c`, EOF. -/
theorem LexFile_long_tag_name :
    (LexFile ["<".data ++ List.replicate 4096 'a' ++ " b=\"c\">".data]).status
        = Status.finished ∧
      (LexFile ["<".data ++ List.replicate 4096 'a' ++ " b=\"c\">".data]).tokens
        = [Token.mk TokenType.tokenStartTag (List.replicate 4095 'a'),
            Token.mk TokenType.tokenArgumentName "b".data,
            Token.mk TokenType.tokenArgumentValue "c".data, eofToken] ∧
      (LexFile ["<".data ++ List.replicate 4096 'a' ++ " b=\"c\">".data]).tokens
        ≠ [Token.mk TokenType.tokenStartTag (List.replicate 4096 'a'),
            Token.mk TokenType.tokenArgumentName "b".data,
            Token.mk TokenType.tokenArgumentValue "c".data, eofToken] := by
  have hrun := LexStart_long_tag_name_slices
  rw [LexFile_long_tag_name_slices]
  refine ⟨hrun.1, hrun.2, ?_⟩
  rw [hrun.2]
  intro h
  exact replicate_ne_replicate 4095 4096 'a' (by decide) (Token.mk.inj (List.cons.inj h).1).2

/-- C9: the input of the one physical line `<t b="c">` whose tag name `t` is
    the letter `a` 4096 times.  The run does not panic, and the line
    classifier is called three times, with the current-line values `""`,
    the first 4096 bytes of the line, and the rest of the line: the one
    physical line is classified twice, piece by piece, and never as the
    line it is. -/
theorem LexFile_long_line_classified :
    (LexFile ["<".data ++ List.replicate 4096 'a' ++ " b=\"c\">".data]).status
        = Status.finished ∧
      classifierCalls (LexFile ["<".data ++ List.replicate 4096 'a' ++ " b=\"c\">".data])
        = [("".data, "<".data ++ List.replicate 4095 'a'),
            ("<".data ++ List.replicate 4095 'a', "a b=\"c\">".data),
            ("a b=\"c\">".data, "".data)] := by
  have hrun := LexStart_long_tag_name_slices
  have hcalls := (LexStart_classifierCalls _ (by rw [hrun.1]; decide)).1
  rw [LexFile_long_tag_name_slices]
  refine ⟨hrun.1, ?_⟩
  rw [hcalls]
  simp only [List.map_cons, List.map_nil,
    TrimSpace_open_tag (Alnum_replicate 4095 'a' (by decide) (by decide))]
  rw [show TrimSpace (['a'] ++ (attrsText [("b".data, "c".data)] ++ ['>'])) = "a b=\"c\">".data
    from by decide]
  rfl

/-! ## A long attribute name in a tag split over two lines -/

theorem lexCheckLineType_continue (l : lexer) (hne : l.currentLine ≠ [])
    (hp : HasPrefix l.currentLine ['<'] = false) (hs : HasSuffix l.currentLine ['>'] = false)
    (hflf : l.firstLineFound = true) :
    lexCheckLineType l = ({ l with workingLine := l.workingLine ++ [' '] ++ l.currentLine },
      Next.fn StateFn.lexReadFileLine) := by
  have hlen : ¬ l.currentLine.length = 0 := fun h => hne (List.length_eq_zero.1 h)
  unfold lexCheckLineType
  simp [hlen, hp, hs, hflf]

theorem HasSuffix_word {w : Str} (hw : Alnum w) : HasSuffix w ['>'] = false := by
  rcases List.eq_nil_or_concat w with h | ⟨w0, c, h⟩
  · exact absurd h hw.1
  · have hc : c ≠ '>' := isAlnum_ne (hw.2 c (by simp [h])) (by decide)
    rw [h, List.concat_eq_append, HasSuffix_concat]
    simp [Ne.symm hc]

/-- The run on the slices `<t`, `w`, `n="v">`, `</t>`: the word `w` is
    joined to the tag as a part of its own and is passed over; the tokens
    are StartTag `t`, ArgumentName `n`, ArgumentValue `v`, EndTag `t`, EOF. -/
theorem LexStart_split_tag_word (t w n v : Str) (ht : Alnum t) (hw : Alnum w) (hn : Alnum n)
    (hv : Alnum v) :
    (LexStart ['<' :: t, w, n ++ '=' :: '"' :: (v ++ ['"', '>']),
        '<' :: '/' :: (t ++ ['>'])]).status = Status.finished ∧
      (LexStart ['<' :: t, w, n ++ '=' :: '"' :: (v ++ ['"', '>']),
        '<' :: '/' :: (t ++ ['>'])]).tokens
        = [Token.mk TokenType.tokenStartTag t, Token.mk TokenType.tokenArgumentName n,
            Token.mk TokenType.tokenArgumentValue v, Token.mk TokenType.tokenEndTag t,
            eofToken] := by
  have hl3 : TrimSpace ('<' :: '/' :: (t ++ ['>'])) = '<' :: '/' :: (t ++ ['>']) := by
    have := TrimSpace_tag ('/' :: t)
    simpa using this
  have key : ∀ l : lexer,
      l.workingLine = [' '] ++ '<' :: (t ++ ' ' :: (w ++ (attrsText [(n, v)] ++ ['>']))) →
      l.workingPosition = 0 → l.chanClosed = false → l.fileReader = [] → l.EOF = false →
      l.nextLine = '<' :: '/' :: (t ++ ['>']) → l.tokenChan = [] →
      Finishes StateFn.lexLineContent l
        [Token.mk TokenType.tokenStartTag t, Token.mk TokenType.tokenArgumentName n,
          Token.mk TokenType.tokenArgumentValue v, Token.mk TokenType.tokenEndTag t,
          eofToken] := by
    intro l hwl hpos hopen hrd he hnext htok0
    obtain ⟨l5, hsteps, ⟨hfr, hnl, heof, -⟩, -, hcl, -, htok⟩ :=
      ScannedLine_tag_word_attrs l [' '] t w [(n, v)] hwl hpos (by simp) ht hw.2
        (by
          intro a ha
          simp only [List.mem_singleton] at ha
          subst ha
          exact ⟨hn, hv⟩) hopen
    have hprint : lexPrint l5 = _ :=
      lexReadFileLine_last (l := { l5 with workingLine := [] }) (by rw [hfr, hrd])
        (by rw [heof, he])
    have hcheck := lexCheckLineType_tag
      { l5 with
        workingLine := [], workingPosition := 0, currentLineNR := l5.currentLineNR + 1,
        currentLine := l5.nextLine, EOF := true, nextLine := [] }
      ('/' :: t) (by simp [hnl, hnext])
    obtain ⟨l8, hscan⟩ := ScannedLine_stop_tag
      { l5 with
        workingLine := l5.nextLine, workingPosition := 0, currentLineNR := l5.currentLineNR + 1,
        currentLine := l5.nextLine, EOF := true, nextLine := [], firstLineFound := false }
      t ht (by simp [hnl, hnext]) rfl (by rw [hcl, hopen])
    have hfin := Finishes_of_ScannedLine hscan (show l5.fileReader = [] by rw [hfr, hrd]) rfl
      (show l5.chanClosed = false by rw [hcl, hopen])
    refine Finishes_of_Steps hsteps (Finishes_of_Steps
      (Steps.print hprint (Steps.checkLineType hcheck (Steps.refl _ _))) ?_)
    simpa [htok, htok0, attrTokens] using hfin
  apply LexStart_of_Finishes
  rw [lexReadFileLine_cons rfl, TrimSpace_open_tag ht]
  refine Finishes_of_Steps (Steps.checkLineType (lexCheckLineType_of_empty _ rfl)
    (Steps.readFileLine (lexReadFileLine_cons rfl) (Steps.refl _ _))) ?_
  rw [TrimSpace_alnum hw.2]
  dsimp only [newLexer]
  refine Finishes_of_Steps (Steps.checkLineType
    (lexCheckLineType_open _ t rfl (HasSuffix_open_tag ht))
    (Steps.readFileLine (lexReadFileLine_cons rfl) (Steps.refl _ _))) ?_
  rw [TrimSpace_attr_line v hn]
  dsimp only
  have hpw : HasPrefix w ['<'] = false := by
    have := HasPrefix_word_line [] hw
    simpa using this
  refine Finishes_of_Steps (Steps.checkLineType
    (lexCheckLineType_continue _ hw.1 hpw (HasSuffix_word hw) rfl)
    (Steps.readFileLine (lexReadFileLine_cons rfl) (Steps.refl _ _))) ?_
  dsimp only
  rw [hl3]
  have hp : HasPrefix (n ++ '=' :: '"' :: (v ++ ['"', '>'])) ['<'] = false :=
    HasPrefix_word_line _ hn
  have hs : HasSuffix (n ++ '=' :: '"' :: (v ++ ['"', '>'])) ['>'] = true := by
    have e : n ++ '=' :: '"' :: (v ++ ['"', '>']) = (n ++ '=' :: '"' :: (v ++ ['"'])) ++ ['>'] := by
      simp
    rw [e, HasSuffix_concat]
    rfl
  refine Finishes_of_Steps (Steps.checkLineType
    (lexCheckLineType_close _ (by simp) hp hs rfl) (Steps.refl _ _)) ?_
  refine key _ ?_ ?_ ?_ ?_ ?_ ?_ ?_
  · simp [attrsText, attrText]
  all_goals rfl

/-- The lines `<t`, `n="v">`, `</t>` with the letter `n` 4097 times for the
    attribute name: the second line is handed over in two slices, its first
    4096 bytes and the rest `n="v">`. -/
theorem LexFile_long_attribute_name_slices :
    LexFile ["<t".data, List.replicate 4097 'n' ++ "=\"v\">".data, "</t>".data]
      = LexStart ['<' :: "t".data, List.replicate 4096 'n',
          "n".data ++ '=' :: '"' :: ("v".data ++ ['"', '>']),
          '<' :: '/' :: ("t".data ++ ['>'])] := by
  have hr : List.replicate 4097 'n' = List.replicate 4096 'n' ++ ['n'] :=
    @List.replicate_succ' _ 4096 'n'
  have e : List.replicate 4097 'n' ++ "=\"v\">".data
      = List.replicate 4096 'n' ++ "n=\"v\">".data := by
    rw [hr, List.append_assoc]
    rfl
  unfold LexFile
  rw [e]
  simp only [List.map_cons, List.map_nil, List.flatten_cons, List.flatten_nil]
  rw [ReadLineSlices_cut _ _ (by rw [List.length_replicate]; rfl) (by decide),
    ReadLineSlices_of_fits _ (by decide), ReadLineSlices_of_fits _ (by decide)]
  rfl

/-- C4: the three-line input `<t`, `n="v">`, `</t>` whose attribute name `n`
    is the letter `n` 4097 times.  The reader hands the second line over in
    two slices, and the classifier joins the slices of the tag with spaces:
    the run finishes with the tokens StartTag `t`, ArgumentName (the one
    letter `n` left after the cut), ArgumentValue `v`, EndTag `t`, EOF, and
    not with ArgumentName `n`. -/
theorem LexFile_long_attribute_name :
    (LexFile ["<t".data, List.replicate 4097 'n' ++ "=\"v\">".data, "</t>".data]).status
        = Status.finished ∧
      (LexFile ["<t".data, List.replicate 4097 'n' ++ "=\"v\">".data, "</t>".data]).tokens
        = [Token.mk TokenType.tokenStartTag "t".data,
            Token.mk TokenType.tokenArgumentName "n".data,
            Token.mk TokenType.tokenArgumentValue "v".data,
            Token.mk TokenType.tokenEndTag "t".data, eofToken] ∧
      (LexFile ["<t".data, List.replicate 4097 'n' ++ "=\"v\">".data, "</t>".data]).tokens
        ≠ [Token.mk TokenType.tokenStartTag "t".data,
            Token.mk TokenType.tokenArgumentName (List.replicate 4097 'n'),
            Token.mk TokenType.tokenArgumentValue "v".data,
            Token.mk TokenType.tokenEndTag "t".data, eofToken] := by
  have hrun := LexStart_split_tag_word "t".data (List.replicate 4096 'n') "n".data "v".data
    (by decide) (Alnum_replicate 4096 'n' (by decide) (by decide)) (by decide) (by decide)
  rw [LexFile_long_attribute_name_slices]
  refine ⟨hrun.1, hrun.2, ?_⟩
  rw [hrun.2]
  intro h
  exact replicate_ne_replicate 1 4097 'n' (by decide)
    (Token.mk.inj (List.cons.inj (List.cons.inj h).2).1).2

/-! ## A long text between two tags -/

/-- A line `<t>X</t>` after blanks contains neither `/>` nor `?>` (`a` is
    `/` or `?`). -/
theorem Contains_pre_pair_line (pre t X : Str) (a : Char) (ha : isAlnum a = false)
    (ha1 : a ≠ '<') (ha2 : a ≠ '>') (ha3 : a ≠ ' ') (hpre : ∀ c ∈ pre, c = ' ') (ht : Alnum t)
    (hX : ∀ c ∈ X, c ≠ '<' ∧ c ≠ '>' ∧ c ≠ '=') :
    Contains (pre ++ '<' :: (t ++ '>' :: (X ++ '<' :: '/' :: (t ++ ['>'])))) [a, '>']
      = false := by
  rw [Contains_append_of_not_mem_fst _ _ (fun h => ha3 (hpre a h))]
  exact Contains_pair_line t X a ha ha1 ha2 ht hX

/-- The scan of the working line `<t>X</t>`, after blanks. -/
theorem ScannedLine_pre_pair (l : lexer) (pre t X : Str) (hpre : ∀ c ∈ pre, c = ' ')
    (ht : Alnum t) (hXne : X ≠ []) (hX : ∀ c ∈ X, c ≠ '<' ∧ c ≠ '>' ∧ c ≠ '=')
    (hwl : l.workingLine = pre ++ '<' :: (t ++ '>' :: (X ++ '<' :: '/' :: (t ++ ['>']))))
    (hpos : l.workingPosition = 0) (hf : l.foundEqual = false) (hopen : l.chanClosed = false) :
    ∃ l1, ScannedLine l l1 [Token.mk TokenType.tokenStartTag t,
      Token.mk TokenType.tokenJustText (TrimSpace X), Token.mk TokenType.tokenEndTag t] := by
  have hc1 := Contains_pre_pair_line pre t X '/' (by decide) (by decide) (by decide)
    (by decide) hpre ht hX
  have hc2 := Contains_pre_pair_line pre t X '?' (by decide) (by decide) (by decide)
    (by decide) hpre ht hX
  rw [← hwl] at hc1 hc2
  have htext : ∀ l0 : lexer, l0.workingLine = l.workingLine → l0.foundEqual = false →
      lexTextBetweenTags l0 = X :=
    fun l0 h0 hf0 => lexTextBetweenTags_last l0 (pre ++ '<' :: t) X t
      (by rw [h0, hwl]; simp)
      (fun c hc => ⟨(hX c hc).1, (hX c hc).2.1⟩) ht.angle hf0
  obtain ⟨c0, t0, ht0⟩ := List.exists_cons_of_ne_nil ht.1
  have hc0 : c0 ≠ '/' ∧ c0 ≠ '!' := by
    have hmem : c0 ∈ t := by rw [ht0]; exact List.mem_cons_self _ _
    exact ⟨isAlnum_ne (ht.2 c0 hmem) (by decide), isAlnum_ne (ht.2 c0 hmem) (by decide)⟩
  refine ⟨_, Steps.lineContent
    (lexLineContent_to_start l [] pre (t0 ++ '>' :: (X ++ '<' :: '/' :: (t ++ ['>']))) c0
      (by rw [hwl, ht0]; rfl) hpos
      (by
        intro c hc
        rw [hpre c hc]
        exact ⟨by decide, by decide, by decide⟩) hc0.1 hc0.2)
    (Steps.tagName
      (lexTagName_start _ pre t (X ++ '<' :: '/' :: (t ++ ['>'])) '>' hwl (by simp) ht.name
        (Or.inr rfl) rfl hopen)
      (Steps.lineContent
        (lexLineContent_to_stop_text _ (pre ++ '<' :: t) X (t ++ ['>']) (by simp [hwl])
          (by simp; omega) hc1 hc2 hX hf
          (by refine fun h => hXne (Eq.trans (Eq.symm (htext _ ?_ ?_)) h) <;> first | rfl | exact hf)
          hopen)
        (Steps.tagName
          (lexTagName_stop _ (pre ++ '<' :: t ++ '>' :: X) t [] '>' (by simp [hwl])
            (by simp; omega) (fun c hc => ⟨(ht.name c hc).1, (ht.name c hc).2.1⟩)
            (Or.inr rfl) rfl hopen)
          (Steps.lineContent
            (lexLineContent_to_end _ (pre ++ '<' :: t ++ '>' :: X ++ '<' :: '/' :: t)
              (by simp [hwl]) (by simp; omega) hc1 hc2)
            (Steps.refl _ _))))), ⟨rfl, rfl, rfl, rfl⟩, rfl, rfl, rfl, ?_⟩
  simp [htext, hf, TrimSpace_alnum ht.2]

theorem TrimSpace_open_text {t X : Str} (hX : Alnum X) :
    TrimSpace ('<' :: (t ++ '>' :: X)) = '<' :: (t ++ '>' :: X) := by
  rcases List.eq_nil_or_concat X with h | ⟨X0, c, h⟩
  · exact absurd h hX.1
  · apply TrimSpace_eq_self
    · intro d hd
      simp only [List.head?_cons, Option.some.injEq] at hd
      subst hd
      decide
    · intro d hd
      have e : '<' :: (t ++ '>' :: X) = ('<' :: (t ++ '>' :: X0)) ++ [c] := by
        rw [h]
        simp
      rw [e, List.getLast?_concat] at hd
      simp only [Option.some.injEq] at hd
      subst hd
      exact isSpace_of_isAlnum (hX.2 c (by simp [h]))

theorem HasSuffix_open_text {t X : Str} (hX : Alnum X) :
    HasSuffix ('<' :: (t ++ '>' :: X)) ['>'] = false := by
  rcases List.eq_nil_or_concat X with h | ⟨X0, c, h⟩
  · exact absurd h hX.1
  · have hc : c ≠ '>' := isAlnum_ne (hX.2 c (by simp [h])) (by decide)
    have e : '<' :: (t ++ '>' :: X) = ('<' :: (t ++ '>' :: X0)) ++ [c] := by
      rw [h]
      simp
    rw [e, HasSuffix_concat]
    simp [Ne.symm hc]

theorem TrimSpace_two_words {X1 X2 : Str} (h1 : Alnum X1) (h2 : Alnum X2) :
    TrimSpace (X1 ++ ' ' :: X2) = X1 ++ ' ' :: X2 := by
  rcases List.eq_nil_or_concat X2 with h | ⟨X0, c, h⟩
  · exact absurd h h2.1
  · apply TrimSpace_eq_self
    · intro d hd
      rw [List.head?_append_of_ne_nil _ h1.1] at hd
      exact isSpace_of_isAlnum (h1.2 d (List.mem_of_mem_head? hd))
    · intro d hd
      have e : X1 ++ ' ' :: X2 = (X1 ++ ' ' :: X0) ++ [c] := by
        rw [h]
        simp
      rw [e, List.getLast?_concat] at hd
      simp only [Option.some.injEq] at hd
      subst hd
      exact isSpace_of_isAlnum (h2.2 c (by simp [h]))

/-- The run on the two slices `<t>X1` and `X2</t>`: the slices are joined by
    a space into the working line `<t>X1 X2</t>`, and the text between the
    tags is `X1`, a space, `X2`. -/
theorem LexStart_open_pair (t X1 X2 : Str) (ht : Alnum t) (h1 : Alnum X1) (h2 : Alnum X2) :
    (LexStart ['<' :: (t ++ '>' :: X1), X2 ++ ('<' :: '/' :: t ++ ['>'])]).status
        = Status.finished ∧
      (LexStart ['<' :: (t ++ '>' :: X1), X2 ++ ('<' :: '/' :: t ++ ['>'])]).tokens
        = [Token.mk TokenType.tokenStartTag t,
            Token.mk TokenType.tokenJustText (X1 ++ ' ' :: X2),
            Token.mk TokenType.tokenEndTag t, eofToken] := by
  have hplain : ∀ {w : Str}, Alnum w → ∀ c ∈ w, c ≠ '<' ∧ c ≠ '>' ∧ c ≠ '=' := fun hw c hc =>
    ⟨isAlnum_ne (hw.2 c hc) (by decide), isAlnum_ne (hw.2 c hc) (by decide),
      isAlnum_ne (hw.2 c hc) (by decide)⟩
  have key : ∀ l : lexer,
      l.workingLine = [' '] ++ '<' :: (t ++ '>' :: ((X1 ++ ' ' :: X2)
        ++ '<' :: '/' :: (t ++ ['>']))) →
      l.workingPosition = 0 → l.foundEqual = false → l.chanClosed = false →
      l.fileReader = [] → l.EOF = true → l.tokenChan = [] →
      Finishes StateFn.lexLineContent l
        [Token.mk TokenType.tokenStartTag t,
          Token.mk TokenType.tokenJustText (X1 ++ ' ' :: X2),
          Token.mk TokenType.tokenEndTag t, eofToken] := by
    intro l hwl hpos hf hopen hrd he htok0
    obtain ⟨l5, hscan⟩ := ScannedLine_pre_pair l [' '] t (X1 ++ ' ' :: X2) (by simp) ht
      (by simp)
      (by
        intro c hc
        rcases List.mem_append.1 hc with h | h
        · exact hplain h1 c h
        · rcases List.mem_cons.1 h with rfl | h
          · exact ⟨by decide, by decide, by decide⟩
          · exact hplain h2 c h)
      hwl hpos hf hopen
    have hfin := Finishes_of_ScannedLine hscan hrd he hopen
    simpa [htok0, TrimSpace_two_words h1 h2] using hfin
  apply LexStart_of_Finishes
  rw [lexReadFileLine_cons rfl, TrimSpace_open_text h1]
  refine Finishes_of_Steps (Steps.checkLineType (lexCheckLineType_of_empty _ rfl)
    (Steps.readFileLine (lexReadFileLine_cons rfl) (Steps.refl _ _))) ?_
  rw [TrimSpace_word_line _ h2]
  dsimp only [newLexer]
  refine Finishes_of_Steps (Steps.checkLineType
    (lexCheckLineType_open _ (t ++ '>' :: X1) rfl (HasSuffix_open_text h1))
    (Steps.readFileLine (lexReadFileLine_last rfl rfl) (Steps.refl _ _))) ?_
  dsimp only
  have hs : HasSuffix (X2 ++ ('<' :: '/' :: t ++ ['>'])) ['>'] = true := by
    rw [← List.append_assoc, HasSuffix_concat]
    rfl
  refine Finishes_of_Steps (Steps.checkLineType
    (lexCheckLineType_close _ (by simp) (HasPrefix_word_line _ h2) hs rfl) (Steps.refl _ _)) ?_
  refine key _ ?_ ?_ ?_ ?_ ?_ ?_ ?_
  · simp
  all_goals rfl

/-- The line `<a>X</a>` whose text `X` is the letter `x` 4096 times is
    handed over in two slices: its first 4096 bytes, `<a>` and 4093 letters,
    and the rest `xxx</a>`. -/
theorem LexFile_long_text_slices :
    LexFile ["<a>".data ++ List.replicate 4096 'x' ++ "</a>".data]
      = LexStart ['<' :: ("a".data ++ '>' :: List.replicate 4093 'x'),
          List.replicate 3 'x' ++ ('<' :: '/' :: "a".data ++ ['>'])] := by
  have hr : List.replicate 4096 'x' = List.replicate 4093 'x' ++ List.replicate 3 'x' :=
    List.replicate_add 4093 3 'x'
  have e : "<a>".data ++ List.replicate 4096 'x' ++ "</a>".data
      = ('<' :: ("a".data ++ '>' :: List.replicate 4093 'x'))
        ++ (List.replicate 3 'x' ++ ('<' :: '/' :: "a".data ++ ['>'])) := by
    rw [hr]
    show ['<', 'a', '>'] ++ (List.replicate 4093 'x' ++ List.replicate 3 'x')
      ++ ['<', '/', 'a', '>'] = '<' :: (['a'] ++ '>' :: List.replicate 4093 'x')
        ++ (List.replicate 3 'x' ++ ('<' :: '/' :: ['a'] ++ ['>']))
    simp only [List.append_assoc, List.cons_append, List.nil_append]
  have h1 : ('<' :: ("a".data ++ '>' :: List.replicate 4093 'x')).length = defaultBufSize := by
    show ('<' :: (['a'] ++ '>' :: List.replicate 4093 'x')).length = defaultBufSize
    simp only [List.length_cons, List.length_append, List.length_replicate, List.length_nil]
    rfl
  have h2 : (List.replicate 3 'x' ++ ('<' :: '/' :: "a".data ++ ['>'])).length
      < defaultBufSize := by decide
  rw [e, LexFile_cut _ _ h1 h2]

/-- C2: the one-line input `<a>X</a>` whose text `X` is the letter `x` 4096
    times.  The reader hands the line over in two slices, the first 4096
    bytes and the rest `xxx</a>`, and the classifier joins them with a
    space: the run finishes with the tokens StartTag `a`, JustText (4093
    letters, a space, 3 letters), EndTag `a`, EOF, and not with JustText
    `X`. -/
theorem LexFile_long_text :
    (LexFile ["<a>".data ++ List.replicate 4096 'x' ++ "</a>".data]).status
        = Status.finished ∧
      (LexFile ["<a>".data ++ List.replicate 4096 'x' ++ "</a>".data]).tokens
        = [Token.mk TokenType.tokenStartTag "a".data,
            Token.mk TokenType.tokenJustText (List.replicate 4093 'x' ++ " xxx".data),
            Token.mk TokenType.tokenEndTag "a".data, eofToken] ∧
      (LexFile ["<a>".data ++ List.replicate 4096 'x' ++ "</a>".data]).tokens
        ≠ [Token.mk TokenType.tokenStartTag "a".data,
            Token.mk TokenType.tokenJustText (TrimSpace (List.replicate 4096 'x')),
            Token.mk TokenType.tokenEndTag "a".data, eofToken] := by
  have hrun := LexStart_open_pair "a".data (List.replicate 4093 'x') (List.replicate 3 'x')
    (by decide) (Alnum_replicate 4093 'x' (by decide) (by decide)) (by decide)
  have hx : List.replicate 4093 'x' ++ ' ' :: List.replicate 3 'x'
      = List.replicate 4093 'x' ++ " xxx".data := rfl
  rw [hx] at hrun
  rw [LexFile_long_text_slices]
  refine ⟨hrun.1, hrun.2, ?_⟩
  rw [hrun.2, TrimSpace_alnum (Alnum_replicate 4096 'x' (by decide) (by decide)).2]
  intro h
  have h2 := congrArg List.length (Token.mk.inj (List.cons.inj (List.cons.inj h).2).1).2
  rw [List.length_append, List.length_replicate, List.length_replicate] at h2
  exact absurd h2 (by decide)

end Lexml
